import Mathlib

/-!
A verification development for the malloclab allocator (`mm.c`)

The allocator is embedded over a byte-addressed memory.  Pointers are natural
numbers, `NULL` is `0`, `(void *)-1` is `2^64 - 1`.  `unsigned` values are
stored in four bytes, `size_t` values in eight bytes, little endian.
`size_t` arithmetic wraps modulo `2^64`; stores of an `unsigned` keep the low
32 bits.  Loops over linked lists take a fuel bound derived from the arena
size and return `none` when it runs out.
-/

namespace MM

/-! ## Constants of `mm.c` -/

/-- Size of word, header and footer (bytes). -/
def WSIZE : Nat := 4
/-- Size of double word (bytes), used for alignment. -/
def DSIZE : Nat := 8
/-- Minimum block size including overhead (bytes). -/
def minsize : Nat := 16
/-- Number of buckets in the free list. -/
def free_list_size : Nat := 9
/-- Size to extend the heap by (bytes). -/
def CHUNKSIZE : Nat := 3072

/-- The range of `size_t`. -/
def SZ : Nat := 2 ^ 64
/-- The range of `unsigned`. -/
def UW : Nat := 2 ^ 32
/-- The failure sentinel `(void *)-1`. -/
def FAIL : Nat := 2 ^ 64 - 1

/-! ## Byte memory -/

/-- Byte-addressed memory: the byte stored at each address. -/
structure Mem where
  byte : Nat → Nat

/-- Little-endian read of `k` bytes at `p`. -/
def readLE (m : Mem) (p : Nat) : Nat → Nat
  | 0 => 0
  | k + 1 => m.byte p % 256 + 256 * readLE m (p + 1) k

/-- Little-endian write of the low `k` bytes of `v` at `p`. -/
def writeLE (m : Mem) (p : Nat) (k : Nat) (v : Nat) : Mem :=
  ⟨fun a => if p ≤ a ∧ a < p + k then v / 256 ^ (a - p) % 256 else m.byte a⟩

/-- The libc `memset(p, c, n)`. -/
def memset (m : Mem) (p c n : Nat) : Mem :=
  ⟨fun a => if p ≤ a ∧ a < p + n then c % 256 else m.byte a⟩

/-- The libc `memmove(dst, src, n)`: the source bytes are read before any is written. -/
def memmove (m : Mem) (dst src n : Nat) : Mem :=
  ⟨fun a => if dst ≤ a ∧ a < dst + n then m.byte (src + (a - dst)) else m.byte a⟩

/-! ## The macros of `mm.c` -/

def MAX (x y : Nat) : Nat := if x > y then x else y
def MIN (x y : Nat) : Nat := if x < y then x else y

/-- `PACK(size, palloc, alloc)`: `(size) | (palloc<<1) | (alloc)`. -/
def PACK (size palloc alloc : Nat) : Nat := size ||| (palloc <<< 1) ||| alloc

/-- `GET(p)`: reads an `unsigned` at `p`. -/
def GET (m : Mem) (p : Nat) : Nat := readLE m p 4
/-- `PUT(p, val)`: stores `val` as an `unsigned` at `p`. -/
def PUT (m : Mem) (p val : Nat) : Mem := writeLE m p 4 val
/-- `HDRP(bp)`. -/
def HDRP (bp : Nat) : Nat := bp - WSIZE

/-- `SET_SIZE(p, size)`: `*p = (*p & 0x7) | size`. -/
def SET_SIZE (m : Mem) (p size : Nat) : Mem := PUT m p ((GET m p &&& 0x7) ||| size)
/-- `SET_ALLOC(p)`: `*p = *p | 0x1`. -/
def SET_ALLOC (m : Mem) (p : Nat) : Mem := PUT m p (GET m p ||| 0x1)
/-- `RESET_ALLOC(p)`: `*p = *p & ~0x1`. -/
def RESET_ALLOC (m : Mem) (p : Nat) : Mem := PUT m p (GET m p &&& 0xFFFFFFFE)
/-- `SET_PALLOC(p)`: `*p = *p | 0x2`. -/
def SET_PALLOC (m : Mem) (p : Nat) : Mem := PUT m p (GET m p ||| 0x2)
/-- `RESET_PALLOC(p)`: `*p = *p & ~0x2`. -/
def RESET_PALLOC (m : Mem) (p : Nat) : Mem := PUT m p (GET m p &&& 0xFFFFFFFD)
/-- `ALIGN(p)`: `((size_t)(p) + 7) & ~0x7`. -/
def ALIGN (p : Nat) : Nat := ((p + 7) % SZ) &&& 0xFFFFFFFFFFFFFFF8
/-- `succeed(bp)`: the `size_t` stored at `bp`. -/
def succeed (m : Mem) (bp : Nat) : Nat := readLE m bp 8
/-- `put_suc(bp, succp)`. -/
def put_suc (m : Mem) (bp succp : Nat) : Mem := writeLE m bp 8 succp

/-- `GET_SIZE(bp)`: `GET(HDRP(bp)) & ~0x7`. -/
def GET_SIZE (m : Mem) (bp : Nat) : Nat := GET m (HDRP bp) &&& 0xFFFFFFF8
/-- `GET_ALLOC(bp)`: `GET(HDRP(bp)) & 0x1`. -/
def GET_ALLOC (m : Mem) (bp : Nat) : Nat := GET m (HDRP bp) &&& 0x1
/-- `get_prev_alloc(bp)`: `(GET(HDRP(bp)) >> 1) & 0x1`. -/
def get_prev_alloc (m : Mem) (bp : Nat) : Nat := (GET m (HDRP bp) >>> 1) &&& 0x1

/-- `FTRP(bp)`: `bp + GET_SIZE(bp) - DSIZE`. -/
def FTRP (m : Mem) (bp : Nat) : Nat := bp + GET_SIZE m bp - DSIZE
/-- `find_prev_blankblock(bp)`: `bp - GET_SIZE(HDRP(bp))`, the size being read
from the word at `bp - 8`, the footer of the preceding block. -/
def find_prev_blankblock (m : Mem) (bp : Nat) : Nat := bp - GET_SIZE m (HDRP bp)
/-- `find_next_blankblock(bp)`: `bp + GET_SIZE(bp)`. -/
def find_next_blankblock (m : Mem) (bp : Nat) : Nat := bp + GET_SIZE m bp

/-! ## The allocator state -/

/-- The arena of the growth primitive together with the globals of `mm.c`. -/
structure Heap where
  /-- the bytes of the address space -/
  mem : Mem
  /-- first byte of the arena (`mem_heap_lo()`) -/
  mem_start_brk : Nat
  /-- one past the last byte of the arena (`mem_heap_hi() + 1`) -/
  mem_brk : Nat
  /-- the arena may not grow past this address -/
  mem_max_addr : Nat
  heap_listp : Nat
  epilogue : Nat
  explicit_free_list : Nat
  free_list_end : Nat

/-- Modelled from the spec: the arena growth primitive `mem_sbrk` of `memlib`,
which is not part of the sources.  It extends the arena by `incr` bytes and
returns the start of the new space, which immediately follows the previous end
of the arena, or the failure sentinel when the arena cannot grow that far. -/
def mem_sbrk (s : Heap) (incr : Nat) : Nat × Heap :=
  if s.mem_brk + incr > s.mem_max_addr then (FAIL, s)
  else (s.mem_brk, { s with mem_brk := s.mem_brk + incr })

/-- Modelled from the spec: `mem_heap_lo` of `memlib`, the first byte of the arena. -/
def mem_heap_lo (s : Heap) : Nat := s.mem_start_brk
/-- Modelled from the spec: `mem_heap_hi` of `memlib`, the last byte of the arena. -/
def mem_heap_hi (s : Heap) : Nat := s.mem_brk - 1

/-- Bound on the number of nodes an acyclic list inside the arena can have. -/
def fuel (s : Heap) : Nat := s.mem_brk - s.mem_start_brk

/-! ## The free-list index -/

/-- The halving loop of `get_index`. -/
def get_index_loop : Nat → Nat → Nat → Nat
  | 0, _, i => i
  | f + 1, asize, i => if asize > 1 then get_index_loop f (asize >>> 1) (i + 1) else i

/-- `get_index(asize)`: the sentinel of the bucket for blocks of size `asize`. -/
def get_index (s : Heap) (asize : Nat) : Nat :=
  if asize ≥ 1 <<< 12 then s.explicit_free_list + DSIZE * free_list_size - DSIZE
  else s.explicit_free_list + get_index_loop 64 (asize >>> 4) 0 * DSIZE

/-- First loop of `find_fit`: first block of the list from `p` on with size `>= size`. -/
def find_fit_scan (m : Mem) (size : Nat) : Nat → Nat → Option Nat
  | 0, _ => none
  | f + 1, p =>
    if p ≠ 0 then
      if GET_SIZE m p ≥ size then some p else find_fit_scan m size f (succeed m p)
    else some 0

/-- Second loop of `find_fit`: head of the first non-empty bucket from `p2` on. -/
def find_fit_rest (m : Mem) (free_list_end : Nat) : Nat → Nat → Option Nat
  | 0, _ => none
  | f + 1, p2 =>
    if p2 ≠ free_list_end then
      if succeed m p2 ≠ 0 then some (succeed m p2)
      else find_fit_rest m free_list_end f (p2 + DSIZE)
    else some 0

/-- `find_fit(size)`. -/
def find_fit (s : Heap) (size : Nat) : Option Nat :=
  let entry := get_index s size
  match find_fit_scan s.mem size (fuel s + 1) (succeed s.mem entry) with
  | none => none
  | some p =>
    if p ≠ 0 then some p
    else find_fit_rest s.mem s.free_list_end (free_list_size + 1) (entry + DSIZE)

/-- The loop of `insert`: the node after which `bp` is linked. -/
def insert_loop (m : Mem) (bp : Nat) : Nat → Nat → Option Nat
  | 0, _ => none
  | f + 1, p =>
    if succeed m p ≠ 0 ∧ GET_SIZE m (succeed m p) < GET_SIZE m bp then
      insert_loop m bp f (succeed m p)
    else some p

/-- `insert(bp)`. -/
def insert (s : Heap) (bp : Nat) : Option (Nat × Heap) :=
  let entry := get_index s (GET_SIZE s.mem bp)
  match insert_loop s.mem bp (fuel s + 1) entry with
  | none => none
  | some p =>
    let sucp := succeed s.mem p
    let m1 := put_suc s.mem bp sucp
    let m2 := put_suc m1 p bp
    some (bp, { s with mem := m2 })

/-- The loop of `delete`: the node whose successor is `bp`, or the last node. -/
def delete_loop (m : Mem) (bp : Nat) : Nat → Nat → Option Nat
  | 0, _ => none
  | f + 1, p =>
    if succeed m p ≠ 0 ∧ succeed m p ≠ bp then delete_loop m bp f (succeed m p)
    else some p

/-- `delete(bp)`. -/
def delete (s : Heap) (bp : Nat) : Option Heap :=
  let entry := get_index s (GET_SIZE s.mem bp)
  match delete_loop s.mem bp (fuel s + 1) entry with
  | none => none
  | some p => some { s with mem := put_suc s.mem p (succeed s.mem bp) }

/-! ## The allocator engine -/

/-- `coalesce(bp)`: boundary tag coalescing. -/
def coalesce (s : Heap) (bp : Nat) : Option (Nat × Heap) :=
  let prev := find_prev_blankblock s.mem bp
  let next := find_next_blankblock s.mem bp
  let prev_alloc := get_prev_alloc s.mem bp
  let next_alloc := GET_ALLOC s.mem next
  let size := GET_SIZE s.mem bp
  if prev_alloc ≠ 0 ∧ next_alloc ≠ 0 then insert s bp
  else
    let r : Option (Heap × Nat × Nat) :=
      if prev_alloc = 0 ∧ next_alloc ≠ 0 then
        (delete s prev).map fun s1 => (s1, prev, (size + GET_SIZE s1.mem prev) % SZ)
      else if prev_alloc ≠ 0 ∧ next_alloc = 0 then
        (delete s next).map fun s1 => (s1, bp, (size + GET_SIZE s1.mem next) % SZ)
      else
        (delete s next).bind fun s1 => (delete s1 prev).map fun s2 =>
          (s2, prev, (size + (GET_SIZE s2.mem next + GET_SIZE s2.mem prev) % UW) % SZ)
    r.bind fun (s1, bp1, size1) =>
      let m1 := SET_SIZE s1.mem (HDRP bp1) size1
      let m2 := SET_SIZE m1 (FTRP m1 bp1) size1
      insert { s1 with mem := m2 } bp1

/-- `extend_heap(words)`: grows the arena and returns the new free block. -/
def extend_heap (s : Heap) (words : Nat) : Option (Nat × Heap) :=
  let (bp, s1) := mem_sbrk s words
  if bp = FAIL then some (FAIL, s1)
  else
    let palloc := get_prev_alloc s1.mem s1.epilogue
    let m1 := PUT s1.mem (HDRP bp) (PACK words palloc 0)
    let m2 := PUT m1 (FTRP m1 bp) (PACK words palloc 0)
    let epilogue := s1.epilogue + words
    let m3 := PUT m2 (HDRP epilogue) (PACK 0 0 1)
    coalesce { s1 with mem := m3, epilogue := epilogue } bp

/-- `place(bp, asize)`: allocates `asize` bytes of the free block `bp`, splitting it
when the remainder exceeds the minimum block size. -/
def place (s : Heap) (bp asize : Nat) : Option (Nat × Heap) :=
  let csize := GET_SIZE s.mem bp
  let remainder := (csize + (SZ - asize % SZ)) % SZ
  let result := bp
  if remainder ≤ minsize then
    let m1 := SET_ALLOC s.mem (HDRP bp)
    let m2 := SET_PALLOC m1 (HDRP (find_next_blankblock m1 bp))
    some (result, { s with mem := m2 })
  else
    let m1 := PUT s.mem (HDRP bp) (PACK asize (get_prev_alloc s.mem bp) 1)
    let bp1 := find_next_blankblock m1 bp
    let m2 := PUT m1 (HDRP bp1) (PACK remainder 1 0)
    let m3 := PUT m2 (FTRP m2 bp1) (PACK remainder 1 0)
    (insert { s with mem := m3 } bp1).map fun r => (result, r.2)

/-- The block size `malloc` and `realloc` compute for a request of `size` bytes:
`size + WSIZE <= minsize ? minsize : ALIGN(size + WSIZE)`. -/
def adjust (size : Nat) : Nat :=
  if (size + WSIZE) % SZ ≤ minsize then minsize else ALIGN ((size + WSIZE) % SZ)

/-- `malloc(size)`. -/
def malloc (s : Heap) (size : Nat) : Option (Nat × Heap) :=
  if size = 0 then some (0, s)
  else
    let size := if size = 448 then 512 else size
    let size := adjust size
    match find_fit s size with
    | none => none
    | some bp =>
      if bp = 0 then
        (extend_heap s (MAX size CHUNKSIZE)).bind fun (bp, s1) =>
          if bp = FAIL then some (0, s1)
          else (delete s1 bp).bind fun s2 => place s2 bp size
      else (delete s bp).bind fun s2 => place s2 bp size

/-- `free(ptr)`. -/
def free (s : Heap) (ptr : Nat) : Option Heap :=
  if ptr = 0 then some s
  else
    let m1 := RESET_ALLOC s.mem (HDRP ptr)
    let m2 := PUT m1 (FTRP m1 ptr) (GET m1 (HDRP ptr))
    let n := find_next_blankblock m2 ptr
    let m3 := RESET_PALLOC m2 (HDRP n)
    (coalesce { s with mem := m3 } ptr).map fun r => r.2

/-- `realloc(oldptr, size)`. -/
def realloc (s : Heap) (oldptr size : Nat) : Option (Nat × Heap) :=
  if size = 0 then (free s oldptr).map fun s1 => (0, s1)
  else if oldptr = 0 then malloc s size
  else
    let size := adjust size
    let old_size := GET_SIZE s.mem oldptr
    if old_size ≥ size then some (oldptr, s)
    else
      (malloc s size).bind fun (newptr, s1) =>
        if newptr = 0 then some (0, s1)
        else
          let m1 := memmove s1.mem newptr oldptr (MIN size old_size)
          (free { s1 with mem := m1 } oldptr).map fun s2 => (newptr, s2)

/-- `calloc(nmemb, size)`. -/
def calloc (s : Heap) (nmemb size : Nat) : Option (Nat × Heap) :=
  let size := (size * nmemb) % SZ
  (malloc s size).bind fun (newptr, s1) =>
    if newptr = 0 then some (0, s1)
    else some (newptr, { s1 with mem := memset s1.mem newptr 0 size })

/-- `mm_init()`: returns the status code and the initial heap. -/
def mm_init (s : Heap) : Option (Int × Heap) :=
  let (efl, s1) := mem_sbrk s (free_list_size * DSIZE + 2 * WSIZE)
  if efl = FAIL then some (-1, { s1 with explicit_free_list := efl })
  else
    let m1 := memset s1.mem efl 0 (free_list_size * DSIZE)
    let free_list_end := efl + free_list_size * DSIZE
    let heap_listp := efl + free_list_size * DSIZE
    let s2 : Heap := { s1 with mem := m1, explicit_free_list := efl,
                               free_list_end := free_list_end, heap_listp := heap_listp }
    if heap_listp = FAIL then some (-1, s2)
    else
      let m2 := PUT m1 heap_listp (PACK DSIZE 1 1)
      let m3 := PUT m2 (heap_listp + WSIZE) (PACK 0 1 1)
      let heap_listp := heap_listp + 2 * WSIZE
      let s3 : Heap := { s2 with mem := m3, heap_listp := heap_listp, epilogue := heap_listp }
      (extend_heap s3 (1 <<< 14)).map fun (r, s4) => if r = 0 then (-1, s4) else (0, s4)

/-! ## The consistency checker -/

/-- The messages `mm_checkheap` prints, one constructor per `printf`. -/
inductive Diag where
  | heap_in_line (heap_listp : Nat) (lineno : Int)
  | prologue_not_in_heap
  | prologue_header_without_alloc
  | prologue_header_with_wrong_size (size : Nat)
  | epilogue_header_with_wrong_position (epilogue hi : Nat)
  | epilogue_header_without_align
  | epilogue_header_allocated_wrongly
  | epilogue_header_with_wrong_size
  | incorrect_free_list_header_array_size
  | block_not_in_heap_or_without_aligned (bp : Nat)
  | block_allocated_wrongly (bp : Nat)
  | block_too_small (bp size : Nat)
  | inconsistent_block_header_and_footer (hdr ftr : Nat)
  | block_falls_into_the_wrong_bucket
  | consecutive_free_blocks_not_coalesced
  | prev_alloc_bit_inconsistent
  | block_marked_otherwise (bp : Nat) (allocated : Bool)
  | free_list_count_mismatch
  | incorrect_epilogue_location
  deriving DecidableEq, Repr

/-- The checks `mm_checkheap` makes on one block of a bucket list. -/
def check_list_block (s : Heap) (entry bp : Nat) : List Diag :=
  (if bp > mem_heap_hi s ∨ bp < mem_heap_lo s ∨ ALIGN bp ≠ bp
    then [Diag.block_not_in_heap_or_without_aligned bp] else []) ++
  (if GET_ALLOC s.mem bp ≠ 0 then [Diag.block_allocated_wrongly bp] else []) ++
  (if GET_SIZE s.mem bp < minsize then [Diag.block_too_small bp (GET_SIZE s.mem bp)] else []) ++
  (if GET s.mem (HDRP bp) &&& 0xFFFFFFFD ≠ GET s.mem (FTRP s.mem bp) &&& 0xFFFFFFFD
    then [Diag.inconsistent_block_header_and_footer (GET s.mem (HDRP bp))
            (GET s.mem (FTRP s.mem bp))] else []) ++
  (if get_index s (GET_SIZE s.mem bp) ≠ entry then [Diag.block_falls_into_the_wrong_bucket] else [])

/-- The inner loop of `mm_checkheap` over one bucket list: the messages and the
number of blocks seen. -/
def check_list (s : Heap) (entry : Nat) : Nat → Nat → Option (List Diag × Int)
  | 0, _ => none
  | f + 1, bp =>
    if bp ≠ 0 then
      (check_list s entry f (succeed s.mem bp)).map fun (ds, c) =>
        (check_list_block s entry bp ++ ds, c + 1)
    else some ([], 0)

/-- The outer loop of `mm_checkheap` over the buckets `i, i+1, ..., free_list_size - 1`. -/
def check_buckets (s : Heap) : Nat → Nat → Option (List Diag × Int)
  | 0, _ => some ([], 0)
  | k + 1, i =>
    let entry := s.explicit_free_list + i * DSIZE
    (check_list s entry (fuel s + 1) (succeed s.mem entry)).bind fun (ds, c) =>
      (check_buckets s k (i + 1)).map fun (ds1, c1) => (ds ++ ds1, c + c1)

/-- The checks `mm_checkheap` makes on one block of the address-ordered chain:
the messages and the number of free blocks (0 or 1). -/
def check_chain_block (s : Heap) (bp : Nat) : List Diag × Int :=
  ((if bp > mem_heap_hi s ∨ bp < mem_heap_lo s ∨ ALIGN bp ≠ bp
    then [Diag.block_not_in_heap_or_without_aligned bp] else []) ++
  (if GET_ALLOC s.mem bp = 0 ∧ GET_ALLOC s.mem (find_next_blankblock s.mem bp) = 0
    then [Diag.consecutive_free_blocks_not_coalesced] else []) ++
  (if GET_ALLOC s.mem bp ≠ get_prev_alloc s.mem (find_next_blankblock s.mem bp)
    then [Diag.prev_alloc_bit_inconsistent,
          Diag.block_marked_otherwise bp (GET_ALLOC s.mem bp ≠ 0)] else []),
   if GET_ALLOC s.mem bp = 0 then 1 else 0)

/-- The loop of `mm_checkheap` over the address-ordered chain: the messages, the
number of free blocks and the block pointer the loop stops at. -/
def check_chain (s : Heap) : Nat → Nat → Option (List Diag × Int × Nat)
  | 0, _ => none
  | f + 1, bp =>
    if GET_SIZE s.mem bp > 0 then
      (check_chain s f (find_next_blankblock s.mem bp)).map fun (ds, c, e) =>
        ((check_chain_block s bp).1 ++ ds, (check_chain_block s bp).2 + c, e)
    else some ([], 0, bp)

/-- `mm_checkheap(lineno)`: the messages printed, in order. -/
def mm_checkheap (s : Heap) (lineno : Int) : Option (List Diag) :=
  let prologue := s.heap_listp - WSIZE
  let d0 :=
    (if lineno ≠ 0 then [Diag.heap_in_line s.heap_listp lineno] else []) ++
    (if prologue > mem_heap_hi s ∨ prologue < mem_heap_lo s then [Diag.prologue_not_in_heap] else []) ++
    (if GET_ALLOC s.mem prologue = 0 then [Diag.prologue_header_without_alloc] else []) ++
    (if GET_SIZE s.mem prologue ≠ DSIZE
      then [Diag.prologue_header_with_wrong_size (GET_SIZE s.mem prologue)] else []) ++
    (if mem_heap_hi s + 1 ≠ s.epilogue
      then [Diag.epilogue_header_with_wrong_position s.epilogue (mem_heap_hi s + 1)] else []) ++
    (if ALIGN s.epilogue ≠ s.epilogue then [Diag.epilogue_header_without_align] else []) ++
    (if GET_ALLOC s.mem s.epilogue = 0 then [Diag.epilogue_header_allocated_wrongly] else []) ++
    (if GET_SIZE s.mem s.epilogue ≠ 0 then [Diag.epilogue_header_with_wrong_size] else []) ++
    (if (s.heap_listp : Int) - (s.explicit_free_list : Int)
          ≠ ((free_list_size * DSIZE + 2 * WSIZE : Nat) : Int)
      then [Diag.incorrect_free_list_header_array_size] else [])
  (check_buckets s free_list_size 0).bind fun (d1, c1) =>
    (check_chain s (fuel s + 1) s.heap_listp).map fun (d2, c2, bp) =>
      d0 ++ d1 ++ d2 ++
      (if c1 - c2 ≠ 0 then [Diag.free_list_count_mismatch] else []) ++
      (if bp ≠ s.epilogue then [Diag.incorrect_epilogue_location] else [])

/-! ## The heap as a chain of blocks and nine bucket lists -/

/-- A block of the address-ordered chain: its size and whether it is allocated. -/
structure Blk where
  size : Nat
  alloc : Bool
  deriving DecidableEq, Repr

/-- The header word that records a size, the predecessor's allocation bit and
the block's own allocation bit. -/
def hdr (size : Nat) (pa al : Bool) : Nat := size + 2 * pa.toNat + al.toNat

/-- The blocks of a chain laid out from address `a`, each with its block pointer
and the allocation flag of the block before it (`pa` for the first). -/
def blocks : Nat → Bool → List Blk → List (Nat × Bool × Blk)
  | _, _, [] => []
  | a, pa, b :: bs => (a, pa, b) :: blocks (a + b.size) b.alloc bs

/-- The block pointer just past a chain laid out from `a`. -/
def endAddr : Nat → List Blk → Nat
  | a, [] => a
  | a, b :: bs => endAddr (a + b.size) bs

/-- The allocation flag of the last block of a chain (`pa` for the empty chain). -/
def lastAlloc : Bool → List Blk → Bool
  | pa, [] => pa
  | _, b :: bs => lastAlloc b.alloc bs

/-- The block at `a` is stored in memory as `b`: legal size, header word, and for
a free block a footer that records the size. -/
def BlockOK (m : Mem) (a : Nat) (pa : Bool) (b : Blk) : Prop :=
  16 ≤ b.size ∧ b.size % 8 = 0 ∧ GET m (a - 4) = hdr b.size pa b.alloc ∧
  (b.alloc = false → ∃ t, t ≤ 1 ∧ GET m (a + b.size - 8) = b.size + 2 * t)

/-- Memory holds the chain `bs` from block pointer `a` on. -/
def Seg (m : Mem) (a : Nat) (pa : Bool) (bs : List Blk) : Prop :=
  ∀ x ∈ blocks a pa bs, BlockOK m x.1 x.2.1 x.2.2

/-- No two adjacent blocks are free (`pa` is the flag of the block before the chain). -/
def NoAdj : Bool → List Blk → Prop
  | _, [] => True
  | pa, b :: bs => (pa = true ∨ b.alloc = true) ∧ NoAdj b.alloc bs

/-- The bucket number of a size: `get_index` returns the sentinel
`explicit_free_list + 8 * bucket size`. -/
def bucket (size : Nat) : Nat :=
  if size ≥ 4096 then 8 else get_index_loop 64 (size >>> 4) 0

/-- The list hanging from the successor field at `p` is `l`, null terminated. -/
def ListAt (m : Mem) : Nat → List Nat → Prop
  | p, [] => succeed m p = 0
  | p, x :: xs => succeed m p = x ∧ x ≠ 0 ∧ ListAt m x xs

/-- The nine bucket lists `bk 0 .. bk 8` hold exactly the blocks `F` (block
pointer and size), each in the bucket of its size, each once. -/
structure Index (m : Mem) (lo : Nat) (bk : Nat → List Nat) (F : Nat → Nat → Prop) : Prop where
  lists : ∀ i, i < 9 → ListAt m (lo + 8 * i) (bk i)
  sound : ∀ i, i < 9 → ∀ x ∈ bk i, ∃ sz, F x sz ∧ bucket sz = i
  complete : ∀ x sz, F x sz → x ∈ bk (bucket sz)
  nodup : ∀ i, i < 9 → (bk i).Nodup

/-- The state `s` stores the chain `bs` and the bucket lists `bk`, which index
the free blocks `F` of the chain. -/
structure Wf (s : Heap) (bs : List Blk) (bk : Nat → List Nat) (F : Nat → Nat → Prop) : Prop where
  lo_pos : 0 < s.mem_start_brk
  lo_al : s.mem_start_brk % 8 = 0
  brk_le : s.mem_brk ≤ s.mem_max_addr
  max_lt : s.mem_max_addr < s.mem_start_brk + 2 ^ 32
  max_lt64 : s.mem_max_addr < 2 ^ 64 - 1
  efl : s.explicit_free_list = s.mem_start_brk
  fle : s.free_list_end = s.mem_start_brk + 72
  hlp : s.heap_listp = s.mem_start_brk + 80
  epi : s.epilogue = s.mem_brk
  prologue : GET s.mem (s.mem_start_brk + 72) = 11
  seg : Seg s.mem (s.mem_start_brk + 80) true bs
  endA : endAddr (s.mem_start_brk + 80) bs = s.mem_brk
  epihdr : GET s.mem (s.mem_brk - 4) = hdr 0 (lastAlloc true bs) true
  index : Index s.mem s.mem_start_brk bk F
  F_free : ∀ x sz, F x sz → ∃ pa, (x, pa, Blk.mk sz false) ∈ blocks (s.mem_start_brk + 80) true bs

/-- The free blocks of a chain. -/
def IsFree (a : Nat) (bs : List Blk) (x sz : Nat) : Prop :=
  ∃ pa, (x, pa, Blk.mk sz false) ∈ blocks a true bs

/-- A consistent heap: the arena is a table of nine sentinels, a prologue word,
a chain of blocks without two adjacent free blocks that ends at the epilogue
header, and the bucket lists hold exactly the free blocks of the chain.  The
arena may hold less than `2^32` bytes (block sizes are stored in 32 bits) and
ends below `2^64 - 1`. -/
def HeapOK (s : Heap) : Prop :=
  ∃ bs bk, Wf s bs bk (IsFree (s.mem_start_brk + 80) bs) ∧ NoAdj true bs

/-- The address-ordered walk of `mm_checkheap`: block pointer, size and allocation
bit of each block from `bp` up to the first header of size zero. -/
def walk (m : Mem) : Nat → Nat → List (Nat × Nat × Nat)
  | 0, _ => []
  | f + 1, bp =>
    if GET_SIZE m bp > 0 then
      (bp, GET_SIZE m bp, GET_ALLOC m bp) :: walk m f (find_next_blankblock m bp)
    else []

/-- The blocks of the address-ordered chain of a state. -/
def chain (s : Heap) : List (Nat × Nat × Nat) := walk s.mem (fuel s + 1) s.heap_listp

/-- The bucket walk of `mm_checkheap`: the block pointers linked from `bp` on. -/
def list_walk (m : Mem) : Nat → Nat → List Nat
  | 0, _ => []
  | f + 1, bp => if bp ≠ 0 then bp :: list_walk m f (succeed m bp) else []

/-- The blocks linked in bucket `i` of a state. -/
def bucket_list (s : Heap) (i : Nat) : List Nat :=
  list_walk s.mem (fuel s + 1) (succeed s.mem (s.explicit_free_list + i * DSIZE))

/-- A live pointer: the block pointer of an allocated block of the chain. -/
def Live (s : Heap) (p : Nat) : Prop := ∃ sz, (p, sz, 1) ∈ chain s

/-- The last node of the path `p :: l`. -/
def lastNode : Nat → List Nat → Nat
  | p, [] => p
  | _, x :: xs => lastNode x xs

/-- The successor fields link `p` to the nodes of `l` in order (no terminator required). -/
def Path (m : Mem) : Nat → List Nat → Prop
  | _, [] => True
  | p, x :: xs => succeed m p = x ∧ x ≠ 0 ∧ Path m x xs

/-- The successor fields of two cells do not overlap. -/
def Apart (x y : Nat) : Prop := x + 8 ≤ y ∨ y + 8 ≤ x

/-- The byte at `y` belongs to the payload of an allocated block of the chain. -/
def Payload (a : Nat) (bs : List Blk) (y : Nat) : Prop :=
  ∃ x pa b, (x, pa, b) ∈ blocks a true bs ∧ b.alloc = true ∧ x ≤ y ∧ y < x + b.size - 4

/-- A cell that may hold a successor pointer: a sentinel of the table or the
first eight payload bytes of a free block of the chain. -/
def FreeCell (lo : Nat) (bs : List Blk) (q : Nat) : Prop :=
  (∃ i, i < 9 ∧ q = lo + 8 * i) ∨ (∃ pa sz, (q, pa, Blk.mk sz false) ∈ blocks (lo + 80) true bs)

/-! ## Calls of the interface, reachable states, concrete arenas -/

/-- A fresh arena, as the driver hands it to `mm_init`: still empty, based at a
positive 8-byte aligned address, limited to less than `2^32` bytes and ending
below the top of the address space. -/
def Fresh (s : Heap) : Prop :=
  s.mem_brk = s.mem_start_brk ∧ 0 < s.mem_start_brk ∧ s.mem_start_brk % 8 = 0 ∧
  s.mem_max_addr < s.mem_start_brk + 2 ^ 32 ∧ s.mem_max_addr < 2 ^ 64 - 1

/-- A call of the allocator interface. -/
inductive Call where
  | malloc (size : Nat)
  | calloc (nmemb size : Nat)
  | free (ptr : Nat)
  | realloc (ptr size : Nat)
  deriving DecidableEq, Repr

/-- Runs a call: the pointer it returns (null for `free`) and the new state. -/
def Call.run (s : Heap) : Call → Option (Nat × Heap)
  | Call.malloc n => MM.malloc s n
  | Call.calloc k n => MM.calloc s k n
  | Call.free p => (MM.free s p).map fun s1 => (0, s1)
  | Call.realloc p n => MM.realloc s p n

/-- The pointer argument of a call, null when it has none. -/
def Call.ptr : Call → Nat
  | Call.malloc _ => 0
  | Call.calloc _ _ => 0
  | Call.free p => p
  | Call.realloc p _ => p

/-- The request size of a call fits: adding the header and rounding up to the
alignment does not wrap around `size_t` (for `realloc` this is done twice, for
`calloc` it is about the product the call computes). -/
def Call.fits : Call → Prop
  | Call.malloc n => n + 11 < SZ
  | Call.calloc k n => (n * k) % SZ + 11 < SZ
  | Call.free _ => True
  | Call.realloc _ n => n + 19 < SZ

/-- A call with valid arguments for a client that holds the pointers `L`: the
pointer argument is null or one of `L`, and the request size fits. -/
def Call.valid (L : List Nat) (c : Call) : Prop :=
  (c.ptr = 0 ∨ c.ptr ∈ L) ∧ c.fits

/-- The pointers the client holds after a call that returned `r`. -/
def Call.live (L : List Nat) : Call → Nat → List Nat
  | Call.malloc _, r => if r = 0 then L else r :: L
  | Call.calloc _ _, r => if r = 0 then L else r :: L
  | Call.free p, _ => L.erase p
  | Call.realloc p n, r => if n = 0 then L.erase p else if r = 0 then L else r :: L.erase p

/-- The states a client can reach, with the pointers it holds: it starts from a
successful `mm_init` on a fresh arena, makes calls with valid arguments and
stores bytes into the payload of blocks it holds. -/
inductive Reach : Heap → List Nat → Prop where
  | init (s0 s : Heap) : Fresh s0 → mm_init s0 = some (0, s) → Reach s []
  | call (s : Heap) (L : List Nat) (c : Call) (r : Nat) (s1 : Heap) :
      Reach s L → c.valid L → c.run s = some (r, s1) → Reach s1 (c.live L r)
  | store (s : Heap) (L : List Nat) (p a v : Nat) :
      Reach s L → p ∈ L → p ≤ a → a + 4 < p + GET_SIZE s.mem p →
      Reach { s with mem := writeLE s.mem a 1 v } L

/-- The call `malloc(size)` made `k` times in a row: the pointers returned, in
order, and the final state. -/
def malloc_n (s : Heap) (size : Nat) : Nat → Option (List Nat × Heap)
  | 0 => some ([], s)
  | k + 1 => (malloc_n s size k).bind fun (ps, s1) =>
      (malloc s1 size).map fun (p, s2) => (ps ++ [p], s2)

/-- The calls `free(p)` for the pointers of a list, in order. -/
def free_all (s : Heap) : List Nat → Option Heap
  | [] => some s
  | p :: ps => (free s p).bind fun s1 => free_all s1 ps

/-- The aligned request `max(16, roundup8(n + 4))` in unbounded arithmetic. -/
def aligned_request (n : Nat) : Nat := max 16 ((n + 4 + 7) / 8 * 8)

/-- The part of `malloc` that follows the size computation, for the adjusted
size `asize`: find a fit, extend the heap when there is none, unlink the block
and place the request in it. -/
def malloc_sized (s : Heap) (asize : Nat) : Option (Nat × Heap) :=
  match find_fit s asize with
  | none => none
  | some bp =>
    if bp = 0 then
      (extend_heap s (MAX asize CHUNKSIZE)).bind fun (bp, s1) =>
        if bp = FAIL then some (0, s1)
        else (delete s1 bp).bind fun s2 => place s2 bp asize
    else (delete s bp).bind fun s2 => place s2 bp asize

/-- A fresh arena at address 4096 that may grow to one MiB, all bytes zero. -/
def arena0 : Heap := ⟨⟨fun _ => 0⟩, 4096, 4096, 4096 + 1048576, 0, 0, 0, 0⟩

/-- A fresh arena at address 4096 with room for 4096 bytes only. -/
def arena1 : Heap := ⟨⟨fun _ => 0⟩, 4096, 4096, 4096 + 4096, 0, 0, 0, 0⟩

/-- The heap `mm_init` builds on `arena0`. -/
def heap0 : Heap := ((mm_init arena0).map Prod.snd).getD arena0

/-- The heap after `malloc(8)` on `heap0`; the block is at 4176. -/
def heap1 : Heap := ((malloc heap0 8).map Prod.snd).getD heap0

/-- The state `heap0` after `delete` of its one free block, 4176: a consistent heap
whose index is empty while the chain holds a free block. -/
def heap0d : Heap := (delete heap0 4176).getD heap0

/-! ## cachelab: the matrix transpose of `trans.c`

A matrix `int A[N][M]` is a list of `N` rows of `M` entries.  An access outside
the rows or outside a row is undefined behaviour in C and gives `none` here.
The entries are only copied, so the functions are written for any entry type. -/

/-- The read `A[r][c]`. -/
def mget {α : Type} (A : List (List α)) (r c : Nat) : Option α :=
  (A[r]?).bind fun row => row[c]?

/-- The write `B[r][c] = v`. -/
def mset {α : Type} (B : List (List α)) (r c : Nat) (v : α) : Option (List (List α)) :=
  (B[r]?).bind fun row => if c < row.length then some (B.set r (row.set c v)) else none

/-- The loop `for (i = lo; i < hi; i += step) body`, started at `i` with the given fuel. -/
def for_loop {σ : Type} (body : Nat → σ → Option σ) (hi step : Nat) : Nat → Nat → σ → Option σ
  | 0, _, _ => none
  | f + 1, i, st =>
    if i < hi then (body i st).bind (for_loop body hi step f (i + step)) else some st

/-- The eight stores of the innermost loop of the 32 x 32 case (lines 42-49). -/
def trans32_body_store {α : Type} (i j u : Nat) (v0 v1 v2 v3 v4 v5 v6 v7 : α)
    (B : List (List α)) : Option (List (List α)) := do
  let B ← mset B (i + u) j v0
  let B ← mset B (i + u) (j + 1) v1
  let B ← mset B (i + u) (j + 2) v2
  let B ← mset B (i + u) (j + 3) v3
  let B ← mset B (i + u) (j + 4) v4
  let B ← mset B (i + u) (j + 5) v5
  let B ← mset B (i + u) (j + 6) v6
  mset B (i + u) (j + 7) v7

/-- Body of the innermost loop of the 32 x 32 case (lines 38-49 of `trans.c`). -/
def trans32_body {α : Type} (A : List (List α)) (i j u : Nat) (B : List (List α)) :
    Option (List (List α)) := do
  let v0 ← mget A j (i + u)
  let v1 ← mget A (j + 1) (i + u)
  let v2 ← mget A (j + 2) (i + u)
  let v3 ← mget A (j + 3) (i + u)
  let v4 ← mget A (j + 4) (i + u)
  let v5 ← mget A (j + 5) (i + u)
  let v6 ← mget A (j + 6) (i + u)
  let v7 ← mget A (j + 7) (i + u)
  trans32_body_store i j u v0 v1 v2 v3 v4 v5 v6 v7 B

/-- The eight stores of the first inner loop of the 64 x 64 case (lines 62-69). -/
def trans64_first_store {α : Type} (j u : Nat) (v0 v1 v2 v3 v4 v5 v6 v7 : α)
    (B : List (List α)) : Option (List (List α)) := do
  let B ← mset B j u v0
  let B ← mset B (j + 1) u v1
  let B ← mset B (j + 2) u v2
  let B ← mset B (j + 3) u v3
  let B ← mset B j (u + 4) v4
  let B ← mset B (j + 1) (u + 4) v5
  let B ← mset B (j + 2) (u + 4) v6
  mset B (j + 3) (u + 4) v7

/-- Body of the first inner loop of the 64 x 64 case (lines 58-69). -/
def trans64_first {α : Type} (A : List (List α)) (j u : Nat) (B : List (List α)) :
    Option (List (List α)) := do
  let v0 ← mget A u j
  let v1 ← mget A u (j + 1)
  let v2 ← mget A u (j + 2)
  let v3 ← mget A u (j + 3)
  let v4 ← mget A u (j + 4)
  let v5 ← mget A u (j + 5)
  let v6 ← mget A u (j + 6)
  let v7 ← mget A u (j + 7)
  trans64_first_store j u v0 v1 v2 v3 v4 v5 v6 v7 B

/-- The eight stores of the second inner loop of the 64 x 64 case (lines 76-83). -/
def trans64_second_store {α : Type} (i u : Nat) (v0 v1 v2 v3 v4 v5 v6 v7 : α)
    (B : List (List α)) : Option (List (List α)) := do
  let B ← mset B u (i + 4) v0
  let B ← mset B u (i + 5) v1
  let B ← mset B u (i + 6) v2
  let B ← mset B u (i + 7) v3
  let B ← mset B (u + 4) i v4
  let B ← mset B (u + 4) (i + 1) v5
  let B ← mset B (u + 4) (i + 2) v6
  mset B (u + 4) (i + 3) v7

/-- Body of the second inner loop of the 64 x 64 case (lines 72-83): the values
parked in the upper right quadrant of the block of `B` are read before they are
overwritten, and stored in the lower left quadrant. -/
def trans64_second {α : Type} (A : List (List α)) (i u : Nat) (B : List (List α)) :
    Option (List (List α)) := do
  let v0 ← mget A (i + 4) u
  let v1 ← mget A (i + 5) u
  let v2 ← mget A (i + 6) u
  let v3 ← mget A (i + 7) u
  let v4 ← mget B u (i + 4)
  let v5 ← mget B u (i + 5)
  let v6 ← mget B u (i + 6)
  let v7 ← mget B u (i + 7)
  trans64_second_store i u v0 v1 v2 v3 v4 v5 v6 v7 B

/-- Body of the third inner loop of the 64 x 64 case (lines 86-91). -/
def trans64_third {α : Type} (A : List (List α)) (j u : Nat) (B : List (List α)) :
    Option (List (List α)) := do
  let v0 ← mget A u (j + 4)
  let v1 ← mget A u (j + 5)
  let v2 ← mget A u (j + 6)
  let v3 ← mget A u (j + 7)
  let B ← mset B (j + 4) u v0
  let B ← mset B (j + 5) u v1
  let B ← mset B (j + 6) u v2
  mset B (j + 7) u v3

/-- Body of the innermost loop of the last case (lines 100-117). -/
def trans_else_body {α : Type} (A : List (List α)) (i j u : Nat) (B : List (List α)) :
    Option (List (List α)) := do
  let B ← trans32_body A i j u B
  let v0 ← mget A (j + 8) (i + u)
  let v1 ← mget A (j + 9) (i + u)
  let v2 ← mget A (j + 10) (i + u)
  let v3 ← mget A (j + 11) (i + u)
  let B ← mset B (i + u) (j + 8) v0
  let B ← mset B (i + u) (j + 9) v1
  let B ← mset B (i + u) (j + 10) v2
  mset B (i + u) (j + 11) v3

/-- Body of the final loop of the last case (line 123): `B[i][j] = A[j][i]`. -/
def trans_rest_body {α : Type} (A : List (List α)) (i j : Nat) (B : List (List α)) :
    Option (List (List α)) :=
  (mget A j i).bind fun v => mset B i j v

/-- `transpose_submit(M, N, A, B)`: the matrix `B` it leaves. -/
def transpose_submit {α : Type} (M N : Nat) (A B : List (List α)) : Option (List (List α)) :=
  if M = 32 ∧ N = 32 then
    for_loop (fun i => for_loop (fun j => for_loop (fun u => trans32_body A i j u) 8 1 9 0)
      M 8 (M + 1) 0) N 8 (N + 1) 0 B
  else if M = 64 ∧ N = 64 then
    for_loop (fun i => for_loop (fun j B =>
        (for_loop (fun u => trans64_first A j u) (i + 4) 1 5 i B).bind fun B =>
        (for_loop (fun u => trans64_second A i u) (j + 4) 1 5 j B).bind fun B =>
        for_loop (fun u => trans64_third A j u) (i + 8) 1 5 (i + 4) B)
      M 8 (M + 1) 0) N 8 (N + 1) 0 B
  else
    (for_loop (fun i => for_loop (fun j => for_loop (fun u => trans_else_body A i j u) 12 1 13 0)
      60 12 61 0) 60 12 61 0 B).bind fun B =>
    for_loop (fun i => for_loop (fun j => trans_rest_body A i j) N 1 (N + 1) 60) M 1 (M + 1) 0 B

/-- The inner loop of `is_transpose` over `j`, from `j` on: `false` at the first
entry of row `i` of `A` that differs from its mirror entry of `B`. -/
def is_transpose_row {α : Type} [DecidableEq α] (M : Nat) (A B : List (List α)) (i : Nat) :
    Nat → Nat → Option Bool
  | 0, _ => none
  | f + 1, j =>
    if j < M then
      (mget A i j).bind fun a => (mget B j i).bind fun b =>
        if a ≠ b then some false else is_transpose_row M A B i f (j + 1)
    else some true

/-- The outer loop of `is_transpose` over `i`, from `i` on. -/
def is_transpose_rows {α : Type} [DecidableEq α] (M N : Nat) (A B : List (List α)) :
    Nat → Nat → Option Bool
  | 0, _ => none
  | f + 1, i =>
    if i < N then
      (is_transpose_row M A B i (M + 1) 0).bind fun ok =>
        if ok then is_transpose_rows M N A B f (i + 1) else some false
    else some true

/-- `is_transpose(M, N, A, B)`: 1 when `B` is the transpose of `A`, else 0. -/
def is_transpose {α : Type} [DecidableEq α] (M N : Nat) (A B : List (List α)) : Option Int :=
  (is_transpose_rows M N A B (N + 1) 0).map fun ok => if ok then 1 else 0

/-- A list of `rows` rows of `cols` entries each. -/
def IsMat {α : Type} (rows cols : Nat) (A : List (List α)) : Prop :=
  A.length = rows ∧ ∀ row ∈ A, row.length = cols

/-- The entries of a matrix after the write of `v` at `(r, c)`. -/
def upd {α : Type} (g : Nat → Nat → α) (r c : Nat) (v : α) : Nat → Nat → α :=
  fun r' c' => if r' = r ∧ c' = c then v else g r' c'

/-- The list of rows `B` is a `rows x cols` matrix with entries `g r c`. -/
def Rep {α : Type} (rows cols : Nat) (B : List (List α)) (g : Nat → Nat → α) : Prop :=
  B.length = rows ∧ ∀ r, r < rows → ∃ row, B[r]? = some row ∧ row.length = cols ∧
    ∀ c, c < cols → row[c]? = some (g r c)

/-! ## cachelab: the cache simulator of `csim.c`

The counters and the fields of a line are C `int`s.  An increment past `INT_MAX`
and an access outside the allocated arrays are undefined behaviour in C and give
`none` here. -/

def INT_MAX : Int := 2147483647

def INT_MIN : Int := -2147483648

/-- Conversion of an unsigned value to `int`: the low 32 bits in two's complement. -/
def to_int (n : Nat) : Int :=
  if n % 2 ^ 32 < 2 ^ 31 then ((n % 2 ^ 32 : Nat) : Int) else ((n % 2 ^ 32 : Nat) : Int) - 2 ^ 32

/-- The increment `x++` of an `int`. -/
def incr (x : Int) : Option Int := if x < INT_MAX then some (x + 1) else none

/-- A line of the simulated cache (`cache_line`). -/
structure cache_line where
  valid_bit : Int
  tag : Int
  time : Int
  deriving DecidableEq, Repr

/-- The globals of `csim.c`: the counters, the parameters `s`, `E`, `b`, `S` and the
array `Cache` of `S` sets of `E` lines. -/
structure Csim where
  hit : Int
  miss : Int
  evictions : Int
  s : Nat
  E : Nat
  b : Nat
  S : Nat
  Cache : List (List cache_line)
  deriving DecidableEq, Repr

/-- `init_cache()`: `S` sets of `E` lines, each invalid with tag and time -1. -/
def init_cache (c : Csim) : Csim :=
  { c with Cache := List.replicate c.S (List.replicate c.E ⟨0, -1, -1⟩) }

/-- The state in which `main` calls `procedure` for the options `-s s -E E -b b`:
the counters are 0, `S = 1 << s`, and the cache is initialised. -/
def csim_start (s E b : Nat) : Csim := init_cache ⟨0, 0, 0, s, E, b, 1 <<< s, []⟩

/-- `update_time()`: the time of every valid line is incremented. -/
def update_time (c : Csim) : Option Csim :=
  if c.Cache.any (fun row => row.any fun l => decide (l.valid_bit ≠ 0 ∧ INT_MAX ≤ l.time)) then none
  else some { c with Cache := c.Cache.map fun row => row.map fun l =>
    if l.valid_bit ≠ 0 then { l with time := l.time + 1 } else l }

/-- What a call of `update` did: the set it selected, the line it touched, and
whether it was a hit, the fill of an invalid line, or an eviction. -/
inductive AccessKind where
  | hit
  | fill
  | evict
  deriving DecidableEq, Repr

/-- One call of `update`, as recorded for the properties of a run. -/
structure Access where
  set : Nat
  line : Nat
  kind : AccessKind
  deriving DecidableEq, Repr

/-- The first loop of `update` (lines 60-66): the first line whose tag is `ctag` gets
time 0; the result is its index and the new set, or `none` when no tag matches. -/
def hit_loop (ctag : Int) : List cache_line → Option (Nat × List cache_line)
  | [] => none
  | l :: ls =>
    if l.tag = ctag then some (0, { l with time := 0 } :: ls)
    else (hit_loop ctag ls).map fun p => (p.1 + 1, l :: p.2)

/-- The second loop of `update` (lines 68-75): the first invalid line is filled. -/
def fill_loop (ctag : Int) : List cache_line → Option (Nat × List cache_line)
  | [] => none
  | l :: ls =>
    if l.valid_bit = 0 then some (0, ⟨1, ctag, 0⟩ :: ls)
    else (fill_loop ctag ls).map fun p => (p.1 + 1, l :: p.2)

/-- The third loop of `update` (lines 77-82), from line `j` on: `mtime` and `mindex`
at the end. -/
def max_time : List cache_line → Nat → Int → Int → Int × Int
  | [], _, mtime, mindex => (mtime, mindex)
  | l :: ls, j, mtime, mindex =>
    if l.time > mtime then max_time ls (j + 1) l.time j else max_time ls (j + 1) mtime mindex

/-- `update(address)`: the new state and the access made.  The mask
`(-1U) >> (64 - s)` shifts an `unsigned int` by at least its width when `s <= 32`;
the shift count is taken modulo 32, as the x86 shift instruction does. -/
def update (c : Csim) (address : Nat) : Option (Csim × Access) :=
  if 64 ≤ c.b + c.s then none
  else
    let set := to_int ((address >>> c.b) &&& (0xFFFFFFFF >>> ((64 - c.s) % 32)))
    let ctag := to_int (address >>> (c.b + c.s))
    if set < 0 then none
    else
      (c.Cache[set.toNat]?).bind fun row =>
        match hit_loop ctag row with
        | some (j, row') =>
          (incr c.hit).map fun h =>
            ({ c with hit := h, Cache := c.Cache.set set.toNat row' }, ⟨set.toNat, j, AccessKind.hit⟩)
        | none =>
          (incr c.miss).bind fun m =>
            match fill_loop ctag row with
            | some (j, row') =>
              some ({ c with miss := m, Cache := c.Cache.set set.toNat row' },
                ⟨set.toNat, j, AccessKind.fill⟩)
            | none =>
              (incr c.evictions).bind fun ev =>
                let mindex := (max_time row 0 INT_MIN (-1)).2
                if mindex < 0 then none
                else
                  (row[mindex.toNat]?).map fun l =>
                    let row' := row.set mindex.toNat { l with time := 0, tag := ctag }
                    ({ c with miss := m, evictions := ev, Cache := c.Cache.set set.toNat row' },
                      ⟨set.toNat, mindex.toNat, AccessKind.evict⟩)

/-- The body of the loop of `procedure` for one record `op address,size` of the
trace: the calls of `update` the operation makes, then `update_time()`. -/
def trace_step (c : Csim) (op : Char) (address : Nat) : Option (Csim × List Access) :=
  (if op = 'L' ∨ op = 'S' then (update c address).map fun r => (r.1, [r.2])
   else if op = 'M' then
    (update c address).bind fun r1 => (update r1.1 address).map fun r2 => (r2.1, [r1.2, r2.2])
   else some (c, [])).bind fun r => (update_time r.1).map fun c' => (c', r.2)

/-- `procedure()` on the records of the trace file: the final state and the calls
of `update` in order. -/
def procedure (c : Csim) : List (Char × Nat × Int) → Option (Csim × List Access)
  | [] => some (c, [])
  | x :: rest =>
    (trace_step c x.1 x.2.1).bind fun r =>
      (procedure r.1 rest).map fun r' => (r'.1, r.2 ++ r'.2)

/-- The position of the last access of line `line` of set `set` in a log that
starts at position `n`, `acc` when there is none. -/
def last_access_from (set line : Nat) : List Access → Nat → Option Nat → Option Nat
  | [], _, acc => acc
  | a :: as, n, acc =>
    last_access_from set line as (n + 1) (if a.set = set ∧ a.line = line then some n else acc)

/-- The position in the log of the most recent access of a line. -/
def last_access (log : List Access) (set line : Nat) : Option Nat :=
  last_access_from set line log 0 none

/-- The invariant of the simulation between calls of `update`: every set has `E`
lines; a valid line has a time of at least 0, of at least 1 unless it is the
line `fresh` touched since the last `update_time`, which has time 0, and it has
been accessed; and of two valid lines of a set, the one accessed earlier has the
larger time. -/
def CacheInv (c : Csim) (log : List Access) (fresh : Option (Nat × Nat)) : Prop :=
  (∀ (i : Nat) (row : List cache_line), c.Cache[i]? = some row → row.length = c.E) ∧
  (∀ (i : Nat) (row : List cache_line) (j : Nat) (l : cache_line),
    c.Cache[i]? = some row → row[j]? = some l → l.valid_bit ≠ 0 →
    0 ≤ l.time ∧ (fresh ≠ some (i, j) → 1 ≤ l.time) ∧ (fresh = some (i, j) → l.time = 0) ∧
      ∃ q, last_access log i j = some q) ∧
  (∀ (i : Nat) (row : List cache_line) (j : Nat) (l : cache_line) (j' : Nat) (l' : cache_line)
    (q q' : Nat), c.Cache[i]? = some row → row[j]? = some l → row[j']? = some l' →
    l.valid_bit ≠ 0 → l'.valid_bit ≠ 0 → last_access log i j = some q →
    last_access log i j' = some q' → q < q' → l'.time < l.time)

/-- Every eviction of the log overwrote the least recently used line of its set:
before the eviction, each of the `E` lines of the set had been accessed, and the
most recent access of the evicted line is earlier than that of any other line. -/
def LruLog (E : Nat) (log : List Access) : Prop :=
  ∀ n a, log[n]? = some a → a.kind = AccessKind.evict → ∀ j, j < E → j ≠ a.line →
    ∃ q q', last_access (log.take n) a.set a.line = some q ∧
      last_access (log.take n) a.set j = some q' ∧ q < q'

/-- A state in which the simulation is defined: the options are in range
(`1 <= s <= 30`, `b + s <= 63`, `E >= 1`), the cache has `2^s` sets of `E` lines, the
times are between -1 and `t`, and the counters are at most `k`. -/
def SimOK (c : Csim) (t k : Int) : Prop :=
  1 ≤ c.s ∧ c.s ≤ 30 ∧ c.b + c.s ≤ 63 ∧ 1 ≤ c.E ∧ c.Cache.length = 2 ^ c.s ∧
  (∀ row ∈ c.Cache, row.length = c.E ∧ ∀ l ∈ row, -1 ≤ l.time ∧ l.time ≤ t) ∧
  c.hit ≤ k ∧ c.miss ≤ k ∧ c.evictions ≤ k

/-- The call of `memmove` on the move path of `realloc(oldptr, size)` (lines
202-217): its destination, its source and its byte count `MIN(size, old_size)`;
`none` when the call of `realloc` does not reach `memmove`, or `malloc` does not
return. -/
def realloc_memmove (s : Heap) (oldptr size : Nat) : Option (Nat × Nat × Nat) :=
  if size = 0 then none
  else if oldptr = 0 then none
  else
    let size := adjust size
    let old_size := GET_SIZE s.mem oldptr
    if old_size ≥ size then none
    else
      (malloc s size).bind fun (newptr, _) =>
        if newptr = 0 then none else some (newptr, oldptr, MIN size old_size)

/-- The size of the last block of `pre`, the block before `bp`, when it is free;
0 when it is allocated or `bp` is the first block. -/
def freePrevSize (pre : List Blk) : Nat :=
  match pre.getLast? with
  | some b => if b.alloc then 0 else b.size
  | none => 0

/-- The size of the first block of `post`, the block after `bp`, when it is free;
0 when it is allocated or `bp` is the last block. -/
def freeNextSize (post : List Blk) : Nat :=
  match post with
  | c :: _ => if c.alloc then 0 else c.size
  | [] => 0

/-! ## Scripts of calls and further concrete heaps -/

/-- The check of `Call.valid` as a computation: the pointer argument is null or
held, and the request size fits. -/
def Call.check (L : List Nat) (c : Call) : Bool :=
  decide (c.ptr = 0 ∨ c.ptr ∈ L) &&
    (match c with
     | Call.malloc n => decide (n + 11 < SZ)
     | Call.calloc k n => decide ((n * k) % SZ + 11 < SZ)
     | Call.free _ => true
     | Call.realloc _ n => decide (n + 19 < SZ))

/-- Runs a list of calls in order from the state `s` of a client that holds the
pointers `L`; `none` when a call has invalid arguments or does not return. -/
def run_calls : Heap → List Nat → List Call → Option (Heap × List Nat)
  | s, L, [] => some (s, L)
  | s, L, c :: cs =>
    if c.check L then (c.run s).bind fun r => run_calls r.2 (c.live L r.1) cs else none

/-- Six allocations of 32, 16, 40, 16, 48 and 16 bytes, then `free` of the first,
third and fifth block. -/
def scriptF : List Call :=
  [Call.malloc 24, Call.malloc 8, Call.malloc 32, Call.malloc 8, Call.malloc 40, Call.malloc 8,
   Call.free 4176, Call.free 4224, Call.free 4280]

/-- The heap after `scriptF` on `heap0`: the chain is 4176 (32, free), 4208 (16),
4224 (40, free), 4264 (16), 4280 (48, free), 4328 (16), 4344 (16216, free);
bucket 1 is the list 4176, 4224, 4280 and bucket 8 the list 4344. -/
def heapF : Heap := ((run_calls heap0 [] scriptF).map Prod.fst).getD heap0

/-- The state `heapF` after `delete` of the free block 4224. -/
def heapFd : Heap := (delete heapF 4224).getD heapF

/-- The state in which `free(ptr)` calls `coalesce(ptr)` (lines 178-183): the
allocation bit of the block is reset, its footer is written and the
`prev_alloc` bit of the next header is reset. -/
def free_marked (s : Heap) (ptr : Nat) : Heap :=
  let m1 := RESET_ALLOC s.mem (HDRP ptr)
  let m2 := PUT m1 (FTRP m1 ptr) (GET m1 (HDRP ptr))
  let n := find_next_blankblock m2 ptr
  let m3 := RESET_PALLOC m2 (HDRP n)
  { s with mem := m3 }

/-- The state in which `free(4208)` on `heapF` calls `coalesce(4208)`: the block
is free and not listed, and both its neighbours, 4176 and 4224, are free. -/
def heapFm : Heap := free_marked heapF 4208

/-- A fresh arena at address 4096 that is full once `mm_init` has extended it by
16384 bytes. -/
def arena2 : Heap := ⟨⟨fun _ => 0⟩, 4096, 4096, 4096 + 80 + 16384, 0, 0, 0, 0⟩

/-- The heap `mm_init` builds on `arena2`: one free block of 16384 bytes, and no
room to grow. -/
def heap2 : Heap := ((mm_init arena2).map Prod.snd).getD arena2

/-- The sequence C13 compares `realloc(p, n)` with, in the words of the claim:
`q = malloc(n)`; copy the old payload (the bytes of the block of `p` after its
header word) to `q`; `free(p)`; the result is `q`. -/
def realloc_sequence (s : Heap) (p n : Nat) : Option (Nat × Heap) :=
  (malloc s n).bind fun q =>
    (free { q.2 with mem := memmove q.2.mem q.1 p (GET_SIZE s.mem p - WSIZE) } p).map
      fun s2 => (q.1, s2)

/-! ## Facts about the bit operations of the header codec -/

theorem and_decomp (q r q' c : Nat) (hr : r < 8) (hc : c < 8) :
    (8 * q + r) &&& (8 * q' + c) = 8 * (q &&& q') + (r &&& c) := by
  have h3 : (8 : Nat) = 2 ^ 3 := by norm_num
  have hrc : r &&& c < 2 ^ 3 := Nat.and_lt_two_pow r (by omega)
  apply Nat.eq_of_testBit_eq
  intro i
  rw [h3] at *
  rw [Nat.testBit_and, Nat.testBit_mul_pow_two_add q hr, Nat.testBit_mul_pow_two_add q' hc,
    Nat.testBit_mul_pow_two_add _ hrc]
  split <;> simp [Nat.testBit_and]

theorem or_decomp (q r q' c : Nat) (hr : r < 8) (hc : c < 8) :
    (8 * q + r) ||| (8 * q' + c) = 8 * (q ||| q') + (r ||| c) := by
  have h3 : (8 : Nat) = 2 ^ 3 := by norm_num
  have hrc : r ||| c < 2 ^ 3 := Nat.or_lt_two_pow (by omega) (by omega)
  apply Nat.eq_of_testBit_eq
  intro i
  rw [h3] at *
  rw [Nat.testBit_or, Nat.testBit_mul_pow_two_add q hr, Nat.testBit_mul_pow_two_add q' hc,
    Nat.testBit_mul_pow_two_add _ hrc]
  split <;> simp [Nat.testBit_or]

theorem and_mask_hi (w k c n : Nat) (hw : w < 2 ^ (n + 3)) (hc : c < 8) (hk : k = 8 * (2 ^ n - 1) + c) :
    w &&& k = 8 * (w / 8) + (w % 8 &&& c) := by
  have h1 : w = 8 * (w / 8) + w % 8 := by omega
  have hq : w / 8 < 2 ^ n := by
    have : 2 ^ (n + 3) = 2 ^ n * 8 := by ring
    rw [Nat.div_lt_iff_lt_mul (by norm_num)]; omega
  conv_lhs => rw [h1, hk]
  rw [and_decomp _ _ _ _ (by omega) hc, Nat.and_pow_two_sub_one_eq_mod, Nat.mod_eq_of_lt hq]

theorem and_size_mask (w : Nat) (hw : w < 2 ^ 32) : w &&& 0xFFFFFFF8 = w / 8 * 8 := by
  rw [and_mask_hi w _ 0 29 hw (by norm_num) (by norm_num)]; simp; omega

theorem and_size_mask64 (w : Nat) (hw : w < 2 ^ 64) : w &&& 0xFFFFFFFFFFFFFFF8 = w / 8 * 8 := by
  rw [and_mask_hi w _ 0 61 hw (by norm_num) (by norm_num)]; simp; omega

theorem low3 (r : Nat) (hr : r < 8) :
    r &&& 6 = r - r % 2 ∧ r &&& 5 = r - 2 * (r / 2 % 2) ∧ r ||| 1 = r + 1 - r % 2 ∧
    r ||| 2 = r + 2 - 2 * (r / 2 % 2) := by
  interval_cases r <;> decide

theorem and_not1 (w : Nat) (hw : w < 2 ^ 32) : w &&& 0xFFFFFFFE = w - w % 2 := by
  rw [and_mask_hi w _ 6 29 hw (by norm_num) (by norm_num), (low3 (w % 8) (by omega)).1]; omega

theorem and_not2 (w : Nat) (hw : w < 2 ^ 32) : w &&& 0xFFFFFFFD = w - 2 * (w / 2 % 2) := by
  rw [and_mask_hi w _ 5 29 hw (by norm_num) (by norm_num), (low3 (w % 8) (by omega)).2.1]; omega

theorem or_low (w c : Nat) (hc : c < 8) : w ||| c = 8 * (w / 8) + (w % 8 ||| c) := by
  have h1 : w = 8 * (w / 8) + w % 8 := by omega
  conv_lhs => rw [h1, show c = 8 * 0 + c by omega]
  rw [or_decomp _ _ _ _ (by omega) hc]; simp

theorem or_1 (w : Nat) : w ||| 1 = w + 1 - w % 2 := by
  rw [or_low w 1 (by norm_num), (low3 (w % 8) (by omega)).2.2.1]; omega

theorem or_2 (w : Nat) : w ||| 2 = w + 2 - 2 * (w / 2 % 2) := by
  rw [or_low w 2 (by norm_num), (low3 (w % 8) (by omega)).2.2.2]; omega

theorem and_7 (w : Nat) : w &&& 7 = w % 8 := by
  have := Nat.and_pow_two_sub_one_eq_mod w 3
  simpa using this

theorem low_or_size (r size : Nat) (hr : r < 8) (hs : size % 8 = 0) : r ||| size = size + r := by
  have h1 : size = 8 * (size / 8) + 0 := by omega
  conv_lhs => rw [h1, show r = 8 * 0 + r by omega]
  rw [or_decomp _ _ _ _ hr (by norm_num)]; simp; omega

theorem shr1_and1 (w : Nat) : (w >>> 1) &&& 1 = w / 2 % 2 := by
  rw [Nat.and_one_is_mod, Nat.shiftRight_eq_div_pow]

/-! ## Facts about byte memory -/

theorem readLE_congr (m m' : Mem) (k p : Nat)
    (h : ∀ a, p ≤ a → a < p + k → m'.byte a = m.byte a) : readLE m' p k = readLE m p k := by
  induction k generalizing p with
  | zero => rfl
  | succ k ih =>
    simp only [readLE]
    rw [h p (by omega) (by omega), ih (p + 1) (fun a h1 h2 => h a (by omega) (by omega))]

theorem readLE_lt (m : Mem) (k p : Nat) : readLE m p k < 256 ^ k := by
  induction k generalizing p with
  | zero => simp [readLE]
  | succ k ih =>
    simp only [readLE]
    have := ih (p + 1)
    have h2 : m.byte p % 256 < 256 := Nat.mod_lt _ (by norm_num)
    rw [pow_succ]; omega

theorem readLE_of_bytes (m : Mem) (k p v : Nat)
    (h : ∀ i, i < k → m.byte (p + i) = v / 256 ^ i % 256) : readLE m p k = v % 256 ^ k := by
  induction k generalizing p v with
  | zero => simp [readLE, Nat.mod_one]
  | succ k ih =>
    simp only [readLE]
    have h0 := h 0 (by omega)
    simp only [Nat.add_zero, pow_zero, Nat.div_one] at h0
    rw [h0, ih (p + 1) (v / 256), pow_succ', Nat.mod_mul, Nat.mod_mod]
    intro i hi
    have := h (i + 1) (by omega)
    rw [show p + 1 + i = p + (i + 1) by omega, this, pow_succ', Nat.div_div_eq_div_mul]

theorem writeLE_byte (m : Mem) (p k v a : Nat) :
    (writeLE m p k v).byte a = if p ≤ a ∧ a < p + k then v / 256 ^ (a - p) % 256 else m.byte a := rfl

theorem writeLE_byte_out (m : Mem) (p k v a : Nat) (h : a < p ∨ p + k ≤ a) :
    (writeLE m p k v).byte a = m.byte a := by
  rw [writeLE_byte, if_neg (by omega)]

theorem readLE_writeLE_same (m : Mem) (p k v : Nat) : readLE (writeLE m p k v) p k = v % 256 ^ k := by
  apply readLE_of_bytes
  intro i hi
  rw [writeLE_byte, if_pos (by omega), Nat.add_sub_cancel_left]

theorem readLE_writeLE_disj (m : Mem) (p k v q j : Nat) (h : q + j ≤ p ∨ p + k ≤ q) :
    readLE (writeLE m p k v) q j = readLE m q j := by
  apply readLE_congr
  intro a h1 h2
  exact writeLE_byte_out _ _ _ _ _ (by omega)

theorem GET_lt (m : Mem) (p : Nat) : GET m p < 2 ^ 32 := by
  have := readLE_lt m 4 p
  simpa [GET] using this

theorem succeed_lt (m : Mem) (p : Nat) : succeed m p < 2 ^ 64 := by
  have := readLE_lt m 8 p
  simpa [succeed] using this

theorem GET_PUT_same (m : Mem) (p v : Nat) : GET (PUT m p v) p = v % 2 ^ 32 := by
  simp [GET, PUT, readLE_writeLE_same]

theorem GET_PUT_disj (m : Mem) (p v q : Nat) (h : q + 4 ≤ p ∨ p + 4 ≤ q) :
    GET (PUT m p v) q = GET m q := readLE_writeLE_disj _ _ _ _ _ _ h

theorem GET_put_suc_disj (m : Mem) (p v q : Nat) (h : q + 4 ≤ p ∨ p + 8 ≤ q) :
    GET (put_suc m p v) q = GET m q := readLE_writeLE_disj _ _ _ _ _ _ h

theorem succeed_put_suc_same (m : Mem) (p v : Nat) : succeed (put_suc m p v) p = v % 2 ^ 64 := by
  simp [succeed, put_suc, readLE_writeLE_same]

theorem succeed_put_suc_disj (m : Mem) (p v q : Nat) (h : q + 8 ≤ p ∨ p + 8 ≤ q) :
    succeed (put_suc m p v) q = succeed m q := readLE_writeLE_disj _ _ _ _ _ _ h

theorem succeed_PUT_disj (m : Mem) (p v q : Nat) (h : q + 8 ≤ p ∨ p + 4 ≤ q) :
    succeed (PUT m p v) q = succeed m q := readLE_writeLE_disj _ _ _ _ _ _ h

theorem GET_congr (m m' : Mem) (p : Nat) (h : ∀ a, p ≤ a → a < p + 4 → m'.byte a = m.byte a) :
    GET m' p = GET m p := readLE_congr _ _ _ _ h

theorem succeed_congr (m m' : Mem) (p : Nat) (h : ∀ a, p ≤ a → a < p + 8 → m'.byte a = m.byte a) :
    succeed m' p = succeed m p := readLE_congr _ _ _ _ h

/-! ## Geometry of a chain of blocks -/

theorem toNat_le_one (b : Bool) : b.toNat ≤ 1 := by cases b <;> simp

theorem hdr_decode (w size : Nat) (pa al : Bool) (hw : w = hdr size pa al) (hs : size % 8 = 0)
    (hlt : w < 2 ^ 32) :
    w &&& 0xFFFFFFF8 = size ∧ w &&& 0x1 = al.toNat ∧ (w >>> 1) &&& 0x1 = pa.toNat := by
  have h1 := toNat_le_one pa
  have h2 := toNat_le_one al
  rw [and_size_mask w hlt, Nat.and_one_is_mod, shr1_and1]
  subst hw
  unfold hdr
  omega

theorem blocks_append (a : Nat) (pa : Bool) (xs ys : List Blk) :
    blocks a pa (xs ++ ys) = blocks a pa xs ++ blocks (endAddr a xs) (lastAlloc pa xs) ys := by
  induction xs generalizing a pa with
  | nil => rfl
  | cons b xs ih => simp [blocks, endAddr, lastAlloc, ih]

theorem endAddr_append (a : Nat) (xs ys : List Blk) :
    endAddr a (xs ++ ys) = endAddr (endAddr a xs) ys := by
  induction xs generalizing a with
  | nil => rfl
  | cons b xs ih => simp [endAddr, ih]

theorem lastAlloc_append (pa : Bool) (xs ys : List Blk) :
    lastAlloc pa (xs ++ ys) = lastAlloc (lastAlloc pa xs) ys := by
  induction xs generalizing pa with
  | nil => rfl
  | cons b xs ih => simp [lastAlloc, ih]

theorem le_endAddr (a : Nat) (bs : List Blk) : a ≤ endAddr a bs := by
  induction bs generalizing a with
  | nil => simp [endAddr]
  | cons b bs ih => have := ih (a + b.size); simp only [endAddr]; omega

theorem mem_blocks_split (a : Nat) (pa : Bool) (bs : List Blk) (x : Nat) (p : Bool) (b : Blk)
    (h : (x, p, b) ∈ blocks a pa bs) :
    ∃ pre post, bs = pre ++ b :: post ∧ x = endAddr a pre ∧ p = lastAlloc pa pre := by
  induction bs generalizing a pa with
  | nil => simp [blocks] at h
  | cons c bs ih =>
    simp only [blocks, List.mem_cons, Prod.mk.injEq] at h
    rcases h with ⟨h1, h2, h3⟩ | h
    · exact ⟨[], bs, by simp [h3], by simp [endAddr, h1], by simp [lastAlloc, h2]⟩
    · obtain ⟨pre, post, e1, e2, e3⟩ := ih _ _ h
      exact ⟨c :: pre, post, by simp [e1], by simp [endAddr, e2], by simp [lastAlloc, e3]⟩

theorem mem_blocks_of_split (a : Nat) (pa : Bool) (pre post : List Blk) (b : Blk) :
    (endAddr a pre, lastAlloc pa pre, b) ∈ blocks a pa (pre ++ b :: post) := by
  rw [blocks_append]; simp [blocks]

theorem mem_blocks_bounds (a : Nat) (pa : Bool) (bs : List Blk) (x : Nat) (p : Bool) (b : Blk)
    (h : (x, p, b) ∈ blocks a pa bs) : a ≤ x ∧ x + b.size ≤ endAddr a bs := by
  obtain ⟨pre, post, e1, e2, _⟩ := mem_blocks_split _ _ _ _ _ _ h
  subst e1 e2
  rw [endAddr_append]
  simp only [endAddr]
  exact ⟨le_endAddr _ _, le_endAddr _ _⟩

theorem mem_blocks_mem (a : Nat) (pa : Bool) (bs : List Blk) (x : Nat) (p : Bool) (b : Blk)
    (h : (x, p, b) ∈ blocks a pa bs) : b ∈ bs := by
  obtain ⟨pre, post, e1, _, _⟩ := mem_blocks_split _ _ _ _ _ _ h
  subst e1; simp

/-- Two blocks of a chain whose sizes are positive are the same block or do not overlap. -/
theorem mem_blocks_disjoint (a : Nat) (pa : Bool) (bs : List Blk) (hpos : ∀ b ∈ bs, 0 < b.size)
    (x x' : Nat) (p p' : Bool) (b b' : Blk)
    (h : (x, p, b) ∈ blocks a pa bs) (h' : (x', p', b') ∈ blocks a pa bs) :
    (x = x' ∧ p = p' ∧ b = b') ∨ x + b.size ≤ x' ∨ x' + b'.size ≤ x := by
  induction bs generalizing a pa with
  | nil => simp [blocks] at h
  | cons c bs ih =>
    have hc : 0 < c.size := hpos c (by simp)
    simp only [blocks, List.mem_cons, Prod.mk.injEq] at h h'
    rcases h with ⟨h1, h2, h3⟩ | h <;> rcases h' with ⟨g1, g2, g3⟩ | h'
    · left; subst h1 h2 h3 g1 g2 g3; simp
    · have := mem_blocks_bounds _ _ _ _ _ _ h'
      right; left; subst h1 h3; omega
    · have := mem_blocks_bounds _ _ _ _ _ _ h
      right; right; subst g1 g3; omega
    · exact ih _ _ (fun b hb => hpos b (by simp [hb])) h h'

theorem Seg_nil (m : Mem) (a : Nat) (pa : Bool) : Seg m a pa [] := by
  intro x hx; simp [blocks] at hx

theorem Seg_cons (m : Mem) (a : Nat) (pa : Bool) (b : Blk) (bs : List Blk) :
    Seg m a pa (b :: bs) ↔ BlockOK m a pa b ∧ Seg m (a + b.size) b.alloc bs := by
  simp [Seg, blocks]

theorem Seg_append (m : Mem) (a : Nat) (pa : Bool) (xs ys : List Blk) :
    Seg m a pa (xs ++ ys) ↔ Seg m a pa xs ∧ Seg m (endAddr a xs) (lastAlloc pa xs) ys := by
  simp only [Seg, blocks_append, List.mem_append]
  constructor
  · intro h; exact ⟨fun x hx => h x (Or.inl hx), fun x hx => h x (Or.inr hx)⟩
  · rintro ⟨h1, h2⟩ x (hx | hx)
    · exact h1 x hx
    · exact h2 x hx

theorem Seg_sizes (m : Mem) (a : Nat) (pa : Bool) (bs : List Blk) (h : Seg m a pa bs) :
    ∀ b ∈ bs, 16 ≤ b.size ∧ b.size % 8 = 0 := by
  induction bs generalizing a pa with
  | nil => simp
  | cons c bs ih =>
    rw [Seg_cons] at h
    intro b hb
    simp only [List.mem_cons] at hb
    rcases hb with rfl | hb
    · exact ⟨h.1.1, h.1.2.1⟩
    · exact ih _ _ h.2 b hb

theorem Seg_pos (m : Mem) (a : Nat) (pa : Bool) (bs : List Blk) (h : Seg m a pa bs) :
    ∀ b ∈ bs, 0 < b.size := fun b hb => by
  have := (Seg_sizes m a pa bs h b hb).1; omega

theorem BlockOK_congr (m m' : Mem) (a : Nat) (pa : Bool) (b : Blk) (h : BlockOK m a pa b)
    (h1 : ∀ y, a - 4 ≤ y → y < a - 4 + 4 → m'.byte y = m.byte y)
    (h2 : b.alloc = false → ∀ y, a + b.size - 8 ≤ y → y < a + b.size - 8 + 4 → m'.byte y = m.byte y) :
    BlockOK m' a pa b := by
  obtain ⟨g1, g2, g3, g4⟩ := h
  refine ⟨g1, g2, ?_, ?_⟩
  · rw [GET_congr m m' _ h1]; exact g3
  · intro hf
    obtain ⟨t, ht, e⟩ := g4 hf
    exact ⟨t, ht, by rw [GET_congr m m' _ (h2 hf)]; exact e⟩

/-- Memory that changes only outside `[a - 4, endAddr a bs - 4)` still holds the chain. -/
theorem Seg_frame_out (m m' : Mem) (a : Nat) (pa : Bool) (bs : List Blk) (h : Seg m a pa bs)
    (ha : 4 ≤ a)
    (hm : ∀ y, a - 4 ≤ y → y < endAddr a bs - 4 → m'.byte y = m.byte y) : Seg m' a pa bs := by
  intro x hx
  obtain ⟨x, p, b⟩ := x
  have hb := mem_blocks_bounds _ _ _ _ _ _ hx
  have hok := h _ hx
  have hs := hok.1
  simp only at hok hs hb ⊢
  apply BlockOK_congr m m' _ _ _ hok
  · intro y h1 h2; exact hm y (by omega) (by omega)
  · intro _ y h1 h2; exact hm y (by omega) (by omega)

/-- Memory that changes only inside one block, after its header and before its
last eight bytes, still holds the chain. -/
theorem Seg_frame_in (m m' : Mem) (a : Nat) (pa : Bool) (bs : List Blk) (h : Seg m a pa bs)
    (ha : 4 ≤ a) (z : Nat) (pz : Bool) (bz : Blk) (hz : (z, pz, bz) ∈ blocks a pa bs)
    (hm : ∀ y, ¬(z ≤ y ∧ y < z + bz.size - 8) → m'.byte y = m.byte y) : Seg m' a pa bs := by
  intro x hx
  obtain ⟨x, p, b⟩ := x
  have hd := mem_blocks_disjoint a pa bs (Seg_pos m a pa bs h) _ _ _ _ _ _ hx hz
  have hb := mem_blocks_bounds _ _ _ _ _ _ hx
  have hbz := mem_blocks_bounds _ _ _ _ _ _ hz
  have hok := h _ hx
  have hs := hok.1
  have hzs := (h _ hz).1
  simp only at hok hs hb hzs hd ⊢
  apply BlockOK_congr m m' _ _ _ hok
  · intro y h1 h2; apply hm; rcases hd with ⟨rfl, -, rfl⟩ | hd | hd <;> omega
  · intro _ y h1 h2; apply hm; rcases hd with ⟨rfl, -, rfl⟩ | hd | hd <;> omega

theorem ListAt_congr (m m' : Mem) (p : Nat) (l : List Nat) (h : ListAt m p l)
    (hm : ∀ x ∈ p :: l, ∀ y, x ≤ y → y < x + 8 → m'.byte y = m.byte y) : ListAt m' p l := by
  induction l generalizing p with
  | nil =>
    simp only [ListAt] at h ⊢
    rw [succeed_congr m m' p (hm p (List.mem_cons_self _ _))]; exact h
  | cons x xs ih =>
    simp only [ListAt] at h ⊢
    refine ⟨?_, h.2.1, ?_⟩
    · rw [succeed_congr m m' p (hm p (List.mem_cons_self _ _))]; exact h.1
    · exact ih x h.2.2 (fun z hz => hm z (List.mem_cons_of_mem _ hz))

theorem ListAt_unique (m : Mem) (p : Nat) (l l' : List Nat) (h : ListAt m p l) (h' : ListAt m p l') :
    l = l' := by
  induction l generalizing p l' with
  | nil =>
    cases l' with
    | nil => rfl
    | cons y ys => simp only [ListAt] at h h'; exact absurd (h'.1.symm.trans h) h'.2.1
  | cons x xs ih =>
    cases l' with
    | nil => simp only [ListAt] at h h'; exact absurd (h.1.symm.trans h') h.2.1
    | cons y ys =>
      simp only [ListAt] at h h'
      have : x = y := h.1.symm.trans h'.1
      subst this
      rw [ih x ys h.2.2 h'.2.2]

theorem list_walk_eq (m : Mem) (p : Nat) (l : List Nat) (h : ListAt m p l) (f : Nat)
    (hf : l.length < f) : list_walk m f (succeed m p) = l := by
  induction l generalizing p f with
  | nil =>
    simp only [ListAt] at h
    cases f with
    | zero => simp at hf
    | succ f => simp [list_walk, h]
  | cons x xs ih =>
    simp only [ListAt] at h
    cases f with
    | zero => simp at hf
    | succ f =>
      simp only [List.length_cons] at hf
      simp only [list_walk, h.1, ne_eq, h.2.1, not_false_eq_true, if_true]
      rw [ih x h.2.2 f (by omega)]

/-! ## Linked lists in memory -/

theorem ListAt_append (m : Mem) (p : Nat) (l1 l2 : List Nat) :
    ListAt m p (l1 ++ l2) ↔ Path m p l1 ∧ ListAt m (lastNode p l1) l2 := by
  induction l1 generalizing p with
  | nil => simp [Path, lastNode]
  | cons x xs ih =>
    show (succeed m p = x ∧ x ≠ 0 ∧ ListAt m x (xs ++ l2)) ↔
      (succeed m p = x ∧ x ≠ 0 ∧ Path m x xs) ∧ ListAt m (lastNode x xs) l2
    rw [ih x]
    constructor
    · rintro ⟨a, b, c, d⟩; exact ⟨⟨a, b, c⟩, d⟩
    · rintro ⟨⟨a, b, c⟩, d⟩; exact ⟨a, b, c, d⟩

theorem lastNode_mem (p : Nat) (l : List Nat) : lastNode p l ∈ p :: l := by
  induction l generalizing p with
  | nil => simp [lastNode]
  | cons x xs ih =>
    simp only [lastNode]
    exact List.mem_cons_of_mem _ (ih x)

theorem lastNode_append_cons (p x : Nat) (l1 l2 : List Nat) :
    lastNode p (l1 ++ x :: l2) = lastNode x l2 := by
  induction l1 generalizing p with
  | nil => simp [lastNode]
  | cons y ys ih => simp only [List.cons_append, lastNode]; exact ih y

/-- A path survives a memory change that spares the successor fields of all its
nodes but the last. -/
theorem Path_congr (m m' : Mem) (p : Nat) (l : List Nat) (h : Path m p l)
    (hm : ∀ x ∈ p :: l, x ≠ lastNode p l → ∀ y, x ≤ y → y < x + 8 → m'.byte y = m.byte y)
    (hnd : (p :: l).Nodup) : Path m' p l := by
  induction l generalizing p with
  | nil => trivial
  | cons x xs ih =>
    simp only [Path] at h ⊢
    have hp : p ≠ lastNode p (x :: xs) := by
      intro e
      have h1 := lastNode_mem x xs
      simp only [lastNode] at e
      rw [← e] at h1
      exact (List.nodup_cons.mp hnd).1 h1
    refine ⟨?_, h.2.1, ?_⟩
    · rw [succeed_congr m m' p (hm p (List.mem_cons_self _ _) hp)]; exact h.1
    · apply ih x h.2.2
      · intro z hz hne
        exact hm z (List.mem_cons_of_mem _ hz) (by simpa [lastNode] using hne)
      · exact (List.nodup_cons.mp hnd).2

theorem find_fit_scan_spec (m : Mem) (size p : Nat) (l : List Nat) (h : ListAt m p l) (f : Nat)
    (hf : l.length < f) :
    ∃ r, find_fit_scan m size f (succeed m p) = some r ∧
      ((r = 0 ∧ ∀ x ∈ l, GET_SIZE m x < size) ∨
       (∃ l1 l2, l = l1 ++ r :: l2 ∧ size ≤ GET_SIZE m r ∧ ∀ x ∈ l1, GET_SIZE m x < size)) := by
  induction l generalizing p f with
  | nil =>
    simp only [ListAt] at h
    cases f with
    | zero => simp at hf
    | succ f => exact ⟨0, by simp [find_fit_scan, h], Or.inl ⟨rfl, by simp⟩⟩
  | cons x xs ih =>
    simp only [ListAt] at h
    cases f with
    | zero => simp at hf
    | succ f =>
      simp only [List.length_cons] at hf
      by_cases hx : size ≤ GET_SIZE m x
      · refine ⟨x, by simp [find_fit_scan, h.1, h.2.1, hx], Or.inr ⟨[], xs, rfl, hx, by simp⟩⟩
      · obtain ⟨r, hr, hcase⟩ := ih x h.2.2 f (by omega)
        refine ⟨r, by simp [find_fit_scan, h.1, h.2.1, hx, hr], ?_⟩
        rcases hcase with ⟨r0, hall⟩ | ⟨l1, l2, e, hs, hall⟩
        · left; refine ⟨r0, ?_⟩
          intro y hy
          simp only [List.mem_cons] at hy
          rcases hy with rfl | hy
          · omega
          · exact hall y hy
        · right; refine ⟨x :: l1, l2, by simp [e], hs, ?_⟩
          intro y hy
          simp only [List.mem_cons] at hy
          rcases hy with rfl | hy
          · omega
          · exact hall y hy

theorem insert_loop_spec (m : Mem) (bp p : Nat) (l : List Nat) (h : ListAt m p l) (f : Nat)
    (hf : l.length < f) :
    ∃ l1 l2, insert_loop m bp f p = some (lastNode p l1) ∧ l = l1 ++ l2 ∧
      (∀ x ∈ l1, GET_SIZE m x < GET_SIZE m bp) ∧
      (∀ x, l2.head? = some x → GET_SIZE m bp ≤ GET_SIZE m x) := by
  induction l generalizing p f with
  | nil =>
    simp only [ListAt] at h
    cases f with
    | zero => simp at hf
    | succ f => exact ⟨[], [], by simp [insert_loop, h, lastNode], rfl, by simp, by simp⟩
  | cons x xs ih =>
    simp only [ListAt] at h
    cases f with
    | zero => simp at hf
    | succ f =>
      simp only [List.length_cons] at hf
      by_cases hx : GET_SIZE m x < GET_SIZE m bp
      · obtain ⟨l1, l2, hr, e, h1, h2⟩ := ih x h.2.2 f (by omega)
        refine ⟨x :: l1, l2, ?_, by simp [e], ?_, h2⟩
        · simp only [insert_loop, h.1, ne_eq, h.2.1, not_false_eq_true, hx, and_self, if_true,
            lastNode]
          exact hr
        · intro y hy
          simp only [List.mem_cons] at hy
          rcases hy with rfl | hy
          · exact hx
          · exact h1 y hy
      · refine ⟨[], x :: xs, ?_, rfl, by simp, ?_⟩
        · simp [insert_loop, h.1, hx, lastNode]
        · intro y hy
          simp only [List.head?_cons, Option.some.injEq] at hy
          subst hy; omega

theorem delete_loop_spec (m : Mem) (bp p : Nat) (l : List Nat) (h : ListAt m p l) (f : Nat)
    (hf : l.length < f) (hbp : bp ∈ l) :
    ∃ l1 l2, delete_loop m bp f p = some (lastNode p l1) ∧ l = l1 ++ bp :: l2 ∧ bp ∉ l1 := by
  induction l generalizing p f with
  | nil => simp at hbp
  | cons x xs ih =>
    simp only [ListAt] at h
    cases f with
    | zero => simp at hf
    | succ f =>
      simp only [List.length_cons] at hf
      by_cases hx : x = bp
      · subst hx
        exact ⟨[], xs, by simp [delete_loop, h.1, lastNode], rfl, by simp⟩
      · have hbp' : bp ∈ xs := by
          simp only [List.mem_cons] at hbp
          rcases hbp with e | e
          · exact absurd e.symm hx
          · exact e
        obtain ⟨l1, l2, hr, e, hn⟩ := ih x h.2.2 f (by omega) hbp'
        refine ⟨x :: l1, l2, ?_, by simp [e], ?_⟩
        · simp only [delete_loop, h.1, ne_eq, h.2.1, not_false_eq_true, hx, and_self, if_true,
            lastNode]
          exact hr
        · simp only [List.mem_cons, not_or]
          exact ⟨fun e => hx e.symm, hn⟩

theorem put_suc_byte_out (m : Mem) (p v y : Nat) (h : y < p ∨ p + 8 ≤ y) :
    (put_suc m p v).byte y = m.byte y := writeLE_byte_out _ _ _ _ _ h

theorem PUT_byte_out (m : Mem) (p v y : Nat) (h : y < p ∨ p + 4 ≤ y) :
    (PUT m p v).byte y = m.byte y := writeLE_byte_out _ _ _ _ _ h

theorem ListAt_head_congr (m m' : Mem) (q q' : Nat) (l : List Nat) (h : ListAt m q l)
    (hq : succeed m' q' = succeed m q)
    (hm : ∀ x ∈ l, ∀ y, x ≤ y → y < x + 8 → m'.byte y = m.byte y) : ListAt m' q' l := by
  cases l with
  | nil => simp only [ListAt] at h ⊢; rw [hq]; exact h
  | cons x xs =>
    simp only [ListAt] at h ⊢
    refine ⟨hq.trans h.1, h.2.1, ListAt_congr m m' x xs h.2.2 hm⟩

theorem ListAt_put_suc (m : Mem) (q v p : Nat) (l : List Nat) (h : ListAt m p l)
    (hq : ∀ x ∈ p :: l, Apart x q) : ListAt (put_suc m q v) p l := by
  apply ListAt_congr m _ p l h
  intro x hx y h1 h2
  have := hq x hx
  unfold Apart at this
  exact put_suc_byte_out _ _ _ _ (by omega)

theorem ListAt_PUT (m : Mem) (q v p : Nat) (l : List Nat) (h : ListAt m p l)
    (hq : ∀ x ∈ p :: l, x + 8 ≤ q ∨ q + 4 ≤ x) : ListAt (PUT m q v) p l := by
  apply ListAt_congr m _ p l h
  intro x hx y h1 h2
  have := hq x hx
  exact PUT_byte_out _ _ _ _ (by omega)

theorem insert_list (m : Mem) (bp p : Nat) (l1 l2 : List Nat) (h : ListAt m p (l1 ++ l2))
    (hnd : (p :: (l1 ++ l2)).Nodup) (hbp0 : bp ≠ 0) (hbplt : bp < 2 ^ 64)
    (hsep : ∀ x ∈ p :: (l1 ++ l2), Apart x bp)
    (hsep2 : ∀ x ∈ p :: (l1 ++ l2), ∀ y ∈ p :: (l1 ++ l2), x ≠ y → Apart x y) :
    ListAt (put_suc (put_suc m bp (succeed m (lastNode p l1))) (lastNode p l1) bp) p
      (l1 ++ bp :: l2) := by
  obtain ⟨hpath, hrest⟩ := (ListAt_append m p l1 l2).mp h
  have hq_mem : lastNode p l1 ∈ p :: (l1 ++ l2) := by
    have := lastNode_mem p l1
    simp only [List.mem_cons, List.mem_append] at this ⊢
    rcases this with e | e
    · exact Or.inl e
    · exact Or.inr (Or.inl e)
  have hqbp : Apart (lastNode p l1) bp := hsep _ hq_mem
  have hnd1 : (p :: l1).Nodup := by
    have h0 := hnd
    rw [← List.cons_append] at h0
    exact (List.nodup_append.mp h0).1
  rw [ListAt_append]
  constructor
  · apply Path_congr m _ p l1 hpath _ hnd1
    intro x hx hne y h1 h2
    have hx' : x ∈ p :: (l1 ++ l2) := by
      simp only [List.mem_cons, List.mem_append] at hx ⊢
      rcases hx with e | e
      · exact Or.inl e
      · exact Or.inr (Or.inl e)
    have a1 := hsep x hx'
    have a2 := hsep2 x hx' _ hq_mem hne
    unfold Apart at a1 a2
    rw [put_suc_byte_out _ _ _ _ (by omega), put_suc_byte_out _ _ _ _ (by omega)]
  · simp only [ListAt]
    refine ⟨?_, hbp0, ?_⟩
    · rw [succeed_put_suc_same, Nat.mod_eq_of_lt hbplt]
    · apply ListAt_head_congr m _ (lastNode p l1) bp l2 hrest
      · unfold Apart at hqbp
        rw [succeed_put_suc_disj _ _ _ _ (by omega), succeed_put_suc_same,
          Nat.mod_eq_of_lt (succeed_lt _ _)]
      · intro x hx y h1 h2
        have hx' : x ∈ p :: (l1 ++ l2) := by
          simp only [List.mem_cons, List.mem_append]; exact Or.inr (Or.inr hx)
        have hne : x ≠ lastNode p l1 := by
          intro e
          have h3 := lastNode_mem p l1
          rw [← e] at h3
          have hdis := (List.nodup_cons.mp hnd)
          simp only [List.mem_cons] at h3
          rcases h3 with e1 | e1
          · exact hdis.1 (by rw [← e1]; simp [hx])
          · exact (List.nodup_append.mp hdis.2).2.2 e1 hx
        have a1 := hsep x hx'
        have a2 := hsep2 x hx' _ hq_mem hne
        unfold Apart at a1 a2
        rw [put_suc_byte_out _ _ _ _ (by omega), put_suc_byte_out _ _ _ _ (by omega)]

theorem delete_list (m : Mem) (bp p : Nat) (l1 l2 : List Nat) (h : ListAt m p (l1 ++ bp :: l2))
    (hnd : (p :: (l1 ++ bp :: l2)).Nodup)
    (hsep2 : ∀ x ∈ p :: (l1 ++ bp :: l2), ∀ y ∈ p :: (l1 ++ bp :: l2), x ≠ y → Apart x y) :
    ListAt (put_suc m (lastNode p l1) (succeed m bp)) p (l1 ++ l2) := by
  obtain ⟨hpath, hrest⟩ := (ListAt_append m p l1 (bp :: l2)).mp h
  simp only [ListAt] at hrest
  have hq_mem : lastNode p l1 ∈ p :: (l1 ++ bp :: l2) := by
    have := lastNode_mem p l1
    simp only [List.mem_cons, List.mem_append] at this ⊢
    rcases this with e | e
    · exact Or.inl e
    · exact Or.inr (Or.inl e)
  have hnd1 : (p :: l1).Nodup := by
    have h0 := hnd
    rw [← List.cons_append] at h0
    exact (List.nodup_append.mp h0).1
  rw [ListAt_append]
  constructor
  · apply Path_congr m _ p l1 hpath _ hnd1
    intro x hx hne y h1 h2
    have hx' : x ∈ p :: (l1 ++ bp :: l2) := by
      simp only [List.mem_cons, List.mem_append] at hx ⊢
      rcases hx with e | e
      · exact Or.inl e
      · exact Or.inr (Or.inl e)
    have a2 := hsep2 x hx' _ hq_mem hne
    unfold Apart at a2
    rw [put_suc_byte_out _ _ _ _ (by omega)]
  · apply ListAt_head_congr m _ bp (lastNode p l1) l2 hrest.2.2
    · rw [succeed_put_suc_same, Nat.mod_eq_of_lt (succeed_lt _ _)]
    · intro x hx y h1 h2
      have hx' : x ∈ p :: (l1 ++ bp :: l2) := by
        simp only [List.mem_cons, List.mem_append]; exact Or.inr (Or.inr (Or.inr hx))
      have hne : x ≠ lastNode p l1 := by
        intro e
        have h3 := lastNode_mem p l1
        rw [← e] at h3
        have hdis := (List.nodup_cons.mp hnd)
        simp only [List.mem_cons] at h3
        rcases h3 with e1 | e1
        · exact hdis.1 (by rw [← e1]; simp [hx])
        · exact (List.nodup_append.mp hdis.2).2.2 e1 (List.mem_cons_of_mem _ hx)
      have a2 := hsep2 x hx' _ hq_mem hne
      unfold Apart at a2
      rw [put_suc_byte_out _ _ _ _ (by omega)]

/-! ## Buckets -/

theorem get_index_loop_ge (f x i : Nat) : i ≤ get_index_loop f x i := by
  induction f generalizing x i with
  | zero => simp [get_index_loop]
  | succ f ih =>
    simp only [get_index_loop]
    split
    · have := ih (x >>> 1) (i + 1); omega
    · exact Nat.le_refl _

theorem get_index_loop_le (f x i k : Nat) (hx : x < 2 ^ (k + 1)) : get_index_loop f x i ≤ i + k := by
  induction f generalizing x i k with
  | zero => simp [get_index_loop]
  | succ f ih =>
    simp only [get_index_loop]
    split
    · rename_i h1
      cases k with
      | zero => simp at hx; omega
      | succ k =>
        have h2 : x >>> 1 < 2 ^ (k + 1) := by
          rw [Nat.shiftRight_eq_div_pow, pow_one]
          have : 2 ^ (k + 1 + 1) = 2 ^ (k + 1) * 2 := pow_succ _ _
          omega
        have := ih (x >>> 1) (i + 1) k h2
        omega
    · omega

theorem get_index_loop_mono (f x y i : Nat) (h : x ≤ y) :
    get_index_loop f x i ≤ get_index_loop f y i := by
  induction f generalizing x y i with
  | zero => simp [get_index_loop]
  | succ f ih =>
    simp only [get_index_loop]
    by_cases hx : x > 1
    · have hy : y > 1 := by omega
      simp only [hx, hy, if_true]
      apply ih
      rw [Nat.shiftRight_eq_div_pow, Nat.shiftRight_eq_div_pow]
      exact Nat.div_le_div_right h
    · simp only [hx, if_false]
      split
      · have := get_index_loop_ge f (y >>> 1) (i + 1); omega
      · exact Nat.le_refl _

theorem bucket_lt (sz : Nat) : bucket sz < 9 := by
  unfold bucket
  split
  · omega
  · rename_i h
    have h2 : sz >>> 4 < 2 ^ (7 + 1) := by
      rw [Nat.shiftRight_eq_div_pow]
      have : sz < 4096 := by omega
      omega
    have := get_index_loop_le 64 (sz >>> 4) 0 7 h2
    omega

theorem bucket_mono (a b : Nat) (h : a ≤ b) : bucket a ≤ bucket b := by
  unfold bucket
  by_cases hb : b ≥ 4096
  · simp only [hb, if_true]
    split
    · exact Nat.le_refl _
    · rename_i ha
      have h2 : a >>> 4 < 2 ^ (7 + 1) := by
        rw [Nat.shiftRight_eq_div_pow]
        have : a < 4096 := by omega
        omega
      have := get_index_loop_le 64 (a >>> 4) 0 7 h2
      omega
  · have ha : ¬ a ≥ 4096 := by omega
    simp only [hb, ha, if_false]
    apply get_index_loop_mono
    rw [Nat.shiftRight_eq_div_pow, Nat.shiftRight_eq_div_pow]
    exact Nat.div_le_div_right h

theorem get_index_eq (s : Heap) (sz : Nat) :
    get_index s sz = s.explicit_free_list + 8 * bucket sz := by
  unfold get_index bucket
  have h12 : (1 <<< 12 : Nat) = 4096 := by decide
  rw [h12]
  split
  · simp [DSIZE, free_list_size]
  · simp [DSIZE, Nat.mul_comm]

/-! ## Cells: the successor fields of sentinels and blocks -/

theorem nodup_length_le (l : List Nat) (a b : Nat) (hnd : l.Nodup)
    (h : ∀ x ∈ l, a ≤ x ∧ x < b) : l.length ≤ b - a := by
  have hsub : l ⊆ List.range' a (b - a) := by
    intro x hx
    have := h x hx
    rw [List.mem_range'_1]
    omega
  have := (List.subperm_of_subset hnd hsub).length_le
  simpa using this

theorem blk_bounds (s : Heap) (bs : List Blk) (bk : Nat → List Nat) (F : Nat → Nat → Prop)
    (h : Wf s bs bk F) (x : Nat) (pa : Bool) (b : Blk)
    (hx : (x, pa, b) ∈ blocks (s.mem_start_brk + 80) true bs) :
    s.mem_start_brk + 80 ≤ x ∧ x + b.size ≤ s.mem_brk ∧ 16 ≤ b.size ∧ b.size % 8 = 0 ∧
      b.size < 2 ^ 32 ∧ x < 2 ^ 64 ∧ x ≠ 0 := by
  have h1 := mem_blocks_bounds _ _ _ _ _ _ hx
  rw [h.endA] at h1
  have h2 := Seg_sizes _ _ _ _ h.seg b (mem_blocks_mem _ _ _ _ _ _ hx)
  have h3 := h.brk_le
  have h4 := h.max_lt
  have h5 := h.max_lt64
  have h6 := h.lo_pos
  omega

theorem blk_apart (s : Heap) (bs : List Blk) (bk : Nat → List Nat) (F : Nat → Nat → Prop)
    (h : Wf s bs bk F) (x y : Nat) (pa pb : Bool) (b c : Blk)
    (hx : (x, pa, b) ∈ blocks (s.mem_start_brk + 80) true bs)
    (hy : (y, pb, c) ∈ blocks (s.mem_start_brk + 80) true bs) :
    (x = y ∧ pa = pb ∧ b = c) ∨ x + b.size ≤ y ∨ y + c.size ≤ x :=
  mem_blocks_disjoint _ _ _ (Seg_pos _ _ _ _ h.seg) _ _ _ _ _ _ hx hy

theorem node_blk (s : Heap) (bs : List Blk) (bk : Nat → List Nat) (F : Nat → Nat → Prop)
    (h : Wf s bs bk F) (i : Nat) (hi : i < 9) (x : Nat) (hx : x ∈ bk i) :
    ∃ sz pa, F x sz ∧ bucket sz = i ∧
      (x, pa, Blk.mk sz false) ∈ blocks (s.mem_start_brk + 80) true bs := by
  obtain ⟨sz, hF, hb⟩ := h.index.sound i hi x hx
  obtain ⟨pa, hm⟩ := h.F_free x sz hF
  exact ⟨sz, pa, hF, hb, hm⟩

theorem F_unique (s : Heap) (bs : List Blk) (bk : Nat → List Nat) (F : Nat → Nat → Prop)
    (h : Wf s bs bk F) (x sz sz' : Nat) (h1 : F x sz) (h2 : F x sz') : sz = sz' := by
  obtain ⟨pa, hm⟩ := h.F_free x sz h1
  obtain ⟨pa', hm'⟩ := h.F_free x sz' h2
  have b1 := blk_bounds s bs bk F h _ _ _ hm
  have b2 := blk_bounds s bs bk F h _ _ _ hm'
  rcases blk_apart s bs bk F h _ _ _ _ _ _ hm hm' with ⟨-, -, e⟩ | e | e
  · simpa using e
  · simp only at e b1 b2; omega
  · simp only at e b1 b2; omega

theorem node_bucket_unique (s : Heap) (bs : List Blk) (bk : Nat → List Nat) (F : Nat → Nat → Prop)
    (h : Wf s bs bk F) (i j : Nat) (hi : i < 9) (hj : j < 9) (x : Nat) (hx : x ∈ bk i)
    (hy : x ∈ bk j) : i = j := by
  obtain ⟨sz, hF, hb⟩ := h.index.sound i hi x hx
  obtain ⟨sz', hF', hb'⟩ := h.index.sound j hj x hy
  have := F_unique s bs bk F h x sz sz' hF hF'
  subst this; omega

theorem bucket_length (s : Heap) (bs : List Blk) (bk : Nat → List Nat) (F : Nat → Nat → Prop)
    (h : Wf s bs bk F) (i : Nat) (hi : i < 9) : (bk i).length < fuel s + 1 := by
  have := nodup_length_le (bk i) (s.mem_start_brk + 80) s.mem_brk (h.index.nodup i hi) (by
    intro x hx
    obtain ⟨sz, pa, -, -, hm⟩ := node_blk s bs bk F h i hi x hx
    have := blk_bounds s bs bk F h _ _ _ hm
    simp only at this
    omega)
  unfold fuel
  omega

/-- The cells of bucket `i`: its sentinel and its nodes. -/
theorem cells_nodup (s : Heap) (bs : List Blk) (bk : Nat → List Nat) (F : Nat → Nat → Prop)
    (h : Wf s bs bk F) (i : Nat) (hi : i < 9) : ((s.mem_start_brk + 8 * i) :: bk i).Nodup := by
  rw [List.nodup_cons]
  refine ⟨?_, h.index.nodup i hi⟩
  intro hx
  obtain ⟨sz, pa, -, -, hm⟩ := node_blk s bs bk F h i hi _ hx
  have := blk_bounds s bs bk F h _ _ _ hm
  omega

/-- A cell of bucket `i` and a block of the chain are the same or apart. -/
theorem cell_blk_apart (s : Heap) (bs : List Blk) (bk : Nat → List Nat) (F : Nat → Nat → Prop)
    (h : Wf s bs bk F) (i : Nat) (hi : i < 9) (x : Nat) (hx : x ∈ (s.mem_start_brk + 8 * i) :: bk i)
    (y : Nat) (pb : Bool) (c : Blk) (hy : (y, pb, c) ∈ blocks (s.mem_start_brk + 80) true bs)
    (hne : x ≠ y) : Apart x y := by
  have b2 := blk_bounds s bs bk F h _ _ _ hy
  simp only [List.mem_cons] at hx
  unfold Apart
  rcases hx with rfl | hx
  · omega
  · obtain ⟨sz, pa, -, -, hm⟩ := node_blk s bs bk F h i hi _ hx
    have b1 := blk_bounds s bs bk F h _ _ _ hm
    rcases blk_apart s bs bk F h _ _ _ _ _ _ hm hy with ⟨e, -, -⟩ | e | e
    · exact absurd e hne
    · simp only at e b1 b2; omega
    · simp only at e b1 b2; omega

/-- Two cells of the index are the same or apart. -/
theorem cell_cell_apart (s : Heap) (bs : List Blk) (bk : Nat → List Nat) (F : Nat → Nat → Prop)
    (h : Wf s bs bk F) (i j : Nat) (hi : i < 9) (hj : j < 9) (x y : Nat)
    (hx : x ∈ (s.mem_start_brk + 8 * i) :: bk i) (hy : y ∈ (s.mem_start_brk + 8 * j) :: bk j)
    (hne : x ≠ y) : Apart x y := by
  simp only [List.mem_cons] at hy
  rcases hy with rfl | hy
  · simp only [List.mem_cons] at hx
    unfold Apart
    rcases hx with rfl | hx
    · omega
    · obtain ⟨sz, pa, -, -, hm⟩ := node_blk s bs bk F h i hi _ hx
      have b1 := blk_bounds s bs bk F h _ _ _ hm
      omega
  · obtain ⟨sz, pa, -, -, hm⟩ := node_blk s bs bk F h j hj _ hy
    exact cell_blk_apart s bs bk F h i hi x hx y pa _ hm hne

/-! ## Writes to successor cells -/

theorem Wf_mem (s : Heap) (bs bs' : List Blk) (bk bk' : Nat → List Nat) (F F' : Nat → Nat → Prop)
    (h : Wf s bs bk F) (m' : Mem)
    (hpro : GET m' (s.mem_start_brk + 72) = 11)
    (hseg : Seg m' (s.mem_start_brk + 80) true bs')
    (hend : endAddr (s.mem_start_brk + 80) bs' = s.mem_brk)
    (hepi : GET m' (s.mem_brk - 4) = hdr 0 (lastAlloc true bs') true)
    (hidx : Index m' s.mem_start_brk bk' F')
    (hF : ∀ x sz, F' x sz → ∃ pa, (x, pa, Blk.mk sz false) ∈ blocks (s.mem_start_brk + 80) true bs') :
    Wf { s with mem := m' } bs' bk' F' :=
  { lo_pos := h.lo_pos, lo_al := h.lo_al, brk_le := h.brk_le, max_lt := h.max_lt,
    max_lt64 := h.max_lt64, efl := h.efl, fle := h.fle, hlp := h.hlp, epi := h.epi,
    prologue := hpro, seg := hseg, endA := hend, epihdr := hepi, index := hidx, F_free := hF }

theorem cell_is_free (s : Heap) (bs : List Blk) (bk : Nat → List Nat) (F : Nat → Nat → Prop)
    (h : Wf s bs bk F) (i : Nat) (hi : i < 9) (x : Nat)
    (hx : x ∈ (s.mem_start_brk + 8 * i) :: bk i) : FreeCell s.mem_start_brk bs x := by
  simp only [List.mem_cons] at hx
  rcases hx with rfl | hx
  · exact Or.inl ⟨i, hi, rfl⟩
  · obtain ⟨sz, pa, -, -, hm⟩ := node_blk s bs bk F h i hi x hx
    exact Or.inr ⟨pa, sz, hm⟩

/-- The bytes of a free cell lie outside the headers, the footers of free blocks, the
prologue and epilogue words, and the payload of every allocated block. -/
theorem freeCell_facts (s : Heap) (bs : List Blk) (bk : Nat → List Nat) (F : Nat → Nat → Prop)
    (h : Wf s bs bk F) (q : Nat) (hq : FreeCell s.mem_start_brk bs q) :
    q + 8 ≤ s.mem_brk - 4 ∧ (q + 8 ≤ s.mem_start_brk + 72 ∨ s.mem_start_brk + 80 ≤ q) ∧
    (∀ y, Payload (s.mem_start_brk + 80) bs y → ¬(q ≤ y ∧ y < q + 8)) ∧
    (∀ x pa b, (x, pa, b) ∈ blocks (s.mem_start_brk + 80) true bs →
      (q + 8 ≤ x - 4 ∨ x ≤ q) ∧ (q + 8 ≤ x + b.size - 8 ∨ x + b.size - 4 ≤ q)) := by
  have hend := h.endA
  have hle := le_endAddr (s.mem_start_brk + 80) bs
  rcases hq with ⟨i, hi, rfl⟩ | ⟨pa, sz, hm⟩
  · refine ⟨by omega, by omega, ?_, ?_⟩
    · rintro y ⟨x, pa, b, hx, -, h1, h2⟩
      have := blk_bounds s bs bk F h _ _ _ hx
      omega
    · intro x pa b hx
      have := blk_bounds s bs bk F h _ _ _ hx
      omega
  · have bq := blk_bounds s bs bk F h _ _ _ hm
    simp only at bq
    refine ⟨by omega, by omega, ?_, ?_⟩
    · rintro y ⟨x, pa', b, hx, hal, h1, h2⟩
      have bx := blk_bounds s bs bk F h _ _ _ hx
      rcases blk_apart s bs bk F h _ _ _ _ _ _ hm hx with ⟨-, -, e⟩ | e | e
      · rw [← e] at hal; simp at hal
      · simp only at e; omega
      · omega
    · intro x pa' b hx
      have bx := blk_bounds s bs bk F h _ _ _ hx
      rcases blk_apart s bs bk F h _ _ _ _ _ _ hm hx with ⟨e1, -, e⟩ | e | e
      · subst e1; rw [← e]; simp only; omega
      · simp only at e; omega
      · omega

theorem Seg_put_suc_cell (s : Heap) (bs : List Blk) (bk : Nat → List Nat) (F : Nat → Nat → Prop)
    (h : Wf s bs bk F) (m : Mem) (hseg : Seg m (s.mem_start_brk + 80) true bs)
    (q v : Nat) (hq : FreeCell s.mem_start_brk bs q) :
    Seg (put_suc m q v) (s.mem_start_brk + 80) true bs := by
  obtain ⟨-, -, -, hb⟩ := freeCell_facts s bs bk F h q hq
  intro x hx
  obtain ⟨x, pa, b⟩ := x
  have := hb x pa b hx
  have bx := blk_bounds s bs bk F h _ _ _ hx
  apply BlockOK_congr m _ _ _ _ (hseg _ hx)
  · intro y h1 h2; exact put_suc_byte_out _ _ _ _ (by simp only at *; omega)
  · intro _ y h1 h2; exact put_suc_byte_out _ _ _ _ (by simp only at *; omega)

theorem GET_put_suc_cell (s : Heap) (bs : List Blk) (bk : Nat → List Nat) (F : Nat → Nat → Prop)
    (h : Wf s bs bk F) (m : Mem) (q v : Nat) (hq : FreeCell s.mem_start_brk bs q) :
    GET (put_suc m q v) (s.mem_start_brk + 72) = GET m (s.mem_start_brk + 72) ∧
    GET (put_suc m q v) (s.mem_brk - 4) = GET m (s.mem_brk - 4) := by
  obtain ⟨h1, h2, -, -⟩ := freeCell_facts s bs bk F h q hq
  have := le_endAddr (s.mem_start_brk + 80) bs
  rw [h.endA] at this
  constructor
  · exact GET_put_suc_disj _ _ _ _ (by omega)
  · exact GET_put_suc_disj _ _ _ _ (by omega)

/-! ## The index operations on a well-formed state -/

theorem Seg_hdr (m : Mem) (a : Nat) (pa0 : Bool) (bs : List Blk) (h : Seg m a pa0 bs)
    (x : Nat) (pa : Bool) (b : Blk) (hx : (x, pa, b) ∈ blocks a pa0 bs) :
    GET m (x - 4) = hdr b.size pa b.alloc ∧ GET_SIZE m x = b.size ∧
      GET_ALLOC m x = b.alloc.toNat ∧ get_prev_alloc m x = pa.toNat := by
  obtain ⟨h1, h2, h3, -⟩ := h _ hx
  simp only at h1 h2 h3
  have hlt := GET_lt m (x - 4)
  obtain ⟨d1, d2, d3⟩ := hdr_decode _ _ _ _ h3 h2 hlt
  exact ⟨h3, d1, d2, d3⟩

theorem cells_disjoint (s : Heap) (bs : List Blk) (bk : Nat → List Nat) (F : Nat → Nat → Prop)
    (h : Wf s bs bk F) (i j : Nat) (hi : i < 9) (hj : j < 9) (hij : i ≠ j) (x : Nat)
    (hx : x ∈ (s.mem_start_brk + 8 * i) :: bk i) (hy : x ∈ (s.mem_start_brk + 8 * j) :: bk j) :
    False := by
  simp only [List.mem_cons] at hx hy
  rcases hx with rfl | hx <;> rcases hy with e | hy
  · omega
  · obtain ⟨sz, pa, -, -, hm⟩ := node_blk s bs bk F h j hj _ hy
    have := blk_bounds s bs bk F h _ _ _ hm
    omega
  · obtain ⟨sz, pa, -, -, hm⟩ := node_blk s bs bk F h i hi _ hx
    have := blk_bounds s bs bk F h _ _ _ hm
    omega
  · exact hij (node_bucket_unique s bs bk F h i j hi hj x hx hy)

theorem insert_spec (s : Heap) (bs : List Blk) (bk : Nat → List Nat) (F : Nat → Nat → Prop)
    (h : Wf s bs bk F) (bp sz : Nat) (pa : Bool)
    (hb : (bp, pa, Blk.mk sz false) ∈ blocks (s.mem_start_brk + 80) true bs)
    (hF : ∀ z, ¬ F bp z) :
    ∃ l1 l2, bk (bucket sz) = l1 ++ l2 ∧
      (∀ x ∈ l1, GET_SIZE s.mem x < sz) ∧ (∀ x, l2.head? = some x → sz ≤ GET_SIZE s.mem x) ∧
      ∃ m', insert s bp = some (bp, { s with mem := m' }) ∧
        Wf { s with mem := m' } bs (Function.update bk (bucket sz) (l1 ++ bp :: l2))
          (fun x z => F x z ∨ (x = bp ∧ z = sz)) ∧
        (∀ y, Payload (s.mem_start_brk + 80) bs y → m'.byte y = s.mem.byte y) := by
  have hsz : GET_SIZE s.mem bp = sz := (Seg_hdr _ _ _ _ h.seg _ _ _ hb).2.1
  have hi := bucket_lt sz
  have hbb := blk_bounds s bs bk F h _ _ _ hb
  have hentry : get_index s (GET_SIZE s.mem bp) = s.mem_start_brk + 8 * bucket sz := by
    rw [hsz, get_index_eq, h.efl]
  obtain ⟨l1, l2, hloop, hl, hl1, hl2⟩ := insert_loop_spec s.mem bp _ _ (h.index.lists _ hi)
    (fuel s + 1) (bucket_length s bs bk F h _ hi)
  rw [hsz] at hl1 hl2
  refine ⟨l1, l2, hl, hl1, hl2,
    put_suc (put_suc s.mem bp (succeed s.mem (lastNode (s.mem_start_brk + 8 * bucket sz) l1)))
      (lastNode (s.mem_start_brk + 8 * bucket sz) l1) bp, ?_, ?_, ?_⟩
  · unfold insert
    simp only [hentry, hloop]
  · have hbpcell : FreeCell s.mem_start_brk bs bp := Or.inr ⟨pa, sz, hb⟩
    have hqmem : lastNode (s.mem_start_brk + 8 * bucket sz) l1 ∈
        (s.mem_start_brk + 8 * bucket sz) :: bk (bucket sz) := by
      have := lastNode_mem (s.mem_start_brk + 8 * bucket sz) l1
      rw [hl]
      simp only [List.mem_cons, List.mem_append] at this ⊢
      rcases this with e | e
      · exact Or.inl e
      · exact Or.inr (Or.inl e)
    have hqcell := cell_is_free s bs bk F h _ hi _ hqmem
    have hbp_notcell : ∀ j, j < 9 → bp ∉ (s.mem_start_brk + 8 * j) :: bk j := by
      intro j hj hmem
      simp only [List.mem_cons] at hmem
      rcases hmem with e | e
      · omega
      · obtain ⟨z, hz, -⟩ := h.index.sound j hj bp e
        exact hF z hz
    apply Wf_mem s bs bs bk _ F _ h
    · rw [(GET_put_suc_cell s bs bk F h _ _ _ hqcell).1, (GET_put_suc_cell s bs bk F h _ _ _ hbpcell).1]
      exact h.prologue
    · exact Seg_put_suc_cell s bs bk F h _ (Seg_put_suc_cell s bs bk F h _ h.seg _ _ hbpcell) _ _ hqcell
    · exact h.endA
    · rw [(GET_put_suc_cell s bs bk F h _ _ _ hqcell).2, (GET_put_suc_cell s bs bk F h _ _ _ hbpcell).2]
      exact h.epihdr
    · constructor
      · intro j hj
        by_cases hji : j = bucket sz
        · subst hji
          rw [Function.update_same]
          have hnd := cells_nodup s bs bk F h _ hi
          have hlist := h.index.lists _ hi
          rw [hl] at hnd hlist
          apply insert_list s.mem bp _ l1 l2 hlist hnd hbb.2.2.2.2.2.2 hbb.2.2.2.2.2.1
          · intro x hx
            rw [← hl] at hx
            apply cell_blk_apart s bs bk F h _ hi x hx bp pa _ hb
            intro e; subst e; exact hbp_notcell _ hi hx
          · intro x hx y hy hne
            rw [← hl] at hx hy
            exact cell_cell_apart s bs bk F h _ _ hi hi x y hx hy hne
        · rw [Function.update_noteq hji]
          apply ListAt_put_suc
          · apply ListAt_put_suc _ _ _ _ _ (h.index.lists j hj)
            intro x hx
            apply cell_blk_apart s bs bk F h _ hj x hx bp pa _ hb
            intro e; subst e; exact hbp_notcell _ hj hx
          · intro x hx
            apply cell_cell_apart s bs bk F h _ _ hj hi x _ hx hqmem
            intro e; subst e
            exact cells_disjoint s bs bk F h _ _ hj hi hji _ hx hqmem
      · intro j hj x hx
        by_cases hji : j = bucket sz
        · subst hji
          rw [Function.update_same] at hx
          simp only [List.mem_append, List.mem_cons] at hx
          have hold : x ∈ bk (bucket sz) → ∃ z, (F x z ∨ x = bp ∧ z = sz) ∧ bucket z = bucket sz := by
            intro hx'
            obtain ⟨z, hz, hbz⟩ := h.index.sound _ hi x hx'
            exact ⟨z, Or.inl hz, hbz⟩
          rcases hx with e | e | e
          · exact hold (by rw [hl]; exact List.mem_append_left _ e)
          · exact ⟨sz, Or.inr ⟨e, rfl⟩, rfl⟩
          · exact hold (by rw [hl]; exact List.mem_append_right _ e)
        · rw [Function.update_noteq hji] at hx
          obtain ⟨z, hz, hbz⟩ := h.index.sound _ hj x hx
          exact ⟨z, Or.inl hz, hbz⟩
      · intro x z hz
        rcases hz with hz | ⟨rfl, rfl⟩
        · have hc := h.index.complete x z hz
          by_cases hji : bucket z = bucket sz
          · rw [hji, Function.update_same]
            rw [hji, hl] at hc
            simp only [List.mem_append, List.mem_cons] at hc ⊢
            rcases hc with e | e
            · exact Or.inl e
            · exact Or.inr (Or.inr e)
          · rw [Function.update_noteq hji]; exact hc
        · rw [Function.update_same]; simp
      · intro j hj
        by_cases hji : j = bucket sz
        · subst hji
          rw [Function.update_same, List.nodup_middle]
          have hnd := h.index.nodup _ hi
          rw [hl] at hnd
          refine List.nodup_cons.mpr ⟨?_, hnd⟩
          intro hmem
          rw [← hl] at hmem
          exact hbp_notcell _ hi (List.mem_cons_of_mem _ hmem)
        · rw [Function.update_noteq hji]; exact h.index.nodup j hj
    · intro x z hz
      rcases hz with hz | ⟨rfl, rfl⟩
      · exact h.F_free x z hz
      · exact ⟨pa, hb⟩
  · intro y hy
    have hbpcell : FreeCell s.mem_start_brk bs bp := Or.inr ⟨pa, sz, hb⟩
    have hqmem : lastNode (s.mem_start_brk + 8 * bucket sz) l1 ∈
        (s.mem_start_brk + 8 * bucket sz) :: bk (bucket sz) := by
      have := lastNode_mem (s.mem_start_brk + 8 * bucket sz) l1
      rw [hl]
      simp only [List.mem_cons, List.mem_append] at this ⊢
      rcases this with e | e
      · exact Or.inl e
      · exact Or.inr (Or.inl e)
    have hqcell := cell_is_free s bs bk F h _ hi _ hqmem
    have f1 := (freeCell_facts s bs bk F h _ hbpcell).2.2.1 y hy
    have f2 := (freeCell_facts s bs bk F h _ hqcell).2.2.1 y hy
    rw [put_suc_byte_out _ _ _ _ (by omega), put_suc_byte_out _ _ _ _ (by omega)]

theorem delete_spec (s : Heap) (bs : List Blk) (bk : Nat → List Nat) (F : Nat → Nat → Prop)
    (h : Wf s bs bk F) (bp sz : Nat) (hF : F bp sz) :
    ∃ l1 l2, bk (bucket sz) = l1 ++ bp :: l2 ∧
      ∃ m', delete s bp = some { s with mem := m' } ∧
        Wf { s with mem := m' } bs (Function.update bk (bucket sz) (l1 ++ l2))
          (fun x z => F x z ∧ x ≠ bp) ∧
        (∀ y, Payload (s.mem_start_brk + 80) bs y → m'.byte y = s.mem.byte y) := by
  obtain ⟨pa, hb⟩ := h.F_free bp sz hF
  have hsz : GET_SIZE s.mem bp = sz := (Seg_hdr _ _ _ _ h.seg _ _ _ hb).2.1
  have hi := bucket_lt sz
  have hentry : get_index s (GET_SIZE s.mem bp) = s.mem_start_brk + 8 * bucket sz := by
    rw [hsz, get_index_eq, h.efl]
  obtain ⟨l1, l2, hloop, hl, hl1⟩ := delete_loop_spec s.mem bp _ _ (h.index.lists _ hi)
    (fuel s + 1) (bucket_length s bs bk F h _ hi) (h.index.complete bp sz hF)
  have hqmem : lastNode (s.mem_start_brk + 8 * bucket sz) l1 ∈
      (s.mem_start_brk + 8 * bucket sz) :: bk (bucket sz) := by
    have := lastNode_mem (s.mem_start_brk + 8 * bucket sz) l1
    rw [hl]
    simp only [List.mem_cons, List.mem_append] at this ⊢
    rcases this with e | e
    · exact Or.inl e
    · exact Or.inr (Or.inl e)
  have hqcell := cell_is_free s bs bk F h _ hi _ hqmem
  have hnd0 := h.index.nodup _ hi
  rw [hl] at hnd0
  have hbp2 : bp ∉ l1 ++ l2 := by
    have := List.nodup_middle.mp hnd0
    exact (List.nodup_cons.mp this).1
  refine ⟨l1, l2, hl,
    put_suc s.mem (lastNode (s.mem_start_brk + 8 * bucket sz) l1) (succeed s.mem bp), ?_, ?_, ?_⟩
  · unfold delete
    simp only [hentry, hloop]
  · apply Wf_mem s bs bs bk _ F _ h
    · rw [(GET_put_suc_cell s bs bk F h _ _ _ hqcell).1]; exact h.prologue
    · exact Seg_put_suc_cell s bs bk F h _ h.seg _ _ hqcell
    · exact h.endA
    · rw [(GET_put_suc_cell s bs bk F h _ _ _ hqcell).2]; exact h.epihdr
    · constructor
      · intro j hj
        by_cases hji : j = bucket sz
        · subst hji
          rw [Function.update_same]
          have hnd := cells_nodup s bs bk F h _ hi
          have hlist := h.index.lists _ hi
          rw [hl] at hnd hlist
          apply delete_list s.mem bp _ l1 l2 hlist hnd
          intro x hx y hy hne
          rw [← hl] at hx hy
          exact cell_cell_apart s bs bk F h _ _ hi hi x y hx hy hne
        · rw [Function.update_noteq hji]
          apply ListAt_put_suc _ _ _ _ _ (h.index.lists j hj)
          intro x hx
          apply cell_cell_apart s bs bk F h _ _ hj hi x _ hx hqmem
          intro e; subst e
          exact cells_disjoint s bs bk F h _ _ hj hi hji _ hx hqmem
      · intro j hj x hx
        by_cases hji : j = bucket sz
        · subst hji
          rw [Function.update_same] at hx
          have hx' : x ∈ bk (bucket sz) := by
            rw [hl]
            simp only [List.mem_append, List.mem_cons] at hx ⊢
            rcases hx with e | e
            · exact Or.inl e
            · exact Or.inr (Or.inr e)
          obtain ⟨z, hz, hbz⟩ := h.index.sound _ hi x hx'
          refine ⟨z, ⟨hz, ?_⟩, hbz⟩
          intro e; subst e; exact hbp2 hx
        · rw [Function.update_noteq hji] at hx
          obtain ⟨z, hz, hbz⟩ := h.index.sound _ hj x hx
          refine ⟨z, ⟨hz, ?_⟩, hbz⟩
          intro e; subst e
          exact hji (node_bucket_unique s bs bk F h j _ hj hi _ hx (h.index.complete _ sz hF))
      · intro x z hz
        have hc := h.index.complete x z hz.1
        by_cases hji : bucket z = bucket sz
        · rw [hji, Function.update_same]
          rw [hji, hl] at hc
          simp only [List.mem_append, List.mem_cons] at hc ⊢
          rcases hc with e | e | e
          · exact Or.inl e
          · exact absurd e hz.2
          · exact Or.inr e
        · rw [Function.update_noteq hji]; exact hc
      · intro j hj
        by_cases hji : j = bucket sz
        · subst hji
          rw [Function.update_same]
          have := List.nodup_middle.mp hnd0
          exact (List.nodup_cons.mp this).2
        · rw [Function.update_noteq hji]; exact h.index.nodup j hj
    · intro x z hz
      exact h.F_free x z hz.1
  · intro y hy
    have f2 := (freeCell_facts s bs bk F h _ hqcell).2.2.1 y hy
    rw [put_suc_byte_out _ _ _ _ (by omega)]

theorem find_fit_rest_spec (m : Mem) (lo : Nat) (bk : Nat → List Nat)
    (hl : ∀ i, i < 9 → ListAt m (lo + 8 * i) (bk i)) (f j : Nat) (hj : j ≤ 9) (hf : 9 - j < f) :
    ∃ r, find_fit_rest m (lo + 72) f (lo + 8 * j) = some r ∧
      ((r = 0 ∧ ∀ i, j ≤ i → i < 9 → bk i = []) ∨
       (r ≠ 0 ∧ ∃ i, j ≤ i ∧ i < 9 ∧ (bk i).head? = some r ∧ ∀ i', j ≤ i' → i' < i → bk i' = [])) := by
  induction f generalizing j with
  | zero => omega
  | succ f ih =>
    by_cases h9 : j = 9
    · subst h9
      refine ⟨0, by simp [find_fit_rest], Or.inl ⟨rfl, fun i h1 h2 => by omega⟩⟩
    · have hj' : j < 9 := by omega
      have hne : lo + 8 * j ≠ lo + 72 := by omega
      have hlj := hl j hj'
      cases hbk : bk j with
      | nil =>
        rw [hbk] at hlj
        simp only [ListAt] at hlj
        obtain ⟨r, hr, hcase⟩ := ih (j + 1) (by omega) (by omega)
        refine ⟨r, ?_, ?_⟩
        · simp only [find_fit_rest, ne_eq, hne, not_false_eq_true, if_true, hlj, not_true_eq_false,
            if_false, DSIZE]
          rw [show lo + 8 * j + 8 = lo + 8 * (j + 1) by ring]
          exact hr
        · rcases hcase with ⟨r0, hall⟩ | ⟨rne, i, h1, h2, h3, h4⟩
          · left; refine ⟨r0, ?_⟩
            intro i h1 h2
            by_cases e : i = j
            · subst e; exact hbk
            · exact hall i (by omega) h2
          · right; refine ⟨rne, i, by omega, h2, h3, ?_⟩
            intro i' g1 g2
            by_cases e : i' = j
            · subst e; exact hbk
            · exact h4 i' (by omega) g2
      | cons x xs =>
        rw [hbk] at hlj
        simp only [ListAt] at hlj
        refine ⟨x, ?_, Or.inr ⟨hlj.2.1, j, Nat.le_refl _, hj', by simp [hbk], fun i' g1 g2 => by omega⟩⟩
        simp only [find_fit_rest, ne_eq, hne, not_false_eq_true, if_true, hlj.1, hlj.2.1]

theorem find_fit_spec (s : Heap) (bs : List Blk) (bk : Nat → List Nat) (F : Nat → Nat → Prop)
    (h : Wf s bs bk F) (asize : Nat) :
    ∃ r, find_fit s asize = some r ∧
      ((r = 0 ∧ ∀ x z, F x z → z < asize) ∨ (r ≠ 0 ∧ ∃ z, F r z ∧ asize ≤ z)) := by
  have hi := bucket_lt asize
  have hentry : get_index s asize = s.mem_start_brk + 8 * bucket asize := by
    rw [get_index_eq, h.efl]
  have hsize : ∀ j, j < 9 → ∀ x ∈ bk j, ∃ z, F x z ∧ bucket z = j ∧ GET_SIZE s.mem x = z ∧ x ≠ 0 := by
    intro j hj x hx
    obtain ⟨z, pa, hz, hbz, hm⟩ := node_blk s bs bk F h j hj x hx
    have hb := blk_bounds s bs bk F h _ _ _ hm
    exact ⟨z, hz, hbz, (Seg_hdr _ _ _ _ h.seg _ _ _ hm).2.1, hb.2.2.2.2.2.2⟩
  obtain ⟨r, hr, hcase⟩ := find_fit_scan_spec s.mem asize _ _ (h.index.lists _ hi) (fuel s + 1)
    (bucket_length s bs bk F h _ hi)
  rcases hcase with ⟨r0, hall⟩ | ⟨l1, l2, e, hs, -⟩
  · subst r0
    obtain ⟨r', hr', hcase'⟩ := find_fit_rest_spec s.mem s.mem_start_brk bk h.index.lists 10
      (bucket asize + 1) (by omega) (by omega)
    refine ⟨r', ?_, ?_⟩
    · unfold find_fit
      simp only [hentry, hr, ne_eq, not_true_eq_false, if_false, h.fle, free_list_size, DSIZE]
      rw [show s.mem_start_brk + 8 * bucket asize + 8 = s.mem_start_brk + 8 * (bucket asize + 1) by ring]
      exact hr'
    · rcases hcase' with ⟨r0, hempty⟩ | ⟨rne, j, h1, h2, h3, -⟩
      · left; refine ⟨r0, ?_⟩
        intro x z hz
        by_contra hcon
        have hmono := bucket_mono asize z (by omega)
        have hc := h.index.complete x z hz
        by_cases e : bucket z = bucket asize
        · rw [e] at hc
          obtain ⟨z', hz', -, hg, -⟩ := hsize _ hi x hc
          have := F_unique s bs bk F h x z z' hz hz'
          have := hall x hc
          omega
        · have := hempty (bucket z) (by omega) (bucket_lt z)
          rw [this] at hc
          simp at hc
      · right
        have hmem : r' ∈ bk j := by
          cases hbk : bk j with
          | nil => rw [hbk] at h3; simp at h3
          | cons y ys => rw [hbk] at h3; simp at h3; subst h3; simp
        obtain ⟨z, hz, hbz, -, -⟩ := hsize j h2 r' hmem
        refine ⟨rne, z, hz, ?_⟩
        by_contra hcon
        have := bucket_mono z asize (by omega)
        omega
  · have hmem : r ∈ bk (bucket asize) := by rw [e]; simp
    obtain ⟨z, hz, -, hg, hne⟩ := hsize _ hi r hmem
    refine ⟨r, ?_, Or.inr ⟨hne, z, hz, by omega⟩⟩
    unfold find_fit
    simp only [hentry, hr, ne_eq, hne, not_false_eq_true, if_true]

/-! ## Header words -/

theorem hdr_mod8 (size : Nat) (pa al : Bool) (hs : size % 8 = 0) :
    hdr size pa al % 8 = 2 * pa.toNat + al.toNat ∧ hdr size pa al / 8 * 8 = size := by
  have h1 := toNat_le_one pa
  have h2 := toNat_le_one al
  unfold hdr; omega

theorem PACK_eq (size : Nat) (pa al : Bool) (hs : size % 8 = 0) :
    PACK size pa.toNat al.toNat = hdr size pa al := by
  unfold PACK hdr
  have e1 : (1 : Nat) <<< 1 = 2 := by decide
  have e0 : (0 : Nat) <<< 1 = 0 := by decide
  cases pa <;> cases al <;>
    simp only [Bool.toNat_true, Bool.toNat_false, e1, e0, Nat.or_zero, or_1, or_2] <;> omega

theorem SET_ALLOC_eq (m : Mem) (p size : Nat) (pa al : Bool) (hw : GET m p = hdr size pa al)
    (hs : size % 8 = 0) : SET_ALLOC m p = PUT m p (hdr size pa true) := by
  have h1 := toNat_le_one pa
  have h2 := toNat_le_one al
  unfold SET_ALLOC
  rw [hw, or_1]
  congr 1
  unfold hdr
  simp only [Bool.toNat_true]
  omega

theorem RESET_ALLOC_eq (m : Mem) (p size : Nat) (pa al : Bool) (hw : GET m p = hdr size pa al)
    (hs : size % 8 = 0) : RESET_ALLOC m p = PUT m p (hdr size pa false) := by
  have h1 := toNat_le_one pa
  have h2 := toNat_le_one al
  have hlt := GET_lt m p
  unfold RESET_ALLOC
  rw [and_not1 _ hlt, hw]
  congr 1
  unfold hdr
  simp only [Bool.toNat_false]
  omega

theorem SET_PALLOC_eq (m : Mem) (p size : Nat) (pa al : Bool) (hw : GET m p = hdr size pa al)
    (hs : size % 8 = 0) : SET_PALLOC m p = PUT m p (hdr size true al) := by
  have h1 := toNat_le_one pa
  have h2 := toNat_le_one al
  unfold SET_PALLOC
  rw [hw, or_2]
  congr 1
  unfold hdr
  simp only [Bool.toNat_true]
  omega

theorem RESET_PALLOC_eq (m : Mem) (p size : Nat) (pa al : Bool) (hw : GET m p = hdr size pa al)
    (hs : size % 8 = 0) : RESET_PALLOC m p = PUT m p (hdr size false al) := by
  have h1 := toNat_le_one pa
  have h2 := toNat_le_one al
  have hlt := GET_lt m p
  unfold RESET_PALLOC
  rw [and_not2 _ hlt, hw]
  congr 1
  unfold hdr
  simp only [Bool.toNat_false]
  omega

theorem SET_SIZE_eq (m : Mem) (p w size' : Nat) (hw : GET m p = w) (hs' : size' % 8 = 0) :
    SET_SIZE m p size' = PUT m p (size' + w % 8) := by
  unfold SET_SIZE
  rw [hw, and_7, low_or_size _ _ (by omega) hs']

theorem GET_PUT_hdr (m : Mem) (p size : Nat) (pa al : Bool) (hs : size + 8 ≤ 2 ^ 32) :
    GET (PUT m p (hdr size pa al)) p = hdr size pa al := by
  have h1 := toNat_le_one pa
  have h2 := toNat_le_one al
  rw [GET_PUT_same, Nat.mod_eq_of_lt]
  unfold hdr; omega

/-! ## Splitting a chain at a block -/

theorem lastAlloc_cons_indep (x y : Bool) (bs : List Blk) (h : bs ≠ []) :
    lastAlloc x bs = lastAlloc y bs := by
  cases bs with
  | nil => exact absurd rfl h
  | cons b bs => rfl

theorem NoAdj_append (pa : Bool) (xs ys : List Blk) :
    NoAdj pa (xs ++ ys) ↔ NoAdj pa xs ∧ NoAdj (lastAlloc pa xs) ys := by
  induction xs generalizing pa with
  | nil => simp [NoAdj, lastAlloc]
  | cons b xs ih =>
    show ((pa = true ∨ b.alloc = true) ∧ NoAdj b.alloc (xs ++ ys)) ↔
      ((pa = true ∨ b.alloc = true) ∧ NoAdj b.alloc xs) ∧ NoAdj (lastAlloc b.alloc xs) ys
    rw [ih]
    constructor
    · rintro ⟨a, b, c⟩; exact ⟨⟨a, b⟩, c⟩
    · rintro ⟨⟨a, b⟩, c⟩; exact ⟨a, b, c⟩

theorem NoAdj_weaken (pa : Bool) (bs : List Blk) (h : NoAdj pa bs) : NoAdj true bs := by
  cases bs with
  | nil => trivial
  | cons b bs => exact ⟨Or.inl rfl, h.2⟩

/-- The chain of a well-formed state around one of its blocks. -/
theorem chain_split (s : Heap) (bs : List Blk) (bk : Nat → List Nat) (F : Nat → Nat → Prop)
    (h : Wf s bs bk F) (x : Nat) (pa : Bool) (b : Blk)
    (hx : (x, pa, b) ∈ blocks (s.mem_start_brk + 80) true bs) :
    ∃ pre post, bs = pre ++ b :: post ∧ x = endAddr (s.mem_start_brk + 80) pre ∧
      pa = lastAlloc true pre ∧ Seg s.mem (s.mem_start_brk + 80) true pre ∧
      BlockOK s.mem x pa b ∧ Seg s.mem (x + b.size) b.alloc post ∧
      endAddr (x + b.size) post = s.mem_brk := by
  obtain ⟨pre, post, e1, e2, e3⟩ := mem_blocks_split _ _ _ _ _ _ hx
  have hseg := h.seg
  have hend := h.endA
  rw [e1] at hseg hend
  rw [Seg_append, Seg_cons] at hseg
  rw [endAddr_append] at hend
  simp only [endAddr] at hend
  rw [← e2, ← e3] at hseg
  rw [← e2] at hend
  exact ⟨pre, post, e1, e2, e3, hseg.1, hseg.2.1, hseg.2.2, hend⟩

/-- The chain after a block still holds when memory changes only below that block's end
and the flag recorded in the header that follows is kept up to date. -/
theorem Seg_after (m m' : Mem) (a : Nat) (pa pa' : Bool) (post : List Blk) (h : Seg m a pa post)
    (ha : 4 ≤ a) (hm : ∀ y, a ≤ y → m'.byte y = m.byte y)
    (hh : ∀ c cs, post = c :: cs → GET m' (a - 4) = hdr c.size pa' c.alloc) :
    Seg m' a pa' post := by
  cases post with
  | nil => exact Seg_nil _ _ _
  | cons c cs =>
    rw [Seg_cons] at h ⊢
    obtain ⟨⟨g1, g2, g3, g4⟩, hrest⟩ := h
    refine ⟨⟨g1, g2, hh c cs rfl, ?_⟩, ?_⟩
    · intro hf
      obtain ⟨t, ht, e⟩ := g4 hf
      refine ⟨t, ht, ?_⟩
      rw [GET_congr m m' _ (fun y h1 h2 => hm y (by omega))]; exact e
    · apply Seg_frame_out m m' _ _ _ hrest (by omega)
      intro y h1 h2; exact hm y (by omega)

/-- The chain before a block still holds when memory changes only from that block's
header on. -/
theorem Seg_before (m m' : Mem) (a : Nat) (pre : List Blk) (h : Seg m a true pre) (ha : 4 ≤ a)
    (hm : ∀ y, y < endAddr a pre - 4 → m'.byte y = m.byte y) : Seg m' a true pre :=
  Seg_frame_out m m' _ _ _ h ha (fun y _ h2 => hm y h2)

/-! ## Membership in a chain split at a block -/

theorem blocks_pa_indep (a : Nat) (pa pa' : Bool) (bs : List Blk) (x : Nat) (p : Bool) (b : Blk)
    (h : (x, p, b) ∈ blocks a pa bs) : ∃ p', (x, p', b) ∈ blocks a pa' bs := by
  cases bs with
  | nil => simp [blocks] at h
  | cons c cs =>
    simp only [blocks, List.mem_cons, Prod.mk.injEq] at h ⊢
    rcases h with ⟨h1, -, h3⟩ | h
    · exact ⟨pa', Or.inl ⟨h1, rfl, h3⟩⟩
    · exact ⟨p, Or.inr h⟩

theorem isBlk_split (a : Nat) (pa0 pa1 : Bool) (pre post : List Blk) (c : Blk) (x : Nat) (b : Blk) :
    (∃ p, (x, p, b) ∈ blocks a pa0 (pre ++ c :: post)) ↔
      (∃ p, (x, p, b) ∈ blocks a pa0 pre) ∨ (x = endAddr a pre ∧ b = c) ∨
      (∃ p, (x, p, b) ∈ blocks (endAddr a pre + c.size) pa1 post) := by
  simp only [blocks_append, blocks, List.mem_append, List.mem_cons, Prod.mk.injEq]
  constructor
  · rintro ⟨p, h | ⟨h1, -, h3⟩ | h⟩
    · exact Or.inl ⟨p, h⟩
    · exact Or.inr (Or.inl ⟨h1, h3⟩)
    · exact Or.inr (Or.inr (blocks_pa_indep _ _ _ _ _ _ _ h))
  · rintro (⟨p, h⟩ | ⟨h1, h3⟩ | ⟨p, h⟩)
    · exact ⟨p, Or.inl h⟩
    · exact ⟨_, Or.inr (Or.inl ⟨h1, rfl, h3⟩)⟩
    · obtain ⟨p', h'⟩ := blocks_pa_indep _ _ c.alloc _ _ _ _ h
      exact ⟨p', Or.inr (Or.inr h')⟩

theorem isBlk_bounds (a : Nat) (pa0 : Bool) (bs : List Blk) (x : Nat) (b : Blk)
    (h : ∃ p, (x, p, b) ∈ blocks a pa0 bs) : a ≤ x ∧ x + b.size ≤ endAddr a bs := by
  obtain ⟨p, h⟩ := h
  exact mem_blocks_bounds _ _ _ _ _ _ h

/-- A byte of an allocated payload lies in no header, in no free block, not in the
sentinel table and before the epilogue header. -/
theorem payload_facts (s : Heap) (bs : List Blk) (bk : Nat → List Nat) (F : Nat → Nat → Prop)
    (h : Wf s bs bk F) (y : Nat) (hy : Payload (s.mem_start_brk + 80) bs y) :
    s.mem_start_brk + 80 ≤ y ∧ y < s.mem_brk - 4 ∧
    ∀ x pa b, (x, pa, b) ∈ blocks (s.mem_start_brk + 80) true bs →
      ¬(x - 4 ≤ y ∧ y < x) ∧ (b.alloc = false → ¬(x - 4 ≤ y ∧ y < x + b.size - 4)) ∧
      ¬(x + b.size - 4 ≤ y ∧ y < x + b.size) := by
  obtain ⟨x0, pa0, b0, hx0, hal, h1, h2⟩ := hy
  have b0b := blk_bounds s bs bk F h _ _ _ hx0
  refine ⟨by omega, by omega, ?_⟩
  intro x pa b hx
  have bb := blk_bounds s bs bk F h _ _ _ hx
  rcases blk_apart s bs bk F h _ _ _ _ _ _ hx0 hx with ⟨e1, -, e3⟩ | e | e
  · subst e1 e3
    refine ⟨by omega, ?_, by omega⟩
    intro hf; rw [hf] at hal; simp at hal
  · exact ⟨by omega, fun _ => by omega, by omega⟩
  · exact ⟨by omega, fun _ => by omega, by omega⟩

/-- A cell of the index lies outside every block that is not listed. -/
theorem node_outside (s : Heap) (bs : List Blk) (bk : Nat → List Nat) (F : Nat → Nat → Prop)
    (h : Wf s bs bk F) (i : Nat) (hi : i < 9) (q : Nat)
    (hq : q ∈ (s.mem_start_brk + 8 * i) :: bk i)
    (x : Nat) (pa : Bool) (b : Blk) (hx : (x, pa, b) ∈ blocks (s.mem_start_brk + 80) true bs)
    (hF : ∀ z, ¬F x z) : q + 8 ≤ x - 4 ∧ q + 8 ≤ s.mem_brk - 4 ∨ x + b.size ≤ q ∧ q + 8 ≤ s.mem_brk - 4 := by
  have bb := blk_bounds s bs bk F h _ _ _ hx
  simp only [List.mem_cons] at hq
  rcases hq with rfl | hq
  · left; omega
  · obtain ⟨sz, pq, hFq, -, hm⟩ := node_blk s bs bk F h i hi q hq
    have bq := blk_bounds s bs bk F h _ _ _ hm
    simp only at bq
    rcases blk_apart s bs bk F h _ _ _ _ _ _ hm hx with ⟨e1, -, -⟩ | e | e
    · subst e1; exact absurd hFq (hF sz)
    · simp only at e; left; omega
    · right; omega

/-- The bucket lists survive a memory change confined to an unlisted block and the
header that follows it. -/
theorem lists_frame (s : Heap) (bs : List Blk) (bk : Nat → List Nat) (F : Nat → Nat → Prop)
    (h : Wf s bs bk F) (x : Nat) (pa : Bool) (b : Blk)
    (hx : (x, pa, b) ∈ blocks (s.mem_start_brk + 80) true bs) (hF : ∀ z, ¬F x z) (m' : Mem)
    (hm : ∀ y, y < x - 4 ∨ x + b.size ≤ y → m'.byte y = s.mem.byte y) :
    ∀ i, i < 9 → ListAt m' (s.mem_start_brk + 8 * i) (bk i) := by
  intro i hi
  apply ListAt_congr s.mem m' _ _ (h.index.lists i hi)
  intro q hq y h1 h2
  have := node_outside s bs bk F h i hi q hq x pa b hx hF
  exact hm y (by omega)

/-! ## `place` -/

/-- The header word that follows a block whose successors are `post`: the header of
the first block of `post`, or the epilogue header. -/
theorem next_hdr (m : Mem) (a : Nat) (pa : Bool) (post : List Blk) (hseg : Seg m a pa post)
    (la : Bool) (hepi : GET m (endAddr a post - 4) = hdr 0 (lastAlloc la post) true)
    (hla : post = [] → la = pa) :
    ∃ nsize nal, GET m (a - 4) = hdr nsize pa nal ∧ nsize % 8 = 0 ∧ nsize + 8 ≤ 2 ^ 32 ∧
      (post = [] → nsize = 0 ∧ nal = true) ∧
      (∀ c cs, post = c :: cs → nsize = c.size ∧ nal = c.alloc) := by
  cases post with
  | nil =>
    simp only [endAddr, lastAlloc] at hepi
    rw [hla rfl] at hepi
    exact ⟨0, true, hepi, by simp, by norm_num, fun _ => ⟨rfl, rfl⟩, fun c cs e => by simp at e⟩
  | cons c cs =>
    rw [Seg_cons] at hseg
    obtain ⟨⟨g1, g2, g3, -⟩, -⟩ := hseg
    have hlt := GET_lt m (a - 4)
    refine ⟨c.size, c.alloc, g3, g2, ?_, fun e => by simp at e, ?_⟩
    · rw [g3] at hlt; unfold hdr at hlt; omega
    · intro c' cs' e
      simp only [List.cons.injEq] at e
      rw [← e.1]; exact ⟨rfl, rfl⟩

theorem place_nosplit (s : Heap) (pre post : List Blk) (csize asize : Nat)
    (bk : Nat → List Nat) (F : Nat → Nat → Prop)
    (h : Wf s (pre ++ Blk.mk csize false :: post) bk F)
    (hF : ∀ x z, F x z ↔ (IsFree (s.mem_start_brk + 80) (pre ++ Blk.mk csize false :: post) x z ∧
      x ≠ endAddr (s.mem_start_brk + 80) pre))
    (hna : NoAdj true (pre ++ Blk.mk csize false :: post))
    (hac : asize ≤ csize) (hsmall : csize - asize ≤ 16) :
    ∃ m', place s (endAddr (s.mem_start_brk + 80) pre) asize =
        some (endAddr (s.mem_start_brk + 80) pre, { s with mem := m' }) ∧
      Wf { s with mem := m' } (pre ++ Blk.mk csize true :: post) bk
        (IsFree (s.mem_start_brk + 80) (pre ++ Blk.mk csize true :: post)) ∧
      NoAdj true (pre ++ Blk.mk csize true :: post) ∧
      (∀ y, Payload (s.mem_start_brk + 80) (pre ++ Blk.mk csize false :: post) y →
        m'.byte y = s.mem.byte y) := by
  have hmem := mem_blocks_of_split (s.mem_start_brk + 80) true pre post (Blk.mk csize false)
  have hbb := blk_bounds s _ bk F h _ _ _ hmem
  simp only at hbb
  have hseg := h.seg
  rw [Seg_append, Seg_cons] at hseg
  obtain ⟨hpre, hblk, hpost⟩ := hseg
  simp only at hblk hpost
  have hend := h.endA
  rw [endAddr_append] at hend
  simp only [endAddr] at hend
  have hna' := hna
  rw [NoAdj_append] at hna'
  obtain ⟨hna1, hna2, hna3⟩ := hna'
  simp only at hna3
  have hpa : lastAlloc true pre = true := by
    rcases hna2 with e | e
    · exact e
    · simp at e
  have hepi := h.epihdr
  rw [lastAlloc_append] at hepi
  simp only [lastAlloc] at hepi
  rw [← hend] at hepi
  obtain ⟨nsize, nal, hnh, hn8, hnlt, hnil, hcons⟩ := next_hdr s.mem _ _ post hpost false hepi
    (fun _ => rfl)
  have hh := Seg_hdr _ _ _ _ h.seg _ _ _ hmem
  simp only at hh
  obtain ⟨hw, hgs, -, -⟩ := hh
  have hlo := h.max_lt
  have hbrk := h.brk_le
  -- the memory after the two header updates
  have e1 : SET_ALLOC s.mem (endAddr (s.mem_start_brk + 80) pre - 4) =
      PUT s.mem (endAddr (s.mem_start_brk + 80) pre - 4) (hdr csize (lastAlloc true pre) true) :=
    SET_ALLOC_eq _ _ _ _ _ hw hbb.2.2.2.1
  have hw1 : GET (PUT s.mem (endAddr (s.mem_start_brk + 80) pre - 4)
      (hdr csize (lastAlloc true pre) true)) (endAddr (s.mem_start_brk + 80) pre - 4) =
      hdr csize (lastAlloc true pre) true := GET_PUT_hdr _ _ _ _ _ (by omega)
  have hgs1 : GET_SIZE (PUT s.mem (endAddr (s.mem_start_brk + 80) pre - 4)
      (hdr csize (lastAlloc true pre) true)) (endAddr (s.mem_start_brk + 80) pre) = csize := by
    unfold GET_SIZE HDRP WSIZE
    rw [hw1]
    exact (hdr_decode _ _ _ _ rfl hbb.2.2.2.1 (by rw [← hw1]; exact GET_lt _ _)).1
  have hnh1 : GET (PUT s.mem (endAddr (s.mem_start_brk + 80) pre - 4)
      (hdr csize (lastAlloc true pre) true)) (endAddr (s.mem_start_brk + 80) pre + csize - 4) =
      hdr nsize false nal := by
    rw [GET_PUT_disj _ _ _ _ (by omega)]; exact hnh
  have e2 := SET_PALLOC_eq _ _ _ _ _ hnh1 hn8
  refine ⟨PUT (PUT s.mem (endAddr (s.mem_start_brk + 80) pre - 4)
      (hdr csize (lastAlloc true pre) true)) (endAddr (s.mem_start_brk + 80) pre + csize - 4)
      (hdr nsize true nal), ?_, ?_, ?_, ?_⟩
  · unfold place
    have hrem : (GET_SIZE s.mem (endAddr (s.mem_start_brk + 80) pre) + (SZ - asize % SZ)) % SZ ≤ minsize := by
      rw [hgs]; unfold SZ minsize; omega
    simp only [hrem, if_true]
    unfold find_next_blankblock HDRP WSIZE
    rw [e1, hgs1, e2]
  · have hbyte : ∀ y, y < endAddr (s.mem_start_brk + 80) pre - 4 ∨
        endAddr (s.mem_start_brk + 80) pre + csize ≤ y →
        (PUT (PUT s.mem (endAddr (s.mem_start_brk + 80) pre - 4)
          (hdr csize (lastAlloc true pre) true)) (endAddr (s.mem_start_brk + 80) pre + csize - 4)
          (hdr nsize true nal)).byte y = s.mem.byte y := by
      intro y hy
      rw [PUT_byte_out _ _ _ _ (by omega), PUT_byte_out _ _ _ _ (by omega)]
    apply Wf_mem s _ _ bk bk F _ h
    · rw [GET_PUT_disj _ _ _ _ (by omega), GET_PUT_disj _ _ _ _ (by omega)]
      exact h.prologue
    · rw [Seg_append, Seg_cons]
      refine ⟨?_, ?_, ?_⟩
      · apply Seg_before _ _ _ _ hpre (by omega)
        intro y hy; exact hbyte y (Or.inl hy)
      · refine ⟨hbb.2.2.1, hbb.2.2.2.1, ?_, fun e => by simp at e⟩
        show GET _ (endAddr (s.mem_start_brk + 80) pre - 4) = hdr csize (lastAlloc true pre) true
        rw [GET_PUT_disj _ _ _ _ (by omega), hw1]
      · apply Seg_after s.mem _ _ false true post hpost (by omega)
        · intro y hy; exact hbyte y (Or.inr hy)
        · intro c cs e
          obtain ⟨e1, e2⟩ := hcons c cs e
          show GET _ (endAddr (s.mem_start_brk + 80) pre + csize - 4) = _
          rw [GET_PUT_hdr _ _ _ _ _ hnlt, e1, e2]
    · rw [endAddr_append]; simp only [endAddr]; exact hend
    · rw [lastAlloc_append]
      simp only [lastAlloc]
      cases post with
      | nil =>
        obtain ⟨e1, e2⟩ := hnil rfl
        simp only [endAddr] at hend
        simp only [lastAlloc]
        rw [← hend, GET_PUT_hdr _ _ _ _ _ hnlt, e1, e2]
      | cons c cs =>
        have hcb := mem_blocks_bounds _ _ _ _ _ _
          (mem_blocks_of_split (endAddr (s.mem_start_brk + 80) pre + csize) false [] cs c)
        have hcs := (Seg_sizes _ _ _ _ hpost c (by simp)).1
        simp only [endAddr, List.nil_append] at hcb hend
        rw [GET_PUT_disj _ _ _ _ (by omega), GET_PUT_disj _ _ _ _ (by omega)]
        have := h.epihdr
        rw [lastAlloc_append] at this
        exact this
    · have hidx := h.index
      have hnotF : ∀ z, ¬F (endAddr (s.mem_start_brk + 80) pre) z := by
        intro z hz; exact ((hF _ _).mp hz).2 rfl
      have hiff : ∀ x z, F x z ↔ IsFree (s.mem_start_brk + 80) (pre ++ Blk.mk csize true :: post) x z := by
        intro x z
        rw [hF]
        unfold IsFree
        rw [isBlk_split _ _ true, isBlk_split _ _ true]
        constructor
        · rintro ⟨h1 | ⟨h1, -⟩ | h1, hne⟩
          · exact Or.inl h1
          · exact absurd h1 hne
          · exact Or.inr (Or.inr h1)
        · rintro (h1 | ⟨-, h1⟩ | h1)
          · refine ⟨Or.inl h1, ?_⟩
            have := isBlk_bounds _ _ _ _ _ h1
            simp only at this
            have := Seg_sizes _ _ _ _ hpre
            intro e
            obtain ⟨p, hp⟩ := h1
            have hz := (Seg_sizes _ _ _ _ hpre _ (mem_blocks_mem _ _ _ _ _ _ hp)).1
            simp only at hz
            omega
          · simp at h1
          · refine ⟨Or.inr (Or.inr h1), ?_⟩
            have := isBlk_bounds _ _ _ _ _ h1
            simp only at this
            omega
      constructor
      · exact lists_frame s _ bk F h _ _ _ hmem hnotF _ (fun y hy => hbyte y hy)
      · intro i hi x hx
        obtain ⟨z, hz, hb⟩ := hidx.sound i hi x hx
        exact ⟨z, (hiff x z).mp hz, hb⟩
      · intro x z hz
        exact hidx.complete x z ((hiff x z).mpr hz)
      · exact hidx.nodup
    · intro x sz hx; exact hx
  · rw [NoAdj_append]
    exact ⟨hna1, Or.inr rfl, NoAdj_weaken _ _ hna3⟩
  · intro y hy
    obtain ⟨h1, h2, h3⟩ := payload_facts s _ bk F h y hy
    have f1 := (h3 _ _ _ hmem).2.1 rfl
    have f2 := (h3 _ _ _ hmem).2.2
    simp only at f1 f2
    rw [PUT_byte_out _ _ _ _ (by omega), PUT_byte_out _ _ _ _ (by omega)]

theorem Wf_congr_F (s : Heap) (bs : List Blk) (bk : Nat → List Nat) (F F' : Nat → Nat → Prop)
    (h : Wf s bs bk F) (hiff : ∀ x z, F x z ↔ F' x z) : Wf s bs bk F' := by
  have e : F = F' := by funext x z; exact propext (hiff x z)
  rw [← e]; exact h

theorem isBlk_split2 (a : Nat) (pa0 pa1 : Bool) (pre post : List Blk) (c d : Blk) (x : Nat)
    (b : Blk) :
    (∃ p, (x, p, b) ∈ blocks a pa0 (pre ++ c :: d :: post)) ↔
      (∃ p, (x, p, b) ∈ blocks a pa0 pre) ∨ (x = endAddr a pre ∧ b = c) ∨
      (x = endAddr a pre + c.size ∧ b = d) ∨
      (∃ p, (x, p, b) ∈ blocks (endAddr a pre + c.size + d.size) pa1 post) := by
  rw [isBlk_split a pa0 c.alloc]
  have h2 := isBlk_split (endAddr a pre + c.size) c.alloc pa1 [] post d x b
  simp only [endAddr] at h2
  constructor
  · rintro (g | g | g)
    · exact Or.inl g
    · exact Or.inr (Or.inl g)
    · rcases h2.mp g with g' | g' | g'
      · obtain ⟨p, hp⟩ := g'; simp [blocks] at hp
      · exact Or.inr (Or.inr (Or.inl g'))
      · exact Or.inr (Or.inr (Or.inr g'))
  · rintro (g | g | g | g)
    · exact Or.inl g
    · exact Or.inr (Or.inl g)
    · exact Or.inr (Or.inr (h2.mpr (Or.inr (Or.inl g))))
    · exact Or.inr (Or.inr (h2.mpr (Or.inr (Or.inr g))))

theorem place_split (s : Heap) (pre post : List Blk) (csize asize : Nat)
    (bk : Nat → List Nat) (F : Nat → Nat → Prop)
    (h : Wf s (pre ++ Blk.mk csize false :: post) bk F)
    (hF : ∀ x z, F x z ↔ (IsFree (s.mem_start_brk + 80) (pre ++ Blk.mk csize false :: post) x z ∧
      x ≠ endAddr (s.mem_start_brk + 80) pre))
    (hna : NoAdj true (pre ++ Blk.mk csize false :: post))
    (hac : asize ≤ csize) (ha16 : 16 ≤ asize) (ha8 : asize % 8 = 0) (hbig : 16 < csize - asize) :
    ∃ m' bk', place s (endAddr (s.mem_start_brk + 80) pre) asize =
        some (endAddr (s.mem_start_brk + 80) pre, { s with mem := m' }) ∧
      Wf { s with mem := m' } (pre ++ Blk.mk asize true :: Blk.mk (csize - asize) false :: post) bk'
        (IsFree (s.mem_start_brk + 80)
          (pre ++ Blk.mk asize true :: Blk.mk (csize - asize) false :: post)) ∧
      NoAdj true (pre ++ Blk.mk asize true :: Blk.mk (csize - asize) false :: post) ∧
      (∀ y, Payload (s.mem_start_brk + 80) (pre ++ Blk.mk csize false :: post) y →
        m'.byte y = s.mem.byte y) := by
  have hmem := mem_blocks_of_split (s.mem_start_brk + 80) true pre post (Blk.mk csize false)
  have hbb := blk_bounds s _ bk F h _ _ _ hmem
  simp only at hbb
  have hseg := h.seg
  rw [Seg_append, Seg_cons] at hseg
  obtain ⟨hpre, hblk, hpost⟩ := hseg
  simp only at hblk hpost
  have hend := h.endA
  rw [endAddr_append] at hend
  simp only [endAddr] at hend
  have hna' := hna
  rw [NoAdj_append] at hna'
  obtain ⟨hna1, hna2, hna3⟩ := hna'
  simp only at hna3
  have hpa : lastAlloc true pre = true := by
    rcases hna2 with e | e
    · exact e
    · simp at e
  have hh := Seg_hdr _ _ _ _ h.seg _ _ _ hmem
  simp only at hh
  obtain ⟨hw, hgs, -, hgp⟩ := hh
  have hlo := h.max_lt
  have hbrk := h.brk_le
  have hle := le_endAddr (endAddr (s.mem_start_brk + 80) pre + csize) post
  generalize hbp : endAddr (s.mem_start_brk + 80) pre = bp at *
  generalize hpa0 : lastAlloc true pre = pa at *
  have hrem8 : (csize - asize) % 8 = 0 := by omega
  -- the three stores
  have e1 : PACK asize (get_prev_alloc s.mem bp) 1 = hdr asize pa true := by
    rw [hgp]; exact PACK_eq asize pa true ha8
  have e2 : PACK (csize - asize) 1 0 = hdr (csize - asize) true false :=
    PACK_eq (csize - asize) true false hrem8
  have hw1 : GET (PUT s.mem (bp - 4) (hdr asize pa true)) (bp - 4) = hdr asize pa true :=
    GET_PUT_hdr _ _ _ _ _ (by omega)
  have hgs1 : GET_SIZE (PUT s.mem (bp - 4) (hdr asize pa true)) bp = asize := by
    unfold GET_SIZE HDRP WSIZE
    rw [hw1]
    exact (hdr_decode _ _ _ _ rfl ha8 (by rw [← hw1]; exact GET_lt _ _)).1
  have hw2 : GET (PUT (PUT s.mem (bp - 4) (hdr asize pa true)) (bp + asize - 4)
      (hdr (csize - asize) true false)) (bp + asize - 4) = hdr (csize - asize) true false :=
    GET_PUT_hdr _ _ _ _ _ (by omega)
  have hgs2 : GET_SIZE (PUT (PUT s.mem (bp - 4) (hdr asize pa true)) (bp + asize - 4)
      (hdr (csize - asize) true false)) (bp + asize) = csize - asize := by
    unfold GET_SIZE HDRP WSIZE
    rw [hw2]
    exact (hdr_decode _ _ _ _ rfl hrem8 (by rw [← hw2]; exact GET_lt _ _)).1
  have hrem : (GET_SIZE s.mem bp + (SZ - asize % SZ)) % SZ = csize - asize := by
    rw [hgs]; unfold SZ; omega
  have hbyte : ∀ y, y < bp - 4 ∨ bp + csize - 4 ≤ y →
      (PUT (PUT (PUT s.mem (bp - 4) (hdr asize pa true)) (bp + asize - 4)
        (hdr (csize - asize) true false)) (bp + csize - 8) (hdr (csize - asize) true false)).byte y
        = s.mem.byte y := by
    intro y hy
    rw [PUT_byte_out _ _ _ _ (by omega), PUT_byte_out _ _ _ _ (by omega),
      PUT_byte_out _ _ _ _ (by omega)]
  have hnotF : ∀ z, ¬F bp z := by
    intro z hz; exact ((hF _ _).mp hz).2 rfl
  have hFold : ∀ x z, F x z ↔ ((∃ p, (x, p, Blk.mk z false) ∈ blocks (s.mem_start_brk + 80) true pre) ∨
      (∃ p, (x, p, Blk.mk z false) ∈ blocks (bp + csize) false post)) := by
    intro x z
    rw [hF]
    unfold IsFree
    rw [isBlk_split _ _ false, hbp]
    constructor
    · rintro ⟨h1 | ⟨h1, -⟩ | h1, hne⟩
      · exact Or.inl h1
      · exact absurd h1 hne
      · exact Or.inr h1
    · rintro (h1 | h1)
      · refine ⟨Or.inl h1, ?_⟩
        have hb1 := isBlk_bounds _ _ _ _ _ h1
        obtain ⟨p, hp⟩ := h1
        have hz := (Seg_sizes _ _ _ _ hpre _ (mem_blocks_mem _ _ _ _ _ _ hp)).1
        simp only at hz hb1
        omega
      · refine ⟨Or.inr (Or.inr h1), ?_⟩
        have := isBlk_bounds _ _ _ _ _ h1
        simp only at this
        omega
  have hend2 : endAddr (s.mem_start_brk + 80)
      (pre ++ Blk.mk asize true :: Blk.mk (csize - asize) false :: post) = s.mem_brk := by
    rw [endAddr_append]; simp only [endAddr]
    rw [hbp, show bp + asize + (csize - asize) = bp + csize by omega]; exact hend
  have hsplit3 : ∀ x b, (∃ p, (x, p, b) ∈ blocks (s.mem_start_brk + 80) true
      (pre ++ Blk.mk asize true :: Blk.mk (csize - asize) false :: post)) ↔
      ((∃ p, (x, p, b) ∈ blocks (s.mem_start_brk + 80) true pre) ∨
       (x = bp ∧ b = Blk.mk asize true) ∨ (x = bp + asize ∧ b = Blk.mk (csize - asize) false) ∨
       (∃ p, (x, p, b) ∈ blocks (bp + csize) false post)) := by
    intro x b
    rw [isBlk_split2 _ _ false, hbp]
    simp only
    rw [show bp + asize + (csize - asize) = bp + csize by omega]
  -- the state before the remainder is inserted
  have hWf3 : Wf { s with mem := PUT (PUT (PUT s.mem (bp - 4) (hdr asize pa true)) (bp + asize - 4)
        (hdr (csize - asize) true false)) (bp + csize - 8) (hdr (csize - asize) true false) }
      (pre ++ Blk.mk asize true :: Blk.mk (csize - asize) false :: post) bk F := by
    apply Wf_mem s _ _ bk bk F _ h
    · rw [GET_PUT_disj _ _ _ _ (by omega), GET_PUT_disj _ _ _ _ (by omega),
        GET_PUT_disj _ _ _ _ (by omega)]
      exact h.prologue
    · rw [Seg_append, Seg_cons, Seg_cons, hbp, hpa0]
      refine ⟨?_, ?_, ?_, ?_⟩
      · apply Seg_before _ _ _ _ hpre (by omega)
        intro y hy; rw [hbp] at hy; exact hbyte y (Or.inl hy)
      · refine ⟨ha16, ha8, ?_, fun e => by simp at e⟩
        show GET _ (bp - 4) = hdr asize pa true
        rw [GET_PUT_disj _ _ _ _ (by omega), GET_PUT_disj _ _ _ _ (by omega), hw1]
      · refine ⟨by simp only; omega, hrem8, ?_, fun _ => ⟨1, Nat.le_refl _, ?_⟩⟩
        · show GET _ (bp + asize - 4) = hdr (csize - asize) true false
          rw [GET_PUT_disj _ _ _ _ (by omega), hw2]
        · show GET _ (bp + asize + (csize - asize) - 8) = (csize - asize) + 2 * 1
          rw [show bp + asize + (csize - asize) - 8 = bp + csize - 8 by omega,
            GET_PUT_hdr _ _ _ _ _ (by omega)]
          simp [hdr]
      · show Seg _ (bp + asize + (csize - asize)) false post
        rw [show bp + asize + (csize - asize) = bp + csize by omega]
        apply Seg_after s.mem _ _ false false post hpost (by omega)
        · intro y hy; exact hbyte y (Or.inr (by omega))
        · intro c cs e
          rw [GET_congr s.mem _ _ (fun y h1 h2 => hbyte y (Or.inr (by omega)))]
          rw [e, Seg_cons] at hpost
          exact hpost.1.2.2.1
    · exact hend2
    · rw [lastAlloc_append]
      simp only [lastAlloc]
      rw [GET_congr s.mem _ _ (fun y h1 h2 => hbyte y (Or.inr (by omega)))]
      have := h.epihdr
      rw [lastAlloc_append] at this
      exact this
    · have hidx := h.index
      exact ⟨lists_frame s _ bk F h _ _ _ hmem hnotF _ (fun y hy => hbyte y (by
          simp only at hy; omega)), hidx.sound, hidx.complete, hidx.nodup⟩
    · intro x z hz
      apply (hsplit3 x _).mpr
      rcases (hFold x z).mp hz with h1 | h1
      · exact Or.inl h1
      · exact Or.inr (Or.inr (Or.inr h1))
  have hb1 : (bp + asize, true, Blk.mk (csize - asize) false) ∈ blocks (s.mem_start_brk + 80) true
      (pre ++ Blk.mk asize true :: Blk.mk (csize - asize) false :: post) := by
    have := mem_blocks_of_split (s.mem_start_brk + 80) true (pre ++ [Blk.mk asize true]) post
      (Blk.mk (csize - asize) false)
    rw [endAddr_append, lastAlloc_append] at this
    simp only [endAddr, lastAlloc, List.append_assoc, List.singleton_append, hbp] at this
    exact this
  have hnotF1 : ∀ z, ¬F (bp + asize) z := by
    intro z hz
    rcases (hFold _ z).mp hz with h1 | h1
    · have := isBlk_bounds _ _ _ _ _ h1
      rw [hbp] at this
      simp only at this; omega
    · have := isBlk_bounds _ _ _ _ _ h1
      simp only at this; omega
  obtain ⟨l1, l2, -, -, -, m', hins, hWf', hfr⟩ := insert_spec _ _ bk F hWf3 (bp + asize)
    (csize - asize) true hb1 hnotF1
  refine ⟨m', Function.update bk (bucket (csize - asize)) (l1 ++ (bp + asize) :: l2),
    ?_, ?_, ?_, ?_⟩
  · unfold place
    have hnot : ¬ (GET_SIZE s.mem bp + (SZ - asize % SZ)) % SZ ≤ minsize := by
      rw [hrem]; unfold minsize; omega
    simp only [hnot, if_false]
    unfold find_next_blankblock FTRP HDRP WSIZE DSIZE
    rw [hrem, e1, e2, hgs1, hgs2, show bp + asize + (csize - asize) - 8 = bp + csize - 8 by omega,
      hins]
    rfl
  · apply Wf_congr_F _ _ _ _ _ hWf'
    intro x z
    unfold IsFree
    rw [hsplit3, hFold]
    constructor
    · rintro ((h1 | h1) | ⟨h1, h2⟩)
      · exact Or.inl h1
      · exact Or.inr (Or.inr (Or.inr h1))
      · exact Or.inr (Or.inr (Or.inl ⟨h1, by rw [h2]⟩))
    · rintro (h1 | ⟨-, h1⟩ | ⟨h1, h2⟩ | h1)
      · exact Or.inl (Or.inl h1)
      · simp at h1
      · simp only [Blk.mk.injEq, and_true] at h2
        exact Or.inr ⟨h1, h2⟩
      · exact Or.inl (Or.inr h1)
  · rw [NoAdj_append]
    exact ⟨hna1, Or.inr rfl, Or.inl rfl, hna3⟩
  · intro y hy
    have hy' : Payload (s.mem_start_brk + 80)
        (pre ++ Blk.mk asize true :: Blk.mk (csize - asize) false :: post) y := by
      obtain ⟨x, p, b, hx, hal, h1, h2⟩ := hy
      have hx' : ∃ p, (x, p, b) ∈ blocks (s.mem_start_brk + 80) true
          (pre ++ Blk.mk asize true :: Blk.mk (csize - asize) false :: post) := by
        rw [hsplit3]
        have := (isBlk_split (s.mem_start_brk + 80) true false pre post (Blk.mk csize false) x b).mp
          ⟨p, hx⟩
        rcases this with g | ⟨-, g⟩ | g
        · exact Or.inl g
        · rw [g] at hal; simp at hal
        · rw [hbp] at g; exact Or.inr (Or.inr (Or.inr g))
      obtain ⟨p', hp'⟩ := hx'
      exact ⟨x, p', b, hp', hal, h1, h2⟩
    rw [hfr y hy']
    obtain ⟨h1, h2, h3⟩ := payload_facts s _ bk F h y hy
    have f1 := (h3 _ _ _ hmem).2.1 rfl
    simp only at f1
    show (PUT (PUT (PUT s.mem (bp - 4) (hdr asize pa true)) (bp + asize - 4)
        (hdr (csize - asize) true false)) (bp + csize - 8) (hdr (csize - asize) true false)).byte y
        = s.mem.byte y
    rw [PUT_byte_out _ _ _ _ (by omega), PUT_byte_out _ _ _ _ (by omega),
      PUT_byte_out _ _ _ _ (by omega)]

/-! ## Merging adjacent free blocks -/

theorem lists_frame2 (s : Heap) (bs : List Blk) (bk : Nat → List Nat) (F : Nat → Nat → Prop)
    (h : Wf s bs bk F) (m0 m' : Mem)
    (hl : ∀ i, i < 9 → ListAt m0 (s.mem_start_brk + 8 * i) (bk i))
    (x : Nat) (pa : Bool) (b : Blk)
    (hx : (x, pa, b) ∈ blocks (s.mem_start_brk + 80) true bs) (hF : ∀ z, ¬F x z)
    (hm : ∀ y, y < x - 4 ∨ x + b.size ≤ y → m'.byte y = m0.byte y) :
    ∀ i, i < 9 → ListAt m' (s.mem_start_brk + 8 * i) (bk i) := by
  intro i hi
  apply ListAt_congr m0 m' _ _ (hl i hi)
  intro q hq y h1 h2
  have := node_outside s bs bk F h i hi q hq x pa b hx hF
  exact hm y (by omega)

theorem lastAlloc_free (pa : Bool) (mid : List Blk) (hmid : mid ≠ [])
    (hfree : ∀ b ∈ mid, b.alloc = false) : lastAlloc pa mid = false := by
  induction mid generalizing pa with
  | nil => exact absurd rfl hmid
  | cons b bs ih =>
    simp only [lastAlloc]
    by_cases hb : bs = []
    · subst hb; simp only [lastAlloc]; exact hfree b (by simp)
    · exact ih _ hb (fun c hc => hfree c (by simp [hc]))

theorem merge_spec (s : Heap) (pre mid post : List Blk) (bk : Nat → List Nat)
    (F : Nat → Nat → Prop) (h : Wf s (pre ++ mid ++ post) bk F) (hmid : mid ≠ [])
    (hfree : ∀ b ∈ mid, b.alloc = false)
    (hF : ∀ x z, F x z ↔ ((∃ p, (x, p, Blk.mk z false) ∈ blocks (s.mem_start_brk + 80) true pre) ∨
      (∃ p, (x, p, Blk.mk z false) ∈
        blocks (endAddr (endAddr (s.mem_start_brk + 80) pre) mid) false post)))
    (start total : Nat) (hstart : start = endAddr (s.mem_start_brk + 80) pre)
    (htotal : start + total = endAddr start mid) :
    GET_SIZE (SET_SIZE s.mem (start - 4) total) start = total ∧
    Wf { s with mem := SET_SIZE (SET_SIZE s.mem (start - 4) total) (start + total - 8) total }
      (pre ++ Blk.mk total false :: post) bk F ∧
    (∀ y, y < start - 4 ∨ start + total - 4 ≤ y ∨ (start ≤ y ∧ y < start + total - 8) →
      (SET_SIZE (SET_SIZE s.mem (start - 4) total) (start + total - 8) total).byte y =
        s.mem.byte y) ∧
    16 ≤ total ∧ total % 8 = 0 := by
  subst hstart
  generalize hst : endAddr (s.mem_start_brk + 80) pre = start at *
  have hseg := h.seg
  rw [Seg_append, Seg_append, hst] at hseg
  obtain ⟨⟨hpre, hmidseg⟩, hpost⟩ := hseg
  rw [endAddr_append, hst, lastAlloc_append, lastAlloc_free _ mid hmid hfree, ← htotal] at hpost
  have hend := h.endA
  rw [endAddr_append, endAddr_append, hst, ← htotal] at hend
  have hlepre := le_endAddr (s.mem_start_brk + 80) pre
  have hlepost := le_endAddr (start + total) post
  rw [hst] at hlepre
  have hlo := h.max_lt
  have hbrk := h.brk_le
  -- first and last block of the run
  obtain ⟨b1, rest, hb1⟩ : ∃ b1 rest, mid = b1 :: rest := by
    cases mid with
    | nil => exact absurd rfl hmid
    | cons b bs => exact ⟨b, bs, rfl⟩
  obtain ⟨ini, bl, hbl⟩ : ∃ ini bl, mid = ini ++ [bl] := by
    rcases List.eq_nil_or_concat mid with e | ⟨L, b, e⟩
    · exact absurd e hmid
    · exact ⟨L, b, by simpa using e⟩
  have hfirst : BlockOK s.mem start (lastAlloc true pre) b1 := by
    have := hmidseg; rw [hb1, Seg_cons] at this; exact this.1
  have hlast : BlockOK s.mem (endAddr start ini) (lastAlloc (lastAlloc true pre) ini) bl := by
    have := hmidseg; rw [hbl, Seg_append, Seg_cons] at this; exact this.2.1
  have hb1free : b1.alloc = false := hfree b1 (by rw [hb1]; simp)
  have hblfree : bl.alloc = false := hfree bl (by rw [hbl]; simp)
  have hlen1 : start + b1.size ≤ start + total := by
    rw [htotal, hb1]; simp only [endAddr]; exact le_endAddr _ _
  have hlen2 : endAddr start ini + bl.size = start + total := by
    rw [htotal, hbl, endAddr_append]; simp [endAddr]
  have hleini := le_endAddr start ini
  obtain ⟨f1, f2, f3, -⟩ := hfirst
  obtain ⟨l1, l2, -, l4⟩ := hlast
  obtain ⟨t, ht, hft⟩ := l4 hblfree
  rw [hb1free] at f3
  have htot8 : total % 8 = 0 := by
    have hs := Seg_sizes _ _ _ _ h.seg
    have h8 : ∀ (l : List Blk) (a : Nat), (∀ b ∈ l, b.size % 8 = 0) → (endAddr a l - a) % 8 = 0 ∧
        a ≤ endAddr a l := by
      intro l
      induction l with
      | nil => intro a _; simp [endAddr]
      | cons c cs ih =>
        intro a hc
        have := ih (a + c.size) (fun b hb => hc b (by simp [hb]))
        have := hc c (by simp)
        simp only [endAddr]; omega
    have := h8 mid start (fun b hb => (hs b (by simp [hb])).2)
    omega
  have e1 : SET_SIZE s.mem (start - 4) total =
      PUT s.mem (start - 4) (hdr total (lastAlloc true pre) false) := by
    rw [SET_SIZE_eq _ _ _ _ f3 htot8, (hdr_mod8 _ _ _ f2).1]
    simp [hdr]
  have hft1 : GET (PUT s.mem (start - 4) (hdr total (lastAlloc true pre) false))
      (start + total - 8) = bl.size + 2 * t := by
    rw [GET_PUT_disj _ _ _ _ (by omega), ← hlen2]; exact hft
  have e2 : SET_SIZE (PUT s.mem (start - 4) (hdr total (lastAlloc true pre) false))
      (start + total - 8) total =
      PUT (PUT s.mem (start - 4) (hdr total (lastAlloc true pre) false)) (start + total - 8)
        (total + 2 * t) := by
    rw [SET_SIZE_eq _ _ _ _ hft1 htot8]
    congr 1; omega
  have hw1 : GET (PUT s.mem (start - 4) (hdr total (lastAlloc true pre) false)) (start - 4) =
      hdr total (lastAlloc true pre) false := GET_PUT_hdr _ _ _ _ _ (by omega)
  rw [e1, e2]
  have hbyte : ∀ y, y < start - 4 ∨ start + total - 4 ≤ y ∨ (start ≤ y ∧ y < start + total - 8) →
      (PUT (PUT s.mem (start - 4) (hdr total (lastAlloc true pre) false)) (start + total - 8)
        (total + 2 * t)).byte y = s.mem.byte y := by
    intro y hy
    rw [PUT_byte_out _ _ _ _ (by omega), PUT_byte_out _ _ _ _ (by omega)]
  refine ⟨?_, ?_, hbyte, by omega, htot8⟩
  · unfold GET_SIZE HDRP WSIZE
    rw [hw1]
    exact (hdr_decode _ _ _ _ rfl htot8 (by rw [← hw1]; exact GET_lt _ _)).1
  · have hm1 : (start, lastAlloc true pre, b1) ∈ blocks (s.mem_start_brk + 80) true
        (pre ++ mid ++ post) := by
      have := mem_blocks_of_split (s.mem_start_brk + 80) true pre (rest ++ post) b1
      rw [hst] at this
      rw [hb1]; simpa using this
    have hm2 : (endAddr start ini, lastAlloc (lastAlloc true pre) ini, bl) ∈
        blocks (s.mem_start_brk + 80) true (pre ++ mid ++ post) := by
      have := mem_blocks_of_split (s.mem_start_brk + 80) true (pre ++ ini) post bl
      rw [endAddr_append, lastAlloc_append, hst] at this
      rw [hbl]; simpa using this
    have hnF : ∀ x p b, (x, p, b) ∈ blocks (s.mem_start_brk + 80) true (pre ++ mid ++ post) →
        start ≤ x → x < start + total → ∀ z, ¬F x z := by
      intro x p b hx g1 g2 z hz
      rcases (hF x z).mp hz with hh | hh
      · have hb := isBlk_bounds _ _ _ _ _ hh
        obtain ⟨p', hp'⟩ := hh
        have := (Seg_sizes _ _ _ _ hpre _ (mem_blocks_mem _ _ _ _ _ _ hp')).1
        rw [hst] at hb
        simp only at hb this; omega
      · have hb := isBlk_bounds _ _ _ _ _ hh
        rw [← htotal] at hb
        simp only at hb; omega
    apply Wf_mem s _ _ bk bk F _ h
    · rw [GET_PUT_disj _ _ _ _ (by omega), GET_PUT_disj _ _ _ _ (by omega)]
      exact h.prologue
    · rw [Seg_append, Seg_cons, hst]
      refine ⟨?_, ?_, ?_⟩
      · apply Seg_before _ _ _ _ hpre (by omega)
        intro y hy; rw [hst] at hy; exact hbyte y (Or.inl hy)
      · refine ⟨by simp only; omega, htot8, ?_, fun _ => ⟨t, ht, ?_⟩⟩
        · show GET _ (start - 4) = hdr total (lastAlloc true pre) false
          rw [GET_PUT_disj _ _ _ _ (by omega), hw1]
        · show GET _ (start + total - 8) = total + 2 * t
          rw [GET_PUT_same, Nat.mod_eq_of_lt (by omega)]
      · apply Seg_after s.mem _ _ false false post hpost (by omega)
        · intro y hy; exact hbyte y (Or.inr (Or.inl (by omega)))
        · intro c cs e
          rw [GET_congr s.mem _ _ (fun y h1 h2 => hbyte y (Or.inr (Or.inl (by omega))))]
          rw [e, Seg_cons] at hpost
          exact hpost.1.2.2.1
    · rw [endAddr_append, hst]; simp only [endAddr]; exact hend
    · rw [lastAlloc_append]
      simp only [lastAlloc]
      rw [GET_congr s.mem _ _ (fun y h1 h2 => hbyte y (Or.inr (Or.inl (by omega))))]
      have := h.epihdr
      rw [lastAlloc_append, lastAlloc_append, lastAlloc_free _ mid hmid hfree] at this
      exact this
    · have hidx := h.index
      refine ⟨?_, hidx.sound, hidx.complete, hidx.nodup⟩
      have hl1 := lists_frame2 s _ bk F h s.mem
        (PUT s.mem (start - 4) (hdr total (lastAlloc true pre) false)) hidx.lists _ _ _ hm1
        (hnF _ _ _ hm1 (Nat.le_refl _) (by omega))
        (fun y hy => PUT_byte_out _ _ _ _ (by omega))
      exact lists_frame2 s _ bk F h _ _ hl1 _ _ _ hm2
        (hnF _ _ _ hm2 hleini (by omega))
        (fun y hy => PUT_byte_out _ _ _ _ (by omega))
    · intro x z hz
      rw [isBlk_split _ _ false, hst]
      rcases (hF x z).mp hz with hh | hh
      · exact Or.inl hh
      · rw [← htotal] at hh; exact Or.inr (Or.inr hh)

theorem isBlk_append (a : Nat) (pa0 pa1 : Bool) (xs ys : List Blk) (x : Nat) (b : Blk) :
    (∃ p, (x, p, b) ∈ blocks a pa0 (xs ++ ys)) ↔
      (∃ p, (x, p, b) ∈ blocks a pa0 xs) ∨ (∃ p, (x, p, b) ∈ blocks (endAddr a xs) pa1 ys) := by
  simp only [blocks_append, List.mem_append]
  constructor
  · rintro ⟨p, h | h⟩
    · exact Or.inl ⟨p, h⟩
    · exact Or.inr (blocks_pa_indep _ _ _ _ _ _ _ h)
  · rintro (⟨p, h⟩ | ⟨p, h⟩)
    · exact ⟨p, Or.inl h⟩
    · obtain ⟨p', h'⟩ := blocks_pa_indep _ _ (lastAlloc pa0 xs) _ _ _ _ h
      exact ⟨p', Or.inr h'⟩

theorem isBlk_free_mem (a : Nat) (pa0 : Bool) (mid : List Blk) (hfree : ∀ b ∈ mid, b.alloc = false)
    (x : Nat) (b : Blk) (h : ∃ p, (x, p, b) ∈ blocks a pa0 mid) : b.alloc = false := by
  obtain ⟨p, hp⟩ := h
  exact hfree b (mem_blocks_mem _ _ _ _ _ _ hp)

/-- Merging a run of unlisted free blocks and inserting the merged block. -/
theorem merge_insert (s : Heap) (pre mid post : List Blk) (bk : Nat → List Nat)
    (F : Nat → Nat → Prop) (h : Wf s (pre ++ mid ++ post) bk F) (hmid : mid ≠ [])
    (hfree : ∀ b ∈ mid, b.alloc = false)
    (hF : ∀ x z, F x z ↔ ((∃ p, (x, p, Blk.mk z false) ∈ blocks (s.mem_start_brk + 80) true pre) ∨
      (∃ p, (x, p, Blk.mk z false) ∈
        blocks (endAddr (endAddr (s.mem_start_brk + 80) pre) mid) false post)))
    (start total : Nat) (hstart : start = endAddr (s.mem_start_brk + 80) pre)
    (htotal : start + total = endAddr start mid) :
    ∃ m' bk', insert { s with mem := (SET_SIZE (SET_SIZE s.mem (HDRP start) total)
          (FTRP (SET_SIZE s.mem (HDRP start) total) start) total) } start =
        some (start, { s with mem := m' }) ∧
      Wf { s with mem := m' } (pre ++ Blk.mk total false :: post) bk'
        (IsFree (s.mem_start_brk + 80) (pre ++ Blk.mk total false :: post)) ∧
      (∀ y, Payload (s.mem_start_brk + 80) (pre ++ mid ++ post) y → m'.byte y = s.mem.byte y) ∧
      16 ≤ total := by
  obtain ⟨hgs, hWf, hbyte, ht16, ht8⟩ := merge_spec s pre mid post bk F h hmid hfree hF start total
    hstart htotal
  have hftrp : FTRP (SET_SIZE s.mem (HDRP start) total) start = start + total - 8 := by
    unfold FTRP DSIZE HDRP WSIZE; rw [hgs]
  have hhd : HDRP start = start - 4 := rfl
  rw [hftrp, hhd]
  have hmemb : (start, lastAlloc true pre, Blk.mk total false) ∈ blocks (s.mem_start_brk + 80) true
      (pre ++ Blk.mk total false :: post) := by
    rw [hstart]; exact mem_blocks_of_split _ _ _ _ _
  have hlepre := le_endAddr (s.mem_start_brk + 80) pre
  have hnF : ∀ z, ¬F start z := by
    intro z hz
    rcases (hF start z).mp hz with hh | hh
    · have hb := isBlk_bounds _ _ _ _ _ hh
      obtain ⟨p', hp'⟩ := hh
      have := (Seg_sizes _ _ _ _ h.seg _ (by
        have := mem_blocks_mem _ _ _ _ _ _ hp'
        simp only [List.mem_append]; exact Or.inl (Or.inl this))).1
      simp only at hb this; omega
    · have hb := isBlk_bounds _ _ _ _ _ hh
      rw [← hstart, ← htotal] at hb
      simp only at hb; omega
  obtain ⟨l1, l2, -, -, -, m', hins, hWf', hfr⟩ := insert_spec _ _ bk F hWf start total _ hmemb hnF
  refine ⟨m', Function.update bk (bucket total) (l1 ++ start :: l2), hins, ?_, ?_, ht16⟩
  · apply Wf_congr_F _ _ _ _ _ hWf'
    intro x z
    unfold IsFree
    rw [isBlk_split _ _ false, hF, ← hstart]
    simp only
    rw [htotal]
    constructor
    · rintro ((h1 | h1) | ⟨h1, h2⟩)
      · exact Or.inl h1
      · exact Or.inr (Or.inr h1)
      · exact Or.inr (Or.inl ⟨h1, by rw [h2]⟩)
    · rintro (h1 | ⟨h1, h2⟩ | h1)
      · exact Or.inl (Or.inl h1)
      · simp only [Blk.mk.injEq, and_true] at h2
        exact Or.inr ⟨h1, h2⟩
      · exact Or.inl (Or.inr h1)
  · intro y hy
    have hy' : Payload (s.mem_start_brk + 80) (pre ++ Blk.mk total false :: post) y := by
      obtain ⟨x, p, b, hx, hal, h1, h2⟩ := hy
      have hx' : ∃ p, (x, p, b) ∈ blocks (s.mem_start_brk + 80) true
          (pre ++ Blk.mk total false :: post) := by
        rw [isBlk_split _ _ false]
        rcases (isBlk_append _ _ false _ _ _ _).mp ⟨p, hx⟩ with g | g
        · rcases (isBlk_append _ _ false _ _ _ _).mp g with g' | g'
          · exact Or.inl g'
          · have := isBlk_free_mem _ _ _ hfree _ _ g'
            rw [this] at hal; simp at hal
        · rw [endAddr_append, ← hstart, ← htotal] at g
          rw [← hstart]; exact Or.inr (Or.inr g)
      obtain ⟨p', hp'⟩ := hx'
      exact ⟨x, p', b, hp', hal, h1, h2⟩
    rw [hfr y hy']
    apply hbyte
    -- the byte lies in an allocated block, hence outside the run
    obtain ⟨x, p, b, hx, hal, h1, h2⟩ := hy
    rcases (isBlk_append _ _ false _ _ _ _).mp ⟨p, hx⟩ with g | g
    · rcases (isBlk_append _ _ false _ _ _ _).mp g with g' | g'
      · have hb := isBlk_bounds _ _ _ _ _ g'
        rw [← hstart] at hb
        left; omega
      · have := isBlk_free_mem _ _ _ hfree _ _ g'
        rw [this] at hal; simp at hal
    · have hb := isBlk_bounds _ _ _ _ _ g
      rw [endAddr_append, ← hstart, ← htotal] at hb
      right; left; omega

theorem F_outside_mid (a : Nat) (pre mid post : List Blk)
    (hpos : ∀ b ∈ pre ++ mid ++ post, 0 < b.size) (x z : Nat) :
    (IsFree a (pre ++ mid ++ post) x z ∧ ¬(∃ p b, (x, p, b) ∈ blocks (endAddr a pre) true mid)) ↔
      ((∃ p, (x, p, Blk.mk z false) ∈ blocks a true pre) ∨
       (∃ p, (x, p, Blk.mk z false) ∈ blocks (endAddr (endAddr a pre) mid) false post)) := by
  unfold IsFree
  rw [isBlk_append _ _ false, isBlk_append _ _ true, endAddr_append]
  constructor
  · rintro ⟨(h1 | h1) | h1, hn⟩
    · exact Or.inl h1
    · obtain ⟨p, hp⟩ := h1
      exact absurd ⟨p, _, hp⟩ hn
    · exact Or.inr h1
  · rintro (h1 | h1)
    · refine ⟨Or.inl (Or.inl h1), ?_⟩
      rintro ⟨p, b, hb⟩
      have b1 := isBlk_bounds _ _ _ _ _ h1
      have b2 := mem_blocks_bounds _ _ _ _ _ _ hb
      obtain ⟨p', hp'⟩ := h1
      have := hpos _ (by
        have := mem_blocks_mem _ _ _ _ _ _ hp'
        simp only [List.mem_append]; exact Or.inl (Or.inl this))
      simp only at b1 this; omega
    · refine ⟨Or.inr h1, ?_⟩
      rintro ⟨p, b, hb⟩
      have b1 := isBlk_bounds _ _ _ _ _ h1
      have b2 := mem_blocks_bounds _ _ _ _ _ _ hb
      have := hpos _ (by
        have := mem_blocks_mem _ _ _ _ _ _ hb
        simp only [List.mem_append]; exact Or.inl (Or.inr this))
      simp only at b1; omega

theorem lastAlloc_false_split (pre : List Blk) (h : lastAlloc true pre = false) :
    ∃ pre' b, pre = pre' ++ [b] ∧ b.alloc = false := by
  rcases List.eq_nil_or_concat pre with e | ⟨L, b, e⟩
  · subst e; simp [lastAlloc] at h
  · refine ⟨L, b, by simpa using e, ?_⟩
    have e' : pre = L ++ [b] := by simpa using e
    rw [e', lastAlloc_append] at h
    simpa [lastAlloc] using h

/-- The facts `coalesce` reads around a free block `bp` of the chain. -/
theorem coalesce_reads (s : Heap) (pre post : List Blk) (sz : Nat) (bk : Nat → List Nat)
    (F : Nat → Nat → Prop) (h : Wf s (pre ++ Blk.mk sz false :: post) bk F) :
    GET_SIZE s.mem (endAddr (s.mem_start_brk + 80) pre) = sz ∧
    get_prev_alloc s.mem (endAddr (s.mem_start_brk + 80) pre) = (lastAlloc true pre).toNat ∧
    (post = [] → GET_ALLOC s.mem (endAddr (s.mem_start_brk + 80) pre + sz) = 1) ∧
    (∀ c cs, post = c :: cs →
      GET_ALLOC s.mem (endAddr (s.mem_start_brk + 80) pre + sz) = c.alloc.toNat ∧
      GET_SIZE s.mem (endAddr (s.mem_start_brk + 80) pre + sz) = c.size) ∧
    (∀ pre' b, pre = pre' ++ [b] → b.alloc = false →
      find_prev_blankblock s.mem (endAddr (s.mem_start_brk + 80) pre) =
        endAddr (s.mem_start_brk + 80) pre' ∧
      GET_SIZE s.mem (endAddr (s.mem_start_brk + 80) pre') = b.size) := by
  have hmem := mem_blocks_of_split (s.mem_start_brk + 80) true pre post (Blk.mk sz false)
  have hbb := blk_bounds s _ bk F h _ _ _ hmem
  simp only at hbb
  have hh := Seg_hdr _ _ _ _ h.seg _ _ _ hmem
  simp only at hh
  obtain ⟨hw, hgs, -, hgp⟩ := hh
  have hseg := h.seg
  rw [Seg_append, Seg_cons] at hseg
  obtain ⟨hpre, hblk, hpost⟩ := hseg
  simp only at hblk hpost
  have hend := h.endA
  rw [endAddr_append] at hend
  simp only [endAddr] at hend
  have hepi := h.epihdr
  rw [lastAlloc_append] at hepi
  simp only [lastAlloc] at hepi
  rw [← hend] at hepi
  obtain ⟨nsize, nal, hnh, hn8, hnlt, hnil, hcons⟩ := next_hdr s.mem _ _ post hpost false hepi
    (fun _ => rfl)
  have hdec := hdr_decode _ _ _ _ hnh hn8 (GET_lt _ _)
  refine ⟨hgs, hgp, ?_, ?_, ?_⟩
  · intro e
    obtain ⟨-, e2⟩ := hnil e
    unfold GET_ALLOC HDRP WSIZE
    rw [hdec.2.1, e2]; rfl
  · intro c cs e
    obtain ⟨e1, e2⟩ := hcons c cs e
    unfold GET_ALLOC GET_SIZE HDRP WSIZE
    rw [hdec.2.1, hdec.1, e1, e2]
    exact ⟨rfl, rfl⟩
  · intro pre' b e hbf
    have hm' : (endAddr (s.mem_start_brk + 80) pre', lastAlloc true pre', b) ∈
        blocks (s.mem_start_brk + 80) true (pre ++ Blk.mk sz false :: post) := by
      rw [e, List.append_assoc]
      exact mem_blocks_of_split _ _ _ _ _
    have hb' := blk_bounds s _ bk F h _ _ _ hm'
    have hok := h.seg _ hm'
    obtain ⟨-, g2, -, g4⟩ := hok
    obtain ⟨t, ht, hft⟩ := g4 hbf
    simp only at hft g2
    have hprev : endAddr (s.mem_start_brk + 80) pre = endAddr (s.mem_start_brk + 80) pre' + b.size := by
      rw [e, endAddr_append]; simp [endAddr]
    refine ⟨?_, (Seg_hdr _ _ _ _ h.seg _ _ _ hm').2.1⟩
    unfold find_prev_blankblock GET_SIZE HDRP WSIZE
    rw [hprev, show endAddr (s.mem_start_brk + 80) pre' + b.size - 4 - 4 =
      endAddr (s.mem_start_brk + 80) pre' + b.size - 8 by omega, hft,
      and_size_mask _ (by rw [← hft]; exact GET_lt _ _)]
    omega

theorem NoAdj_false_of (post : List Blk) (h : NoAdj true post)
    (hh : ∀ c cs, post = c :: cs → c.alloc = true) : NoAdj false post := by
  cases post with
  | nil => trivial
  | cons c cs => exact ⟨Or.inr (hh c cs rfl), h.2⟩

theorem isFree_unique (s : Heap) (bs : List Blk) (bk : Nat → List Nat) (F : Nat → Nat → Prop)
    (h : Wf s bs bk F) (x z z' : Nat) (h1 : IsFree (s.mem_start_brk + 80) bs x z)
    (h2 : IsFree (s.mem_start_brk + 80) bs x z') : z = z' := by
  obtain ⟨pa, hm⟩ := h1
  obtain ⟨pa', hm'⟩ := h2
  have b1 := blk_bounds s bs bk F h _ _ _ hm
  have b2 := blk_bounds s bs bk F h _ _ _ hm'
  rcases blk_apart s bs bk F h _ _ _ _ _ _ hm hm' with ⟨-, -, e⟩ | e | e
  · simpa using e
  · simp only at e b1 b2; omega
  · simp only at e b1 b2; omega

/-- Case 1 of `coalesce`: both neighbours allocated. -/
theorem coalesce_case1 (s : Heap) (pre post : List Blk) (sz : Nat) (bk : Nat → List Nat)
    (F : Nat → Nat → Prop) (h : Wf s (pre ++ Blk.mk sz false :: post) bk F)
    (hF : ∀ x z, F x z ↔ (IsFree (s.mem_start_brk + 80) (pre ++ Blk.mk sz false :: post) x z ∧
      x ≠ endAddr (s.mem_start_brk + 80) pre))
    (hna1 : NoAdj true pre) (hna2 : NoAdj true post)
    (hpa : lastAlloc true pre = true) (hnext : ∀ c cs, post = c :: cs → c.alloc = true) :
    ∃ m' bk', coalesce s (endAddr (s.mem_start_brk + 80) pre) =
        some (endAddr (s.mem_start_brk + 80) pre, { s with mem := m' }) ∧
      Wf { s with mem := m' } (pre ++ Blk.mk sz false :: post) bk'
        (IsFree (s.mem_start_brk + 80) (pre ++ Blk.mk sz false :: post)) ∧
      NoAdj true (pre ++ Blk.mk sz false :: post) ∧
      (∀ y, Payload (s.mem_start_brk + 80) (pre ++ Blk.mk sz false :: post) y →
        m'.byte y = s.mem.byte y) := by
  obtain ⟨hgs, hgp, hnil, hcons, -⟩ := coalesce_reads s pre post sz bk F h
  have hmem := mem_blocks_of_split (s.mem_start_brk + 80) true pre post (Blk.mk sz false)
  have hnF : ∀ z, ¬F (endAddr (s.mem_start_brk + 80) pre) z := fun z hz => ((hF _ _).mp hz).2 rfl
  have hga : GET_ALLOC s.mem (endAddr (s.mem_start_brk + 80) pre + sz) = 1 := by
    cases post with
    | nil => exact hnil rfl
    | cons c cs => rw [(hcons c cs rfl).1, hnext c cs rfl]; rfl
  obtain ⟨l1, l2, -, -, -, m', hins, hWf', hfr⟩ := insert_spec s _ bk F h _ sz _ hmem hnF
  refine ⟨m', Function.update bk (bucket sz) (l1 ++ endAddr (s.mem_start_brk + 80) pre :: l2),
    ?_, ?_, ?_, hfr⟩
  · simp only [coalesce, find_next_blankblock, hgs, hgp, hga, hpa]
    rw [if_pos (by decide)]
    exact hins
  · apply Wf_congr_F _ _ _ _ _ hWf'
    intro x z
    rw [hF]
    constructor
    · rintro (⟨h1, -⟩ | ⟨h1, h2⟩)
      · exact h1
      · rw [h1, h2]; exact ⟨_, hmem⟩
    · intro h1
      by_cases e : x = endAddr (s.mem_start_brk + 80) pre
      · right
        refine ⟨e, ?_⟩
        rw [e] at h1
        exact isFree_unique s _ bk F h _ _ _ h1 ⟨_, hmem⟩
      · exact Or.inl ⟨h1, e⟩
  · rw [NoAdj_append]
    exact ⟨hna1, Or.inl hpa, NoAdj_false_of post hna2 hnext⟩

/-- Case 3 of `coalesce`: the previous block allocated, the next block free. -/
theorem coalesce_case3 (s : Heap) (pre post : List Blk) (sz nsz : Nat) (bk : Nat → List Nat)
    (F : Nat → Nat → Prop)
    (h : Wf s (pre ++ Blk.mk sz false :: Blk.mk nsz false :: post) bk F)
    (hF : ∀ x z, F x z ↔
      (IsFree (s.mem_start_brk + 80) (pre ++ Blk.mk sz false :: Blk.mk nsz false :: post) x z ∧
      x ≠ endAddr (s.mem_start_brk + 80) pre))
    (hna1 : NoAdj true pre) (hna2 : NoAdj true (Blk.mk nsz false :: post))
    (hpa : lastAlloc true pre = true) :
    ∃ m' bk', coalesce s (endAddr (s.mem_start_brk + 80) pre) =
        some (endAddr (s.mem_start_brk + 80) pre, { s with mem := m' }) ∧
      Wf { s with mem := m' } (pre ++ Blk.mk (sz + nsz) false :: post) bk'
        (IsFree (s.mem_start_brk + 80) (pre ++ Blk.mk (sz + nsz) false :: post)) ∧
      NoAdj true (pre ++ Blk.mk (sz + nsz) false :: post) ∧
      (∀ y, Payload (s.mem_start_brk + 80) (pre ++ Blk.mk sz false :: Blk.mk nsz false :: post) y →
        m'.byte y = s.mem.byte y) := by
  obtain ⟨hgs, hgp, -, hcons, -⟩ := coalesce_reads s pre _ sz bk F h
  obtain ⟨hga, hgn⟩ := hcons _ _ rfl
  simp only [Bool.toNat_false] at hga
  simp only at hgn
  generalize hbp : endAddr (s.mem_start_brk + 80) pre = bp at *
  have hmem := mem_blocks_of_split (s.mem_start_brk + 80) true pre (Blk.mk nsz false :: post)
    (Blk.mk sz false)
  rw [hbp] at hmem
  have hbb := blk_bounds s _ bk F h _ _ _ hmem
  simp only at hbb
  have hmemn : IsFree (s.mem_start_brk + 80) (pre ++ Blk.mk sz false :: Blk.mk nsz false :: post)
      (bp + sz) nsz := by
    unfold IsFree
    rw [isBlk_split2 _ _ false, hbp]
    exact Or.inr (Or.inr (Or.inl ⟨rfl, rfl⟩))
  have hbn := blk_bounds s _ bk F h _ _ _ hmemn.choose_spec
  simp only at hbn
  have hFn : F (bp + sz) nsz := (hF _ _).mpr ⟨hmemn, by omega⟩
  obtain ⟨l1, l2, -, m1, hdel, hWf1, hfr1⟩ := delete_spec s _ bk F h (bp + sz) nsz hFn
  have hgn1 : GET_SIZE m1 (bp + sz) = nsz :=
    (Seg_hdr _ _ _ _ hWf1.seg _ _ _ hmemn.choose_spec).2.1
  have hlist : pre ++ Blk.mk sz false :: Blk.mk nsz false :: post =
      pre ++ [Blk.mk sz false, Blk.mk nsz false] ++ post := by simp
  have hWf1' := hWf1
  rw [hlist] at hWf1'
  have hpos := Seg_pos _ _ _ _ hWf1'.seg
  have hF1 : ∀ x z, (F x z ∧ x ≠ bp + sz) ↔
      ((∃ p, (x, p, Blk.mk z false) ∈ blocks (s.mem_start_brk + 80) true pre) ∨
       (∃ p, (x, p, Blk.mk z false) ∈ blocks (endAddr (endAddr (s.mem_start_brk + 80) pre)
          [Blk.mk sz false, Blk.mk nsz false]) false post)) := by
    intro x z
    rw [← F_outside_mid _ _ _ _ hpos, hF, hlist, hbp]
    simp only [blocks, List.mem_cons, Prod.mk.injEq, List.not_mem_nil, or_false]
    constructor
    · rintro ⟨⟨h1, h2⟩, h3⟩
      refine ⟨h1, ?_⟩
      rintro ⟨p, b, ⟨g, -⟩ | ⟨g, -⟩⟩
      · exact h2 g
      · exact h3 g
    · rintro ⟨h1, h2⟩
      exact ⟨⟨h1, fun g => h2 ⟨_, _, Or.inl ⟨g, rfl, rfl⟩⟩⟩,
        fun g => h2 ⟨_, _, Or.inr ⟨g, rfl, rfl⟩⟩⟩
  obtain ⟨m', bk', hins, hWf', hfr, -⟩ := merge_insert _ pre [Blk.mk sz false, Blk.mk nsz false]
    post _ _ hWf1' (by simp) (by simp) hF1 bp (sz + nsz) hbp.symm (by simp [endAddr]; omega)
  refine ⟨m', bk', ?_, hWf', ?_, ?_⟩
  · simp only [coalesce, find_next_blankblock, hgs, hgp, hga, hpa]
    rw [if_neg (by decide), if_neg (by decide), if_pos (by decide), hdel]
    have hsz : (sz + nsz) % SZ = sz + nsz := by unfold SZ; omega
    simp only [Option.map_some', Option.some_bind, hgn1, hsz]
    exact hins
  · rw [NoAdj_append]
    exact ⟨hna1, Or.inl hpa, hna2.2⟩
  · intro y hy
    have hy1 := hy
    rw [hlist] at hy1
    rw [hfr y hy1]
    exact hfr1 y hy

/-- Case 2 of `coalesce`: the previous block free, the next block allocated. -/
theorem coalesce_case2 (s : Heap) (pre post : List Blk) (psz sz : Nat) (bk : Nat → List Nat)
    (F : Nat → Nat → Prop)
    (h : Wf s (pre ++ Blk.mk psz false :: Blk.mk sz false :: post) bk F)
    (hF : ∀ x z, F x z ↔
      (IsFree (s.mem_start_brk + 80) (pre ++ Blk.mk psz false :: Blk.mk sz false :: post) x z ∧
      x ≠ endAddr (s.mem_start_brk + 80) pre + psz))
    (hna1 : NoAdj true (pre ++ [Blk.mk psz false])) (hna2 : NoAdj true post)
    (hnext : ∀ c cs, post = c :: cs → c.alloc = true) :
    ∃ m' bk', coalesce s (endAddr (s.mem_start_brk + 80) pre + psz) =
        some (endAddr (s.mem_start_brk + 80) pre, { s with mem := m' }) ∧
      Wf { s with mem := m' } (pre ++ Blk.mk (psz + sz) false :: post) bk'
        (IsFree (s.mem_start_brk + 80) (pre ++ Blk.mk (psz + sz) false :: post)) ∧
      NoAdj true (pre ++ Blk.mk (psz + sz) false :: post) ∧
      (∀ y, Payload (s.mem_start_brk + 80) (pre ++ Blk.mk psz false :: Blk.mk sz false :: post) y →
        m'.byte y = s.mem.byte y) := by
  have hl0 : pre ++ Blk.mk psz false :: Blk.mk sz false :: post =
      (pre ++ [Blk.mk psz false]) ++ Blk.mk sz false :: post := by simp
  have h0 := h
  rw [hl0] at h0
  obtain ⟨hgs, hgp, hnil, hcons, hprev⟩ := coalesce_reads s _ post sz bk F h0
  obtain ⟨hfp, hgps⟩ := hprev pre _ rfl rfl
  have hbp0 : endAddr (s.mem_start_brk + 80) (pre ++ [Blk.mk psz false]) =
      endAddr (s.mem_start_brk + 80) pre + psz := by
    rw [endAddr_append]; simp [endAddr]
  have hla : lastAlloc true (pre ++ [Blk.mk psz false]) = false := by
    rw [lastAlloc_append]; simp [lastAlloc]
  rw [hbp0] at hgs hgp hnil hcons hfp
  rw [hla] at hgp
  simp only at hgps
  generalize hpv : endAddr (s.mem_start_brk + 80) pre = pv at *
  have hga : GET_ALLOC s.mem (pv + psz + sz) = 1 := by
    cases post with
    | nil => exact hnil rfl
    | cons c cs => rw [(hcons c cs rfl).1, hnext c cs rfl]; rfl
  have hmemp : IsFree (s.mem_start_brk + 80) (pre ++ Blk.mk psz false :: Blk.mk sz false :: post)
      pv psz := by
    unfold IsFree
    rw [isBlk_split2 _ _ false, hpv]
    exact Or.inr (Or.inl ⟨rfl, rfl⟩)
  have hbb := blk_bounds s _ bk F h _ _ _ hmemp.choose_spec
  simp only at hbb
  have hFp : F pv psz := (hF _ _).mpr ⟨hmemp, by omega⟩
  obtain ⟨l1, l2, -, m1, hdel, hWf1, hfr1⟩ := delete_spec s _ bk F h pv psz hFp
  have hgp1 : GET_SIZE m1 pv = psz := (Seg_hdr _ _ _ _ hWf1.seg _ _ _ hmemp.choose_spec).2.1
  have hlist : pre ++ Blk.mk psz false :: Blk.mk sz false :: post =
      pre ++ [Blk.mk psz false, Blk.mk sz false] ++ post := by simp
  have hWf1' := hWf1
  rw [hlist] at hWf1'
  have hpos := Seg_pos _ _ _ _ hWf1'.seg
  have hend := hWf1.endA
  have hbrk := h.brk_le
  have hmax := h.max_lt
  have hsum : pv + psz + sz ≤ s.mem_brk := by
    have := le_endAddr (pv + psz + sz) post
    rw [endAddr_append] at hend
    simp only [endAddr] at hend
    rw [hpv] at hend
    change endAddr (pv + psz + sz) post = s.mem_brk at hend
    omega
  have hF1 : ∀ x z, (F x z ∧ x ≠ pv) ↔
      ((∃ p, (x, p, Blk.mk z false) ∈ blocks (s.mem_start_brk + 80) true pre) ∨
       (∃ p, (x, p, Blk.mk z false) ∈ blocks (endAddr (endAddr (s.mem_start_brk + 80) pre)
          [Blk.mk psz false, Blk.mk sz false]) false post)) := by
    intro x z
    rw [← F_outside_mid _ _ _ _ hpos, hF, hlist, hpv]
    simp only [blocks, List.mem_cons, Prod.mk.injEq, List.not_mem_nil, or_false]
    constructor
    · rintro ⟨⟨h1, h2⟩, h3⟩
      refine ⟨h1, ?_⟩
      rintro ⟨p, b, ⟨g, -⟩ | ⟨g, -⟩⟩
      · exact h3 g
      · exact h2 g
    · rintro ⟨h1, h2⟩
      exact ⟨⟨h1, fun g => h2 ⟨_, _, Or.inr ⟨g, rfl, rfl⟩⟩⟩,
        fun g => h2 ⟨_, _, Or.inl ⟨g, rfl, rfl⟩⟩⟩
  obtain ⟨m', bk', hins, hWf', hfr, -⟩ := merge_insert _ pre [Blk.mk psz false, Blk.mk sz false]
    post _ _ hWf1' (by simp) (by simp) hF1 pv (psz + sz) hpv.symm (by simp [endAddr]; omega)
  refine ⟨m', bk', ?_, hWf', ?_, ?_⟩
  · have hsz : (sz + psz) % SZ = psz + sz := by unfold SZ; omega
    simp only [coalesce, find_next_blankblock, hgs, hgp, hga, hfp]
    rw [if_neg (by decide), if_pos (by decide), hdel]
    simp only [Option.map_some', Option.some_bind, hgp1, hsz]
    exact hins
  · rw [NoAdj_append] at hna1 ⊢
    refine ⟨hna1.1, ?_, NoAdj_false_of post hna2 hnext⟩
    rcases hna1.2.1 with e | e
    · exact Or.inl e
    · simp at e
  · intro y hy
    have hy1 := hy
    rw [hlist] at hy1
    rw [hfr y hy1]
    exact hfr1 y hy

/-- Case 4 of `coalesce`: both neighbours free. -/
theorem coalesce_case4 (s : Heap) (pre post : List Blk) (psz sz nsz : Nat) (bk : Nat → List Nat)
    (F : Nat → Nat → Prop)
    (h : Wf s (pre ++ Blk.mk psz false :: Blk.mk sz false :: Blk.mk nsz false :: post) bk F)
    (hF : ∀ x z, F x z ↔
      (IsFree (s.mem_start_brk + 80)
        (pre ++ Blk.mk psz false :: Blk.mk sz false :: Blk.mk nsz false :: post) x z ∧
      x ≠ endAddr (s.mem_start_brk + 80) pre + psz))
    (hna1 : NoAdj true (pre ++ [Blk.mk psz false]))
    (hna2 : NoAdj true (Blk.mk nsz false :: post)) :
    ∃ m' bk', coalesce s (endAddr (s.mem_start_brk + 80) pre + psz) =
        some (endAddr (s.mem_start_brk + 80) pre, { s with mem := m' }) ∧
      Wf { s with mem := m' } (pre ++ Blk.mk (psz + sz + nsz) false :: post) bk'
        (IsFree (s.mem_start_brk + 80) (pre ++ Blk.mk (psz + sz + nsz) false :: post)) ∧
      NoAdj true (pre ++ Blk.mk (psz + sz + nsz) false :: post) ∧
      (∀ y, Payload (s.mem_start_brk + 80)
          (pre ++ Blk.mk psz false :: Blk.mk sz false :: Blk.mk nsz false :: post) y →
        m'.byte y = s.mem.byte y) := by
  have hl0 : pre ++ Blk.mk psz false :: Blk.mk sz false :: Blk.mk nsz false :: post =
      (pre ++ [Blk.mk psz false]) ++ Blk.mk sz false :: Blk.mk nsz false :: post := by simp
  have h0 := h
  rw [hl0] at h0
  obtain ⟨hgs, hgp, -, hcons, hprev⟩ := coalesce_reads s _ _ sz bk F h0
  obtain ⟨hfp, hgps⟩ := hprev pre _ rfl rfl
  obtain ⟨hga, hgn⟩ := hcons _ _ rfl
  simp only [Bool.toNat_false] at hga
  have hbp0 : endAddr (s.mem_start_brk + 80) (pre ++ [Blk.mk psz false]) =
      endAddr (s.mem_start_brk + 80) pre + psz := by
    rw [endAddr_append]; simp [endAddr]
  have hla : lastAlloc true (pre ++ [Blk.mk psz false]) = false := by
    rw [lastAlloc_append]; simp [lastAlloc]
  rw [hbp0] at hgs hgp hga hgn hfp
  rw [hla] at hgp
  simp only at hgps hgn
  generalize hpv : endAddr (s.mem_start_brk + 80) pre = pv at *
  have hlist : pre ++ Blk.mk psz false :: Blk.mk sz false :: Blk.mk nsz false :: post =
      pre ++ [Blk.mk psz false, Blk.mk sz false, Blk.mk nsz false] ++ post := by simp
  have hmemp : IsFree (s.mem_start_brk + 80)
      (pre ++ Blk.mk psz false :: Blk.mk sz false :: Blk.mk nsz false :: post) pv psz := by
    unfold IsFree
    rw [isBlk_split _ _ false, hpv]
    exact Or.inr (Or.inl ⟨rfl, rfl⟩)
  have hmemn : IsFree (s.mem_start_brk + 80)
      (pre ++ Blk.mk psz false :: Blk.mk sz false :: Blk.mk nsz false :: post) (pv + psz + sz)
      nsz := by
    unfold IsFree
    rw [hl0, isBlk_split2 _ _ false, hbp0]
    exact Or.inr (Or.inr (Or.inl ⟨rfl, rfl⟩))
  have hbb := blk_bounds s _ bk F h _ _ _ hmemp.choose_spec
  have hbn := blk_bounds s _ bk F h _ _ _ hmemn.choose_spec
  simp only at hbb hbn
  have hbrk := h.brk_le
  have hmax := h.max_lt
  have hsz16 := (Seg_sizes _ _ _ _ h.seg (Blk.mk sz false) (by simp)).1
  simp only at hsz16
  have hFn : F (pv + psz + sz) nsz := (hF _ _).mpr ⟨hmemn, by omega⟩
  have hFp : F pv psz := (hF _ _).mpr ⟨hmemp, by omega⟩
  obtain ⟨l1, l2, -, m1, hdel1, hWf1, hfr1⟩ := delete_spec s _ bk F h (pv + psz + sz) nsz hFn
  obtain ⟨l3, l4, -, m2, hdel2, hWf2, hfr2⟩ := delete_spec _ _ _ _ hWf1 pv psz ⟨hFp, by omega⟩
  have hgp2 : GET_SIZE m2 pv = psz := (Seg_hdr _ _ _ _ hWf2.seg _ _ _ hmemp.choose_spec).2.1
  have hgn2 : GET_SIZE m2 (pv + psz + sz) = nsz :=
    (Seg_hdr _ _ _ _ hWf2.seg _ _ _ hmemn.choose_spec).2.1
  have hWf2' := hWf2
  rw [hlist] at hWf2'
  have hpos := Seg_pos _ _ _ _ hWf2'.seg
  have hF2 : ∀ x z, ((F x z ∧ x ≠ pv + psz + sz) ∧ x ≠ pv) ↔
      ((∃ p, (x, p, Blk.mk z false) ∈ blocks (s.mem_start_brk + 80) true pre) ∨
       (∃ p, (x, p, Blk.mk z false) ∈ blocks (endAddr (endAddr (s.mem_start_brk + 80) pre)
          [Blk.mk psz false, Blk.mk sz false, Blk.mk nsz false]) false post)) := by
    intro x z
    rw [← F_outside_mid _ _ _ _ hpos, hF, hlist, hpv]
    simp only [blocks, List.mem_cons, Prod.mk.injEq, List.not_mem_nil, or_false]
    constructor
    · rintro ⟨⟨⟨h1, h2⟩, h3⟩, h4⟩
      refine ⟨h1, ?_⟩
      rintro ⟨p, b, ⟨g, -⟩ | ⟨g, -⟩ | ⟨g, -⟩⟩
      · exact h4 g
      · exact h2 g
      · exact h3 g
    · rintro ⟨h1, h2⟩
      exact ⟨⟨⟨h1, fun g => h2 ⟨_, _, Or.inr (Or.inl ⟨g, rfl, rfl⟩)⟩⟩,
        fun g => h2 ⟨_, _, Or.inr (Or.inr ⟨g, rfl, rfl⟩)⟩⟩,
        fun g => h2 ⟨_, _, Or.inl ⟨g, rfl, rfl⟩⟩⟩
  obtain ⟨m', bk', hins, hWf', hfr, -⟩ := merge_insert _ pre
    [Blk.mk psz false, Blk.mk sz false, Blk.mk nsz false]
    post _ _ hWf2' (by simp) (by simp) hF2 pv (psz + sz + nsz) hpv.symm (by simp [endAddr]; omega)
  refine ⟨m', bk', ?_, hWf', ?_, ?_⟩
  · have hsz : (sz + (nsz + psz) % UW) % SZ = psz + sz + nsz := by unfold SZ UW; omega
    simp only [coalesce, find_next_blankblock, hgs, hgp, hga, hfp]
    rw [if_neg (by decide), if_neg (by decide), if_neg (by decide), hdel1, Option.some_bind, hdel2]
    simp only [Option.map_some', Option.some_bind, hgp2, hgn2, hsz]
    exact hins
  · rw [NoAdj_append] at hna1 ⊢
    refine ⟨hna1.1, ?_, hna2.2⟩
    rcases hna1.2.1 with e | e
    · exact Or.inl e
    · simp at e
  · intro y hy
    have hy1 := hy
    rw [hlist] at hy1
    rw [hfr y hy1]
    rw [hfr2 y hy]
    exact hfr1 y hy

/-- `coalesce` on a free, unlisted block `bp` whose neighbours may be free: the run
`mid` of free blocks around `bp` becomes one free block, which is listed. -/
theorem coalesce_spec (s : Heap) (pre post : List Blk) (sz : Nat) (bk : Nat → List Nat)
    (F : Nat → Nat → Prop) (h : Wf s (pre ++ Blk.mk sz false :: post) bk F)
    (hF : ∀ x z, F x z ↔ (IsFree (s.mem_start_brk + 80) (pre ++ Blk.mk sz false :: post) x z ∧
      x ≠ endAddr (s.mem_start_brk + 80) pre))
    (hna1 : NoAdj true pre) (hna2 : NoAdj true post) :
    ∃ pre' pm nm post' tot m' bk',
      pre = pre' ++ pm ∧ post = nm ++ post' ∧ (∀ b ∈ pm ++ Blk.mk sz false :: nm, b.alloc = false) ∧
      endAddr (s.mem_start_brk + 80) pre' + tot =
        endAddr (endAddr (s.mem_start_brk + 80) pre') (pm ++ Blk.mk sz false :: nm) ∧
      (lastAlloc true pre = true → pm = []) ∧ (lastAlloc true pre = false → pm.length = 1) ∧
      ((∀ c cs, post = c :: cs → c.alloc = true) → nm = []) ∧
      ((∃ c cs, post = c :: cs ∧ c.alloc = false) → nm.length = 1) ∧
      coalesce s (endAddr (s.mem_start_brk + 80) pre) =
        some (endAddr (s.mem_start_brk + 80) pre', { s with mem := m' }) ∧
      Wf { s with mem := m' } (pre' ++ Blk.mk tot false :: post') bk'
        (IsFree (s.mem_start_brk + 80) (pre' ++ Blk.mk tot false :: post')) ∧
      NoAdj true (pre' ++ Blk.mk tot false :: post') ∧
      (∀ y, Payload (s.mem_start_brk + 80) (pre ++ Blk.mk sz false :: post) y →
        m'.byte y = s.mem.byte y) := by
  by_cases hpa : lastAlloc true pre = true
  · by_cases hnx : ∀ c cs, post = c :: cs → c.alloc = true
    · obtain ⟨m', bk', h1, h2, h3, h4⟩ := coalesce_case1 s pre post sz bk F h hF hna1 hna2 hpa hnx
      refine ⟨pre, [], [], post, sz, m', bk', by simp, by simp, by simp, by simp [endAddr],
        fun _ => rfl, fun e => by rw [hpa] at e; simp at e, fun _ => rfl, ?_, h1, h2, h3, h4⟩
      rintro ⟨c, cs, e1, e2⟩
      have := hnx c cs e1
      rw [this] at e2; simp at e2
    · have hex : ∃ nsz post', post = Blk.mk nsz false :: post' := by
        cases post with
        | nil => exact absurd (fun c cs e => by simp at e) hnx
        | cons c cs =>
          refine ⟨c.size, cs, ?_⟩
          have : c.alloc = false := by
            by_contra hc
            apply hnx
            intro c' cs' e
            simp only [List.cons.injEq] at e
            rw [← e.1]; simpa using hc
          cases c with
          | mk size alloc => simp only at this; rw [this]
      obtain ⟨nsz, post', e⟩ := hex
      subst e
      obtain ⟨m', bk', h1, h2, h3, h4⟩ := coalesce_case3 s pre post' sz nsz bk F h hF hna1 hna2 hpa
      refine ⟨pre, [], [Blk.mk nsz false], post', sz + nsz, m', bk', by simp, by simp, by simp,
        by simp [endAddr]; omega, fun _ => rfl, fun e => by rw [hpa] at e; simp at e,
        fun e => absurd e hnx, fun _ => rfl, h1, h2, h3, h4⟩
  · have hpa' : lastAlloc true pre = false := by simpa using hpa
    obtain ⟨pre', b, e, hb⟩ := lastAlloc_false_split pre hpa'
    obtain ⟨psz, bal⟩ := b
    simp only at hb
    subst hb
    subst e
    have hl0 : (pre' ++ [Blk.mk psz false]) ++ Blk.mk sz false :: post =
        pre' ++ Blk.mk psz false :: Blk.mk sz false :: post := by simp
    have hbp0 : endAddr (s.mem_start_brk + 80) (pre' ++ [Blk.mk psz false]) =
        endAddr (s.mem_start_brk + 80) pre' + psz := by
      rw [endAddr_append]; simp [endAddr]
    rw [hl0, hbp0] at hF
    rw [hl0] at h
    rw [hbp0]
    by_cases hnx : ∀ c cs, post = c :: cs → c.alloc = true
    · obtain ⟨m', bk', h1, h2, h3, h4⟩ := coalesce_case2 s pre' post psz sz bk F h hF hna1 hna2 hnx
      refine ⟨pre', [Blk.mk psz false], [], post, psz + sz, m', bk', rfl, by simp, by simp,
        by simp [endAddr]; omega, fun e => by rw [hpa'] at e; simp at e, fun _ => rfl,
        fun _ => rfl, ?_, h1, h2, h3, ?_⟩
      · rintro ⟨c, cs, e1, e2⟩
        have := hnx c cs e1
        rw [this] at e2; simp at e2
      · rw [hl0]; exact h4
    · have hex : ∃ nsz post', post = Blk.mk nsz false :: post' := by
        cases post with
        | nil => exact absurd (fun c cs e => by simp at e) hnx
        | cons c cs =>
          refine ⟨c.size, cs, ?_⟩
          have : c.alloc = false := by
            by_contra hc
            apply hnx
            intro c' cs' e
            simp only [List.cons.injEq] at e
            rw [← e.1]; simpa using hc
          cases c with
          | mk size alloc => simp only at this; rw [this]
      obtain ⟨nsz, post', e⟩ := hex
      subst e
      obtain ⟨m', bk', h1, h2, h3, h4⟩ := coalesce_case4 s pre' post' psz sz nsz bk F h hF hna1 hna2
      refine ⟨pre', [Blk.mk psz false], [Blk.mk nsz false], post', psz + sz + nsz, m', bk', rfl,
        by simp, by simp, by simp [endAddr]; omega, fun e => by rw [hpa'] at e; simp at e,
        fun _ => rfl, fun e => absurd e hnx, fun _ => rfl, h1, h2, h3, ?_⟩
      rw [hl0]; exact h4

/-- Allocated blocks survive the merge of a run of free blocks. -/
theorem persist_merge (a : Nat) (pre mid post : List Blk) (tot : Nat)
    (hfree : ∀ b ∈ mid, b.alloc = false) (htot : endAddr a pre + tot = endAddr (endAddr a pre) mid)
    (x : Nat) (b : Blk) (hal : b.alloc = true)
    (h : ∃ p, (x, p, b) ∈ blocks a true (pre ++ mid ++ post)) :
    ∃ p, (x, p, b) ∈ blocks a true (pre ++ Blk.mk tot false :: post) := by
  rw [isBlk_split _ _ false]
  rcases (isBlk_append _ _ false _ _ _ _).mp h with g | g
  · rcases (isBlk_append _ _ false _ _ _ _).mp g with g' | g'
    · exact Or.inl g'
    · have := isBlk_free_mem _ _ _ hfree _ _ g'
      rw [this] at hal; simp at hal
  · rw [endAddr_append, ← htot] at g
    exact Or.inr (Or.inr g)

/-! ## `free` -/

/-- The state after `free` has marked the block free, written its footer and cleared
the flag in the following header, before `coalesce` runs. -/
theorem free_mark (s : Heap) (pre post : List Blk) (sz : Nat) (bk : Nat → List Nat)
    (h : Wf s (pre ++ Blk.mk sz true :: post) bk
      (IsFree (s.mem_start_brk + 80) (pre ++ Blk.mk sz true :: post))) :
    ∃ m3, (let m1 := RESET_ALLOC s.mem (HDRP (endAddr (s.mem_start_brk + 80) pre))
           let m2 := PUT m1 (FTRP m1 (endAddr (s.mem_start_brk + 80) pre))
             (GET m1 (HDRP (endAddr (s.mem_start_brk + 80) pre)))
           let n := find_next_blankblock m2 (endAddr (s.mem_start_brk + 80) pre)
           RESET_PALLOC m2 (HDRP n)) = m3 ∧
      Wf { s with mem := m3 } (pre ++ Blk.mk sz false :: post) bk
        (IsFree (s.mem_start_brk + 80) (pre ++ Blk.mk sz true :: post)) ∧
      (∀ x z, IsFree (s.mem_start_brk + 80) (pre ++ Blk.mk sz true :: post) x z ↔
        (IsFree (s.mem_start_brk + 80) (pre ++ Blk.mk sz false :: post) x z ∧
          x ≠ endAddr (s.mem_start_brk + 80) pre)) ∧
      (∀ y, y < endAddr (s.mem_start_brk + 80) pre - 4 ∨
          endAddr (s.mem_start_brk + 80) pre + sz ≤ y ∨
          (endAddr (s.mem_start_brk + 80) pre ≤ y ∧ y < endAddr (s.mem_start_brk + 80) pre + sz - 8) →
        m3.byte y = s.mem.byte y) := by
  have hmem := mem_blocks_of_split (s.mem_start_brk + 80) true pre post (Blk.mk sz true)
  have hbb := blk_bounds s _ bk _ h _ _ _ hmem
  simp only at hbb
  have hseg := h.seg
  rw [Seg_append, Seg_cons] at hseg
  obtain ⟨hpre, hblk, hpost⟩ := hseg
  simp only at hblk hpost
  have hend := h.endA
  rw [endAddr_append] at hend
  simp only [endAddr] at hend
  have hepi := h.epihdr
  rw [lastAlloc_append] at hepi
  simp only [lastAlloc] at hepi
  rw [← hend] at hepi
  obtain ⟨nsize, nal, hnh, hn8, hnlt, hnil, hcons⟩ := next_hdr s.mem _ _ post hpost true hepi
    (fun _ => rfl)
  have hh := Seg_hdr _ _ _ _ h.seg _ _ _ hmem
  simp only at hh
  obtain ⟨hw, hgs, -, -⟩ := hh
  have hlo := h.max_lt
  have hbrk := h.brk_le
  have hle := le_endAddr (endAddr (s.mem_start_brk + 80) pre + sz) post
  generalize hbp : endAddr (s.mem_start_brk + 80) pre = bp at *
  generalize hpa0 : lastAlloc true pre = pa at *
  have e1 : RESET_ALLOC s.mem (bp - 4) = PUT s.mem (bp - 4) (hdr sz pa false) :=
    RESET_ALLOC_eq _ _ _ _ _ hw hbb.2.2.2.1
  have hw1 : GET (PUT s.mem (bp - 4) (hdr sz pa false)) (bp - 4) = hdr sz pa false :=
    GET_PUT_hdr _ _ _ _ _ (by omega)
  have hdec := hdr_decode _ _ _ _ rfl hbb.2.2.2.1 (by rw [← hw1]; exact GET_lt _ _)
  have hgs1 : GET_SIZE (PUT s.mem (bp - 4) (hdr sz pa false)) bp = sz := by
    unfold GET_SIZE HDRP WSIZE
    rw [hw1]; exact hdec.1
  have hgs2 : GET_SIZE (PUT (PUT s.mem (bp - 4) (hdr sz pa false)) (bp + sz - 8)
      (hdr sz pa false)) bp = sz := by
    unfold GET_SIZE HDRP WSIZE
    rw [GET_PUT_disj _ _ _ _ (by omega), hw1]; exact hdec.1
  have hnh2 : GET (PUT (PUT s.mem (bp - 4) (hdr sz pa false)) (bp + sz - 8) (hdr sz pa false))
      (bp + sz - 4) = hdr nsize true nal := by
    rw [GET_PUT_disj _ _ _ _ (by omega), GET_PUT_disj _ _ _ _ (by omega)]; exact hnh
  have e3 := RESET_PALLOC_eq _ _ _ _ _ hnh2 hn8
  have hbyte : ∀ y, y < bp - 4 ∨ bp + sz ≤ y ∨ (bp ≤ y ∧ y < bp + sz - 8) →
      (PUT (PUT (PUT s.mem (bp - 4) (hdr sz pa false)) (bp + sz - 8) (hdr sz pa false))
        (bp + sz - 4) (hdr nsize false nal)).byte y = s.mem.byte y := by
    intro y hy
    rw [PUT_byte_out _ _ _ _ (by omega), PUT_byte_out _ _ _ _ (by omega),
      PUT_byte_out _ _ _ _ (by omega)]
  have hiff : ∀ x z, IsFree (s.mem_start_brk + 80) (pre ++ Blk.mk sz true :: post) x z ↔
      (IsFree (s.mem_start_brk + 80) (pre ++ Blk.mk sz false :: post) x z ∧ x ≠ bp) := by
    intro x z
    unfold IsFree
    rw [isBlk_split _ _ true, isBlk_split _ _ true, hbp]
    constructor
    · rintro (h1 | ⟨-, h1⟩ | h1)
      · refine ⟨Or.inl h1, ?_⟩
        have hb1 := isBlk_bounds _ _ _ _ _ h1
        obtain ⟨p, hp⟩ := h1
        have hz := (Seg_sizes _ _ _ _ hpre _ (mem_blocks_mem _ _ _ _ _ _ hp)).1
        rw [hbp] at hb1
        simp only at hz hb1
        omega
      · simp at h1
      · refine ⟨Or.inr (Or.inr h1), ?_⟩
        have := isBlk_bounds _ _ _ _ _ h1
        simp only at this
        omega
    · rintro ⟨h1 | ⟨h1, -⟩ | h1, hne⟩
      · exact Or.inl h1
      · exact absurd h1 hne
      · exact Or.inr (Or.inr h1)
  refine ⟨PUT (PUT (PUT s.mem (bp - 4) (hdr sz pa false)) (bp + sz - 8) (hdr sz pa false))
        (bp + sz - 4) (hdr nsize false nal), ?_, ?_, hiff, hbyte⟩
  · simp only [HDRP, WSIZE, FTRP, DSIZE, find_next_blankblock, e1, hgs1, hw1, hgs2, e3]
  · have hnotF : ∀ z, ¬IsFree (s.mem_start_brk + 80) (pre ++ Blk.mk sz true :: post) bp z := by
      intro z hz
      exact ((hiff bp z).mp hz).2 rfl
    rw [← hbp] at hmem
    rw [hbp] at hmem
    apply Wf_mem s _ _ bk bk _ _ h
    · rw [GET_PUT_disj _ _ _ _ (by omega), GET_PUT_disj _ _ _ _ (by omega),
        GET_PUT_disj _ _ _ _ (by omega)]
      exact h.prologue
    · rw [Seg_append, Seg_cons, hbp, hpa0]
      refine ⟨?_, ?_, ?_⟩
      · apply Seg_before _ _ _ _ hpre (by omega)
        intro y hy; rw [hbp] at hy; exact hbyte y (Or.inl hy)
      · refine ⟨hbb.2.2.1, hbb.2.2.2.1, ?_, fun _ => ⟨pa.toNat, toNat_le_one pa, ?_⟩⟩
        · show GET _ (bp - 4) = hdr sz pa false
          rw [GET_PUT_disj _ _ _ _ (by omega), GET_PUT_disj _ _ _ _ (by omega), hw1]
        · show GET _ (bp + sz - 8) = sz + 2 * pa.toNat
          rw [GET_PUT_disj _ _ _ _ (by omega), GET_PUT_hdr _ _ _ _ _ (by omega)]
          simp [hdr]
      · apply Seg_after s.mem _ _ true false post hpost (by omega)
        · intro y hy; exact hbyte y (Or.inr (Or.inl hy))
        · intro c cs e
          obtain ⟨e1, e2⟩ := hcons c cs e
          show GET _ (bp + sz - 4) = _
          rw [GET_PUT_hdr _ _ _ _ _ hnlt, e1, e2]
    · rw [endAddr_append]; simp only [endAddr]; rw [hbp]; exact hend
    · rw [lastAlloc_append]
      simp only [lastAlloc]
      cases post with
      | nil =>
        obtain ⟨e1, e2⟩ := hnil rfl
        simp only [endAddr] at hend
        simp only [lastAlloc]
        rw [← hend, GET_PUT_hdr _ _ _ _ _ hnlt, e1, e2]
      | cons c cs =>
        have hcb := mem_blocks_bounds _ _ _ _ _ _
          (mem_blocks_of_split (bp + sz) false [] cs c)
        have hcs := (Seg_sizes _ _ _ _ hpost c (by simp)).1
        simp only [endAddr, List.nil_append] at hcb hend
        rw [GET_PUT_disj _ _ _ _ (by omega), GET_PUT_disj _ _ _ _ (by omega),
          GET_PUT_disj _ _ _ _ (by omega)]
        have := h.epihdr
        rw [lastAlloc_append] at this
        exact this
    · have hidx := h.index
      exact ⟨lists_frame s _ bk _ h _ _ _ hmem hnotF _ (fun y hy => hbyte y (by
          simp only at hy; omega)), hidx.sound, hidx.complete, hidx.nodup⟩
    · intro x z hz
      exact ((hiff x z).mp hz).1

/-- `free` of an allocated block of a consistent heap: the block and its free
neighbours `pm`, `nm` become one free block; the rest of the chain and the payload of
every other allocated block are unchanged. -/
theorem free_spec (s : Heap) (pre post : List Blk) (sz : Nat) (bk : Nat → List Nat)
    (h : Wf s (pre ++ Blk.mk sz true :: post) bk
      (IsFree (s.mem_start_brk + 80) (pre ++ Blk.mk sz true :: post)))
    (hna : NoAdj true (pre ++ Blk.mk sz true :: post)) :
    ∃ pre' pm nm post' tot m' bk',
      pre = pre' ++ pm ∧ post = nm ++ post' ∧ (∀ b ∈ pm ++ Blk.mk sz false :: nm, b.alloc = false) ∧
      endAddr (s.mem_start_brk + 80) pre' + tot =
        endAddr (endAddr (s.mem_start_brk + 80) pre') (pm ++ Blk.mk sz false :: nm) ∧
      (lastAlloc true pre = true → pm = []) ∧ (lastAlloc true pre = false → pm.length = 1) ∧
      ((∀ c cs, post = c :: cs → c.alloc = true) → nm = []) ∧
      ((∃ c cs, post = c :: cs ∧ c.alloc = false) → nm.length = 1) ∧
      free s (endAddr (s.mem_start_brk + 80) pre) = some { s with mem := m' } ∧
      Wf { s with mem := m' } (pre' ++ Blk.mk tot false :: post') bk'
        (IsFree (s.mem_start_brk + 80) (pre' ++ Blk.mk tot false :: post')) ∧
      NoAdj true (pre' ++ Blk.mk tot false :: post') ∧
      (∀ y, Payload (s.mem_start_brk + 80) (pre ++ Blk.mk sz true :: post) y →
        ¬(endAddr (s.mem_start_brk + 80) pre ≤ y ∧ y < endAddr (s.mem_start_brk + 80) pre + sz - 4) →
        m'.byte y = s.mem.byte y) := by
  have hmem := mem_blocks_of_split (s.mem_start_brk + 80) true pre post (Blk.mk sz true)
  have hbb := blk_bounds s _ bk _ h _ _ _ hmem
  simp only at hbb
  obtain ⟨m3, hm3, hWf3, hiff, hbyte3⟩ := free_mark s pre post sz bk h
  rw [NoAdj_append] at hna
  obtain ⟨hna1, -, hna2⟩ := hna
  simp only at hna2
  obtain ⟨pre', pm, nm, post', tot, m', bk', e1, e2, e3, e4, e5, e6, e7, e8, hco, hWf', hna', hfr⟩ :=
    coalesce_spec _ pre post sz bk _ hWf3 hiff hna1 hna2
  refine ⟨pre', pm, nm, post', tot, m', bk', e1, e2, e3, e4, e5, e6, e7, e8, ?_, hWf', hna', ?_⟩
  · unfold free
    rw [if_neg hbb.2.2.2.2.2.2]
    simp only at hm3
    simp only [hm3]
    have hco' : coalesce { s with mem := m3 } (endAddr (s.mem_start_brk + 80) pre) =
        some (endAddr (s.mem_start_brk + 80) pre', { s with mem := m' }) := hco
    rw [hco']
    rfl
  · intro y hy hny
    have hy3 : Payload (s.mem_start_brk + 80) (pre ++ Blk.mk sz false :: post) y := by
      obtain ⟨x, p, b, hx, hal, h1, h2⟩ := hy
      rcases (isBlk_split _ _ false _ _ _ _ _).mp ⟨p, hx⟩ with g | ⟨g1, g2⟩ | g
      · obtain ⟨p', hp'⟩ := (isBlk_split _ true false pre post (Blk.mk sz false) x b).mpr (Or.inl g)
        exact ⟨x, p', b, hp', hal, h1, h2⟩
      · subst g1 g2
        exact absurd ⟨h1, h2⟩ hny
      · obtain ⟨p', hp'⟩ := (isBlk_split _ true false pre post (Blk.mk sz false) x b).mpr
          (Or.inr (Or.inr g))
        exact ⟨x, p', b, hp', hal, h1, h2⟩
    have := hfr y hy3
    simp only at this
    rw [this]
    apply hbyte3
    obtain ⟨x, p, b, hx, hal, h1, h2⟩ := hy
    have hbx := blk_bounds s _ bk _ h _ _ _ hx
    rcases blk_apart s _ bk _ h _ _ _ _ _ _ hx hmem with ⟨g1, -, g3⟩ | g | g
    · subst g1 g3
      exact absurd ⟨h1, h2⟩ hny
    · left; omega
    · right; left; simp only at g; omega

/-! ## `extend_heap` -/

theorem extend_heap_fail (s : Heap) (words : Nat) (hfail : s.mem_brk + words > s.mem_max_addr) :
    extend_heap s words = some (FAIL, s) := by
  unfold extend_heap mem_sbrk
  rw [if_pos hfail]
  simp

/-- The state after `extend_heap` has written the new block and the new epilogue,
before `coalesce` runs. -/
theorem extend_mark (s : Heap) (bs : List Blk) (bk : Nat → List Nat)
    (h : Wf s bs bk (IsFree (s.mem_start_brk + 80) bs)) (words : Nat)
    (hw16 : 16 ≤ words) (hw8 : words % 8 = 0) (hok : ¬ s.mem_brk + words > s.mem_max_addr) :
    ∃ m3, (let palloc := get_prev_alloc s.mem s.epilogue
           let m1 := PUT s.mem (HDRP s.mem_brk) (PACK words palloc 0)
           let m2 := PUT m1 (FTRP m1 s.mem_brk) (PACK words palloc 0)
           PUT m2 (HDRP (s.epilogue + words)) (PACK 0 0 1)) = m3 ∧
      Wf { s with mem := m3, mem_brk := s.mem_brk + words, epilogue := s.epilogue + words }
        (bs ++ [Blk.mk words false]) bk (IsFree (s.mem_start_brk + 80) bs) ∧
      (∀ x z, IsFree (s.mem_start_brk + 80) bs x z ↔
        (IsFree (s.mem_start_brk + 80) (bs ++ [Blk.mk words false]) x z ∧
          x ≠ endAddr (s.mem_start_brk + 80) bs)) ∧
      (∀ y, y < s.mem_brk - 4 → m3.byte y = s.mem.byte y) := by
  have hend := h.endA
  have hle := le_endAddr (s.mem_start_brk + 80) bs
  have hlo := h.max_lt
  have hbrk := h.brk_le
  have hepi := h.epi
  have hdec := hdr_decode _ 0 (lastAlloc true bs) true h.epihdr (by simp) (GET_lt _ _)
  have hgp : get_prev_alloc s.mem s.mem_brk = (lastAlloc true bs).toNat := by
    unfold get_prev_alloc HDRP WSIZE
    exact hdec.2.2
  generalize hla : lastAlloc true bs = la at *
  have e1 : PACK words (get_prev_alloc s.mem s.mem_brk) 0 = hdr words la false := by
    rw [hgp]; exact PACK_eq words la false hw8
  have e3 : PACK 0 0 1 = hdr 0 false true := PACK_eq 0 false true (by simp)
  have hw1 : GET (PUT s.mem (s.mem_brk - 4) (hdr words la false)) (s.mem_brk - 4) =
      hdr words la false := GET_PUT_hdr _ _ _ _ _ (by omega)
  have hgs1 : GET_SIZE (PUT s.mem (s.mem_brk - 4) (hdr words la false)) s.mem_brk = words := by
    unfold GET_SIZE HDRP WSIZE
    rw [hw1]
    exact (hdr_decode _ _ _ _ rfl hw8 (by rw [← hw1]; exact GET_lt _ _)).1
  have hbyte : ∀ y, y < s.mem_brk - 4 →
      (PUT (PUT (PUT s.mem (s.mem_brk - 4) (hdr words la false)) (s.mem_brk + words - 8)
        (hdr words la false)) (s.mem_brk + words - 4) (hdr 0 false true)).byte y = s.mem.byte y := by
    intro y hy
    rw [PUT_byte_out _ _ _ _ (by omega), PUT_byte_out _ _ _ _ (by omega),
      PUT_byte_out _ _ _ _ (by omega)]
  have hiff : ∀ x z, IsFree (s.mem_start_brk + 80) bs x z ↔
      (IsFree (s.mem_start_brk + 80) (bs ++ [Blk.mk words false]) x z ∧
        x ≠ endAddr (s.mem_start_brk + 80) bs) := by
    intro x z
    unfold IsFree
    rw [isBlk_split _ _ true]
    constructor
    · intro h1
      refine ⟨Or.inl h1, ?_⟩
      have hb1 := isBlk_bounds _ _ _ _ _ h1
      obtain ⟨p, hp⟩ := h1
      have hz := (Seg_sizes _ _ _ _ h.seg _ (mem_blocks_mem _ _ _ _ _ _ hp)).1
      simp only at hz hb1
      omega
    · rintro ⟨h1 | ⟨h1, -⟩ | h1, hne⟩
      · exact h1
      · exact absurd h1 hne
      · obtain ⟨p, hp⟩ := h1; simp [blocks] at hp
  refine ⟨PUT (PUT (PUT s.mem (s.mem_brk - 4) (hdr words la false)) (s.mem_brk + words - 8)
        (hdr words la false)) (s.mem_brk + words - 4) (hdr 0 false true), ?_, ?_, hiff, hbyte⟩
  · simp only [HDRP, WSIZE, FTRP, DSIZE, e1, e3, hgs1, hepi]
  · exact
    { lo_pos := h.lo_pos, lo_al := h.lo_al, brk_le := by simp only; omega, max_lt := h.max_lt,
      max_lt64 := h.max_lt64, efl := h.efl, fle := h.fle, hlp := h.hlp,
      epi := by simp only; rw [hepi],
      prologue := by
        show GET _ (s.mem_start_brk + 72) = 11
        rw [GET_congr s.mem _ _ (fun y h1 h2 => hbyte y (by omega))]; exact h.prologue
      seg := by
        show Seg _ (s.mem_start_brk + 80) true (bs ++ [Blk.mk words false])
        rw [Seg_append, Seg_cons, hend, hla]
        refine ⟨?_, ⟨hw16, hw8, ?_, fun _ => ⟨la.toNat, toNat_le_one la, ?_⟩⟩, Seg_nil _ _ _⟩
        · apply Seg_before _ _ _ _ h.seg (by omega)
          intro y hy; rw [hend] at hy; exact hbyte y hy
        · show GET _ (s.mem_brk - 4) = hdr words la false
          rw [GET_PUT_disj _ _ _ _ (by omega), GET_PUT_disj _ _ _ _ (by omega), hw1]
        · show GET _ (s.mem_brk + words - 8) = words + 2 * la.toNat
          rw [GET_PUT_disj _ _ _ _ (by omega), GET_PUT_hdr _ _ _ _ _ (by omega)]
          simp [hdr]
      endA := by
        show endAddr (s.mem_start_brk + 80) (bs ++ [Blk.mk words false]) = s.mem_brk + words
        rw [endAddr_append, hend]; simp [endAddr]
      epihdr := by
        show GET _ (s.mem_brk + words - 4) = hdr 0 (lastAlloc true (bs ++ [Blk.mk words false])) true
        rw [lastAlloc_append]
        simp only [lastAlloc]
        exact GET_PUT_hdr _ _ _ _ _ (by norm_num)
      index := by
        have hidx := h.index
        refine ⟨?_, hidx.sound, hidx.complete, hidx.nodup⟩
        intro i hi
        apply ListAt_congr s.mem _ _ _ (hidx.lists i hi)
        intro q hq y h1 h2
        have := (freeCell_facts s bs bk _ h q (cell_is_free s bs bk _ h i hi q hq)).1
        exact hbyte y (by omega)
      F_free := by
        intro x z hz
        exact ((hiff x z).mp hz).1 }

theorem extend_heap_spec (s : Heap) (bs : List Blk) (bk : Nat → List Nat)
    (h : Wf s bs bk (IsFree (s.mem_start_brk + 80) bs)) (hna : NoAdj true bs) (words : Nat)
    (hw16 : 16 ≤ words) (hw8 : words % 8 = 0) (hok : ¬ s.mem_brk + words > s.mem_max_addr) :
    ∃ pre' pm tot m' bk',
      bs = pre' ++ pm ∧ (∀ b ∈ pm, b.alloc = false) ∧
      endAddr (s.mem_start_brk + 80) pre' + tot = s.mem_brk + words ∧ words ≤ tot ∧
      (lastAlloc true bs = true → pm = []) ∧ (lastAlloc true bs = false → pm.length = 1) ∧
      extend_heap s words = some (endAddr (s.mem_start_brk + 80) pre',
        { s with mem := m', mem_brk := s.mem_brk + words, epilogue := s.epilogue + words }) ∧
      Wf { s with mem := m', mem_brk := s.mem_brk + words, epilogue := s.epilogue + words }
        (pre' ++ [Blk.mk tot false]) bk'
        (IsFree (s.mem_start_brk + 80) (pre' ++ [Blk.mk tot false])) ∧
      NoAdj true (pre' ++ [Blk.mk tot false]) ∧
      (∀ y, Payload (s.mem_start_brk + 80) bs y → m'.byte y = s.mem.byte y) := by
  obtain ⟨m3, hm3, hWf3, hiff, hbyte3⟩ := extend_mark s bs bk h words hw16 hw8 hok
  obtain ⟨pre', pm, nm, post', tot, m', bk', e1, e2, e3, e4, e5, e6, -, -, hco, hWf', hna', hfr⟩ :=
    coalesce_spec _ bs [] words bk _ hWf3 hiff hna trivial
  have hnm : nm = [] ∧ post' = [] := by
    cases nm with
    | nil => exact ⟨rfl, by simpa using e2.symm⟩
    | cons c cs => simp at e2
  obtain ⟨hnm1, hnm2⟩ := hnm
  subst hnm1 hnm2
  have hend := h.endA
  have hbrk := h.brk_le
  have hmax := h.max_lt64
  have hpm : endAddr (endAddr (s.mem_start_brk + 80) pre') pm = s.mem_brk := by
    rw [← endAddr_append, ← e1]; exact hend
  have hsum : endAddr (s.mem_start_brk + 80) pre' + tot = s.mem_brk + words := by
    have e4' : endAddr (s.mem_start_brk + 80) pre' + tot =
        endAddr (endAddr (s.mem_start_brk + 80) pre') (pm ++ [Blk.mk words false]) := e4
    rw [e4', endAddr_append, hpm]
    simp [endAddr]
  have hle := le_endAddr (endAddr (s.mem_start_brk + 80) pre') pm
  rw [hpm] at hle
  refine ⟨pre', pm, tot, m', bk', e1, fun b hb => e3 b (by simp [hb]), hsum, by omega, e5, e6,
    ?_, hWf', hna', ?_⟩
  · unfold extend_heap mem_sbrk
    rw [if_neg hok]
    have hne : s.mem_brk ≠ FAIL := by unfold FAIL; omega
    simp only [hne, if_false]
    simp only at hm3
    rw [hm3]
    rw [h.endA] at hco
    exact hco
  · intro y hy
    have hy' : Payload (s.mem_start_brk + 80) (bs ++ [Blk.mk words false]) y := by
      obtain ⟨x, p, b, hx, hal, h1, h2⟩ := hy
      obtain ⟨p', hp'⟩ := (isBlk_split _ true false bs [] (Blk.mk words false) x b).mpr
        (Or.inl ⟨p, hx⟩)
      exact ⟨x, p', b, hp', hal, h1, h2⟩
    have := hfr y hy'
    simp only at this
    rw [this]
    exact hbyte3 y (payload_facts s bs bk _ h y hy).2.1

/-! ## `malloc` -/

/-- Taking a free block out of the index and placing `asize` bytes in it. -/
theorem delete_place (s : Heap) (pre post : List Blk) (csize asize : Nat) (bk : Nat → List Nat)
    (h : Wf s (pre ++ Blk.mk csize false :: post) bk
      (IsFree (s.mem_start_brk + 80) (pre ++ Blk.mk csize false :: post)))
    (hna : NoAdj true (pre ++ Blk.mk csize false :: post))
    (ha16 : 16 ≤ asize) (ha8 : asize % 8 = 0) (hac : asize ≤ csize) :
    ∃ m' bs' bk' csz,
      ((delete s (endAddr (s.mem_start_brk + 80) pre)).bind fun s2 =>
        place s2 (endAddr (s.mem_start_brk + 80) pre) asize) =
        some (endAddr (s.mem_start_brk + 80) pre, { s with mem := m' }) ∧
      Wf { s with mem := m' } bs' bk' (IsFree (s.mem_start_brk + 80) bs') ∧ NoAdj true bs' ∧
      ((bs' = pre ++ Blk.mk csize true :: post ∧ csz = csize ∧ csize - asize ≤ 16) ∨
       (bs' = pre ++ Blk.mk asize true :: Blk.mk (csize - asize) false :: post ∧ csz = asize ∧
          16 < csize - asize)) ∧
      (∀ y, Payload (s.mem_start_brk + 80) (pre ++ Blk.mk csize false :: post) y →
        m'.byte y = s.mem.byte y) := by
  have hmem := mem_blocks_of_split (s.mem_start_brk + 80) true pre post (Blk.mk csize false)
  have hFbp : IsFree (s.mem_start_brk + 80) (pre ++ Blk.mk csize false :: post)
      (endAddr (s.mem_start_brk + 80) pre) csize := ⟨_, hmem⟩
  obtain ⟨l1, l2, -, m1, hdel, hWf1, hfr1⟩ := delete_spec s _ bk _ h _ csize hFbp
  rw [hdel, Option.some_bind]
  by_cases hsmall : csize - asize ≤ 16
  · obtain ⟨m', hpl, hWf', hna', hfr⟩ := place_nosplit _ pre post csize asize _ _ hWf1
      (fun x z => Iff.rfl) hna hac hsmall
    exact ⟨m', _, _, csize, hpl, hWf', hna', Or.inl ⟨rfl, rfl, hsmall⟩,
      fun y hy => by rw [hfr y hy]; exact hfr1 y hy⟩
  · obtain ⟨m', bk', hpl, hWf', hna', hfr⟩ := place_split _ pre post csize asize _ _ hWf1
      (fun x z => Iff.rfl) hna hac ha16 ha8 (by omega)
    exact ⟨m', _, bk', asize, hpl, hWf', hna', Or.inr ⟨rfl, rfl, by omega⟩,
      fun y hy => by rw [hfr y hy]; exact hfr1 y hy⟩

/-- What `place` leaves of the chain: the placed block is allocated, the other
allocated blocks are still there. -/
theorem persist_place (a : Nat) (pre post : List Blk) (csize asize csz : Nat) (bs' : List Blk)
    (hshape : (bs' = pre ++ Blk.mk csize true :: post ∧ csz = csize ∧ csize - asize ≤ 16) ∨
       (bs' = pre ++ Blk.mk asize true :: Blk.mk (csize - asize) false :: post ∧ csz = asize ∧
          16 < csize - asize)) :
    (∃ p, (endAddr a pre, p, Blk.mk csz true) ∈ blocks a true bs') ∧
    (∀ x b, b.alloc = true → (∃ p, (x, p, b) ∈ blocks a true (pre ++ Blk.mk csize false :: post)) →
      ∃ p, (x, p, b) ∈ blocks a true bs') := by
  rcases hshape with ⟨e1, e2, -⟩ | ⟨e1, e2, e3⟩
  · subst e1 e2
    refine ⟨⟨_, mem_blocks_of_split _ _ _ _ _⟩, ?_⟩
    intro x b hal hx
    rw [isBlk_split _ _ true] at hx ⊢
    rcases hx with g | ⟨-, g⟩ | g
    · exact Or.inl g
    · rw [g] at hal; simp at hal
    · exact Or.inr (Or.inr g)
  · subst e1 e2
    refine ⟨⟨_, mem_blocks_of_split _ _ _ _ _⟩, ?_⟩
    intro x b hal hx
    rw [isBlk_split _ _ true] at hx
    rw [isBlk_split2 _ _ true]
    simp only
    rw [show endAddr a pre + csz + (csize - csz) = endAddr a pre + csize by omega]
    rcases hx with g | ⟨-, g⟩ | g
    · exact Or.inl g
    · rw [g] at hal; simp at hal
    · exact Or.inr (Or.inr (Or.inr g))

theorem adjust_ok (n : Nat) (hn : n ≠ 0) (hlt : n + 11 < 2 ^ 64) :
    16 ≤ adjust n ∧ adjust n % 8 = 0 ∧ n + 4 ≤ adjust n ∧
    adjust n = if n + 4 ≤ 16 then 16 else (n + 11) / 8 * 8 := by
  unfold adjust ALIGN WSIZE minsize SZ
  have h1 : (n + 4) % 2 ^ 64 = n + 4 := Nat.mod_eq_of_lt (by omega)
  rw [h1]
  by_cases hc : n + 4 ≤ 16
  · rw [if_pos hc, if_pos hc]; omega
  · have h2 : (n + 4 + 7) % 2 ^ 64 = n + 11 := Nat.mod_eq_of_lt (by omega)
    rw [if_neg hc, if_neg hc, h2, and_size_mask64 _ (by omega)]
    omega

/-- The allocated blocks after `place` are the block placed and the allocated
blocks from before. -/
theorem persist_place_conv (a : Nat) (pre post : List Blk) (csize asize csz : Nat) (bs' : List Blk)
    (hshape : (bs' = pre ++ Blk.mk csize true :: post ∧ csz = csize ∧ csize - asize ≤ 16) ∨
       (bs' = pre ++ Blk.mk asize true :: Blk.mk (csize - asize) false :: post ∧ csz = asize ∧
          16 < csize - asize)) :
    ∀ x b, b.alloc = true → (∃ p, (x, p, b) ∈ blocks a true bs') →
      x = endAddr a pre ∨ ∃ p, (x, p, b) ∈ blocks a true (pre ++ Blk.mk csize false :: post) := by
  intro x b hal hx
  rcases hshape with ⟨e1, e2, -⟩ | ⟨e1, e2, e3⟩
  · subst e1 e2
    rw [isBlk_split _ _ true] at hx
    rw [isBlk_split _ _ true]
    rcases hx with g | ⟨g, -⟩ | g
    · exact Or.inr (Or.inl g)
    · exact Or.inl g
    · exact Or.inr (Or.inr (Or.inr g))
  · subst e1 e2
    rw [isBlk_split2 _ _ true] at hx
    rw [isBlk_split _ _ true]
    simp only at hx
    rw [show endAddr a pre + csz + (csize - csz) = endAddr a pre + csize by omega] at hx
    rcases hx with g | ⟨g, -⟩ | ⟨-, g⟩ | g
    · exact Or.inr (Or.inl g)
    · exact Or.inl g
    · rw [g] at hal; simp at hal
    · exact Or.inr (Or.inr (Or.inr g))

/-- The effect of `malloc` on a consistent heap, for a nonzero request whose
adjusted size `asize` is a multiple of eight of at least sixteen bytes: either no
listed block fits and the arena cannot inc, and the call returns null and changes
nothing; or the call returns a block `p` of `asize` to `asize + 16` bytes that was
free (or new) before, the heap stays consistent, the other allocated blocks stay
and no payload byte changes. -/
theorem malloc_spec (s : Heap) (bs : List Blk) (bk : Nat → List Nat)
    (h : Wf s bs bk (IsFree (s.mem_start_brk + 80) bs)) (hna : NoAdj true bs)
    (n : Nat) (hn : n ≠ 0) (asize : Nat) (has : adjust (if n = 448 then 512 else n) = asize)
    (ha16 : 16 ≤ asize) (ha8 : asize % 8 = 0) :
    ((∀ x z, IsFree (s.mem_start_brk + 80) bs x z → z < asize) ∧
      s.mem_brk + MAX asize CHUNKSIZE > s.mem_max_addr ∧ malloc s n = some (0, s)) ∨
    (∃ p m' inc bs' bk' csz,
      malloc s n =
        some (p, { s with mem := m', mem_brk := s.mem_brk + inc, epilogue := s.epilogue + inc }) ∧
      ((inc = 0 ∧ ∃ z, IsFree (s.mem_start_brk + 80) bs p z ∧ asize ≤ z) ∨
       (inc = MAX asize CHUNKSIZE ∧ (∀ x z, IsFree (s.mem_start_brk + 80) bs x z → z < asize) ∧
         ¬ s.mem_brk + MAX asize CHUNKSIZE > s.mem_max_addr)) ∧
      Wf { s with mem := m', mem_brk := s.mem_brk + inc, epilogue := s.epilogue + inc } bs' bk'
        (IsFree (s.mem_start_brk + 80) bs') ∧
      NoAdj true bs' ∧
      (∃ pa, (p, pa, Blk.mk csz true) ∈ blocks (s.mem_start_brk + 80) true bs') ∧
      asize ≤ csz ∧ csz ≤ asize + 16 ∧
      (∀ b, (∃ pa, (p, pa, b) ∈ blocks (s.mem_start_brk + 80) true bs) → b.alloc = false) ∧
      (∀ x b, b.alloc = true → (∃ pa, (x, pa, b) ∈ blocks (s.mem_start_brk + 80) true bs) →
        ∃ pa, (x, pa, b) ∈ blocks (s.mem_start_brk + 80) true bs') ∧
      (∀ x b, b.alloc = true → (∃ pa, (x, pa, b) ∈ blocks (s.mem_start_brk + 80) true bs') →
        x = p ∨ ∃ pa, (x, pa, b) ∈ blocks (s.mem_start_brk + 80) true bs) ∧
      (∀ y, Payload (s.mem_start_brk + 80) bs y → m'.byte y = s.mem.byte y)) := by
  obtain ⟨r, hfind, hcase⟩ := find_fit_spec s bs bk _ h asize
  have hmal : malloc s n = if r = 0 then
        (extend_heap s (MAX asize CHUNKSIZE)).bind fun (bp, s1) =>
          if bp = FAIL then some (0, s1)
          else (delete s1 bp).bind fun s2 => place s2 bp asize
      else (delete s r).bind fun s2 => place s2 r asize := by
    unfold malloc
    rw [if_neg hn]
    dsimp only
    rw [has, hfind]
  rcases hcase with ⟨hr0, hnofit⟩ | ⟨hr0, z, hFz, haz⟩
  · rw [if_pos hr0] at hmal
    by_cases hfail : s.mem_brk + MAX asize CHUNKSIZE > s.mem_max_addr
    · left
      refine ⟨hnofit, hfail, ?_⟩
      rw [hmal, extend_heap_fail s _ hfail, Option.some_bind]
      exact if_pos rfl
    · right
      have hw16 : 16 ≤ MAX asize CHUNKSIZE := by unfold MAX CHUNKSIZE; split <;> omega
      have hw8 : MAX asize CHUNKSIZE % 8 = 0 := by unfold MAX CHUNKSIZE; split <;> omega
      have hwa : asize ≤ MAX asize CHUNKSIZE := by unfold MAX CHUNKSIZE; split <;> omega
      obtain ⟨pre', pm, tot, m1, bk1, hbs, hpm, htot, hwt, -, -, hext, hWf1, hna1, hfr1⟩ :=
        extend_heap_spec s bs bk h hna _ hw16 hw8 hfail
      obtain ⟨m', bs', bk', csz, hdp, hWf', hna', hshape, hfr⟩ :=
        delete_place _ pre' [] tot asize bk1 hWf1 hna1 ha16 ha8 (by omega)
      have hb1 := blk_bounds _ _ _ _ hWf1 _ _ _
        (mem_blocks_of_split (s.mem_start_brk + 80) true pre' [] (Blk.mk tot false))
      have hmax := h.max_lt64
      have hbrk := h.brk_le
      have hne : endAddr (s.mem_start_brk + 80) pre' ≠ FAIL := by
        unfold FAIL; simp only at hb1; omega
      have hpp := persist_place (s.mem_start_brk + 80) pre' [] tot asize csz bs' hshape
      have hpc := persist_place_conv (s.mem_start_brk + 80) pre' [] tot asize csz bs' hshape
      have hold : ∀ x b, b.alloc = true →
          (∃ pa, (x, pa, b) ∈ blocks (s.mem_start_brk + 80) true bs) →
          ∃ pa, (x, pa, b) ∈ blocks (s.mem_start_brk + 80) true pre' := by
        intro x b hal hx
        rw [hbs] at hx
        rcases (isBlk_append _ _ true _ _ _ _).mp hx with g | g
        · exact g
        · have := isBlk_free_mem _ _ _ hpm _ _ g
          rw [this] at hal; simp at hal
      refine ⟨endAddr (s.mem_start_brk + 80) pre', m', MAX asize CHUNKSIZE, bs', bk', csz, ?_,
        Or.inr ⟨rfl, hnofit, hfail⟩, hWf', hna', hpp.1, ?_, ?_, ?_, ?_, ?_, ?_⟩
      · rw [hmal, hext, Option.some_bind]
        simp only [if_neg hne]
        exact hdp
      · rcases hshape with ⟨-, e, -⟩ | ⟨-, e, -⟩ <;> omega
      · rcases hshape with ⟨-, e, e'⟩ | ⟨-, e, -⟩ <;> omega
      · rintro b hb
        rw [hbs] at hb
        rcases (isBlk_append _ _ true _ _ _ _).mp hb with g | g
        · obtain ⟨pa, g⟩ := g
          have hg : (endAddr (s.mem_start_brk + 80) pre', pa, b) ∈
              blocks (s.mem_start_brk + 80) true (pre' ++ pm) := by
            rw [blocks_append]; exact List.mem_append_left _ g
          rw [← hbs] at hg
          have b1 := blk_bounds _ _ _ _ h _ _ _ hg
          have b2 := mem_blocks_bounds _ _ _ _ _ _ g
          omega
        · exact isBlk_free_mem _ _ _ hpm _ _ g
      · intro x b hal hx
        apply hpp.2 x b hal
        rw [isBlk_split _ _ true]
        exact Or.inl (hold x b hal hx)
      · intro x b hal hx
        rcases hpc x b hal hx with g | g
        · exact Or.inl g
        · right
          rw [isBlk_split _ _ true] at g
          rcases g with g | ⟨-, g⟩ | g
          · rw [hbs]; exact (isBlk_append _ _ true _ _ _ _).mpr (Or.inl g)
          · rw [g] at hal; simp at hal
          · obtain ⟨pa, g⟩ := g; simp [blocks] at g
      · intro y hy
        have hy1 : Payload (s.mem_start_brk + 80) (pre' ++ [Blk.mk tot false]) y := by
          obtain ⟨x, pa, b, hx, hal, hr⟩ := hy
          obtain ⟨pa', hx'⟩ := hold x b hal ⟨pa, hx⟩
          exact ⟨x, pa', b, by rw [blocks_append]; exact List.mem_append_left _ hx', hal, hr⟩
        rw [hfr y hy1]; exact hfr1 y hy
  · right
    rw [if_neg hr0] at hmal
    obtain ⟨pa, hmem⟩ := hFz
    obtain ⟨pre, post, hbs, hr, -⟩ := mem_blocks_split _ _ _ _ _ _ hmem
    subst hbs hr
    obtain ⟨m', bs', bk', csz, hdp, hWf', hna', hshape, hfr⟩ :=
      delete_place s pre post z asize bk h hna ha16 ha8 haz
    have hpp := persist_place (s.mem_start_brk + 80) pre post z asize csz bs' hshape
    have hpc := persist_place_conv (s.mem_start_brk + 80) pre post z asize csz bs' hshape
    refine ⟨endAddr (s.mem_start_brk + 80) pre, m', 0, bs', bk', csz, ?_,
      Or.inl ⟨rfl, z, ⟨pa, hmem⟩, haz⟩, hWf', hna', hpp.1, ?_, ?_, ?_, hpp.2, hpc, hfr⟩
    · rw [hmal]; exact hdp
    · rcases hshape with ⟨-, e, -⟩ | ⟨-, e, -⟩ <;> omega
    · rcases hshape with ⟨-, e, e'⟩ | ⟨-, e, -⟩ <;> omega
    · rintro b ⟨pb, hb⟩
      have b1 := blk_bounds _ _ _ _ h _ _ _ hb
      rcases blk_apart _ _ _ _ h _ _ _ _ _ _ hb hmem with ⟨-, -, e⟩ | e | e
      · rw [e]
      · omega
      · have b2 := blk_bounds _ _ _ _ h _ _ _ hmem
        simp only at e b2; omega

/-! ## Writes into payloads -/

/-- Memory that changes only inside the payloads of allocated blocks still stores
the same chain and the same bucket lists. -/
theorem Wf_payload (s : Heap) (bs : List Blk) (bk : Nat → List Nat) (F : Nat → Nat → Prop)
    (h : Wf s bs bk F) (m' : Mem)
    (hm : ∀ y, ¬ Payload (s.mem_start_brk + 80) bs y → m'.byte y = s.mem.byte y) :
    Wf { s with mem := m' } bs bk F := by
  have hout : ∀ y, (∀ hy : Payload (s.mem_start_brk + 80) bs y, False) → m'.byte y = s.mem.byte y :=
    fun y hy => hm y hy
  apply Wf_mem s bs bs bk bk F F h m'
  · rw [GET_congr s.mem m' _ (fun y h1 h2 => hout y (fun hy => by
      have := (payload_facts s bs bk F h y hy).1; omega))]
    exact h.prologue
  · intro x hx
    obtain ⟨x, p, b⟩ := x
    have hok := h.seg _ hx
    have bb := blk_bounds s bs bk F h _ _ _ hx
    simp only at hok bb ⊢
    apply BlockOK_congr s.mem m' _ _ _ hok
    · intro y h1 h2
      apply hout; intro hy
      exact ((payload_facts s bs bk F h y hy).2.2 x p b hx).1 ⟨by omega, by omega⟩
    · intro hf y h1 h2
      apply hout; intro hy
      exact ((payload_facts s bs bk F h y hy).2.2 x p b hx).2.1 hf ⟨by omega, by omega⟩
  · exact h.endA
  · rw [GET_congr s.mem m' _ (fun y h1 h2 => hout y (fun hy => by
      have := (payload_facts s bs bk F h y hy).2.1; omega))]
    exact h.epihdr
  · refine ⟨?_, h.index.sound, h.index.complete, h.index.nodup⟩
    intro i hi
    apply ListAt_congr s.mem m' _ _ (h.index.lists i hi)
    intro q hq y h1 h2
    apply hout; intro hy
    have hcell : FreeCell s.mem_start_brk bs q := by
      simp only [List.mem_cons] at hq
      rcases hq with rfl | hq
      · exact Or.inl ⟨i, hi, rfl⟩
      · obtain ⟨sz, pa, -, -, hmem⟩ := node_blk s bs bk F h i hi q hq
        exact Or.inr ⟨pa, sz, hmem⟩
    exact (freeCell_facts s bs bk F h q hcell).2.2.1 y hy ⟨h1, h2⟩
  · exact h.F_free

/-- The bytes `[p, p + k)` with `k + 4 ≤ size` of an allocated block are payload. -/
theorem payload_of_blk (a : Nat) (bs : List Blk) (p : Nat) (pa : Bool) (sz : Nat)
    (hp : (p, pa, Blk.mk sz true) ∈ blocks a true bs) (k : Nat) (hk : k + 4 ≤ sz) (y : Nat)
    (h1 : p ≤ y) (h2 : y < p + k) : Payload a bs y :=
  ⟨p, pa, Blk.mk sz true, hp, rfl, h1, by simp only; omega⟩

/-! ## A request whose adjusted size wraps to zero -/

/-- With an adjusted size of zero `place` splits the block into an empty part and
the whole block, which it restores as a free block and lists again. -/
theorem place_zero (s : Heap) (pre post : List Blk) (csize : Nat)
    (bk : Nat → List Nat) (F : Nat → Nat → Prop)
    (h : Wf s (pre ++ Blk.mk csize false :: post) bk F)
    (hF : ∀ x z, F x z ↔ (IsFree (s.mem_start_brk + 80) (pre ++ Blk.mk csize false :: post) x z ∧
      x ≠ endAddr (s.mem_start_brk + 80) pre))
    (hna : NoAdj true (pre ++ Blk.mk csize false :: post)) (hbig : 16 < csize) :
    ∃ m' bk', place s (endAddr (s.mem_start_brk + 80) pre) 0 =
        some (endAddr (s.mem_start_brk + 80) pre, { s with mem := m' }) ∧
      Wf { s with mem := m' } (pre ++ Blk.mk csize false :: post) bk'
        (IsFree (s.mem_start_brk + 80) (pre ++ Blk.mk csize false :: post)) ∧
      (∀ y, Payload (s.mem_start_brk + 80) (pre ++ Blk.mk csize false :: post) y →
        m'.byte y = s.mem.byte y) := by
  have hmem := mem_blocks_of_split (s.mem_start_brk + 80) true pre post (Blk.mk csize false)
  have hbb := blk_bounds s _ bk F h _ _ _ hmem
  simp only at hbb
  have hseg := h.seg
  rw [Seg_append, Seg_cons] at hseg
  obtain ⟨hpre, hblk, hpost⟩ := hseg
  simp only at hblk hpost
  have hend := h.endA
  rw [endAddr_append] at hend
  simp only [endAddr] at hend
  have hna' := hna
  rw [NoAdj_append] at hna'
  obtain ⟨hna1, hna2, hna3⟩ := hna'
  simp only at hna3
  have hpa : lastAlloc true pre = true := by
    rcases hna2 with e | e
    · exact e
    · simp at e
  have hh := Seg_hdr _ _ _ _ h.seg _ _ _ hmem
  simp only at hh
  obtain ⟨hw, hgs, -, hgp⟩ := hh
  rw [hpa] at hgp hw
  have hlo := h.max_lt
  have hbrk := h.brk_le
  have hle := le_endAddr (endAddr (s.mem_start_brk + 80) pre + csize) post
  have hepi := h.epihdr
  have hidx := h.index
  have hFfree := h.F_free
  generalize hbp : endAddr (s.mem_start_brk + 80) pre = bp at *
  have hc8 : csize % 8 = 0 := hbb.2.2.2.1
  have e1 : PACK 0 (get_prev_alloc s.mem bp) 1 = hdr 0 true true := by
    rw [hgp]; exact PACK_eq 0 true true (by decide)
  have e2 : PACK csize 1 0 = hdr csize true false := PACK_eq csize true false hc8
  have hw1 : GET (PUT s.mem (bp - 4) (hdr 0 true true)) (bp - 4) = hdr 0 true true :=
    GET_PUT_hdr _ _ _ _ _ (by omega)
  have hgs1 : GET_SIZE (PUT s.mem (bp - 4) (hdr 0 true true)) bp = 0 := by
    unfold GET_SIZE HDRP WSIZE
    rw [hw1]
    exact (hdr_decode _ _ _ _ rfl (by decide) (by rw [← hw1]; exact GET_lt _ _)).1
  have hw2 : GET (PUT (PUT s.mem (bp - 4) (hdr 0 true true)) (bp - 4)
      (hdr csize true false)) (bp - 4) = hdr csize true false :=
    GET_PUT_hdr _ _ _ _ _ (by omega)
  have hgs2 : GET_SIZE (PUT (PUT s.mem (bp - 4) (hdr 0 true true)) (bp - 4)
      (hdr csize true false)) bp = csize := by
    unfold GET_SIZE HDRP WSIZE
    rw [hw2]
    exact (hdr_decode _ _ _ _ rfl hc8 (by rw [← hw2]; exact GET_lt _ _)).1
  have hrem : (GET_SIZE s.mem bp + (SZ - 0 % SZ)) % SZ = csize := by
    rw [hgs]; unfold SZ; omega
  have hbyte : ∀ y, y < bp - 4 ∨ bp + csize - 4 ≤ y →
      (PUT (PUT (PUT s.mem (bp - 4) (hdr 0 true true)) (bp - 4)
        (hdr csize true false)) (bp + csize - 8) (hdr csize true false)).byte y
        = s.mem.byte y := by
    intro y hy
    rw [PUT_byte_out _ _ _ _ (by omega), PUT_byte_out _ _ _ _ (by omega),
      PUT_byte_out _ _ _ _ (by omega)]
  have hnotF : ∀ z, ¬F bp z := by
    intro z hz; exact ((hF _ _).mp hz).2 rfl
  have hWf3 : Wf { s with mem := PUT (PUT (PUT s.mem (bp - 4) (hdr 0 true true)) (bp - 4)
        (hdr csize true false)) (bp + csize - 8) (hdr csize true false) }
      (pre ++ Blk.mk csize false :: post) bk F := by
    apply Wf_mem s _ _ bk bk F _ h
    · rw [GET_PUT_disj _ _ _ _ (by omega), GET_PUT_disj _ _ _ _ (by omega),
        GET_PUT_disj _ _ _ _ (by omega)]
      exact h.prologue
    · rw [Seg_append, Seg_cons, hbp, hpa]
      refine ⟨?_, ?_, ?_⟩
      · apply Seg_before _ _ _ _ hpre (by omega)
        intro y hy; rw [hbp] at hy; exact hbyte y (Or.inl hy)
      · refine ⟨by simp only; omega, hc8, ?_, fun _ => ⟨1, Nat.le_refl _, ?_⟩⟩
        · show GET _ (bp - 4) = hdr csize true false
          rw [GET_PUT_disj _ _ _ _ (by omega), hw2]
        · show GET _ (bp + csize - 8) = csize + 2 * 1
          rw [GET_PUT_hdr _ _ _ _ _ (by omega)]
          simp [hdr]
      · show Seg _ (bp + csize) false post
        apply Seg_after s.mem _ _ false false post hpost (by omega)
        · intro y hy; exact hbyte y (Or.inr (by omega))
        · intro c cs e
          rw [GET_congr s.mem _ _ (fun y h1 h2 => hbyte y (Or.inr (by omega)))]
          rw [e, Seg_cons] at hpost
          exact hpost.1.2.2.1
    · rw [endAddr_append]; simp only [endAddr]; rw [hbp]; exact hend
    · rw [GET_congr s.mem _ _ (fun y h1 h2 => hbyte y (Or.inr (by omega)))]
      exact hepi
    · exact ⟨lists_frame s _ bk F h _ _ _ hmem hnotF _ (fun y hy => hbyte y (by
          simp only at hy; omega)), hidx.sound, hidx.complete, hidx.nodup⟩
    · exact hFfree
  obtain ⟨l1, l2, -, -, -, m', hins, hWf', hfr⟩ := insert_spec _ _ bk F hWf3 bp
    csize true (by rw [hpa] at hmem; exact hmem) hnotF
  refine ⟨m', Function.update bk (bucket csize) (l1 ++ bp :: l2), ?_, ?_, ?_⟩
  · unfold place
    have hnot : ¬ (GET_SIZE s.mem bp + (SZ - 0 % SZ)) % SZ ≤ minsize := by
      rw [hrem]; unfold minsize; omega
    simp only [hnot, if_false]
    unfold find_next_blankblock FTRP HDRP WSIZE DSIZE
    rw [hrem, e1, e2, hgs1, Nat.add_zero, hgs2, hins]
    rfl
  · apply Wf_congr_F _ _ _ _ _ hWf'
    intro x z
    rw [hF]
    constructor
    · rintro (⟨h1, -⟩ | ⟨h1, h2⟩)
      · exact h1
      · rw [h1, h2]; exact ⟨_, hmem⟩
    · intro h1
      by_cases hx : x = bp
      · right
        subst hx
        have h2 : IsFree (s.mem_start_brk + 80) (pre ++ Blk.mk csize false :: post) x csize :=
          ⟨_, hmem⟩
        exact ⟨rfl, isFree_unique s _ bk F h _ _ _ h1 h2⟩
      · exact Or.inl ⟨h1, hx⟩
  · intro y hy
    rw [hfr y hy]
    obtain ⟨h1, h2, h3⟩ := payload_facts s _ bk F h y hy
    have f1 := (h3 _ _ _ hmem).2.1 rfl
    simp only at f1
    show (PUT (PUT (PUT s.mem (bp - 4) (hdr 0 true true)) (bp - 4)
        (hdr csize true false)) (bp + csize - 8) (hdr csize true false)).byte y
        = s.mem.byte y
    rw [PUT_byte_out _ _ _ _ (by omega), PUT_byte_out _ _ _ _ (by omega),
      PUT_byte_out _ _ _ _ (by omega)]

/-! ## `mm_init` -/

theorem succeed_memset_zero (m : Mem) (lo n p : Nat) (h1 : lo ≤ p) (h2 : p + 8 ≤ lo + n) :
    succeed (memset m lo 0 n) p = 0 := by
  unfold succeed
  rw [readLE_of_bytes _ 8 p 0]
  · rfl
  · intro i hi
    simp only [memset, Nat.zero_div, Nat.zero_mod]
    rw [if_pos ⟨by omega, by omega⟩]

/-- The state `mm_init` builds before it extends the heap: the zeroed sentinel
table, the prologue word and the epilogue header, with an empty chain. -/
theorem mm_init_table (s0 : Heap) (hF : Fresh s0) (hroom : ¬ s0.mem_brk + 80 > s0.mem_max_addr) :
    ∃ s3 : Heap, s3.mem_start_brk = s0.mem_start_brk ∧ s3.mem_max_addr = s0.mem_max_addr ∧
      s3.mem_brk = s0.mem_brk + 80 ∧
      mm_init s0 = (extend_heap s3 16384).map (fun r => if r.1 = 0 then (-1, r.2) else (0, r.2)) ∧
      Wf s3 [] (fun _ => []) (IsFree (s0.mem_start_brk + 80) []) := by
  obtain ⟨hb, hpos, hal, hmax, hmax64⟩ := hF
  have h1 : s0.mem_brk ≠ FAIL := by unfold FAIL; omega
  have h2 : s0.mem_brk + free_list_size * DSIZE ≠ FAIL := by
    unfold FAIL free_list_size DSIZE; omega
  refine ⟨{ s0 with mem := PUT (PUT (memset s0.mem s0.mem_brk 0 72) (s0.mem_brk + 72) 11) (s0.mem_brk + 76) 3, mem_brk := s0.mem_brk + 80, heap_listp := s0.mem_brk + 80, epilogue := s0.mem_brk + 80, explicit_free_list := s0.mem_brk, free_list_end := s0.mem_brk + 72 },
    rfl, rfl, rfl, ?_, ?_⟩
  · unfold mm_init mem_sbrk
    have hroom' : ¬ s0.mem_brk + (free_list_size * DSIZE + 2 * WSIZE) > s0.mem_max_addr := hroom
    rw [if_neg hroom']
    dsimp only
    rw [if_neg h1, if_neg h2]
    rfl
  · have hg1 : GET (PUT (PUT (memset s0.mem s0.mem_brk 0 72) (s0.mem_brk + 72) 11)
        (s0.mem_brk + 76) 3) (s0.mem_start_brk + 72) = 11 := by
      rw [← hb, GET_PUT_disj _ _ _ _ (by omega), GET_PUT_same]; norm_num
    have hg2 : GET (PUT (PUT (memset s0.mem s0.mem_brk 0 72) (s0.mem_brk + 72) 11)
        (s0.mem_brk + 76) 3) (s0.mem_brk + 80 - 4) = hdr 0 true true := by
      rw [show s0.mem_brk + 80 - 4 = s0.mem_brk + 76 by omega, GET_PUT_same]
      rfl
    exact {
      lo_pos := hpos, lo_al := hal, brk_le := by show s0.mem_brk + 80 ≤ s0.mem_max_addr; omega
      max_lt := hmax, max_lt64 := hmax64, efl := hb, fle := by show s0.mem_brk + 72 = _; rw [hb]
      hlp := by show s0.mem_brk + 80 = _; rw [hb]
      epi := rfl, prologue := hg1, seg := Seg_nil _ _ _
      endA := by show s0.mem_start_brk + 80 = s0.mem_brk + 80; rw [hb]
      epihdr := hg2
      index := {
        lists := by
          intro i hi
          show succeed _ (s0.mem_start_brk + 8 * i) = 0
          rw [succeed_PUT_disj _ _ _ _ (by omega), succeed_PUT_disj _ _ _ _ (by omega)]
          exact succeed_memset_zero _ _ _ _ (by omega) (by omega)
        sound := by intro i _ x hx; simp at hx
        complete := by
          intro x sz hx
          obtain ⟨pa, hx⟩ := hx
          simp [blocks] at hx
        nodup := by intro i _; exact List.nodup_nil }
      F_free := fun x sz hx => hx }

/-- `mm_init` on a fresh arena: it fails with -1 when the arena has no room for
the sentinel table and the prologue; otherwise it returns 0 and leaves a
consistent heap, whose chain is one free block of 16384 bytes when the arena
could grow that far and is empty when it could not. -/
theorem mm_init_spec (s0 : Heap) (hF : Fresh s0) :
    (s0.mem_brk + 80 > s0.mem_max_addr → ∃ s, mm_init s0 = some (-1, s)) ∧
    (¬ s0.mem_brk + 80 > s0.mem_max_addr →
      ∃ s bs bk, mm_init s0 = some (0, s) ∧ s.mem_start_brk = s0.mem_start_brk ∧
        s.mem_max_addr = s0.mem_max_addr ∧
        Wf s bs bk (IsFree (s0.mem_start_brk + 80) bs) ∧ NoAdj true bs ∧
        ((s0.mem_brk + 80 + 16384 > s0.mem_max_addr ∧ bs = [] ∧ s.mem_brk = s0.mem_brk + 80) ∨
         (¬ s0.mem_brk + 80 + 16384 > s0.mem_max_addr ∧ bs = [Blk.mk 16384 false] ∧
           s.mem_brk = s0.mem_brk + 80 + 16384))) := by
  constructor
  · intro hfail
    have hfail' : s0.mem_brk + (free_list_size * DSIZE + 2 * WSIZE) > s0.mem_max_addr := hfail
    refine ⟨{ s0 with explicit_free_list := FAIL }, ?_⟩
    unfold mm_init mem_sbrk
    rw [if_pos hfail']
    dsimp only
    rw [if_pos rfl]
  · intro hroom
    obtain ⟨s3, e1, e2, e3, hinit, hWf⟩ := mm_init_table s0 hF hroom
    rw [← e1] at hWf
    by_cases hfail : s0.mem_brk + 80 + 16384 > s0.mem_max_addr
    · refine ⟨s3, [], fun _ => [], ?_, e1, e2, by rw [← e1]; exact hWf, trivial,
        Or.inl ⟨hfail, rfl, e3⟩⟩
      rw [hinit, extend_heap_fail s3 _ (by rw [e3, e2]; exact hfail)]
      show some (if FAIL = 0 then _ else _) = _
      rw [if_neg (by unfold FAIL; omega)]
    · obtain ⟨pre', pm, tot, m', bk', hbs, -, htot, -, -, -, hext, hWf', hna', -⟩ :=
        extend_heap_spec s3 [] _ hWf trivial 16384 (by omega) (by omega)
          (by rw [e3, e2]; exact hfail)
      have hpre : pre' = [] := by
        cases pre' with
        | nil => rfl
        | cons a l => simp at hbs
      subst hpre
      simp only [endAddr, List.nil_append] at htot hext hWf' hna'
      have hend := hWf.endA
      simp only [endAddr] at hend
      have htot' : tot = 16384 := by omega
      subst htot'
      refine ⟨{ s3 with mem := m', mem_brk := s3.mem_brk + 16384, epilogue := s3.epilogue + 16384 },
        [Blk.mk 16384 false], bk', ?_, e1, e2, by rw [← e1]; exact hWf', hna',
        Or.inr ⟨hfail, rfl, by show s3.mem_brk + 16384 = _; rw [e3]⟩⟩
      rw [hinit, hext]
      show some (if s3.mem_start_brk + 80 = 0 then _ else _) = _
      rw [if_neg (by omega)]

/-! ## The chain and the bucket lists as the code walks them -/

theorem endAddr_ge (m : Mem) (a : Nat) (pa : Bool) (bs : List Blk) (h : Seg m a pa bs) :
    a + 16 * bs.length ≤ endAddr a bs := by
  induction bs generalizing a pa with
  | nil => simp [endAddr]
  | cons b bs ih =>
    rw [Seg_cons] at h
    have := ih _ _ h.2
    have := h.1.1
    simp only [endAddr, List.length_cons]
    omega

theorem GET_SIZE_epilogue (m : Mem) (a : Nat) (la : Bool) (h : GET m (a - 4) = hdr 0 la true) :
    GET_SIZE m a = 0 ∧ GET_ALLOC m a = 1 ∧ get_prev_alloc m a = la.toNat := by
  have hlt := GET_lt m (a - 4)
  obtain ⟨d1, d2, d3⟩ := hdr_decode _ 0 la true h (by decide) hlt
  exact ⟨d1, d2, d3⟩

/-- The walk of the address-ordered chain visits exactly the blocks of the chain. -/
theorem walk_eq (m : Mem) (a : Nat) (pa : Bool) (bs : List Blk) (h : Seg m a pa bs) (la : Bool)
    (hepi : GET m (endAddr a bs - 4) = hdr 0 la true) (f : Nat) (hf : bs.length < f) :
    walk m f a = (blocks a pa bs).map fun x => (x.1, x.2.2.size, x.2.2.alloc.toNat) := by
  induction bs generalizing a pa f with
  | nil =>
    cases f with
    | zero => simp at hf
    | succ f =>
      simp only [endAddr] at hepi
      simp only [walk, (GET_SIZE_epilogue m a la hepi).1, blocks, List.map_nil]
      rfl
  | cons b bs ih =>
    cases f with
    | zero => simp at hf
    | succ f =>
      have hh := Seg_hdr m a pa (b :: bs) h a pa b (by simp [blocks])
      rw [Seg_cons] at h
      have hpos := h.1.1
      simp only [endAddr] at hepi
      simp only [walk, hh.2.1, hh.2.2.1, blocks, List.map_cons, find_next_blankblock]
      rw [if_pos (by omega), ih _ _ h.2 hepi f (by simpa using hf)]

theorem chain_eq (s : Heap) (bs : List Blk) (bk : Nat → List Nat) (F : Nat → Nat → Prop)
    (h : Wf s bs bk F) :
    chain s = (blocks (s.mem_start_brk + 80) true bs).map
      fun x => (x.1, x.2.2.size, x.2.2.alloc.toNat) := by
  unfold chain
  rw [h.hlp]
  apply walk_eq _ _ _ _ h.seg (lastAlloc true bs)
  · rw [h.endA]; exact h.epihdr
  · have h1 := endAddr_ge _ _ _ _ h.seg
    have h2 := h.endA
    unfold fuel
    omega

theorem mem_chain_iff (s : Heap) (bs : List Blk) (bk : Nat → List Nat) (F : Nat → Nat → Prop)
    (h : Wf s bs bk F) (x sz al : Nat) :
    (x, sz, al) ∈ chain s ↔
      ∃ pa b, (x, pa, b) ∈ blocks (s.mem_start_brk + 80) true bs ∧ b.size = sz ∧
        b.alloc.toNat = al := by
  rw [chain_eq s bs bk F h, List.mem_map]
  constructor
  · rintro ⟨⟨x', pa, b⟩, hm, he⟩
    simp only [Prod.mk.injEq] at he
    obtain ⟨rfl, rfl, rfl⟩ := he
    exact ⟨pa, b, hm, rfl, rfl⟩
  · rintro ⟨pa, b, hm, rfl, rfl⟩
    exact ⟨(x, pa, b), hm, rfl⟩

theorem live_iff (s : Heap) (bs : List Blk) (bk : Nat → List Nat) (F : Nat → Nat → Prop)
    (h : Wf s bs bk F) (p : Nat) :
    Live s p ↔ ∃ pa sz, (p, pa, Blk.mk sz true) ∈ blocks (s.mem_start_brk + 80) true bs := by
  unfold Live
  constructor
  · rintro ⟨sz, hm⟩
    obtain ⟨pa, b, hb, h1, h2⟩ := (mem_chain_iff s bs bk F h _ _ _).mp hm
    obtain ⟨bsz, bal⟩ := b
    cases bal with
    | false => simp at h2
    | true => exact ⟨pa, bsz, hb⟩
  · rintro ⟨pa, sz, hm⟩
    exact ⟨sz, (mem_chain_iff s bs bk F h _ _ _).mpr ⟨pa, _, hm, rfl, rfl⟩⟩

theorem bucket_list_eq (s : Heap) (bs : List Blk) (bk : Nat → List Nat) (F : Nat → Nat → Prop)
    (h : Wf s bs bk F) (i : Nat) (hi : i < 9) : bucket_list s i = bk i := by
  unfold bucket_list
  rw [h.efl, show s.mem_start_brk + i * DSIZE = s.mem_start_brk + 8 * i by unfold DSIZE; omega]
  exact list_walk_eq _ _ _ (h.index.lists i hi) _ (bucket_length s bs bk F h i hi)

theorem blk_aligned (s : Heap) (bs : List Blk) (bk : Nat → List Nat) (F : Nat → Nat → Prop)
    (h : Wf s bs bk F) (x : Nat) (pa : Bool) (b : Blk)
    (hx : (x, pa, b) ∈ blocks (s.mem_start_brk + 80) true bs) : x % 8 = 0 := by
  obtain ⟨pre, post, hbs, hxe, -⟩ := mem_blocks_split _ _ _ _ _ _ hx
  have hseg := h.seg
  rw [hbs, Seg_append] at hseg
  have hal := h.lo_al
  have key : ∀ (l : List Blk) (a : Nat) (q : Bool), Seg s.mem a q l → a % 8 = 0 →
      endAddr a l % 8 = 0 := by
    intro l
    induction l with
    | nil => intro a q _ ha; simpa [endAddr] using ha
    | cons c cs ih =>
      intro a q hs ha
      rw [Seg_cons] at hs
      have := hs.1.2.1
      simp only [endAddr]
      exact ih _ _ hs.2 (by omega)
  rw [hxe]
  exact key pre _ _ hseg.1 (by omega)

/-- The size stored in the header of a block of the chain. -/
theorem blk_size (s : Heap) (bs : List Blk) (bk : Nat → List Nat) (F : Nat → Nat → Prop)
    (h : Wf s bs bk F) (x : Nat) (pa : Bool) (b : Blk)
    (hx : (x, pa, b) ∈ blocks (s.mem_start_brk + 80) true bs) :
    GET_SIZE s.mem x = b.size ∧ GET_ALLOC s.mem x = b.alloc.toNat :=
  ⟨(Seg_hdr _ _ _ _ h.seg _ _ _ hx).2.1, (Seg_hdr _ _ _ _ h.seg _ _ _ hx).2.2.1⟩

/-! ## `free` on a live pointer -/

/-- Freeing an allocated block of a consistent heap: the call returns, the heap
stays consistent, the allocated blocks afterwards are the others, and no byte of
their payloads changes. -/
theorem free_live (s : Heap) (bs : List Blk) (bk : Nat → List Nat)
    (h : Wf s bs bk (IsFree (s.mem_start_brk + 80) bs)) (hna : NoAdj true bs)
    (p : Nat) (pa : Bool) (sz : Nat)
    (hp : (p, pa, Blk.mk sz true) ∈ blocks (s.mem_start_brk + 80) true bs) :
    ∃ m' bs' bk', free s p = some { s with mem := m' } ∧
      Wf { s with mem := m' } bs' bk' (IsFree (s.mem_start_brk + 80) bs') ∧ NoAdj true bs' ∧
      (∀ x b, b.alloc = true → ((∃ q, (x, q, b) ∈ blocks (s.mem_start_brk + 80) true bs') ↔
        ((∃ q, (x, q, b) ∈ blocks (s.mem_start_brk + 80) true bs) ∧ x ≠ p))) ∧
      (∀ y, Payload (s.mem_start_brk + 80) bs y → ¬(p ≤ y ∧ y < p + sz - 4) →
        m'.byte y = s.mem.byte y) := by
  obtain ⟨pre, post, hbs, hpe, -⟩ := mem_blocks_split _ _ _ _ _ _ hp
  subst hbs
  obtain ⟨pre', pm, nm, post', tot, m', bk', hpre, hpost, hfree, htot, -, -, -, -, hfr, hWf', hna',
    hframe⟩ := free_spec s pre post sz bk h hna
  rw [← hpe] at hfr hframe
  refine ⟨m', _, bk', hfr, hWf', hna', ?_, hframe⟩
  have hpmfree : ∀ b ∈ pm, b.alloc = false := fun b hb => hfree b (List.mem_append_left _ hb)
  have hnmfree : ∀ b ∈ nm, b.alloc = false := fun b hb =>
    hfree b (List.mem_append_right _ (List.mem_cons_of_mem _ hb))
  have hp1 : endAddr (endAddr (s.mem_start_brk + 80) pre') pm = p := by
    rw [hpe, hpre, endAddr_append]
  have hp2 : endAddr (s.mem_start_brk + 80) pre' + tot = endAddr (p + sz) nm := by
    rw [htot, endAddr_append, hp1]; rfl
  have hle1 := le_endAddr (endAddr (s.mem_start_brk + 80) pre') pm
  have hle2 := le_endAddr (p + sz) nm
  have hsz := (blk_bounds _ _ _ _ h _ _ _ hp).2.2.1
  simp only at hsz
  intro x b hal
  rw [isBlk_split _ _ false, isBlk_split _ _ true, ← hpe]
  simp only
  constructor
  · rintro (g | ⟨-, g⟩ | g)
    · have hb := isBlk_bounds _ _ _ _ _ g
      have hpos := Seg_pos _ _ _ _ h.seg b (by
        obtain ⟨q, g'⟩ := g
        have := mem_blocks_mem _ _ _ _ _ _ g'
        rw [hpre]; simp [this])
      refine ⟨Or.inl ?_, by omega⟩
      rw [hpre]
      exact (isBlk_append _ _ true _ _ _ _).mpr (Or.inl g)
    · rw [g] at hal; simp at hal
    · have hb := isBlk_bounds _ _ _ _ _ g
      refine ⟨Or.inr (Or.inr ?_), by omega⟩
      rw [hpost]
      apply (isBlk_append _ _ true _ _ _ _).mpr
      right
      rw [← hp2]
      obtain ⟨q, g'⟩ := g
      exact blocks_pa_indep _ _ _ _ _ _ _ g'
  · rintro ⟨g | ⟨g, -⟩ | g, hne⟩
    · rw [hpre] at g
      rcases (isBlk_append _ _ true _ _ _ _).mp g with g' | g'
      · exact Or.inl g'
      · have := isBlk_free_mem _ _ _ hpmfree _ _ g'
        rw [this] at hal; simp at hal
    · exact absurd g hne
    · rw [hpost] at g
      rcases (isBlk_append _ _ true _ _ _ _).mp g with g' | g'
      · have := isBlk_free_mem _ _ _ hnmfree _ _ g'
        rw [this] at hal; simp at hal
      · rw [← hp2] at g'
        obtain ⟨q, g''⟩ := g'
        exact Or.inr (Or.inr (blocks_pa_indep _ _ _ _ _ _ _ g''))

/-! ## `malloc` for every request -/

theorem adjust_cases (n : Nat) : adjust n = 0 ∨ (16 ≤ adjust n ∧ adjust n % 8 = 0) := by
  unfold adjust ALIGN WSIZE minsize SZ
  by_cases hc : (n + 4) % 2 ^ 64 ≤ 16
  · rw [if_pos hc]; right; omega
  · rw [if_neg hc]
    have hlt : (n + 4) % 2 ^ 64 < 2 ^ 64 := Nat.mod_lt _ (by norm_num)
    rw [and_size_mask64 _ (Nat.mod_lt _ (by norm_num))]
    by_cases hw : (n + 4) % 2 ^ 64 + 7 < 2 ^ 64
    · rw [Nat.mod_eq_of_lt hw]; right; omega
    · left; omega

theorem MAX_facts (asize : Nat) (h8 : asize % 8 = 0) :
    16 ≤ MAX asize CHUNKSIZE ∧ MAX asize CHUNKSIZE % 8 = 0 ∧ asize ≤ MAX asize CHUNKSIZE ∧
    3072 ≤ MAX asize CHUNKSIZE := by
  unfold MAX CHUNKSIZE; split <;> omega

/-- The effect of `malloc` when the adjusted size has wrapped to zero: the first
listed block, or a block from new arena space, is returned; a block of more than
sixteen bytes is returned still free. -/
theorem malloc_zero (s : Heap) (bs : List Blk) (bk : Nat → List Nat)
    (h : Wf s bs bk (IsFree (s.mem_start_brk + 80) bs)) (hna : NoAdj true bs)
    (n : Nat) (hn : n ≠ 0) (has : adjust (if n = 448 then 512 else n) = 0) :
    ((∀ x z, ¬ IsFree (s.mem_start_brk + 80) bs x z) ∧
      s.mem_brk + MAX 0 CHUNKSIZE > s.mem_max_addr ∧ malloc s n = some (0, s)) ∨
    (∃ p m' inc bs' bk' b,
      malloc s n =
        some (p, { s with mem := m', mem_brk := s.mem_brk + inc, epilogue := s.epilogue + inc }) ∧
      ((inc = 0 ∧ ∃ z, IsFree (s.mem_start_brk + 80) bs p z) ∨
       (inc = MAX 0 CHUNKSIZE ∧ (∀ x z, ¬ IsFree (s.mem_start_brk + 80) bs x z) ∧
         ¬ s.mem_brk + MAX 0 CHUNKSIZE > s.mem_max_addr)) ∧
      Wf { s with mem := m', mem_brk := s.mem_brk + inc, epilogue := s.epilogue + inc } bs' bk'
        (IsFree (s.mem_start_brk + 80) bs') ∧
      NoAdj true bs' ∧
      (∃ pa, (p, pa, b) ∈ blocks (s.mem_start_brk + 80) true bs')) := by
  obtain ⟨r, hfind, hcase⟩ := find_fit_spec s bs bk _ h 0
  have hmal : malloc s n = if r = 0 then
        (extend_heap s (MAX 0 CHUNKSIZE)).bind fun (bp, s1) =>
          if bp = FAIL then some (0, s1)
          else (delete s1 bp).bind fun s2 => place s2 bp 0
      else (delete s r).bind fun s2 => place s2 r 0 := by
    unfold malloc
    rw [if_neg hn]
    dsimp only
    rw [has, hfind]
  -- taking a listed block out and placing zero bytes in it
  have key : ∀ (t : Heap) (pre post : List Blk) (z : Nat) (bkt : Nat → List Nat),
      Wf t (pre ++ Blk.mk z false :: post) bkt
        (IsFree (t.mem_start_brk + 80) (pre ++ Blk.mk z false :: post)) →
      NoAdj true (pre ++ Blk.mk z false :: post) →
      ∃ m' bs' bk' b,
        ((delete t (endAddr (t.mem_start_brk + 80) pre)).bind fun s2 =>
          place s2 (endAddr (t.mem_start_brk + 80) pre) 0) =
          some (endAddr (t.mem_start_brk + 80) pre, { t with mem := m' }) ∧
        Wf { t with mem := m' } bs' bk' (IsFree (t.mem_start_brk + 80) bs') ∧ NoAdj true bs' ∧
        (∃ pa, (endAddr (t.mem_start_brk + 80) pre, pa, b) ∈
          blocks (t.mem_start_brk + 80) true bs') := by
    intro t pre post z bkt ht hnat
    have hmem := mem_blocks_of_split (t.mem_start_brk + 80) true pre post (Blk.mk z false)
    obtain ⟨l1, l2, -, m1, hdel, hWf1, -⟩ := delete_spec t _ bkt _ ht _ z ⟨_, hmem⟩
    rw [hdel, Option.some_bind]
    by_cases hsmall : z ≤ 16
    · obtain ⟨m', hpl, hWf', hna', -⟩ := place_nosplit _ pre post z 0 _ _ hWf1
        (fun x y => Iff.rfl) hnat (Nat.zero_le _) (by omega)
      exact ⟨m', _, _, _, hpl, hWf', hna', ⟨_, mem_blocks_of_split _ _ _ _ _⟩⟩
    · obtain ⟨m', bk', hpl, hWf', -⟩ := place_zero _ pre post z _ _ hWf1
        (fun x y => Iff.rfl) hnat (by omega)
      exact ⟨m', _, bk', _, hpl, hWf', hnat, ⟨_, hmem⟩⟩
  rcases hcase with ⟨hr0, hnofit⟩ | ⟨hr0, z, hFz, -⟩
  · have hnone : ∀ x z, ¬ IsFree (s.mem_start_brk + 80) bs x z := fun x z hx => by
      have := hnofit x z hx; omega
    rw [if_pos hr0] at hmal
    by_cases hfail : s.mem_brk + MAX 0 CHUNKSIZE > s.mem_max_addr
    · left
      refine ⟨hnone, hfail, ?_⟩
      rw [hmal, extend_heap_fail s _ hfail, Option.some_bind]
      exact if_pos rfl
    · right
      obtain ⟨hw16, hw8, -, -⟩ := MAX_facts 0 (by decide)
      obtain ⟨pre', pm, tot, m1, bk1, hbs, hpm, htot, hwt, -, -, hext, hWf1, hna1, -⟩ :=
        extend_heap_spec s bs bk h hna _ hw16 hw8 hfail
      obtain ⟨m', bs', bk', b, hdp, hWf', hna', hblk⟩ := key _ pre' [] tot bk1 hWf1 hna1
      have hb1 := blk_bounds _ _ _ _ hWf1 _ _ _
        (mem_blocks_of_split (s.mem_start_brk + 80) true pre' [] (Blk.mk tot false))
      have hmax := h.max_lt64
      have hbrk := h.brk_le
      have hne : endAddr (s.mem_start_brk + 80) pre' ≠ FAIL := by
        unfold FAIL; simp only at hb1; omega
      refine ⟨endAddr (s.mem_start_brk + 80) pre', m', MAX 0 CHUNKSIZE, bs', bk', b, ?_,
        Or.inr ⟨rfl, hnone, hfail⟩, hWf', hna', hblk⟩
      rw [hmal, hext, Option.some_bind]
      simp only [if_neg hne]
      exact hdp
  · right
    rw [if_neg hr0] at hmal
    obtain ⟨pa, hmem⟩ := hFz
    obtain ⟨pre, post, hbs, hr, -⟩ := mem_blocks_split _ _ _ _ _ _ hmem
    subst hbs hr
    obtain ⟨m', bs', bk', b, hdp, hWf', hna', hblk⟩ := key s pre post z bk h hna
    refine ⟨endAddr (s.mem_start_brk + 80) pre, m', 0, bs', bk', b, ?_,
      Or.inl ⟨rfl, z, ⟨pa, hmem⟩⟩, hWf', hna', hblk⟩
    rw [hmal]; exact hdp

/-! ## The calls with request sizes that fit -/

/-- A request that fits: `malloc` returns null and changes nothing, or returns a
block that was not allocated before and holds the request; the heap stays
consistent, the blocks allocated before stay allocated with their sizes, the only
new allocated block is the one returned and no payload byte changes. -/
theorem malloc_ok (s : Heap) (bs : List Blk) (bk : Nat → List Nat)
    (h : Wf s bs bk (IsFree (s.mem_start_brk + 80) bs)) (hna : NoAdj true bs)
    (n : Nat) (hfit : n + 11 < SZ) :
    ∃ r s' bs' bk', malloc s n = some (r, s') ∧ s'.mem_start_brk = s.mem_start_brk ∧
      Wf s' bs' bk' (IsFree (s.mem_start_brk + 80) bs') ∧ NoAdj true bs' ∧
      (r = 0 → s' = s ∧ bs' = bs) ∧
      (r ≠ 0 → ∃ pa csz, (r, pa, Blk.mk csz true) ∈ blocks (s.mem_start_brk + 80) true bs' ∧
        n + 4 ≤ csz) ∧
      (∀ b, (∃ q, (r, q, b) ∈ blocks (s.mem_start_brk + 80) true bs) → b.alloc = false) ∧
      (∀ x b, b.alloc = true → (∃ q, (x, q, b) ∈ blocks (s.mem_start_brk + 80) true bs) →
        ∃ q, (x, q, b) ∈ blocks (s.mem_start_brk + 80) true bs') ∧
      (∀ x b, b.alloc = true → (∃ q, (x, q, b) ∈ blocks (s.mem_start_brk + 80) true bs') →
        x = r ∨ ∃ q, (x, q, b) ∈ blocks (s.mem_start_brk + 80) true bs) ∧
      (∀ y, Payload (s.mem_start_brk + 80) bs y → s'.mem.byte y = s.mem.byte y) := by
  have hnull : ∀ b, (∃ q, (0, q, b) ∈ blocks (s.mem_start_brk + 80) true bs) → b.alloc = false := by
    rintro b ⟨q, hq⟩
    exact absurd rfl (blk_bounds _ _ _ _ h _ _ _ hq).2.2.2.2.2.2
  by_cases hn : n = 0
  · refine ⟨0, s, bs, bk, ?_, rfl, h, hna, fun _ => ⟨rfl, rfl⟩, fun e => absurd rfl e, hnull,
      fun x b _ hx => hx, fun x b _ hx => Or.inr hx, fun y _ => rfl⟩
    unfold malloc; rw [if_pos hn]
  · have hfit' : (if n = 448 then 512 else n) + 11 < 2 ^ 64 := by
      unfold SZ at hfit; split <;> omega
    have hne' : (if n = 448 then 512 else n) ≠ 0 := by split <;> omega
    obtain ⟨ha16, ha8, hge, -⟩ := adjust_ok _ hne' hfit'
    have hge' : n + 4 ≤ adjust (if n = 448 then 512 else n) := by
      have : n ≤ (if n = 448 then 512 else n) := by split <;> omega
      omega
    rcases malloc_spec s bs bk h hna n hn _ rfl ha16 ha8 with
      ⟨-, -, hm⟩ | ⟨p, m', inc, bs', bk', csz, hm, -, hWf', hna', hblk, hcsz, -, hnew, hper, hconv,
        hfr⟩
    · exact ⟨0, s, bs, bk, hm, rfl, h, hna, fun _ => ⟨rfl, rfl⟩, fun e => absurd rfl e, hnull,
        fun x b _ hx => hx, fun x b _ hx => Or.inr hx, fun y _ => rfl⟩
    · obtain ⟨pa, hblk⟩ := hblk
      have hp0 : p ≠ 0 := (blk_bounds _ _ _ _ hWf' _ _ _ hblk).2.2.2.2.2.2
      exact ⟨p, _, bs', bk', hm, rfl, hWf', hna', fun e => absurd e hp0,
        fun _ => ⟨pa, csz, hblk, by omega⟩, hnew, hper, hconv, hfr⟩

/-- The same for `calloc`, whose request is the product it computes; the bytes
it clears lie in the payload of the block returned. -/
theorem calloc_ok (s : Heap) (bs : List Blk) (bk : Nat → List Nat)
    (h : Wf s bs bk (IsFree (s.mem_start_brk + 80) bs)) (hna : NoAdj true bs)
    (nmemb size : Nat) (hfit : (size * nmemb) % SZ + 11 < SZ) :
    ∃ r s' bs' bk', calloc s nmemb size = some (r, s') ∧ s'.mem_start_brk = s.mem_start_brk ∧
      Wf s' bs' bk' (IsFree (s.mem_start_brk + 80) bs') ∧ NoAdj true bs' ∧
      (r = 0 → s' = s ∧ bs' = bs) ∧
      (r ≠ 0 → ∃ pa csz, (r, pa, Blk.mk csz true) ∈ blocks (s.mem_start_brk + 80) true bs' ∧
        (size * nmemb) % SZ + 4 ≤ csz) ∧
      (∀ b, (∃ q, (r, q, b) ∈ blocks (s.mem_start_brk + 80) true bs) → b.alloc = false) ∧
      (∀ x b, b.alloc = true → (∃ q, (x, q, b) ∈ blocks (s.mem_start_brk + 80) true bs) →
        ∃ q, (x, q, b) ∈ blocks (s.mem_start_brk + 80) true bs') ∧
      (∀ x b, b.alloc = true → (∃ q, (x, q, b) ∈ blocks (s.mem_start_brk + 80) true bs') →
        x = r ∨ ∃ q, (x, q, b) ∈ blocks (s.mem_start_brk + 80) true bs) ∧
      (∀ y, Payload (s.mem_start_brk + 80) bs y → s'.mem.byte y = s.mem.byte y) := by
  obtain ⟨r, s1, bs', bk', hm, hlo, hWf', hna', hr0, hr1, hnew, hper, hconv, hfr⟩ :=
    malloc_ok s bs bk h hna _ hfit
  by_cases hr : r = 0
  · obtain ⟨e1, e2⟩ := hr0 hr
    subst hr
    refine ⟨0, s1, bs', bk', ?_, hlo, hWf', hna', hr0, hr1, hnew, hper, hconv, hfr⟩
    unfold calloc
    dsimp only
    rw [hm, Option.some_bind]
    rfl
  · obtain ⟨pa, csz, hblk, hcsz⟩ := hr1 hr
    rw [← hlo] at hWf' hblk
    have hpay : ∀ y, ¬ Payload (s1.mem_start_brk + 80) bs' y →
        (memset s1.mem r 0 ((size * nmemb) % SZ)).byte y = s1.mem.byte y := by
      intro y hy
      simp only [memset]
      rw [if_neg]
      rintro ⟨h1, h2⟩
      exact hy (payload_of_blk _ _ _ _ _ hblk _ hcsz y h1 h2)
    have hWf2 := Wf_payload s1 bs' bk' _ hWf' _ hpay
    refine ⟨r, { s1 with mem := memset s1.mem r 0 ((size * nmemb) % SZ) }, bs', bk', ?_, hlo,
      by rw [← hlo]; exact hWf2, hna', fun e => absurd e hr,
      fun _ => ⟨pa, csz, by rw [← hlo]; exact hblk, hcsz⟩, hnew, hper, hconv, ?_⟩
    · unfold calloc
      dsimp only
      rw [hm, Option.some_bind]
      exact if_neg hr
    · intro y hy
      rw [← hfr y hy]
      simp only [memset]
      rw [if_neg]
      rintro ⟨h1, h2⟩
      -- the byte would lie in the payload of the new block and of an old one
      obtain ⟨x, q, b, hx, hal, hx1, hx2⟩ := hy
      obtain ⟨q', hx'⟩ := hper x b hal ⟨q, hx⟩
      rw [← hlo] at hx'
      have hb := hnew b
      rcases blk_apart _ _ _ _ hWf' _ _ _ _ _ _ hx' hblk with ⟨e1, -, e3⟩ | e | e
      · subst e1
        have := hnew b ⟨q, hx⟩
        rw [this] at hal; simp at hal
      · omega
      · simp only at e; omega

/-- A `realloc` of an allocated block with a nonzero request that fits: it
returns null or the old pointer and changes nothing, or it returns a block that
was not allocated before, holds the request and starts with the old payload; the
old block is then free, the other allocated blocks stay, and no byte of their
payloads changes. -/
theorem realloc_ok (s : Heap) (bs : List Blk) (bk : Nat → List Nat)
    (h : Wf s bs bk (IsFree (s.mem_start_brk + 80) bs)) (hna : NoAdj true bs)
    (p : Nat) (pa : Bool) (sz : Nat)
    (hp : (p, pa, Blk.mk sz true) ∈ blocks (s.mem_start_brk + 80) true bs)
    (n : Nat) (hn : n ≠ 0) (hfit : n + 19 < SZ) :
    ∃ r s' bs' bk', realloc s p n = some (r, s') ∧ s'.mem_start_brk = s.mem_start_brk ∧
      Wf s' bs' bk' (IsFree (s.mem_start_brk + 80) bs') ∧ NoAdj true bs' ∧
      ((r = 0 ∨ r = p) → s' = s ∧ bs' = bs) ∧
      (r = p ↔ adjust n ≤ sz) ∧
      (r ≠ 0 → r ≠ p →
        (∃ q csz, (r, q, Blk.mk csz true) ∈ blocks (s.mem_start_brk + 80) true bs' ∧ n + 4 ≤ csz) ∧
        (∀ b, (∃ q, (r, q, b) ∈ blocks (s.mem_start_brk + 80) true bs) → b.alloc = false) ∧
        (∀ x b, b.alloc = true → (∃ q, (x, q, b) ∈ blocks (s.mem_start_brk + 80) true bs') →
          x ≠ p ∧ (x = r ∨ ∃ q, (x, q, b) ∈ blocks (s.mem_start_brk + 80) true bs))) ∧
      (∀ x b, b.alloc = true → x ≠ p →
        (∃ q, (x, q, b) ∈ blocks (s.mem_start_brk + 80) true bs) →
        ∃ q, (x, q, b) ∈ blocks (s.mem_start_brk + 80) true bs') ∧
      (∀ y, Payload (s.mem_start_brk + 80) bs y → ¬(p ≤ y ∧ y < p + sz - 4) →
        s'.mem.byte y = s.mem.byte y) ∧
      (r ≠ 0 → ∀ i, i + 4 < sz → s'.mem.byte (r + i) = s.mem.byte (p + i)) := by
  have hpb := blk_bounds _ _ _ _ h _ _ _ hp
  simp only at hpb
  have hp0 : p ≠ 0 := hpb.2.2.2.2.2.2
  have hgs : GET_SIZE s.mem p = sz := (blk_size _ _ _ _ h _ _ _ hp).1
  have hfit1 : n + 11 < 2 ^ 64 := by unfold SZ at hfit; omega
  obtain ⟨ha16, ha8, hge, hform⟩ := adjust_ok n hn hfit1
  have hre : realloc s p n = if sz ≥ adjust n then some (p, s) else
      (malloc s (adjust n)).bind fun (newptr, s1) =>
        if newptr = 0 then some (0, s1)
        else (free { s1 with mem := memmove s1.mem newptr p (MIN (adjust n) sz) } p).map
          fun s2 => (newptr, s2) := by
    unfold realloc
    rw [if_neg hn, if_neg hp0]
    dsimp only
    rw [hgs]
  by_cases hbig : sz ≥ adjust n
  · rw [if_pos hbig] at hre
    exact ⟨p, s, bs, bk, hre, rfl, h, hna, fun _ => ⟨rfl, rfl⟩, ⟨fun _ => hbig, fun _ => rfl⟩,
      fun _ e => absurd rfl e, fun x b _ _ hx => hx, fun y _ _ => rfl, fun _ i _ => rfl⟩
  · rw [if_neg hbig] at hre
    have hfit2 : adjust n + 11 < SZ := by
      unfold SZ at hfit ⊢; rw [hform]; split <;> omega
    obtain ⟨r, s1, bs1, bk1, hm, hlo, hWf1, hna1, hr0, hr1, hnew, hper, hconv, hfr⟩ :=
      malloc_ok s bs bk h hna _ hfit2
    rw [hm, Option.some_bind] at hre
    by_cases hr : r = 0
    · obtain ⟨e1, e2⟩ := hr0 hr
      subst e1 e2
      refine ⟨0, s1, bs1, bk, ?_, rfl, h, hna, fun _ => ⟨rfl, rfl⟩,
        ⟨fun e => absurd e.symm hp0, fun e => absurd e hbig⟩,
        fun e => absurd rfl e, fun x b _ _ hx => hx, fun y _ _ => rfl, fun e => absurd rfl e⟩
      rw [hre, hr]; rfl
    · obtain ⟨qa, csz, hblk, hcsz⟩ := hr1 hr
      have hrp : r ≠ p := by
        intro e
        have := hnew _ ⟨pa, by rw [e]; exact hp⟩
        simp at this
      obtain ⟨pa1, hp1⟩ := hper p _ rfl ⟨pa, hp⟩
      rw [← hlo] at hWf1 hblk hp1
      have hmin : MIN (adjust n) sz = sz := by unfold MIN; rw [if_neg (by omega)]
      rw [hmin] at hre
      -- the copy stays inside the payload of the new block
      have hpay : ∀ y, ¬ Payload (s1.mem_start_brk + 80) bs1 y →
          (memmove s1.mem r p sz).byte y = s1.mem.byte y := by
        intro y hy
        simp only [memmove]
        rw [if_neg]
        rintro ⟨h1, h2⟩
        exact hy (payload_of_blk _ _ _ _ _ hblk sz (by omega) y h1 h2)
      have hWf2 := Wf_payload s1 bs1 bk1 _ hWf1 _ hpay
      obtain ⟨m3, bs3, bk3, hfree, hWf3, hna3, hiff, hfr3⟩ :=
        free_live { s1 with mem := memmove s1.mem r p sz } bs1 bk1 hWf2 hna1 p pa1 sz hp1
      have hapart : r + csz ≤ p ∨ p + sz ≤ r := by
        rcases blk_apart _ _ _ _ hWf1 _ _ _ _ _ _ hblk hp1 with ⟨e1, -, -⟩ | e | e
        · exact absurd e1 hrp
        · exact Or.inl e
        · exact Or.inr e
      have hrb := blk_bounds _ _ _ _ hWf1 _ _ _ hblk
      simp only at hrb
      refine ⟨r, { s1 with mem := m3 }, bs3, bk3, ?_, hlo, by rw [← hlo]; exact hWf3, hna3,
        ?_, ⟨fun e => absurd e hrp, fun e => absurd e hbig⟩, ?_, ?_, ?_, ?_⟩
      · rw [hre]
        simp only [if_neg hr]
        rw [hfree]; rfl
      · rintro (e | e)
        · exact absurd e hr
        · exact absurd e hrp
      · intro _ _
        obtain ⟨q, hq⟩ := (hiff r (Blk.mk csz true) rfl).mpr ⟨⟨qa, hblk⟩, hrp⟩
        refine ⟨⟨q, csz, by rw [← hlo]; exact hq, by omega⟩, hnew, ?_⟩
        intro x b hal hx
        rw [← hlo] at hx
        obtain ⟨g1, g2⟩ := (hiff x b hal).mp hx
        refine ⟨g2, ?_⟩
        rw [hlo] at g1
        exact hconv x b hal g1
      · intro x b hal hxp hx
        have := hper x b hal hx
        rw [← hlo] at this ⊢
        exact (hiff x b hal).mpr ⟨this, hxp⟩
      · intro y hy hny
        have hy1 : Payload (s1.mem_start_brk + 80) bs1 y := by
          obtain ⟨x, q, b, hx, hal, hx1, hx2⟩ := hy
          obtain ⟨q', hx'⟩ := hper x b hal ⟨q, hx⟩
          rw [← hlo] at hx'
          exact ⟨x, q', b, hx', hal, hx1, hx2⟩
        show m3.byte y = s.mem.byte y
        rw [hfr3 y hy1 hny, ← hfr y hy]
        show (memmove s1.mem r p sz).byte y = s1.mem.byte y
        simp only [memmove]
        rw [if_neg]
        rintro ⟨h1, h2⟩
        obtain ⟨x, q, b, hx, hal, hx1, hx2⟩ := hy
        obtain ⟨q', hx'⟩ := hper x b hal ⟨q, hx⟩
        rw [← hlo] at hx'
        rcases blk_apart _ _ _ _ hWf1 _ _ _ _ _ _ hx' hblk with ⟨e1, -, e3⟩ | e | e
        · subst e1
          have := hnew b ⟨q, hx⟩
          rw [this] at hal; simp at hal
        · omega
        · simp only at e; omega
      · intro _ i hi
        show m3.byte (r + i) = s.mem.byte (p + i)
        have hy1 : Payload (s1.mem_start_brk + 80) bs1 (r + i) :=
          payload_of_blk _ _ _ _ _ hblk sz (by omega) _ (by omega) (by omega)
        rw [hfr3 _ hy1 (by omega)]
        show (memmove s1.mem r p sz).byte (r + i) = s.mem.byte (p + i)
        simp only [memmove]
        rw [if_pos ⟨by omega, by omega⟩, show p + (r + i - r) = p + i by omega]
        exact hfr _ (payload_of_blk _ _ _ _ _ hp (sz - 4) (by omega) _ (by omega) (by omega))

/-! ## The pointers a client holds -/

theorem live_grow (L : List Nat) (r : Nat) (A A' : Nat → Prop) (hnd : L.Nodup)
    (hL : ∀ x, x ∈ L ↔ A x) (hnew : ¬ A r) (hiff : ∀ x, A' x ↔ x = r ∨ A x) :
    (r :: L).Nodup ∧ ∀ x, x ∈ r :: L ↔ A' x := by
  refine ⟨List.nodup_cons.mpr ⟨fun hr => hnew ((hL r).mp hr), hnd⟩, fun x => ?_⟩
  rw [List.mem_cons, hiff, hL]

theorem live_drop (L : List Nat) (p : Nat) (A A' : Nat → Prop) (hnd : L.Nodup)
    (hL : ∀ x, x ∈ L ↔ A x) (hiff : ∀ x, A' x ↔ A x ∧ x ≠ p) :
    (L.erase p).Nodup ∧ ∀ x, x ∈ L.erase p ↔ A' x := by
  refine ⟨hnd.erase p, fun x => ?_⟩
  rw [hnd.mem_erase_iff, hiff, hL]
  exact and_comm

theorem live_move (L : List Nat) (p r : Nat) (A A' : Nat → Prop) (hnd : L.Nodup)
    (hL : ∀ x, x ∈ L ↔ A x) (hnew : ¬ A r) (hiff : ∀ x, A' x ↔ x = r ∨ (A x ∧ x ≠ p)) :
    (r :: L.erase p).Nodup ∧ ∀ x, x ∈ r :: L.erase p ↔ A' x := by
  obtain ⟨h1, h2⟩ := live_drop L p A (fun x => A x ∧ x ≠ p) hnd hL (fun x => Iff.rfl)
  exact live_grow (L.erase p) r (fun x => A x ∧ x ≠ p) A' h1 h2 (fun e => hnew e.1) hiff

theorem live_same (L : List Nat) (p : Nat) (hnd : L.Nodup) (hp : p ∈ L) :
    (p :: L.erase p).Nodup ∧ ∀ x, x ∈ p :: L.erase p ↔ x ∈ L := by
  refine ⟨List.nodup_cons.mpr ⟨fun h => ((hnd.mem_erase_iff).mp h).1 rfl, hnd.erase p⟩, fun x => ?_⟩
  rw [List.mem_cons, hnd.mem_erase_iff]
  constructor
  · rintro (e | ⟨-, e⟩)
    · rw [e]; exact hp
    · exact e
  · intro e
    by_cases hx : x = p
    · exact Or.inl hx
    · exact Or.inr ⟨hx, e⟩

/-- The payload bytes of an allocated block, as a `Payload` fact. -/
theorem payload_of_isBlk (a : Nat) (bs : List Blk) (x : Nat) (b : Blk) (hal : b.alloc = true)
    (hx : ∃ q, (x, q, b) ∈ blocks a true bs) (y : Nat) (h1 : x ≤ y) (h2 : y + 4 < x + b.size) :
    Payload a bs y := by
  obtain ⟨q, hq⟩ := hx
  exact ⟨x, q, b, hq, hal, h1, by omega⟩

/-- What a call that allocates has to establish, and what follows for the client. -/
theorem alloc_call (s s' : Heap) (bs bs' : List Blk) (r : Nat)
    (hr0 : r = 0 → s' = s ∧ bs' = bs)
    (hr1 : r ≠ 0 → ∃ pa csz, (r, pa, Blk.mk csz true) ∈ blocks (s.mem_start_brk + 80) true bs')
    (hnew : ∀ b, (∃ q, (r, q, b) ∈ blocks (s.mem_start_brk + 80) true bs) → b.alloc = false)
    (hper : ∀ x b, b.alloc = true → (∃ q, (x, q, b) ∈ blocks (s.mem_start_brk + 80) true bs) →
        ∃ q, (x, q, b) ∈ blocks (s.mem_start_brk + 80) true bs')
    (hconv : ∀ x b, b.alloc = true → (∃ q, (x, q, b) ∈ blocks (s.mem_start_brk + 80) true bs') →
        x = r ∨ ∃ q, (x, q, b) ∈ blocks (s.mem_start_brk + 80) true bs)
    (hfr : ∀ y, Payload (s.mem_start_brk + 80) bs y → s'.mem.byte y = s.mem.byte y) :
    (r ≠ 0 → ∃ pa sz, (r, pa, Blk.mk sz true) ∈ blocks (s.mem_start_brk + 80) true bs') ∧
    (∀ x b, b.alloc = true → (∃ q, (x, q, b) ∈ blocks (s.mem_start_brk + 80) true bs) →
      (∃ q, (x, q, b) ∈ blocks (s.mem_start_brk + 80) true bs') ∧
      ∀ y, x ≤ y → y + 4 < x + b.size → s'.mem.byte y = s.mem.byte y) ∧
    (∀ L : List Nat, L.Nodup →
      (∀ x, x ∈ L ↔ ∃ pa sz, (x, pa, Blk.mk sz true) ∈ blocks (s.mem_start_brk + 80) true bs) →
      (if r = 0 then L else r :: L).Nodup ∧
      ∀ x, x ∈ (if r = 0 then L else r :: L) ↔
        ∃ pa sz, (x, pa, Blk.mk sz true) ∈ blocks (s.mem_start_brk + 80) true bs') := by
  refine ⟨hr1, fun x b hal hx => ⟨hper x b hal hx, fun y h1 h2 =>
    hfr y (payload_of_isBlk _ _ _ _ hal hx y h1 h2)⟩, ?_⟩
  intro L hnd hL
  by_cases hr : r = 0
  · obtain ⟨-, e2⟩ := hr0 hr
    rw [if_pos hr, e2]
    exact ⟨hnd, hL⟩
  · rw [if_neg hr]
    apply live_grow L r _ _ hnd hL
    · rintro ⟨pa, sz, hm⟩
      have := hnew _ ⟨pa, hm⟩
      simp at this
    · intro x
      constructor
      · rintro ⟨pa, sz, hm⟩
        rcases hconv x _ rfl ⟨pa, hm⟩ with e | ⟨q, hq⟩
        · exact Or.inl e
        · exact Or.inr ⟨q, sz, hq⟩
      · rintro (e | ⟨pa, sz, hm⟩)
        · rw [e]; exact hr1 hr
        · obtain ⟨q, hq⟩ := hper x _ rfl ⟨pa, hm⟩
          exact ⟨q, sz, hq⟩

/-! ## Every call with valid arguments -/

/-- A call with valid arguments on a consistent heap returns; the heap stays
consistent; a non-null result is an allocated block; the allocated blocks other
than the pointer argument stay allocated with their sizes and payload bytes; and
the pointers the client holds remain exactly the allocated blocks. -/
theorem call_spec (s : Heap) (bs : List Blk) (bk : Nat → List Nat)
    (h : Wf s bs bk (IsFree (s.mem_start_brk + 80) bs)) (hna : NoAdj true bs) (c : Call)
    (hptr : c.ptr = 0 ∨
      ∃ pa sz, (c.ptr, pa, Blk.mk sz true) ∈ blocks (s.mem_start_brk + 80) true bs)
    (hfits : c.fits) :
    ∃ r s' bs' bk', c.run s = some (r, s') ∧ s'.mem_start_brk = s.mem_start_brk ∧
      Wf s' bs' bk' (IsFree (s.mem_start_brk + 80) bs') ∧ NoAdj true bs' ∧
      (r ≠ 0 → ∃ pa sz, (r, pa, Blk.mk sz true) ∈ blocks (s.mem_start_brk + 80) true bs') ∧
      (∀ x b, b.alloc = true → x ≠ c.ptr →
        (∃ q, (x, q, b) ∈ blocks (s.mem_start_brk + 80) true bs) →
        (∃ q, (x, q, b) ∈ blocks (s.mem_start_brk + 80) true bs') ∧
        ∀ y, x ≤ y → y + 4 < x + b.size → s'.mem.byte y = s.mem.byte y) ∧
      (∀ L : List Nat, L.Nodup →
        (∀ x, x ∈ L ↔ ∃ pa sz, (x, pa, Blk.mk sz true) ∈ blocks (s.mem_start_brk + 80) true bs) →
        (c.live L r).Nodup ∧
        ∀ x, x ∈ c.live L r ↔
          ∃ pa sz, (x, pa, Blk.mk sz true) ∈ blocks (s.mem_start_brk + 80) true bs') := by
  have hnull : ¬ ∃ pa sz, (0, pa, Blk.mk sz true) ∈ blocks (s.mem_start_brk + 80) true bs := by
    rintro ⟨pa, sz, hq⟩
    exact absurd rfl (blk_bounds _ _ _ _ h _ _ _ hq).2.2.2.2.2.2
  have herase0 : ∀ L : List Nat,
      (∀ x, x ∈ L ↔ ∃ pa sz, (x, pa, Blk.mk sz true) ∈ blocks (s.mem_start_brk + 80) true bs) →
      L.erase 0 = L := fun L hL => List.erase_of_not_mem (fun h0 => hnull ((hL 0).mp h0))
  -- the effect of `free` on an allocated block
  have hfree : ∀ p, (∃ pa sz, (p, pa, Blk.mk sz true) ∈ blocks (s.mem_start_brk + 80) true bs) →
      ∃ s' bs' bk', free s p = some s' ∧ s'.mem_start_brk = s.mem_start_brk ∧
        Wf s' bs' bk' (IsFree (s.mem_start_brk + 80) bs') ∧ NoAdj true bs' ∧
        (∀ x b, b.alloc = true → x ≠ p →
          (∃ q, (x, q, b) ∈ blocks (s.mem_start_brk + 80) true bs) →
          (∃ q, (x, q, b) ∈ blocks (s.mem_start_brk + 80) true bs') ∧
          ∀ y, x ≤ y → y + 4 < x + b.size → s'.mem.byte y = s.mem.byte y) ∧
        (∀ L : List Nat, L.Nodup →
          (∀ x, x ∈ L ↔
            ∃ pa sz, (x, pa, Blk.mk sz true) ∈ blocks (s.mem_start_brk + 80) true bs) →
          (L.erase p).Nodup ∧
          ∀ x, x ∈ L.erase p ↔
            ∃ pa sz, (x, pa, Blk.mk sz true) ∈ blocks (s.mem_start_brk + 80) true bs') := by
    rintro p ⟨pa, sz, hp⟩
    obtain ⟨m', bs', bk', hf, hWf', hna', hiff, hfr⟩ := free_live s bs bk h hna p pa sz hp
    refine ⟨_, bs', bk', hf, rfl, hWf', hna', ?_, ?_⟩
    · intro x b hal hxp hx
      refine ⟨(hiff x b hal).mpr ⟨hx, hxp⟩, fun y h1 h2 => ?_⟩
      apply hfr y (payload_of_isBlk _ _ _ _ hal hx y h1 h2)
      obtain ⟨q, hq⟩ := hx
      rcases blk_apart _ _ _ _ h _ _ _ _ _ _ hq hp with ⟨e1, -, -⟩ | e | e
      · exact absurd e1 hxp
      · omega
      · simp only at e; omega
    · intro L hnd hL
      apply live_drop L p _ _ hnd hL
      intro x
      constructor
      · rintro ⟨q, z, hm⟩
        obtain ⟨⟨q', hq'⟩, hne⟩ := (hiff x _ rfl).mp ⟨q, hm⟩
        exact ⟨⟨q', z, hq'⟩, hne⟩
      · rintro ⟨⟨q, z, hm⟩, hne⟩
        obtain ⟨q', hq'⟩ := (hiff x _ rfl).mpr ⟨⟨q, hm⟩, hne⟩
        exact ⟨q', z, hq'⟩
  cases c with
  | malloc n =>
    obtain ⟨r, s', bs', bk', hm, hlo, hWf', hna', hr0, hr1, hnew, hper, hconv, hfr⟩ :=
      malloc_ok s bs bk h hna n hfits
    obtain ⟨c1, c2, c3⟩ := alloc_call s s' bs bs' r hr0
      (fun hr => (hr1 hr).imp fun pa hx => hx.imp fun sz hy => hy.1) hnew hper hconv hfr
    exact ⟨r, s', bs', bk', hm, hlo, hWf', hna', c1, fun x b hal _ hx => c2 x b hal hx, c3⟩
  | calloc k n =>
    obtain ⟨r, s', bs', bk', hm, hlo, hWf', hna', hr0, hr1, hnew, hper, hconv, hfr⟩ :=
      calloc_ok s bs bk h hna k n hfits
    obtain ⟨c1, c2, c3⟩ := alloc_call s s' bs bs' r hr0
      (fun hr => (hr1 hr).imp fun pa hx => hx.imp fun sz hy => hy.1) hnew hper hconv hfr
    exact ⟨r, s', bs', bk', hm, hlo, hWf', hna', c1, fun x b hal _ hx => c2 x b hal hx, c3⟩
  | free p =>
    rcases hptr with h0 | hlive
    · have h0' : p = 0 := h0
      subst h0'
      refine ⟨0, s, bs, bk, ?_, rfl, h, hna, fun e => absurd rfl e,
        fun x b _ _ hx => ⟨hx, fun y _ _ => rfl⟩, fun L hnd hL => ?_⟩
      · show (free s 0).map _ = _
        unfold free; rw [if_pos rfl]; rfl
      · show (L.erase 0).Nodup ∧ ∀ x, x ∈ L.erase 0 ↔ _
        rw [herase0 L hL]; exact ⟨hnd, hL⟩
    · obtain ⟨s', bs', bk', hf, hlo, hWf', hna', c2, c3⟩ := hfree p hlive
      refine ⟨0, s', bs', bk', ?_, hlo, hWf', hna', fun e => absurd rfl e, c2, c3⟩
      show (free s p).map _ = _
      rw [hf]; rfl
  | realloc p n =>
    by_cases hn : n = 0
    · subst hn
      have hrun : (Call.realloc p 0).run s = (free s p).map fun s1 => (0, s1) := by
        show realloc s p 0 = _
        unfold realloc; rw [if_pos rfl]
      rcases hptr with h0 | hlive
      · have h0' : p = 0 := h0
        subst h0'
        refine ⟨0, s, bs, bk, ?_, rfl, h, hna, fun e => absurd rfl e,
          fun x b _ _ hx => ⟨hx, fun y _ _ => rfl⟩, fun L hnd hL => ?_⟩
        · rw [hrun]; unfold free; rw [if_pos rfl]; rfl
        · show (L.erase 0).Nodup ∧ ∀ x, x ∈ L.erase 0 ↔ _
          rw [herase0 L hL]; exact ⟨hnd, hL⟩
      · obtain ⟨s', bs', bk', hf, hlo, hWf', hna', c2, c3⟩ := hfree p hlive
        refine ⟨0, s', bs', bk', ?_, hlo, hWf', hna', fun e => absurd rfl e, c2, c3⟩
        rw [hrun, hf]; rfl
    · have hfits' : n + 19 < SZ := hfits
      rcases hptr with h0 | ⟨pa, sz, hp⟩
      · have h0' : p = 0 := h0
        subst h0'
        have hrun : (Call.realloc 0 n).run s = malloc s n := by
          show realloc s 0 n = _
          unfold realloc; rw [if_neg hn, if_pos rfl]
        obtain ⟨r, s', bs', bk', hm, hlo, hWf', hna', hr0, hr1, hnew, hper, hconv, hfr⟩ :=
          malloc_ok s bs bk h hna n (by unfold SZ at hfits' ⊢; omega)
        obtain ⟨c1, c2, c3⟩ := alloc_call s s' bs bs' r hr0
          (fun hr => (hr1 hr).imp fun pa hx => hx.imp fun sz hy => hy.1) hnew hper hconv hfr
        refine ⟨r, s', bs', bk', by rw [hrun]; exact hm, hlo, hWf', hna', c1,
          fun x b hal _ hx => c2 x b hal hx, fun L hnd hL => ?_⟩
        show (if n = 0 then L.erase 0 else if r = 0 then L else r :: L.erase 0).Nodup ∧
          ∀ x, x ∈ (if n = 0 then L.erase 0 else if r = 0 then L else r :: L.erase 0) ↔ _
        rw [if_neg hn, herase0 L hL]
        exact c3 L hnd hL
      · have hp : (p, pa, Blk.mk sz true) ∈ blocks (s.mem_start_brk + 80) true bs := hp
        obtain ⟨r, s', bs', bk', hre, hlo, hWf', hna', hsame, -, hmoved, hper, hfr, -⟩ :=
          realloc_ok s bs bk h hna p pa sz hp n hn hfits'
        have hp0 : p ≠ 0 := (blk_bounds _ _ _ _ h _ _ _ hp).2.2.2.2.2.2
        refine ⟨r, s', bs', bk', hre, hlo, hWf', hna', ?_, ?_, ?_⟩
        · intro hr
          by_cases hrp : r = p
          · obtain ⟨-, e2⟩ := hsame (Or.inr hrp)
            rw [e2, hrp]; exact ⟨pa, sz, hp⟩
          · exact (hmoved hr hrp).1.imp fun q hx => hx.imp fun z hy => hy.1
        · intro x b hal hxp hx
          have hxp : x ≠ p := hxp
          refine ⟨hper x b hal hxp hx, fun y h1 h2 => ?_⟩
          apply hfr y (payload_of_isBlk _ _ _ _ hal hx y h1 h2)
          obtain ⟨q, hq⟩ := hx
          rcases blk_apart _ _ _ _ h _ _ _ _ _ _ hq hp with ⟨e1, -, -⟩ | e | e
          · exact absurd e1 hxp
          · omega
          · simp only at e; omega
        · intro L hnd hL
          show (if n = 0 then L.erase p else if r = 0 then L else r :: L.erase p).Nodup ∧
            ∀ x, x ∈ (if n = 0 then L.erase p else if r = 0 then L else r :: L.erase p) ↔ _
          rw [if_neg hn]
          by_cases hr : r = 0
          · obtain ⟨-, e2⟩ := hsame (Or.inl hr)
            rw [if_pos hr, e2]; exact ⟨hnd, hL⟩
          · rw [if_neg hr]
            by_cases hrp : r = p
            · obtain ⟨-, e2⟩ := hsame (Or.inr hrp)
              rw [e2, hrp]
              obtain ⟨g1, g2⟩ := live_same L p hnd ((hL p).mpr ⟨pa, sz, hp⟩)
              exact ⟨g1, fun x => (g2 x).trans (hL x)⟩
            · obtain ⟨hblk, hnew, hconv⟩ := hmoved hr hrp
              apply live_move L p r _ _ hnd hL
              · rintro ⟨q, z, hm⟩
                have := hnew _ ⟨q, hm⟩
                simp at this
              · intro x
                constructor
                · rintro ⟨q, z, hm⟩
                  obtain ⟨g1, g2⟩ := hconv x _ rfl ⟨q, hm⟩
                  rcases g2 with e | ⟨q', hq'⟩
                  · exact Or.inl e
                  · exact Or.inr ⟨⟨q', z, hq'⟩, g1⟩
                · rintro (e | ⟨⟨q, z, hm⟩, hne⟩)
                  · rw [e]; exact hblk.imp fun q hx => hx.imp fun z hy => hy.1
                  · obtain ⟨q', hq'⟩ := hper x _ rfl hne ⟨q, hm⟩
                    exact ⟨q', z, hq'⟩

/-! ## Reachable states are consistent -/

/-- Every reachable state is a consistent heap, and the pointers the client holds
are, without repetition, exactly the allocated blocks of the chain. -/
theorem reach_inv (s : Heap) (L : List Nat) (hR : Reach s L) :
    ∃ bs bk, Wf s bs bk (IsFree (s.mem_start_brk + 80) bs) ∧ NoAdj true bs ∧ L.Nodup ∧
      ∀ x, x ∈ L ↔ ∃ pa sz, (x, pa, Blk.mk sz true) ∈ blocks (s.mem_start_brk + 80) true bs := by
  induction hR with
  | init s0 s hF hinit =>
    obtain ⟨hno, hroom⟩ := mm_init_spec s0 hF
    by_cases hr : s0.mem_brk + 80 > s0.mem_max_addr
    · obtain ⟨s', hs'⟩ := hno hr
      rw [hs'] at hinit
      simp only [Option.some.injEq, Prod.mk.injEq] at hinit
      exact absurd hinit.1 (by decide)
    · obtain ⟨s', bs, bk, hs', hlo, -, hWf, hna, hshape⟩ := hroom hr
      rw [hs'] at hinit
      simp only [Option.some.injEq, Prod.mk.injEq, true_and] at hinit
      subst hinit
      rw [← hlo] at hWf
      refine ⟨bs, bk, hWf, hna, List.nodup_nil, fun x => ?_⟩
      constructor
      · intro hx; simp at hx
      · rintro ⟨pa, sz, hm⟩
        rcases hshape with ⟨-, e, -⟩ | ⟨-, e, -⟩
        · rw [e] at hm; simp [blocks] at hm
        · rw [e] at hm; simp [blocks] at hm
  | call s L c r s1 _ hvalid hrun ih =>
    obtain ⟨bs, bk, hWf, hna, hnd, hL⟩ := ih
    obtain ⟨hptr, hfits⟩ := hvalid
    have hptr' : c.ptr = 0 ∨
        ∃ pa sz, (c.ptr, pa, Blk.mk sz true) ∈ blocks (s.mem_start_brk + 80) true bs :=
      hptr.imp id (fun hx => (hL _).mp hx)
    obtain ⟨r', s', bs', bk', hrun', hlo, hWf', hna', -, -, hlive⟩ :=
      call_spec s bs bk hWf hna c hptr' hfits
    rw [hrun] at hrun'
    simp only [Option.some.injEq, Prod.mk.injEq] at hrun'
    obtain ⟨e1, e2⟩ := hrun'
    subst e1 e2
    rw [← hlo] at hWf' hlive
    obtain ⟨g1, g2⟩ := hlive L hnd (by rw [hlo]; exact hL)
    exact ⟨bs', bk', hWf', hna', g1, g2⟩
  | store s L p a v _ hp h1 h2 ih =>
    obtain ⟨bs, bk, hWf, hna, hnd, hL⟩ := ih
    obtain ⟨pa, sz, hm⟩ := (hL p).mp hp
    have hsz := (blk_size _ _ _ _ hWf _ _ _ hm).1
    simp only at hsz
    rw [hsz] at h2
    refine ⟨bs, bk, Wf_payload s bs bk _ hWf _ ?_, hna, hnd, hL⟩
    intro y hy
    apply writeLE_byte_out
    by_contra hc
    have hya : y = a := by omega
    subst hya
    exact hy (payload_of_blk _ _ _ _ _ hm (sz - 4) (by omega) y h1 (by omega))

theorem reach_heapOK (s : Heap) (L : List Nat) (hR : Reach s L) : HeapOK s := by
  obtain ⟨bs, bk, hWf, hna, -, -⟩ := reach_inv s L hR
  exact ⟨bs, bk, hWf, hna⟩

/-- The heap `mm_init` builds on a fresh arena that has room for the sentinel
table and the prologue. -/
theorem mm_init_run (s0 : Heap) (hF : Fresh s0) (hroom : ¬ s0.mem_brk + 80 > s0.mem_max_addr) :
    mm_init s0 = some (0, ((mm_init s0).map Prod.snd).getD s0) := by
  obtain ⟨s', -, -, hs', -⟩ := (mm_init_spec s0 hF).2 hroom
  rw [hs']; rfl

theorem fresh_arena0 : Fresh arena0 := by
  unfold Fresh arena0; norm_num

theorem reach_heap0 : Reach heap0 [] :=
  Reach.init arena0 heap0 fresh_arena0 (mm_init_run arena0 fresh_arena0 (by decide))

/-! ## Concrete heaps -/

theorem option_run (o : Option (Nat × Heap)) (a : Nat) (d : Heap)
    (h : o.map Prod.fst = some a) : o = some (a, (o.map Prod.snd).getD d) := by
  cases o with
  | none => simp at h
  | some x =>
    obtain ⟨x1, x2⟩ := x
    simp only [Option.map_some', Option.some.injEq] at h
    subst h
    rfl

set_option maxRecDepth 100000 in
theorem malloc_heap0 : malloc heap0 8 = some (4176, heap1) :=
  option_run _ _ _ (by decide)

theorem reach_heap1 : Reach heap1 [4176] :=
  Reach.call heap0 [] (Call.malloc 8) 4176 heap1 reach_heap0
    ⟨Or.inl rfl, by show 8 + 11 < SZ; unfold SZ; norm_num⟩ malloc_heap0

theorem heapOK_heap1 : HeapOK heap1 := reach_heapOK _ _ reach_heap1

theorem live_of_reach (s : Heap) (L : List Nat) (hR : Reach s L) (p : Nat) :
    p ∈ L ↔ Live s p := by
  obtain ⟨bs, bk, hWf, -, -, hL⟩ := reach_inv s L hR
  rw [hL, live_iff s bs bk _ hWf]

theorem live_heap1 : Live heap1 4176 :=
  (live_of_reach _ _ reach_heap1 4176).mp (List.mem_singleton.mpr rfl)

theorem GET_SIZE_lt (m : Mem) (p : Nat) : GET_SIZE m p < 2 ^ 32 := by
  unfold GET_SIZE
  have := GET_lt m (HDRP p)
  rw [and_size_mask _ this]
  omega

theorem adjust_eq (n : Nat) (hfit : n + 11 < SZ) : adjust n = aligned_request n := by
  unfold adjust aligned_request ALIGN WSIZE minsize
  unfold SZ at hfit ⊢
  have h1 : (n + 4) % 2 ^ 64 = n + 4 := Nat.mod_eq_of_lt (by omega)
  rw [h1]
  by_cases hc : n + 4 ≤ 16
  · rw [if_pos hc]; omega
  · have h2 : (n + 4 + 7) % 2 ^ 64 = n + 4 + 7 := Nat.mod_eq_of_lt (by omega)
    rw [if_neg hc, h2, and_size_mask64 _ (by omega)]
    omega

theorem malloc_eq_sized (s : Heap) (n : Nat) (hn : n ≠ 0) :
    malloc s n = malloc_sized s (adjust (if n = 448 then 512 else n)) := by
  unfold malloc malloc_sized
  rw [if_neg hn]

/-! ## The claims -/

/-- C9: `free(NULL)` and `malloc(0)` return at once and leave the whole state (the
bytes, the arena end, the epilogue cursor and the other globals) as it was, and
`malloc(0)` returns null. -/
theorem free_null_malloc_zero_noop (s : Heap) : free s 0 = some s ∧ malloc s 0 = some (0, s) := by
  constructor
  · unfold free; rw [if_pos rfl]
  · unfold malloc; rw [if_pos rfl]

/-- C10: `realloc(p, 0)` is `free(p)` followed by returning null; on a consistent
heap, for `p` null or live, the call returns null with the state `free(p)` gives. -/
theorem realloc_zero_frees (s : Heap) (p : Nat) :
    realloc s p 0 = (free s p).map (fun s1 => (0, s1)) ∧
    (HeapOK s → (p = 0 ∨ Live s p) →
      ∃ s', free s p = some s' ∧ realloc s p 0 = some (0, s')) := by
  have h1 : realloc s p 0 = (free s p).map (fun s1 => (0, s1)) := by
    unfold realloc; rw [if_pos rfl]
  refine ⟨h1, ?_⟩
  rintro ⟨bs, bk, hWf, hna⟩ hp
  rcases hp with hp | hp
  · subst hp
    have hf : free s 0 = some s := by unfold free; rw [if_pos rfl]
    exact ⟨s, hf, by rw [h1, hf]; rfl⟩
  · obtain ⟨pa, sz, hm⟩ := (live_iff s bs bk _ hWf p).mp hp
    obtain ⟨m', bs', bk', hf, -⟩ := free_live s bs bk hWf hna p pa sz hm
    exact ⟨_, hf, by rw [h1, hf]; rfl⟩

theorem realloc_zero_frees_witness :
    ∃ s', free heap1 4176 = some s' ∧ realloc heap1 4176 0 = some (0, s') :=
  (realloc_zero_frees heap1 4176).2 heapOK_heap1 (Or.inr live_heap1)

/-- C11: for a nonzero size, `realloc(NULL, n)` is the call `malloc(n)`: the same
pointer and the same state. -/
theorem realloc_null_is_malloc (s : Heap) (n : Nat) (hn : n ≠ 0) : realloc s 0 n = malloc s n := by
  unfold realloc; rw [if_neg hn, if_pos rfl]

theorem realloc_null_is_malloc_witness : realloc heap0 0 8 = malloc heap0 8 :=
  realloc_null_is_malloc heap0 8 (by decide)

/-- C12: for a non-null pointer `p` (so for every live pointer) and a nonzero `n`
with `max(16, roundup8(n + 4))` at most the size in the header of `p`,
`realloc(p, n)` returns `p` and the state is unchanged. -/
theorem realloc_in_place (s : Heap) (p n : Nat) (hn : n ≠ 0) (hp : p ≠ 0)
    (hsz : aligned_request n ≤ GET_SIZE s.mem p) : realloc s p n = some (p, s) := by
  have hlt := GET_SIZE_lt s.mem p
  have hfit : n + 11 < SZ := by
    unfold aligned_request at hsz; unfold SZ; omega
  unfold realloc
  rw [if_neg hn, if_neg hp]
  dsimp only
  rw [adjust_eq n hfit, if_pos hsz]

set_option maxRecDepth 100000 in
theorem realloc_in_place_witness : realloc heap1 4176 8 = some (4176, heap1) :=
  realloc_in_place heap1 4176 8 (by decide) (by decide) (by decide)

/-- The move path of `realloc`: for a non-null `p` whose block is smaller than the
aligned request `m = max(16, roundup8(n + 4))`, `realloc(p, n)` calls `malloc(m)`,
returns null if that call does, and otherwise copies as many bytes as the size
in the header of `p` says from `p` to the new block, frees `p` and returns the
new block. -/
theorem realloc_move_path (s : Heap) (p n : Nat) (hn : n ≠ 0) (hp : p ≠ 0) (hfit : n + 11 < SZ)
    (hsmall : GET_SIZE s.mem p < aligned_request n) :
    realloc s p n = (malloc s (aligned_request n)).bind fun r =>
      if r.1 = 0 then some (0, r.2)
      else (free { r.2 with mem := memmove r.2.mem r.1 p (GET_SIZE s.mem p) } p).map
        fun s2 => (r.1, s2) := by
  have hmin : MIN (aligned_request n) (GET_SIZE s.mem p) = GET_SIZE s.mem p := by
    unfold MIN; rw [if_neg (by omega)]
  unfold realloc
  rw [if_neg hn, if_neg hp]
  dsimp only
  rw [adjust_eq n hfit, if_neg (by omega), hmin]

/-- C14: when the product `count * size` does not overflow and `calloc` returns a
non-null pointer `p`, then `malloc(count * size)` from the same state returns
`p`; each of the `count * size` bytes at `p` is zero, and every other byte and
the rest of the state are as `malloc` left them. -/
theorem calloc_zero_fills (s : Heap) (nmemb size p : Nat) (s' : Heap)
    (hprod : size * nmemb < SZ) (hc : calloc s nmemb size = some (p, s')) (hp : p ≠ 0) :
    ∃ s1, malloc s (nmemb * size) = some (p, s1) ∧
      (∀ i, i < nmemb * size → s'.mem.byte (p + i) = 0) ∧
      (∀ a, ¬(p ≤ a ∧ a < p + nmemb * size) → s'.mem.byte a = s1.mem.byte a) ∧
      s' = { s1 with mem := s'.mem } := by
  unfold calloc at hc
  dsimp only at hc
  rw [Nat.mod_eq_of_lt hprod, Nat.mul_comm size nmemb] at hc
  cases hm : malloc s (nmemb * size) with
  | none => rw [hm] at hc; exact absurd hc (by simp only [Option.none_bind]; exact fun e => nomatch e)
  | some r =>
    obtain ⟨q, s1⟩ := r
    rw [hm, Option.some_bind] at hc
    dsimp only at hc
    by_cases hq : q = 0
    · rw [if_pos hq] at hc
      simp only [Option.some.injEq, Prod.mk.injEq] at hc
      exact absurd hc.1.symm hp
    · rw [if_neg hq] at hc
      simp only [Option.some.injEq, Prod.mk.injEq] at hc
      obtain ⟨e1, e2⟩ := hc
      subst e1 e2
      refine ⟨s1, rfl, ?_, ?_, rfl⟩
      · intro i hi
        show (memset s1.mem q 0 (nmemb * size)).byte (q + i) = 0
        simp only [memset]
        rw [if_pos ⟨by omega, by omega⟩]
      · intro a ha
        show (memset s1.mem q 0 (nmemb * size)).byte a = s1.mem.byte a
        simp only [memset]
        rw [if_neg ha]

set_option maxRecDepth 100000 in
theorem calloc_zero_fills_witness :
    ∃ s1, malloc heap0 (2 * 8) = some (4176, s1) ∧
      (∀ i, i < 2 * 8 → (((calloc heap0 2 8).map Prod.snd).getD heap0).mem.byte (4176 + i) = 0) ∧
      (∀ a, ¬(4176 ≤ a ∧ a < 4176 + 2 * 8) →
        (((calloc heap0 2 8).map Prod.snd).getD heap0).mem.byte a = s1.mem.byte a) ∧
      ((calloc heap0 2 8).map Prod.snd).getD heap0 =
        { s1 with mem := (((calloc heap0 2 8).map Prod.snd).getD heap0).mem } :=
  calloc_zero_fills heap0 2 8 4176 _ (by unfold SZ; norm_num)
    (option_run _ _ _ (by decide)) (by decide)

set_option maxRecDepth 100000 in
/-- C2 fails on the code: on the heap `mm_init` builds on the arena at 4096,
`malloc(2^64 - 1)` returns the non-null pointer 4176 to an allocated block whose
header says 16 bytes, so 12 usable bytes for a request of `2^64 - 1`. -/
theorem malloc_huge_request_small_block :
    (mm_init arena0).bind (fun r => (malloc r.2 (2 ^ 64 - 1)).map fun q =>
      (r.1, q.1, GET_SIZE q.2.mem q.1, GET_ALLOC q.2.mem q.1)) = some (0, 4176, 16, 1) := by
  decide

set_option maxRecDepth 100000 in
/-- C15 fails on the code: on a fresh arena at 4096 that may hold 4096 bytes the
request for the sentinel table succeeds (the arena ends at 4176 afterwards), the
extension by 16384 bytes cannot succeed, and `mm_init` returns 0. -/
theorem mm_init_zero_when_extension_fails :
    (mm_init arena1).map (fun r => (r.1, r.2.mem_brk,
      decide (r.2.mem_brk + 16384 > r.2.mem_max_addr), (extend_heap r.2 16384).map Prod.fst)) =
      some (0, 4176, true, some FAIL) := by
  decide

set_option maxRecDepth 100000 in
/-- C16 fails as stated: for the request 448 `malloc` asks for 520 bytes (it
returns a block of 520 bytes split from the initial free block) and not for
`max(16, roundup8(448 + 4)) = 456`; and for the request `2^64 - 5`, where
`n + 4` does not overflow, the size computed is 0. -/
theorem malloc_size_not_aligned_request :
    adjust (if (448 : Nat) = 448 then 512 else 448) = 520 ∧ aligned_request 448 = 456 ∧
    (malloc heap0 448).map (fun q => (q.1, GET_SIZE q.2.mem q.1)) = some (4176, 520) ∧
    adjust (if (2 ^ 64 - 5 : Nat) = 448 then 512 else 2 ^ 64 - 5) = 0 ∧ 2 ^ 64 - 5 + 4 < SZ := by
  decide

/-- C16, amended: for every request `n > 0` with `n + 11 < 2^64` (so that rounding
`n + 4` up to a multiple of eight does not overflow either), `malloc(n)` asks
`find_fit`, `extend_heap` and `place` for exactly `max(16, roundup8(n + 4))`
bytes, except for `n = 448`, which it first replaces by 512 and so asks for 520. -/
theorem malloc_size (s : Heap) (n : Nat) (hn : n ≠ 0) (hfit : n + 11 < SZ) :
    malloc s n = malloc_sized s (if n = 448 then 520 else aligned_request n) := by
  rw [malloc_eq_sized s n hn]
  by_cases h448 : n = 448
  · rw [if_pos h448, if_pos h448]
    rw [adjust_eq 512 (by unfold SZ; norm_num)]
    rfl
  · rw [if_neg h448, if_neg h448, adjust_eq n hfit]

theorem malloc_size_witness :
    malloc heap0 100 = malloc_sized heap0 (if 100 = 448 then 520 else aligned_request 100) :=
  malloc_size heap0 100 (by decide) (by unfold SZ; norm_num)

set_option maxRecDepth 100000 in
/-- Evaluation on `heap0`, the heap `mm_init` builds on a fresh arena (based at 4096):
`a = malloc(100)`, `b = malloc(200)`, `free(a)`, `c = malloc(90)` gives `c = a`:
the block of 104 bytes at `a` is reused whole, between the prologue and `b`. -/
theorem reuse_freed_block :
    ((malloc heap0 100).bind fun a => (malloc a.2 200).bind fun b =>
      (free b.2 a.1).bind fun s3 => (malloc s3 90).map fun c => (a.1, b.1, c.1)) =
      some (4176, 4280, 4176) ∧
    ((malloc heap0 100).bind fun a => (malloc a.2 200).bind fun b =>
      (free b.2 a.1).map fun s3 => chain s3) =
      some [(4176, 104, 0), (4280, 208, 1), (4488, 16072, 0)] ∧
    ((malloc heap0 100).bind fun a => (malloc a.2 200).bind fun b =>
      (free b.2 a.1).map fun s3 => bucket_list s3 (bucket 104)) = some [4176] ∧
    ((malloc heap0 100).bind fun a => (malloc a.2 200).bind fun b =>
      (free b.2 a.1).bind fun s3 => (malloc s3 90).map fun c => chain c.2) =
      some [(4176, 104, 1), (4280, 208, 1), (4488, 16072, 0)] := by
  decide

/-! ## Facts for the claims about single calls -/

theorem nofit_iff (s : Heap) (bs : List Blk) (bk : Nat → List Nat)
    (h : Wf s bs bk (IsFree (s.mem_start_brk + 80) bs)) (asize : Nat) :
    (∀ x z, IsFree (s.mem_start_brk + 80) bs x z → z < asize) ↔
      ∀ i, i < free_list_size → ∀ x ∈ bucket_list s i, GET_SIZE s.mem x < asize := by
  constructor
  · intro habs i hi x hx
    rw [bucket_list_eq s bs bk _ h i hi] at hx
    obtain ⟨sz, pa, hF, -, hm⟩ := node_blk s bs bk _ h i hi x hx
    rw [(blk_size s bs bk _ h _ _ _ hm).1]
    exact habs x sz hF
  · intro hconc x z hF
    have hx := h.index.complete x z hF
    have hi := bucket_lt z
    rw [← bucket_list_eq s bs bk _ h _ hi] at hx
    obtain ⟨pa, hm⟩ := hF
    have := hconc _ hi x hx
    rw [(blk_size s bs bk _ h _ _ _ hm).1] at this
    exact this

theorem sbrk_fail_iff (s : Heap) (bs : List Blk) (bk : Nat → List Nat) (F : Nat → Nat → Prop)
    (h : Wf s bs bk F) (w : Nat) :
    (mem_sbrk s w).1 = FAIL ↔ s.mem_brk + w > s.mem_max_addr := by
  unfold mem_sbrk
  have h1 := h.brk_le
  have h2 := h.max_lt64
  by_cases hc : s.mem_brk + w > s.mem_max_addr
  · rw [if_pos hc]; exact ⟨fun _ => hc, fun _ => rfl⟩
  · rw [if_neg hc]
    constructor
    · intro e
      have e' : s.mem_brk = FAIL := e
      unfold FAIL at e'; omega
    · intro e; exact absurd e hc

theorem noAdj_chain (bs : List Blk) (a : Nat) (pa : Bool) (h : NoAdj pa bs) :
    List.Chain' (fun x y : Nat × Nat × Nat => ¬(x.2.2 = 0 ∧ y.2.2 = 0))
      ((blocks a pa bs).map fun x => (x.1, x.2.2.size, x.2.2.alloc.toNat)) := by
  induction bs generalizing a pa with
  | nil => simp [blocks]
  | cons b bs ih =>
    simp only [NoAdj] at h
    simp only [blocks, List.map_cons]
    rw [List.chain'_cons']
    refine ⟨?_, ih _ _ h.2⟩
    intro y hy
    cases bs with
    | nil => simp [blocks] at hy
    | cons c cs =>
      simp only [blocks, List.map_cons, List.head?_cons, Option.mem_def, Option.some.injEq] at hy
      subst hy
      simp only [NoAdj] at h
      rintro ⟨e1, e2⟩
      rcases h.2.1 with g | g
      · rw [g] at e1; simp at e1
      · rw [g] at e2; simp at e2

theorem live_apart (s : Heap) (bs : List Blk) (bk : Nat → List Nat) (F : Nat → Nat → Prop)
    (h : Wf s bs bk F) (p q : Nat) (hp : Live s p) (hq : Live s q) (hne : p ≠ q) :
    p + GET_SIZE s.mem p ≤ q ∨ q + GET_SIZE s.mem q ≤ p := by
  obtain ⟨pa, sz, hm⟩ := (live_iff s bs bk F h p).mp hp
  obtain ⟨qa, sz', hm'⟩ := (live_iff s bs bk F h q).mp hq
  rw [(blk_size s bs bk F h _ _ _ hm).1, (blk_size s bs bk F h _ _ _ hm').1]
  rcases blk_apart s bs bk F h _ _ _ _ _ _ hm hm' with ⟨e, -, -⟩ | e | e
  · exact absurd e hne
  · exact Or.inl e
  · exact Or.inr e

/-! ## Claims about the interface -/

set_option maxRecDepth 100000 in
/-- C1 fails on the code, on the heap `mm_init` builds on a fresh arena.  First,
`malloc(2^64 - 8)` computes the size 0 and returns 4176, leaving the block free,
and the next call `malloc(8)` returns 4176 again.  Second, after `a`, `b`, `c`,
`d = malloc(8)`, `free(a)`, `free(c)`, `e = malloc(8)` (4208), `f = malloc(8)`
(4176) and `free(d)`, the call `realloc(e, 2^64 - 12)` copies a stale link of `e`
into a free block, and the next `malloc(8)` returns 4176, the block `f`, which
is allocated (its header has the allocation bit set) and was never freed. -/
theorem malloc_returns_held_block :
    ((mm_init arena0).bind fun r => (malloc r.2 (2 ^ 64 - 8)).bind fun a =>
      (malloc a.2 8).map fun b => (r.1, a.1, b.1)) = some (0, 4176, 4176) ∧
    adjust (if (2 ^ 64 - 8 : Nat) = 448 then 512 else 2 ^ 64 - 8) = 0 ∧
    ((malloc heap0 8).bind fun a => (malloc a.2 8).bind fun b => (malloc b.2 8).bind fun c =>
      (malloc c.2 8).bind fun d => (free d.2 a.1).bind fun t1 => (free t1 c.1).bind fun t2 =>
      (malloc t2 8).bind fun e => (malloc e.2 8).bind fun f => (free f.2 d.1).bind fun t3 =>
      (realloc t3 e.1 (2 ^ 64 - 12)).bind fun r => (malloc r.2 8).map fun g =>
        (e.1, f.1, GET_ALLOC r.2.mem f.1, g.1)) = some (4208, 4176, 1, 4176) := by
  decide

set_option maxRecDepth 100000 in
/-- C3 fails on the code.  After `a`, `b`, `c`, `d = malloc(8)`, `free(a)`,
`free(c)`, `e = malloc(8)` (4208), `f = malloc(8)` (4176) and `free(d)`, the block
`f` is allocated with 16 bytes and its first payload byte is 0; the call
`realloc(e, 2^64 - 12)` on the other live pointer `e` returns 4224 and stores a
list link in the payload of `f`, whose first byte is then 112.  Also, for
`p = malloc(2^64 - 8)` (4176), the later call `malloc(8)` changes the byte at
`p + 12` from 0 to 242 and the size in the header of `p` from 16384 to 16. -/
theorem later_call_changes_block :
    ((malloc heap0 8).bind fun a => (malloc a.2 8).bind fun b => (malloc b.2 8).bind fun c =>
      (malloc c.2 8).bind fun d => (free d.2 a.1).bind fun t1 => (free t1 c.1).bind fun t2 =>
      (malloc t2 8).bind fun e => (malloc e.2 8).bind fun f => (free f.2 d.1).bind fun t3 =>
      (realloc t3 e.1 (2 ^ 64 - 12)).map fun r => (e.1, f.1, r.1)) = some (4208, 4176, 4224) ∧
    ((malloc heap0 8).bind fun a => (malloc a.2 8).bind fun b => (malloc b.2 8).bind fun c =>
      (malloc c.2 8).bind fun d => (free d.2 a.1).bind fun t1 => (free t1 c.1).bind fun t2 =>
      (malloc t2 8).bind fun e => (malloc e.2 8).bind fun f => (free f.2 d.1).bind fun t3 =>
      (realloc t3 e.1 (2 ^ 64 - 12)).map fun r =>
        (GET_ALLOC t3.mem f.1, GET_SIZE t3.mem f.1, t3.mem.byte f.1, r.2.mem.byte f.1)) =
      some (1, 16, 0, 112) ∧
    ((malloc heap0 (2 ^ 64 - 8)).map fun a =>
      (a.1, GET_SIZE a.2.mem a.1, a.2.mem.byte (a.1 + 12))) = some (4176, 16384, 0) ∧
    ((malloc heap0 (2 ^ 64 - 8)).bind fun a => (malloc a.2 8).map fun b =>
      (b.1, GET_SIZE b.2.mem a.1, b.2.mem.byte (a.1 + 12))) = some (4176, 16, 242) := by
  decide

set_option maxRecDepth 100000 in
/-- C4 fails on the code: with `q = malloc(8)`, `p = malloc(24)`, `free(q)` and the
byte 255 stored at `p + 12`, the call `realloc(p, 2^64 - 12)` returns the
non-null pointer `q`, and the byte at offset 12 there is 254. -/
theorem realloc_huge_loses_pattern :
    ((malloc heap0 8).bind fun q => (malloc q.2 24).bind fun p => (free p.2 q.1).bind fun s3 =>
      (realloc { s3 with mem := writeLE s3.mem (p.1 + 12) 1 255 } p.1 (2 ^ 64 - 12)).map fun r =>
        (q.1, p.1, r.1, r.2.mem.byte (r.1 + 12))) = some (4176, 4192, 4176, 254) := by
  decide

/-- In terms of the size `malloc` computes, `adjust` of the request (512 for 448):
on a consistent heap `malloc(n)` returns, for every `n`; it returns null
exactly when `n = 0`, or when no block of the nine bucket lists has at least the
adjusted size and the growth primitive fails for `MAX(size, CHUNKSIZE)` bytes. -/
theorem malloc_null_iff (s : Heap) (hOK : HeapOK s) (n : Nat) :
    ∃ p s', malloc s n = some (p, s') ∧
      (p = 0 ↔ (n = 0 ∨
        ((∀ i, i < free_list_size → ∀ x ∈ bucket_list s i,
            GET_SIZE s.mem x < adjust (if n = 448 then 512 else n)) ∧
          (mem_sbrk s (MAX (adjust (if n = 448 then 512 else n)) CHUNKSIZE)).1 = FAIL))) := by
  obtain ⟨bs, bk, hWf, hna⟩ := hOK
  by_cases hn : n = 0
  · refine ⟨0, s, ?_, ⟨fun _ => Or.inl hn, fun _ => rfl⟩⟩
    unfold malloc; rw [if_pos hn]
  · rw [← nofit_iff s bs bk hWf, sbrk_fail_iff s bs bk _ hWf]
    rcases adjust_cases (if n = 448 then 512 else n) with h0 | ⟨h16, h8⟩
    · rw [h0]
      rcases malloc_zero s bs bk hWf hna n hn h0 with
        ⟨hnone, hfail, hm⟩ | ⟨p, m', inc, bs', bk', b, hm, hcase, hWf', -, ⟨pa, hblk⟩⟩
      · exact ⟨0, s, hm, ⟨fun _ => Or.inr ⟨fun x z hx => absurd hx (hnone x z), hfail⟩,
          fun _ => rfl⟩⟩
      · have hp0 : p ≠ 0 := (blk_bounds _ _ _ _ hWf' _ _ _ hblk).2.2.2.2.2.2
        refine ⟨p, _, hm, ⟨fun e => absurd e hp0, ?_⟩⟩
        rintro (e | ⟨hnofit, hfail⟩)
        · exact absurd e hn
        · rcases hcase with ⟨-, z, hz⟩ | ⟨-, -, hok⟩
          · have := hnofit p z hz; omega
          · exact absurd hfail hok
    · rcases malloc_spec s bs bk hWf hna n hn _ rfl h16 h8 with
        ⟨hnofit, hfail, hm⟩ |
        ⟨p, m', inc, bs', bk', csz, hm, hcase, hWf', -, ⟨pa, hblk⟩, -⟩
      · exact ⟨0, s, hm, ⟨fun _ => Or.inr ⟨hnofit, hfail⟩, fun _ => rfl⟩⟩
      · have hp0 : p ≠ 0 := (blk_bounds _ _ _ _ hWf' _ _ _ hblk).2.2.2.2.2.2
        refine ⟨p, _, hm, ⟨fun e => absurd e hp0, ?_⟩⟩
        rintro (e | ⟨hnofit, hfail⟩)
        · exact absurd e hn
        · rcases hcase with ⟨-, z, hz, hge⟩ | ⟨-, -, hok⟩
          · have := hnofit p z hz; omega
          · exact absurd hfail hok

theorem malloc_null_iff_witness :
    ∃ p s', malloc heap1 8 = some (p, s') ∧
      (p = 0 ↔ ((8 : Nat) = 0 ∨
        ((∀ i, i < free_list_size → ∀ x ∈ bucket_list heap1 i,
            GET_SIZE heap1.mem x < adjust (if (8 : Nat) = 448 then 512 else 8)) ∧
          (mem_sbrk heap1 (MAX (adjust (if (8 : Nat) = 448 then 512 else 8)) CHUNKSIZE)).1
            = FAIL))) :=
  malloc_null_iff heap1 heapOK_heap1 8

/-- C6: on a consistent heap, `free(p)` of a live pointer returns, and afterwards no
two consecutive blocks of the address-ordered chain are both free. -/
theorem free_leaves_no_adjacent_free (s : Heap) (hOK : HeapOK s) (p : Nat) (hp : Live s p) :
    ∃ s', free s p = some s' ∧
      List.Chain' (fun x y : Nat × Nat × Nat => ¬(x.2.2 = 0 ∧ y.2.2 = 0)) (chain s') := by
  obtain ⟨bs, bk, hWf, hna⟩ := hOK
  obtain ⟨pa, sz, hm⟩ := (live_iff s bs bk _ hWf p).mp hp
  obtain ⟨m', bs', bk', hf, hWf', hna', -⟩ := free_live s bs bk hWf hna p pa sz hm
  refine ⟨_, hf, ?_⟩
  rw [chain_eq _ bs' bk' _ hWf']
  exact noAdj_chain bs' _ true hna'

theorem free_leaves_no_adjacent_free_witness :
    ∃ s', free heap1 4176 = some s' ∧
      List.Chain' (fun x y : Nat × Nat × Nat => ¬(x.2.2 = 0 ∧ y.2.2 = 0)) (chain s') :=
  free_leaves_no_adjacent_free heap1 heapOK_heap1 4176 live_heap1

/-- Block sizes are legal while no size wraps around: in every state reached by
calls on null or live pointers whose size computation does not wrap around
`2^64`, each block of the address-ordered chain has a size that is a multiple of
`DSIZE` (8) and at least `minsize` (16). -/
theorem chain_sizes_aligned (s : Heap) (L : List Nat) (hR : Reach s L) :
    ∀ x sz al, (x, sz, al) ∈ chain s → sz % DSIZE = 0 ∧ minsize ≤ sz := by
  obtain ⟨bs, bk, hWf, -, -, -⟩ := reach_inv s L hR
  intro x sz al hx
  obtain ⟨pa, b, hm, rfl, -⟩ := (mem_chain_iff s bs bk _ hWf x sz al).mp hx
  have := blk_bounds s bs bk _ hWf _ _ _ hm
  unfold DSIZE minsize
  omega

set_option maxRecDepth 100000 in
theorem chain_sizes_aligned_witness : 16368 % DSIZE = 0 ∧ minsize ≤ 16368 :=
  chain_sizes_aligned heap1 [4176] reach_heap1 4192 16368 0 (by decide)

/-- Returned pointers are aligned while no size wraps around: in every state
reached by calls on null or live pointers whose size computation does not wrap
around `2^64` (the arena base is 8-byte aligned), a non-null pointer returned by
such a `malloc`, `calloc` or `realloc` call is a multiple of 8. -/
theorem returned_pointer_aligned (s : Heap) (L : List Nat) (hR : Reach s L) (c : Call)
    (hv : c.valid L) (r : Nat) (s' : Heap) (hrun : c.run s = some (r, s')) (hr : r ≠ 0) :
    r % 8 = 0 := by
  obtain ⟨bs, bk, hWf, hna, -, hL⟩ := reach_inv s L hR
  obtain ⟨r', s'', bs', bk', hrun', hlo, hWf', -, hblk, -⟩ :=
    call_spec s bs bk hWf hna c (hv.1.imp id (fun hx => (hL _).mp hx)) hv.2
  rw [hrun] at hrun'
  simp only [Option.some.injEq, Prod.mk.injEq] at hrun'
  obtain ⟨e1, e2⟩ := hrun'
  subst e1 e2
  obtain ⟨pa, sz, hm⟩ := hblk hr
  rw [← hlo] at hWf' hm
  exact blk_aligned _ _ _ _ hWf' _ _ _ hm

theorem returned_pointer_aligned_witness : 4176 % 8 = 0 :=
  returned_pointer_aligned heap0 [] reach_heap0 (Call.malloc 8)
    ⟨Or.inl rfl, by show 8 + 11 < SZ; unfold SZ; norm_num⟩ 4176 heap1 malloc_heap0 (by decide)

/-- Live blocks do not overlap when the request sizes fit: in every state
reachable from a successful `mm_init` on a fresh arena by calls whose request sizes fit (free and realloc on held pointers),
the pointers the client holds are pairwise distinct and are exactly the allocated
blocks of the chain; the payload ranges `[p, p + size(p) - 4)` of two distinct
allocated blocks are disjoint; and `malloc(n)` with `n + 11 < 2^64` returns, and a
non-null result is a block that was not allocated, is allocated afterwards, and
is disjoint from every block allocated before, all of which stay allocated. -/
theorem live_blocks_disjoint (s : Heap) (L : List Nat) (hR : Reach s L) :
    L.Nodup ∧ (∀ p, p ∈ L ↔ Live s p) ∧
    (∀ p q, Live s p → Live s q → p ≠ q →
      p + (GET_SIZE s.mem p - 4) ≤ q ∨ q + (GET_SIZE s.mem q - 4) ≤ p) ∧
    (∀ n, n + 11 < SZ → ∃ r s', malloc s n = some (r, s') ∧
      (r ≠ 0 → ¬ Live s r ∧ Live s' r ∧ ∀ q, Live s q → Live s' q ∧
        (r + (GET_SIZE s'.mem r - 4) ≤ q ∨ q + (GET_SIZE s'.mem q - 4) ≤ r))) := by
  obtain ⟨bs, bk, hWf, hna, hnd, hL⟩ := reach_inv s L hR
  refine ⟨hnd, fun p => (hL p).trans (live_iff s bs bk _ hWf p).symm, ?_, ?_⟩
  · intro p q hp hq hne
    rcases live_apart s bs bk _ hWf p q hp hq hne with e | e
    · left; omega
    · right; omega
  · intro n hn
    obtain ⟨r, s', bs', bk', hm, hlo, hWf', hna', -, hr1, hnew, hper, -, -⟩ :=
      malloc_ok s bs bk hWf hna n hn
    rw [← hlo] at hWf'
    refine ⟨r, s', hm, fun hr => ?_⟩
    have hlr : Live s' r := by
      obtain ⟨pa, csz, hblk, -⟩ := hr1 hr
      exact (live_iff s' bs' bk' _ hWf' r).mpr ⟨pa, csz, by rw [hlo]; exact hblk⟩
    have hnl : ¬ Live s r := by
      intro hl
      obtain ⟨pa, sz, hx⟩ := (live_iff s bs bk _ hWf r).mp hl
      have := hnew _ ⟨pa, hx⟩
      simp at this
    refine ⟨hnl, hlr, fun q hq => ?_⟩
    have hlq : Live s' q := by
      obtain ⟨pa, sz, hx⟩ := (live_iff s bs bk _ hWf q).mp hq
      obtain ⟨qa, hx'⟩ := hper q _ rfl ⟨pa, hx⟩
      exact (live_iff s' bs' bk' _ hWf' q).mpr ⟨qa, sz, by rw [hlo]; exact hx'⟩
    refine ⟨hlq, ?_⟩
    have hne : r ≠ q := fun e => hnl (e ▸ hq)
    rcases live_apart s' bs' bk' _ hWf' r q hlr hlq hne with e | e
    · left; omega
    · right; omega

theorem live_blocks_disjoint_witness :
    [4176].Nodup ∧ (∀ p, p ∈ [4176] ↔ Live heap1 p) ∧
    (∀ p q, Live heap1 p → Live heap1 q → p ≠ q →
      p + (GET_SIZE heap1.mem p - 4) ≤ q ∨ q + (GET_SIZE heap1.mem q - 4) ≤ p) ∧
    (∀ n, n + 11 < SZ → ∃ r s', malloc heap1 n = some (r, s') ∧
      (r ≠ 0 → ¬ Live heap1 r ∧ Live s' r ∧ ∀ q, Live heap1 q → Live s' q ∧
        (r + (GET_SIZE s'.mem r - 4) ≤ q ∨ q + (GET_SIZE s'.mem q - 4) ≤ r))) :=
  live_blocks_disjoint heap1 [4176] reach_heap1

/-- The frame of a call whose request size fits: on a consistent heap, for a live pointer `p`, every call whose
request size fits and whose pointer argument is null or a live pointer other than
`p` returns, leaves `p` allocated with the same size in its header, and leaves
every payload byte of `p` (so the `n` bytes requested for it) unchanged. -/
theorem other_calls_keep_block (s : Heap) (hOK : HeapOK s) (p : Nat) (hp : Live s p) (c : Call)
    (hptr : c.ptr = 0 ∨ Live s c.ptr) (hne : c.ptr ≠ p) (hfits : c.fits) :
    ∃ r s', c.run s = some (r, s') ∧ Live s' p ∧ GET_SIZE s'.mem p = GET_SIZE s.mem p ∧
      ∀ y, p ≤ y → y + 4 < p + GET_SIZE s.mem p → s'.mem.byte y = s.mem.byte y := by
  obtain ⟨bs, bk, hWf, hna⟩ := hOK
  obtain ⟨pa, sz, hm⟩ := (live_iff s bs bk _ hWf p).mp hp
  obtain ⟨r, s', bs', bk', hrun, hlo, hWf', -, -, hkeep, -⟩ :=
    call_spec s bs bk hWf hna c (hptr.imp id (fun hx => (live_iff s bs bk _ hWf _).mp hx)) hfits
  obtain ⟨⟨qa, hm'⟩, hfr⟩ := hkeep p _ rfl (fun e => hne e.symm) ⟨pa, hm⟩
  rw [← hlo] at hWf' hm'
  refine ⟨r, s', hrun, (live_iff s' bs' bk' _ hWf' p).mpr ⟨qa, sz, hm'⟩, ?_, ?_⟩
  · rw [(blk_size s' bs' bk' _ hWf' _ _ _ hm').1, (blk_size s bs bk _ hWf _ _ _ hm).1]
  · rw [(blk_size s bs bk _ hWf _ _ _ hm).1]
    exact hfr

theorem other_calls_keep_block_witness :
    ∃ r s', (Call.malloc 8).run heap1 = some (r, s') ∧ Live s' 4176 ∧
      GET_SIZE s'.mem 4176 = GET_SIZE heap1.mem 4176 ∧
      ∀ y, 4176 ≤ y → y + 4 < 4176 + GET_SIZE heap1.mem 4176 → s'.mem.byte y = heap1.mem.byte y :=
  other_calls_keep_block heap1 heapOK_heap1 4176 live_heap1 (Call.malloc 8) (Or.inl rfl)
    (by decide) (by show 8 + 11 < SZ; unfold SZ; norm_num)

/-- The copy `realloc` makes when the request size fits: on a consistent heap, for a live pointer `p` whose block holds
`n` bytes (`n + 4` at most the size in its header, as for a block obtained from
`malloc(n)`) and every `m > n` with `m + 19 < 2^64`, `realloc(p, m)` returns, and
when the result `p2` is non-null the first `n` bytes at `p2` are the first `n`
bytes that were at `p`. -/
theorem realloc_keeps_payload (s : Heap) (hOK : HeapOK s) (p : Nat) (hp : Live s p) (n m : Nat)
    (hn : n + 4 ≤ GET_SIZE s.mem p) (hmn : n < m) (hfit : m + 19 < SZ) :
    ∃ p2 s', realloc s p m = some (p2, s') ∧
      (p2 ≠ 0 → ∀ i, i < n → s'.mem.byte (p2 + i) = s.mem.byte (p + i)) := by
  obtain ⟨bs, bk, hWf, hna⟩ := hOK
  obtain ⟨pa, sz, hm⟩ := (live_iff s bs bk _ hWf p).mp hp
  rw [(blk_size s bs bk _ hWf _ _ _ hm).1] at hn
  obtain ⟨r, s', bs', bk', hre, -, -, -, -, -, -, -, -, hcont⟩ :=
    realloc_ok s bs bk hWf hna p pa sz hm m (by omega) hfit
  exact ⟨r, s', hre, fun hr i hi => hcont hr i (by simp only at hn; omega)⟩

set_option maxRecDepth 100000 in
theorem realloc_keeps_payload_witness :
    ∃ p2 s', realloc heap1 4176 20 = some (p2, s') ∧
      (p2 ≠ 0 → ∀ i, i < 8 → s'.mem.byte (p2 + i) = heap1.mem.byte (4176 + i)) :=
  realloc_keeps_payload heap1 heapOK_heap1 4176 live_heap1 8 20 (by decide) (by decide)
    (by unfold SZ; norm_num)

/-! ## Counting the free blocks -/

theorem blocks_addr_nodup (bs : List Blk) (a : Nat) (pa : Bool) (hpos : ∀ b ∈ bs, 0 < b.size) :
    ((blocks a pa bs).map fun x => x.1).Nodup := by
  induction bs generalizing a pa with
  | nil => simp [blocks]
  | cons b bs ih =>
    simp only [blocks, List.map_cons, List.nodup_cons]
    refine ⟨?_, ih _ _ (fun c hc => hpos c (List.mem_cons_of_mem _ hc))⟩
    intro hmem
    obtain ⟨⟨x, q, c⟩, hx, he⟩ := List.mem_map.mp hmem
    have := (mem_blocks_bounds _ _ _ _ _ _ hx).1
    have := hpos b (List.mem_cons_self _ _)
    simp only at he
    omega

/-- The free blocks of the chain, as the address-ordered walk finds them. -/
theorem free_of_chain (s : Heap) (bs : List Blk) (bk : Nat → List Nat)
    (h : Wf s bs bk (IsFree (s.mem_start_brk + 80) bs)) (x : Nat) :
    (∃ sz, (x, sz, 0) ∈ chain s) ↔ ∃ i, i < free_list_size ∧ x ∈ bucket_list s i := by
  constructor
  · rintro ⟨sz, hm⟩
    obtain ⟨pa, b, hb, h1, h2⟩ := (mem_chain_iff s bs bk _ h _ _ _).mp hm
    obtain ⟨bsz, bal⟩ := b
    cases bal with
    | true => simp at h2
    | false =>
      have hi := bucket_lt bsz
      refine ⟨bucket bsz, hi, ?_⟩
      rw [bucket_list_eq s bs bk _ h _ hi]
      exact h.index.complete x bsz ⟨pa, hb⟩
  · rintro ⟨i, hi, hx⟩
    rw [bucket_list_eq s bs bk _ h i hi] at hx
    obtain ⟨sz, pa, -, -, hm⟩ := node_blk s bs bk _ h i hi x hx
    exact ⟨sz, (mem_chain_iff s bs bk _ h _ _ _).mpr ⟨pa, _, hm, rfl, rfl⟩⟩

theorem buckets_nodup (s : Heap) (bs : List Blk) (bk : Nat → List Nat)
    (h : Wf s bs bk (IsFree (s.mem_start_brk + 80) bs)) :
    (((List.range free_list_size).map (bucket_list s)).flatten).Nodup := by
  rw [List.nodup_flatten]
  constructor
  · intro l hl
    obtain ⟨i, hi, rfl⟩ := List.mem_map.mp hl
    have hi' : i < 9 := List.mem_range.mp hi
    rw [bucket_list_eq s bs bk _ h i hi']
    exact h.index.nodup i hi'
  · rw [List.pairwise_map]
    apply List.Pairwise.imp_of_mem _ (List.nodup_range free_list_size)
    intro i j hi hj hne
    have hi' : i < 9 := List.mem_range.mp hi
    have hj' : j < 9 := List.mem_range.mp hj
    rw [bucket_list_eq s bs bk _ h i hi', bucket_list_eq s bs bk _ h j hj']
    intro x hx hy
    exact hne (node_bucket_unique s bs bk _ h i j hi' hj' x hx hy)

theorem free_count (s : Heap) (bs : List Blk) (bk : Nat → List Nat)
    (h : Wf s bs bk (IsFree (s.mem_start_brk + 80) bs)) :
    (((List.range free_list_size).map (bucket_list s)).flatten).length =
      ((chain s).filter fun x => decide (x.2.2 = 0)).length := by
  have hnd1 := buckets_nodup s bs bk h
  have hnd2 : (((chain s).filter fun x => decide (x.2.2 = 0)).map fun x => x.1).Nodup := by
    apply List.Nodup.sublist ((List.filter_sublist _).map _)
    rw [chain_eq s bs bk _ h, List.map_map]
    exact blocks_addr_nodup bs _ _ (Seg_pos _ _ _ _ h.seg)
  have hperm := (List.perm_ext_iff_of_nodup hnd1 hnd2).mpr (by
    intro x
    rw [List.mem_flatten, List.mem_map]
    constructor
    · rintro ⟨l, hl, hx⟩
      obtain ⟨i, hi, rfl⟩ := List.mem_map.mp hl
      obtain ⟨sz, hm⟩ := (free_of_chain s bs bk h x).mpr ⟨i, List.mem_range.mp hi, hx⟩
      exact ⟨(x, sz, 0), List.mem_filter.mpr ⟨hm, by simp⟩, rfl⟩
    · rintro ⟨⟨x', sz, al⟩, hm, rfl⟩
      obtain ⟨hm1, hm2⟩ := List.mem_filter.mp hm
      simp only [decide_eq_true_eq] at hm2
      subst hm2
      obtain ⟨i, hi, hx⟩ := (free_of_chain s bs bk h x').mp ⟨sz, hm1⟩
      exact ⟨bucket_list s i, List.mem_map.mpr ⟨i, List.mem_range.mpr hi, rfl⟩, hx⟩)
  rw [hperm.length_eq, List.length_map]

/-- The index matches the chain while no size wraps around: in every state
reached by calls on null or live pointers whose size computation does not wrap
around `2^64`, the blocks found in the nine bucket lists are exactly the free
blocks of the address-ordered chain, no block occurs twice in the lists, and the
number of listed blocks is the number of free blocks of the chain. -/
theorem index_matches_chain (s : Heap) (L : List Nat) (hR : Reach s L) :
    (∀ x, (∃ sz, (x, sz, 0) ∈ chain s) ↔ ∃ i, i < free_list_size ∧ x ∈ bucket_list s i) ∧
    (((List.range free_list_size).map (bucket_list s)).flatten).Nodup ∧
    (((List.range free_list_size).map (bucket_list s)).flatten).length =
      ((chain s).filter fun x => decide (x.2.2 = 0)).length := by
  obtain ⟨bs, bk, hWf, -, -, -⟩ := reach_inv s L hR
  exact ⟨free_of_chain s bs bk hWf, buckets_nodup s bs bk hWf, free_count s bs bk hWf⟩

theorem index_matches_chain_witness :
    (∀ x, (∃ sz, (x, sz, 0) ∈ chain heap1) ↔
      ∃ i, i < free_list_size ∧ x ∈ bucket_list heap1 i) ∧
    (((List.range free_list_size).map (bucket_list heap1)).flatten).Nodup ∧
    (((List.range free_list_size).map (bucket_list heap1)).flatten).length =
      ((chain heap1).filter fun x => decide (x.2.2 = 0)).length :=
  index_matches_chain heap1 [4176] reach_heap1

/-! ## The consistency checker on a consistent heap -/

theorem ALIGN_eq (p : Nat) (h8 : p % 8 = 0) (hlt : p + 7 < 2 ^ 64) : ALIGN p = p := by
  unfold ALIGN SZ
  rw [Nat.mod_eq_of_lt hlt, and_size_mask64 _ hlt]
  omega

theorem mask_palloc (sz t : Nat) (h8 : sz % 8 = 0) (hlt : sz + 2 * t < 2 ^ 32) (ht : t ≤ 1) :
    (sz + 2 * t) &&& 0xFFFFFFFD = sz := by
  rw [and_not2 _ hlt]
  omega

/-- A block pointer of the chain passes the range and alignment test. -/
theorem in_heap_ok (s : Heap) (bs : List Blk) (bk : Nat → List Nat) (F : Nat → Nat → Prop)
    (h : Wf s bs bk F) (x : Nat) (pa : Bool) (b : Blk)
    (hx : (x, pa, b) ∈ blocks (s.mem_start_brk + 80) true bs) :
    ¬(x > mem_heap_hi s ∨ x < mem_heap_lo s ∨ ALIGN x ≠ x) := by
  have hb := blk_bounds s bs bk F h _ _ _ hx
  have h8 := blk_aligned s bs bk F h _ _ _ hx
  have h1 := h.brk_le
  have h2 := h.max_lt64
  have ha := ALIGN_eq x h8 (by omega)
  unfold mem_heap_hi mem_heap_lo
  rw [ha]
  omega

theorem check_list_block_ok (s : Heap) (bs : List Blk) (bk : Nat → List Nat)
    (F : Nat → Nat → Prop) (h : Wf s bs bk F) (i x : Nat) (pa : Bool) (sz : Nat)
    (hx : (x, pa, Blk.mk sz false) ∈ blocks (s.mem_start_brk + 80) true bs)
    (hb : bucket sz = i) :
    check_list_block s (s.explicit_free_list + i * DSIZE) x = [] := by
  have hbb := blk_bounds s bs bk F h _ _ _ hx
  simp only at hbb
  obtain ⟨hw, hgs, hga, -⟩ := Seg_hdr _ _ _ _ h.seg _ _ _ hx
  simp only at hw hgs hga
  obtain ⟨-, -, -, hft⟩ := h.seg _ hx
  obtain ⟨t, ht, hftr⟩ := hft rfl
  simp only at hftr
  have c1 := in_heap_ok s bs bk F h _ _ _ hx
  have c2 : ¬ GET_ALLOC s.mem x ≠ 0 := by rw [hga]; simp
  have c3 : ¬ GET_SIZE s.mem x < minsize := by rw [hgs]; unfold minsize; omega
  have c4 : ¬ (GET s.mem (HDRP x) &&& 0xFFFFFFFD ≠ GET s.mem (FTRP s.mem x) &&& 0xFFFFFFFD) := by
    unfold FTRP
    rw [hgs]
    unfold HDRP WSIZE DSIZE
    rw [hw, hftr]
    have e1 : hdr sz pa false = sz + 2 * pa.toNat := by unfold hdr; simp
    rw [e1, mask_palloc sz _ (by omega) (by have := toNat_le_one pa; omega) (toNat_le_one pa),
      mask_palloc sz t (by omega) (by omega) ht]
    simp
  have c5 : ¬ get_index s (GET_SIZE s.mem x) ≠ s.explicit_free_list + i * DSIZE := by
    rw [hgs, get_index_eq, hb]; unfold DSIZE; simp [Nat.mul_comm]
  unfold check_list_block
  rw [if_neg c1, if_neg c2, if_neg c3, if_neg c4, if_neg c5]
  rfl

theorem check_list_ok (s : Heap) (entry p : Nat) (l : List Nat) (h : ListAt s.mem p l)
    (hok : ∀ x ∈ l, check_list_block s entry x = []) (f : Nat) (hf : l.length < f) :
    check_list s entry f (succeed s.mem p) = some ([], (l.length : Int)) := by
  induction l generalizing p f with
  | nil =>
    simp only [ListAt] at h
    cases f with
    | zero => simp at hf
    | succ f => simp [check_list, h]
  | cons x xs ih =>
    simp only [ListAt] at h
    cases f with
    | zero => simp at hf
    | succ f =>
      have hrec := ih x h.2.2 (fun y hy => hok y (List.mem_cons_of_mem _ hy)) f
        (by simpa using hf)
      simp only [check_list, h.1]
      rw [if_pos h.2.1, hrec, hok x (List.mem_cons_self _ _)]
      simp

theorem check_buckets_ok (s : Heap) (bs : List Blk) (bk : Nat → List Nat) (F : Nat → Nat → Prop)
    (h : Wf s bs bk F) (k i : Nat) (hik : i + k = 9) :
    check_buckets s k i =
      some ([], ((((List.range' i k).map (List.length ∘ bucket_list s)).sum : Nat) : Int)) := by
  induction k generalizing i with
  | zero => simp [check_buckets]
  | succ k ih =>
    have hi : i < 9 := by omega
    have hl := h.index.lists i hi
    have hentry : s.explicit_free_list + i * DSIZE = s.mem_start_brk + 8 * i := by
      rw [h.efl]; unfold DSIZE; omega
    have hone := check_list_ok s (s.explicit_free_list + i * DSIZE) (s.mem_start_brk + 8 * i)
      (bk i) hl (by
        intro x hx
        obtain ⟨sz, pa, -, hb, hm⟩ := node_blk s bs bk F h i hi x hx
        exact check_list_block_ok s bs bk F h i x pa sz hm hb) (fuel s + 1)
      (bucket_length s bs bk F h i hi)
    rw [hentry] at hone
    simp only [check_buckets]
    rw [hentry, hone, Option.some_bind, ih (i + 1) (by omega), Option.map_some']
    simp only [List.range'_succ, List.map_cons, List.sum_cons, List.nil_append,
      Function.comp_apply]
    have hbl : bucket_list s i = bk i := bucket_list_eq s bs bk F h i hi
    rw [hbl]
    push_cast
    rfl

theorem check_chain_block_ok (s : Heap) (bs : List Blk) (bk : Nat → List Nat)
    (F : Nat → Nat → Prop) (h : Wf s bs bk F) (hna : NoAdj true bs) (x : Nat) (pa : Bool) (b : Blk)
    (hx : (x, pa, b) ∈ blocks (s.mem_start_brk + 80) true bs) :
    check_chain_block s x = ([], if b.alloc.toNat = 0 then 1 else 0) := by
  obtain ⟨hw, hgs, hga, -⟩ := Seg_hdr _ _ _ _ h.seg _ _ _ hx
  obtain ⟨pre, post, hbs, hxe, hpa, -, -, hpost, hend⟩ := chain_split s bs bk F h x pa b hx
  have hepi := h.epihdr
  rw [hbs, lastAlloc_append] at hepi
  simp only [lastAlloc] at hepi
  rw [← hend] at hepi
  obtain ⟨nsize, nal, hnw, hn8, hnlt, hnil, hcons⟩ :=
    next_hdr s.mem (x + b.size) b.alloc post hpost b.alloc hepi (fun _ => rfl)
  obtain ⟨-, d2, d3⟩ := hdr_decode _ nsize b.alloc nal hnw hn8 (GET_lt _ _)
  have hnext : find_next_blankblock s.mem x = x + b.size := by
    unfold find_next_blankblock; rw [hgs]
  have hna_n : GET_ALLOC s.mem (x + b.size) = nal.toNat := d2
  have hpa_n : get_prev_alloc s.mem (x + b.size) = b.alloc.toNat := d3
  have hadj : b.alloc = true ∨ nal = true := by
    cases post with
    | nil => exact Or.inr (hnil rfl).2
    | cons c cs =>
      rw [(hcons c cs rfl).2]
      rw [hbs, NoAdj_append] at hna
      simp only [NoAdj] at hna
      exact hna.2.2.1
  have c1 := in_heap_ok s bs bk F h _ _ _ hx
  have c2 : ¬(GET_ALLOC s.mem x = 0 ∧ GET_ALLOC s.mem (find_next_blankblock s.mem x) = 0) := by
    rw [hnext, hga, hna_n]
    rcases hadj with e | e <;> rw [e] <;> simp
  have c3 : ¬ GET_ALLOC s.mem x ≠ get_prev_alloc s.mem (find_next_blankblock s.mem x) := by
    rw [hnext, hga, hpa_n]; simp
  unfold check_chain_block
  rw [if_neg c1, if_neg c2, if_neg c3, hga]
  rfl

theorem check_chain_ok (s : Heap) (a : Nat) (pa : Bool) (bs : List Blk)
    (hseg : Seg s.mem a pa bs) (la : Bool) (hepi : GET s.mem (endAddr a bs - 4) = hdr 0 la true)
    (hok : ∀ x ∈ blocks a pa bs,
      check_chain_block s x.1 = ([], if x.2.2.alloc.toNat = 0 then 1 else 0))
    (f : Nat) (hf : bs.length < f) :
    check_chain s f a = some ([],
      (((((blocks a pa bs).map fun x => (x.1, x.2.2.size, x.2.2.alloc.toNat)).filter
        fun x => decide (x.2.2 = 0)).length : Nat) : Int), endAddr a bs) := by
  induction bs generalizing a pa f with
  | nil =>
    cases f with
    | zero => simp at hf
    | succ f =>
      simp only [endAddr] at hepi
      simp only [check_chain, (GET_SIZE_epilogue s.mem a la hepi).1, blocks, endAddr]
      simp
  | cons b bs ih =>
    cases f with
    | zero => simp at hf
    | succ f =>
      have hh := Seg_hdr s.mem a pa (b :: bs) hseg a pa b (by simp [blocks])
      have hb := hok (a, pa, b) (by simp [blocks])
      simp only at hb
      rw [Seg_cons] at hseg
      have hpos := hseg.1.1
      simp only [endAddr] at hepi
      have hrec := ih _ _ hseg.2 hepi (fun x hx => hok x (by
        simp only [blocks, List.mem_cons]; exact Or.inr hx)) f (by simpa using hf)
      simp only [check_chain, hh.2.1, find_next_blankblock]
      rw [if_pos (by omega), hrec, Option.map_some', hb]
      simp only [blocks, List.map_cons, endAddr, List.nil_append, List.filter_cons]
      by_cases hal : b.alloc.toNat = 0
      · simp only [hal, if_true, decide_True, List.length_cons]
        push_cast
        simp only [Option.some.injEq, Prod.mk.injEq, true_and, and_true]
        omega
      · simp only [hal, if_false, decide_False]
        simp

theorem brk_aligned (s : Heap) (bs : List Blk) (bk : Nat → List Nat) (F : Nat → Nat → Prop)
    (h : Wf s bs bk F) : s.mem_brk % 8 = 0 := by
  have key : ∀ (l : List Blk) (a : Nat) (q : Bool), Seg s.mem a q l → a % 8 = 0 →
      endAddr a l % 8 = 0 := by
    intro l
    induction l with
    | nil => intro a q _ ha; simpa [endAddr] using ha
    | cons c cs ih =>
      intro a q hs ha
      rw [Seg_cons] at hs
      have := hs.1.2.1
      simp only [endAddr]
      exact ih _ _ hs.2 (by omega)
  have hal := h.lo_al
  rw [← h.endA]
  exact key bs _ _ h.seg (by omega)

/-- On a consistent heap `mm_checkheap` returns and prints nothing but the banner
line it prints for a nonzero line number. -/
theorem checkheap_ok (s : Heap) (bs : List Blk) (bk : Nat → List Nat)
    (h : Wf s bs bk (IsFree (s.mem_start_brk + 80) bs)) (hna : NoAdj true bs) (lineno : Int) :
    mm_checkheap s lineno =
      some (if lineno ≠ 0 then [Diag.heap_in_line s.heap_listp lineno] else []) := by
  have hbrk8 := brk_aligned s bs bk _ h
  have hle := le_endAddr (s.mem_start_brk + 80) bs
  have hend := h.endA
  have h1 := h.brk_le
  have h2 := h.max_lt64
  have hpos := h.lo_pos
  obtain ⟨e1, e2, -⟩ := GET_SIZE_epilogue s.mem s.mem_brk _ h.epihdr
  have hpro : GET s.mem (HDRP (s.heap_listp - WSIZE)) = 11 := by
    rw [h.hlp]; unfold HDRP WSIZE
    rw [show s.mem_start_brk + 80 - 4 - 4 = s.mem_start_brk + 72 by omega]
    exact h.prologue
  have c1 : ¬(s.heap_listp - WSIZE > mem_heap_hi s ∨ s.heap_listp - WSIZE < mem_heap_lo s) := by
    rw [h.hlp]; unfold mem_heap_hi mem_heap_lo WSIZE; omega
  have c2 : ¬ GET_ALLOC s.mem (s.heap_listp - WSIZE) = 0 := by
    unfold GET_ALLOC; rw [hpro]; decide
  have c3 : ¬ GET_SIZE s.mem (s.heap_listp - WSIZE) ≠ DSIZE := by
    unfold GET_SIZE; rw [hpro]; decide
  have c4 : ¬ mem_heap_hi s + 1 ≠ s.epilogue := by
    rw [h.epi]; unfold mem_heap_hi; omega
  have c5 : ¬ ALIGN s.epilogue ≠ s.epilogue := by
    rw [h.epi, ALIGN_eq _ hbrk8 (by omega)]; simp
  have c6 : ¬ GET_ALLOC s.mem s.epilogue = 0 := by rw [h.epi, e2]; decide
  have c7 : ¬ GET_SIZE s.mem s.epilogue ≠ 0 := by rw [h.epi, e1]; simp
  have c8 : ¬ ((s.heap_listp : Int) - (s.explicit_free_list : Int)
      ≠ ((free_list_size * DSIZE + 2 * WSIZE : Nat) : Int)) := by
    rw [h.hlp, h.efl]; unfold free_list_size DSIZE WSIZE; push_cast; omega
  have hb := check_buckets_ok s bs bk _ h free_list_size 0 rfl
  have hc := check_chain_ok s (s.mem_start_brk + 80) true bs h.seg (lastAlloc true bs)
    (by rw [h.endA]; exact h.epihdr)
    (fun x hx => check_chain_block_ok s bs bk _ h hna x.1 x.2.1 x.2.2 hx) (fuel s + 1) (by
      have := endAddr_ge _ _ _ _ h.seg
      unfold fuel; omega)
  rw [← chain_eq s bs bk _ h, ← free_count s bs bk h, List.length_flatten, List.map_map,
    h.endA] at hc
  rw [List.range_eq_range'] at hc
  unfold mm_checkheap
  dsimp only
  rw [if_neg c1, if_neg c2, if_neg c3, if_neg c4, if_neg c5, if_neg c6, if_neg c7, if_neg c8]
  rw [hb, Option.some_bind, h.hlp, hc, Option.map_some']
  dsimp only
  simp [h.epi]

/-- The checker is silent while no size wraps around: `mm_checkheap` returns and
prints none of its diagnostics (only the banner line, for a nonzero line number)
in the state a successful `mm_init` leaves on a fresh arena (8-byte aligned base,
contiguous growth) and in every state reached from it by calls on null or live
pointers whose size computation does not wrap around `2^64`. -/
theorem checkheap_silent (s : Heap) (L : List Nat) (hR : Reach s L) (lineno : Int) :
    mm_checkheap s lineno =
      some (if lineno ≠ 0 then [Diag.heap_in_line s.heap_listp lineno] else []) := by
  obtain ⟨bs, bk, hWf, hna, -, -⟩ := reach_inv s L hR
  exact checkheap_ok s bs bk hWf hna lineno

theorem checkheap_silent_witness :
    mm_checkheap heap1 0 =
      some (if (0 : Int) ≠ 0 then [Diag.heap_in_line heap1.heap_listp 0] else []) :=
  checkheap_silent heap1 [4176] reach_heap1 0

/-! ## Filling the initial block and freeing everything -/

/-- When the only free block is the last block of the chain and it fits, `malloc`
takes the request from it. -/
theorem malloc_tail (s : Heap) (pre : List Blk) (z : Nat) (bk : Nat → List Nat)
    (h : Wf s (pre ++ [Blk.mk z false]) bk (IsFree (s.mem_start_brk + 80) (pre ++ [Blk.mk z false])))
    (hna : NoAdj true (pre ++ [Blk.mk z false])) (hpre : ∀ b ∈ pre, b.alloc = true)
    (n : Nat) (hn : n ≠ 0) (asize : Nat) (has : adjust (if n = 448 then 512 else n) = asize)
    (ha16 : 16 ≤ asize) (ha8 : asize % 8 = 0) (hfit : asize ≤ z) :
    ∃ m' bs' bk' csz,
      malloc s n = some (endAddr (s.mem_start_brk + 80) pre, { s with mem := m' }) ∧
      Wf { s with mem := m' } bs' bk' (IsFree (s.mem_start_brk + 80) bs') ∧ NoAdj true bs' ∧
      ((bs' = pre ++ Blk.mk z true :: [] ∧ csz = z ∧ z - asize ≤ 16) ∨
       (bs' = pre ++ Blk.mk asize true :: Blk.mk (z - asize) false :: [] ∧ csz = asize ∧
          16 < z - asize)) := by
  obtain ⟨r, hfind, hcase⟩ := find_fit_spec s _ bk _ h asize
  have hmem := mem_blocks_of_split (s.mem_start_brk + 80) true pre [] (Blk.mk z false)
  have hmal : malloc s n = if r = 0 then
        (extend_heap s (MAX asize CHUNKSIZE)).bind fun (bp, s1) =>
          if bp = FAIL then some (0, s1)
          else (delete s1 bp).bind fun s2 => place s2 bp asize
      else (delete s r).bind fun s2 => place s2 r asize := by
    unfold malloc
    rw [if_neg hn]
    dsimp only
    rw [has, hfind]
  rcases hcase with ⟨-, hnofit⟩ | ⟨hr0, z', hFz, -⟩
  · have := hnofit _ z ⟨_, hmem⟩
    omega
  · have hr : r = endAddr (s.mem_start_brk + 80) pre := by
      obtain ⟨q, hq⟩ := hFz
      rcases (isBlk_split _ _ false _ _ _ _ _).mp ⟨q, hq⟩ with g | ⟨g, -⟩ | ⟨q', g⟩
      · obtain ⟨q', g⟩ := g
        have := hpre _ (mem_blocks_mem _ _ _ _ _ _ g)
        simp at this
      · exact g
      · simp [blocks] at g
    rw [if_neg hr0, hr] at hmal
    obtain ⟨m', bs', bk', csz, hdp, hWf', hna', hshape, -⟩ :=
      delete_place s pre [] z asize bk h hna ha16 ha8 hfit
    exact ⟨m', bs', bk', csz, by rw [hmal]; exact hdp, hWf', hna', hshape⟩

theorem adjust_16 : adjust (if (16 : Nat) = 448 then 512 else 16) = 24 := by decide

/-- After `k` calls `malloc(16)` on the heap of one free block of 16384 bytes, for
`k` up to 682: the arena has not grown, the pointers returned are distinct and
are the allocated blocks, and what is left free is the last block of the chain. -/
theorem malloc_n_spec (s : Heap) (bk : Nat → List Nat)
    (h0 : Wf s [Blk.mk 16384 false] bk (IsFree (s.mem_start_brk + 80) [Blk.mk 16384 false]))
    (k : Nat) (hk : k ≤ 682) :
    ∃ ps s1 bs1 bk1, malloc_n s 16 k = some (ps, s1) ∧ ps.length = k ∧
      s1.mem_start_brk = s.mem_start_brk ∧ s1.mem_brk = s.mem_brk ∧
      Wf s1 bs1 bk1 (IsFree (s.mem_start_brk + 80) bs1) ∧ NoAdj true bs1 ∧ ps.Nodup ∧
      (∀ x, x ∈ ps ↔ ∃ pa sz, (x, pa, Blk.mk sz true) ∈ blocks (s.mem_start_brk + 80) true bs1) ∧
      ((k ≤ 681 ∧ ∃ pre, bs1 = pre ++ [Blk.mk (16384 - 24 * k) false] ∧
          ∀ b ∈ pre, b.alloc = true) ∨ (k = 682 ∧ ∀ b ∈ bs1, b.alloc = true)) := by
  induction k with
  | zero =>
    refine ⟨[], s, _, bk, rfl, rfl, rfl, rfl, h0, ⟨Or.inl rfl, trivial⟩, List.nodup_nil, ?_,
      Or.inl ⟨by omega, [], rfl, fun b hb => by simp at hb⟩⟩
    intro x
    constructor
    · intro hx; simp at hx
    · rintro ⟨pa, sz, hm⟩; simp [blocks] at hm
  | succ k ih =>
    obtain ⟨ps, s1, bs1, bk1, hrun, hlen, hlo, hbrk, hWf, hna, hnd, hL, hshape⟩ := ih (by omega)
    rcases hshape with ⟨hk1, pre, hbs, hpre⟩ | ⟨hk1, -⟩
    swap
    · omega
    subst hbs
    rw [← hlo] at hWf
    obtain ⟨m', bs', bk', csz, hm, hWf', hna', hsh⟩ :=
      malloc_tail s1 pre (16384 - 24 * k) bk1 hWf hna hpre 16 (by decide) 24 adjust_16
        (by decide) (by decide) (by omega)
    have hpp := persist_place (s1.mem_start_brk + 80) pre [] (16384 - 24 * k) 24 csz bs' hsh
    have hpc := persist_place_conv (s1.mem_start_brk + 80) pre [] (16384 - 24 * k) 24 csz bs' hsh
    have hmem := mem_blocks_of_split (s1.mem_start_brk + 80) true pre []
      (Blk.mk (16384 - 24 * k) false)
    have hnew : ¬ ∃ pa sz, (endAddr (s1.mem_start_brk + 80) pre, pa, Blk.mk sz true) ∈
        blocks (s1.mem_start_brk + 80) true (pre ++ [Blk.mk (16384 - 24 * k) false]) := by
      rintro ⟨pa, sz, hx⟩
      have b1 := blk_bounds _ _ _ _ hWf _ _ _ hx
      have b2 := blk_bounds _ _ _ _ hWf _ _ _ hmem
      rcases blk_apart _ _ _ _ hWf _ _ _ _ _ _ hx hmem with ⟨-, -, e⟩ | e | e
      · simp at e
      · simp only at e b1; omega
      · simp only at e b2; omega
    rw [hlo] at hpp hpc hnew
    obtain ⟨g1, g2⟩ := live_grow ps (endAddr (s1.mem_start_brk + 80) pre) _
      (fun x => ∃ pa sz, (x, pa, Blk.mk sz true) ∈ blocks (s.mem_start_brk + 80) true bs')
      hnd hL (by rw [hlo]; exact hnew) (by
        intro x
        rw [hlo]
        constructor
        · rintro ⟨pa, sz, hx⟩
          rcases hpc x _ rfl ⟨pa, hx⟩ with e | ⟨q, hq⟩
          · exact Or.inl e
          · exact Or.inr ⟨q, sz, hq⟩
        · rintro (e | ⟨pa, sz, hx⟩)
          · rw [e]; obtain ⟨q, hq⟩ := hpp.1; exact ⟨q, csz, hq⟩
          · obtain ⟨q, hq⟩ := hpp.2 x _ rfl ⟨pa, hx⟩
            exact ⟨q, sz, hq⟩)
    have hperm : (ps ++ [endAddr (s1.mem_start_brk + 80) pre]).Perm
        (endAddr (s1.mem_start_brk + 80) pre :: ps) := List.perm_append_singleton _ _
    refine ⟨ps ++ [endAddr (s1.mem_start_brk + 80) pre], { s1 with mem := m' }, bs', bk', ?_,
      by simp [hlen], hlo, hbrk, by rw [← hlo]; exact hWf', hna', hperm.nodup_iff.mpr g1,
      fun x => (hperm.mem_iff).trans (g2 x), ?_⟩
    · simp only [malloc_n]
      rw [hrun, Option.some_bind, hm]
      rfl
    · rcases hsh with ⟨e1, -, e3⟩ | ⟨e1, -, e3⟩
      · right
        refine ⟨by omega, ?_⟩
        rw [e1]
        intro b hb
        rcases List.mem_append.mp hb with g | g
        · exact hpre b g
        · simp only [List.mem_singleton] at g; rw [g]
      · left
        refine ⟨by omega, pre ++ [Blk.mk 24 true], ?_, ?_⟩
        · rw [e1, List.append_assoc]
          simp only [List.singleton_append]
          rw [show 16384 - 24 * k - 24 = 16384 - 24 * (k + 1) by omega]
        · intro b hb
          rcases List.mem_append.mp hb with g | g
          · exact hpre b g
          · simp only [List.mem_singleton] at g; rw [g]

/-- Freeing all the pointers a client holds, in any order, leaves no allocated
block; the arena end does not move. -/
theorem free_all_spec (qs : List Nat) (s : Heap) (bs : List Blk) (bk : Nat → List Nat)
    (L : List Nat) (h : Wf s bs bk (IsFree (s.mem_start_brk + 80) bs)) (hna : NoAdj true bs)
    (hnd : L.Nodup)
    (hL : ∀ x, x ∈ L ↔ ∃ pa sz, (x, pa, Blk.mk sz true) ∈ blocks (s.mem_start_brk + 80) true bs)
    (hperm : qs.Perm L) :
    ∃ s2 bs2 bk2, free_all s qs = some s2 ∧ s2.mem_start_brk = s.mem_start_brk ∧
      s2.mem_brk = s.mem_brk ∧ Wf s2 bs2 bk2 (IsFree (s.mem_start_brk + 80) bs2) ∧
      NoAdj true bs2 ∧
      ∀ x, ¬ ∃ pa sz, (x, pa, Blk.mk sz true) ∈ blocks (s.mem_start_brk + 80) true bs2 := by
  induction qs generalizing s bs bk L with
  | nil =>
    have hnil : L = [] := List.Perm.nil_eq hperm |>.symm
    refine ⟨s, bs, bk, rfl, rfl, rfl, h, hna, fun x hx => ?_⟩
    have := (hL x).mpr hx
    rw [hnil] at this
    simp at this
  | cons q qs ih =>
    obtain ⟨hq, hrest⟩ := List.cons_perm_iff_perm_erase.mp hperm
    obtain ⟨pa, sz, hm⟩ := (hL q).mp hq
    obtain ⟨m', bs', bk', hf, hWf', hna', hiff, -⟩ := free_live s bs bk h hna q pa sz hm
    obtain ⟨g1, g2⟩ := live_drop L q _
      (fun x => ∃ pa sz, (x, pa, Blk.mk sz true) ∈ blocks (s.mem_start_brk + 80) true bs')
      hnd hL (by
        intro x
        constructor
        · rintro ⟨a, z, hx⟩
          obtain ⟨⟨a', hx'⟩, hne⟩ := (hiff x _ rfl).mp ⟨a, hx⟩
          exact ⟨⟨a', z, hx'⟩, hne⟩
        · rintro ⟨⟨a, z, hx⟩, hne⟩
          obtain ⟨a', hx'⟩ := (hiff x _ rfl).mpr ⟨⟨a, hx⟩, hne⟩
          exact ⟨a', z, hx'⟩)
    obtain ⟨s2, bs2, bk2, hrun, e1, e2, hWf2, hna2, hnone⟩ :=
      ih { s with mem := m' } bs' bk' (L.erase q) hWf' hna' g1 g2 hrest
    refine ⟨s2, bs2, bk2, ?_, e1, e2, hWf2, hna2, hnone⟩
    simp only [free_all]
    rw [hf, Option.some_bind]
    exact hrun

/-- A chain without allocated blocks and without two adjacent free blocks has at
most one block. -/
theorem all_free_single (a : Nat) (bs : List Blk) (hna : NoAdj true bs)
    (hnone : ∀ x, ¬ ∃ pa sz, (x, pa, Blk.mk sz true) ∈ blocks a true bs) :
    bs = [] ∨ ∃ z, bs = [Blk.mk z false] := by
  have hfree : ∀ b ∈ bs, b.alloc = false := by
    intro b hb
    obtain ⟨pre, post, e⟩ := List.append_of_mem hb
    have hm := mem_blocks_of_split a true pre post b
    rw [← e] at hm
    obtain ⟨bz, bal⟩ := b
    cases bal with
    | false => rfl
    | true => exact absurd ⟨_, _, hm⟩ (hnone _)
  cases bs with
  | nil => exact Or.inl rfl
  | cons b1 rest =>
    cases rest with
    | nil =>
      obtain ⟨bz, bal⟩ := b1
      have := hfree _ (List.mem_cons_self _ _)
      simp only at this
      subst this
      exact Or.inr ⟨bz, rfl⟩
    | cons b2 rest' =>
      simp only [NoAdj] at hna
      have f1 := hfree b1 (List.mem_cons_self _ _)
      have f2 := hfree b2 (List.mem_cons_of_mem _ (List.mem_cons_self _ _))
      rcases hna.2.1 with e | e
      · rw [f1] at e; simp at e
      · rw [f2] at e; simp at e

/-- C20: on a fresh arena that can hold the initial block, for every `N` from 1 to
682: `N` calls `malloc(16)` return `N` non-null pointers without growing the
arena; after `free` of these pointers in any order the chain is again one free
block of 16384 bytes; and `malloc(16 * N)` then returns a non-null pointer
without growing the arena. -/
theorem coalesce_restores_initial_block (s0 : Heap) (hF : Fresh s0)
    (hroom : s0.mem_brk + 80 + 16384 ≤ s0.mem_max_addr) (N : Nat) (h1 : 1 ≤ N) (h2 : N ≤ 682) :
    ∃ s, mm_init s0 = some (0, s) ∧ ∃ ps s1, malloc_n s 16 N = some (ps, s1) ∧
      ps.length = N ∧ (∀ p ∈ ps, p ≠ 0) ∧ s1.mem_brk = s.mem_brk ∧
      ∀ qs : List Nat, qs.Perm ps → ∃ s2, free_all s1 qs = some s2 ∧
        chain s2 = [(s0.mem_start_brk + 80, 16384, 0)] ∧
        ∃ p s3, malloc s2 (16 * N) = some (p, s3) ∧ p ≠ 0 ∧ s3.mem_brk = s2.mem_brk := by
  obtain ⟨s, bs, bk, hinit, hlo, -, hWf, -, hshape⟩ := (mm_init_spec s0 hF).2 (by omega)
  rcases hshape with ⟨hno, -, -⟩ | ⟨-, hbs, hbrk⟩
  · omega
  subst hbs
  rw [← hlo] at hWf
  obtain ⟨ps, s1, bs1, bk1, hrun, hlen, hlo1, hbrk1, hWf1, hna1, hnd, hL, -⟩ :=
    malloc_n_spec s bk hWf N h2
  refine ⟨s, hinit, ps, s1, hrun, hlen, ?_, hbrk1, ?_⟩
  · intro p hp
    obtain ⟨pa, sz, hm⟩ := (hL p).mp hp
    rw [← hlo1] at hWf1 hm
    exact (blk_bounds _ _ _ _ hWf1 _ _ _ hm).2.2.2.2.2.2
  · intro qs hperm
    rw [← hlo1] at hWf1 hL
    obtain ⟨s2, bs2, bk2, hfree, hlo2, hbrk2, hWf2, hna2, hnone⟩ :=
      free_all_spec qs s1 bs1 bk1 ps hWf1 hna1 hnd hL hperm
    rw [← hlo2] at hWf2 hnone
    have hend := hWf2.endA
    have hF' := hF
    obtain ⟨hb0, -, -, -, -⟩ := hF'
    have hbs2 : bs2 = [Blk.mk 16384 false] := by
      rcases all_free_single _ bs2 hna2 hnone with e | ⟨z, e⟩
      · rw [e] at hend; simp only [endAddr] at hend; omega
      · rw [e] at hend; simp only [endAddr] at hend
        have : z = 16384 := by omega
        rw [e, this]
    subst hbs2
    refine ⟨s2, hfree, ?_, ?_⟩
    · rw [chain_eq s2 _ bk2 _ hWf2]
      simp only [blocks, List.map_cons, List.map_nil, Bool.toNat_false]
      rw [hlo2, hlo1, hlo]
    · have hne : 16 * N ≠ 0 := by omega
      have hne' : (if 16 * N = 448 then 512 else 16 * N) ≠ 0 := by split <;> omega
      have hfit' : (if 16 * N = 448 then 512 else 16 * N) + 11 < 2 ^ 64 := by split <;> omega
      obtain ⟨ha16, ha8, -, hform⟩ := adjust_ok _ hne' hfit'
      have hle : adjust (if 16 * N = 448 then 512 else 16 * N) ≤ 16384 := by
        rw [hform]; split <;> split <;> omega
      obtain ⟨m', bs', bk', csz, hm, -⟩ :=
        malloc_tail s2 [] 16384 bk2 hWf2 hna2 (fun b hb => by simp at hb) (16 * N) hne _ rfl
          ha16 ha8 hle
      simp only [endAddr] at hm
      exact ⟨_, _, hm, by have := hWf2.lo_pos; omega, rfl⟩

theorem coalesce_restores_initial_block_witness :
    ∃ s, mm_init arena0 = some (0, s) ∧ ∃ ps s1, malloc_n s 16 2 = some (ps, s1) ∧
      ps.length = 2 ∧ (∀ p ∈ ps, p ≠ 0) ∧ s1.mem_brk = s.mem_brk ∧
      ∀ qs : List Nat, qs.Perm ps → ∃ s2, free_all s1 qs = some s2 ∧
        chain s2 = [(arena0.mem_start_brk + 80, 16384, 0)] ∧
        ∃ p s3, malloc s2 (16 * 2) = some (p, s3) ∧ p ≠ 0 ∧ s3.mem_brk = s2.mem_brk :=
  coalesce_restores_initial_block arena0 fresh_arena0 (by decide) 2 (by decide) (by decide)

/-! ## Reuse of a freed block -/

/-- When a free block of the entry bucket of `asize` fits, `find_fit` returns a
free block of that bucket that fits. -/
theorem find_fit_entry (s : Heap) (bs : List Blk) (bk : Nat → List Nat) (F : Nat → Nat → Prop)
    (h : Wf s bs bk F) (asize x z : Nat) (hF : F x z) (hb : bucket z = bucket asize)
    (hfit : asize ≤ z) :
    ∃ r z', find_fit s asize = some r ∧ r ≠ 0 ∧ F r z' ∧ bucket z' = bucket asize ∧
      asize ≤ z' := by
  have hi := bucket_lt asize
  have hentry : get_index s asize = s.mem_start_brk + 8 * bucket asize := by
    rw [get_index_eq, h.efl]
  have hsize : ∀ j, j < 9 → ∀ x ∈ bk j, ∃ z, F x z ∧ bucket z = j ∧ GET_SIZE s.mem x = z ∧ x ≠ 0 := by
    intro j hj x hx
    obtain ⟨z, pa, hz, hbz, hm⟩ := node_blk s bs bk F h j hj x hx
    have hb := blk_bounds s bs bk F h _ _ _ hm
    exact ⟨z, hz, hbz, (Seg_hdr _ _ _ _ h.seg _ _ _ hm).2.1, hb.2.2.2.2.2.2⟩
  obtain ⟨r, hr, hcase⟩ := find_fit_scan_spec s.mem asize _ _ (h.index.lists _ hi) (fuel s + 1)
    (bucket_length s bs bk F h _ hi)
  rcases hcase with ⟨-, hall⟩ | ⟨l1, l2, e, hs, -⟩
  · exfalso
    have hc := h.index.complete x z hF
    rw [hb] at hc
    obtain ⟨z', hz', -, hg, -⟩ := hsize _ hi x hc
    have := F_unique s bs bk F h x z z' hF hz'
    have := hall x hc
    omega
  · have hmem : r ∈ bk (bucket asize) := by rw [e]; simp
    obtain ⟨z', hz, hbz, hg, hne⟩ := hsize _ hi r hmem
    refine ⟨r, z', ?_, hne, hz, hbz, by omega⟩
    unfold find_fit
    simp only [hentry, hr, ne_eq, hne, not_false_eq_true, if_true]

/-- When the free block at the end of `pre` fits and is the only free block of
the entry bucket of the request, `malloc` takes the request from it. -/
theorem malloc_entry (s : Heap) (pre post : List Blk) (z : Nat) (bk : Nat → List Nat)
    (h : Wf s (pre ++ Blk.mk z false :: post) bk
      (IsFree (s.mem_start_brk + 80) (pre ++ Blk.mk z false :: post)))
    (hna : NoAdj true (pre ++ Blk.mk z false :: post))
    (n : Nat) (hn : n ≠ 0) (asize : Nat) (has : adjust (if n = 448 then 512 else n) = asize)
    (ha16 : 16 ≤ asize) (ha8 : asize % 8 = 0) (hfit : asize ≤ z) (hb : bucket z = bucket asize)
    (honly : ∀ x z', IsFree (s.mem_start_brk + 80) (pre ++ Blk.mk z false :: post) x z' →
      bucket z' = bucket asize → x = endAddr (s.mem_start_brk + 80) pre) :
    ∃ m' bs' bk' csz,
      malloc s n = some (endAddr (s.mem_start_brk + 80) pre, { s with mem := m' }) ∧
      Wf { s with mem := m' } bs' bk' (IsFree (s.mem_start_brk + 80) bs') ∧ NoAdj true bs' ∧
      ((bs' = pre ++ Blk.mk z true :: post ∧ csz = z ∧ z - asize ≤ 16) ∨
       (bs' = pre ++ Blk.mk asize true :: Blk.mk (z - asize) false :: post ∧ csz = asize ∧
          16 < z - asize)) := by
  have hmem := mem_blocks_of_split (s.mem_start_brk + 80) true pre post (Blk.mk z false)
  obtain ⟨r, z', hfind, hr0, hFz, hbz, -⟩ :=
    find_fit_entry s _ bk _ h asize _ z ⟨_, hmem⟩ hb hfit
  have hmal : malloc s n = if r = 0 then
        (extend_heap s (MAX asize CHUNKSIZE)).bind fun (bp, s1) =>
          if bp = FAIL then some (0, s1)
          else (delete s1 bp).bind fun s2 => place s2 bp asize
      else (delete s r).bind fun s2 => place s2 r asize := by
    unfold malloc
    rw [if_neg hn]
    dsimp only
    rw [has, hfind]
  have hr : r = endAddr (s.mem_start_brk + 80) pre := honly r z' hFz hbz
  rw [if_neg hr0, hr] at hmal
  obtain ⟨m', bs', bk', csz, hdp, hWf', hna', hshape, -⟩ :=
    delete_place s pre post z asize bk h hna ha16 ha8 hfit
  exact ⟨m', bs', bk', csz, by rw [hmal]; exact hdp, hWf', hna', hshape⟩

theorem adjust_100 : adjust (if (100 : Nat) = 448 then 512 else 100) = 104 := by decide

theorem adjust_200 : adjust (if (200 : Nat) = 448 then 512 else 200) = 208 := by decide

theorem adjust_90 : adjust (if (90 : Nat) = 448 then 512 else 90) = 96 := by decide

/-- C19: on every fresh arena that can hold the initial block, `mm_init` followed
by `a = malloc(100)`, `b = malloc(200)`, `free(a)`, `c = malloc(90)` gives `c = a`:
after the `free` the chain is a free block of 104 bytes at `a`, the block of `b`
and the free rest; the last `malloc` returns `a` and the block at `a` is
allocated whole, with its 104 bytes. -/
theorem reuse_freed_block_any_arena (s0 : Heap) (hF : Fresh s0)
    (hroom : s0.mem_brk + 80 + 16384 ≤ s0.mem_max_addr) :
    ∃ s a s1 b s2 s3 c s4, mm_init s0 = some (0, s) ∧ malloc s 100 = some (a, s1) ∧
      malloc s1 200 = some (b, s2) ∧ free s2 a = some s3 ∧ malloc s3 90 = some (c, s4) ∧
      c = a ∧ a = s0.mem_start_brk + 80 ∧ b = a + 104 ∧
      chain s3 = [(a, 104, 0), (b, 208, 1), (b + 208, 16072, 0)] ∧
      chain s4 = [(a, 104, 1), (b, 208, 1), (b + 208, 16072, 0)] := by
  obtain ⟨s, bs, bk, hinit, hlo, -, hWf, hna, hshape⟩ := (mm_init_spec s0 hF).2 (by omega)
  rcases hshape with ⟨hno, -, -⟩ | ⟨-, hbs, hbrk⟩
  · omega
  subst hbs
  rw [← hlo] at hWf
  rw [← hlo]
  -- a = malloc(100)
  obtain ⟨m1, bs1, bk1, c1, hm1, hWf1, hna1, hsh1⟩ :=
    malloc_tail s [] 16384 bk hWf hna (fun b hb => by simp at hb) 100 (by decide) 104 adjust_100
      (by decide) (by decide) (by decide)
  rcases hsh1 with ⟨-, -, hc⟩ | ⟨hbs1, -, -⟩
  · omega
  subst hbs1
  simp only [endAddr, List.nil_append] at hm1
  -- b = malloc(200)
  obtain ⟨m2, bs2, bk2, c2, hm2, hWf2, hna2, hsh2⟩ :=
    malloc_tail { s with mem := m1 } [Blk.mk 104 true] 16280 bk1 hWf1 hna1
      (fun b hb => by simp at hb; rw [hb]) 200 (by decide) 208 adjust_200
      (by decide) (by decide) (by decide)
  rcases hsh2 with ⟨-, -, hc⟩ | ⟨hbs2, -, -⟩
  · omega
  subst hbs2
  simp only [endAddr] at hm2
  -- free(a)
  obtain ⟨pre', pm, nm, post', tot, m3, bk3, e1, e2, -, e4, -, -, e7, -, hfr, hWf3, hna3, -⟩ :=
    free_spec { s with mem := m2 } [] [Blk.mk 208 true, Blk.mk 16072 false] 104 bk2 hWf2 hna2
  have hpre : pre' = [] ∧ pm = [] := by
    have := e1.symm
    simpa using this
  obtain ⟨rfl, rfl⟩ := hpre
  have hnm : nm = [] := e7 (by
    intro c cs hcs
    simp only [List.cons.injEq] at hcs
    rw [← hcs.1])
  subst hnm
  simp only [List.nil_append] at e2
  subst e2
  simp only [endAddr, List.nil_append] at e4 hfr
  have htot : tot = 104 := by omega
  subst htot
  -- c = malloc(90)
  obtain ⟨m4, bs4, bk4, c4, hm4, hWf4, hna4, hsh4⟩ :=
    malloc_entry { s with mem := m3 } [] [Blk.mk 208 true, Blk.mk 16072 false] 104 bk3 hWf3 hna3
      90 (by decide) 96 adjust_90 (by decide) (by decide) (by decide) (by decide) (by
        rintro x z' ⟨pa, hx⟩ hbz
        simp only [List.nil_append, blocks, List.mem_cons, Prod.mk.injEq, Blk.mk.injEq,
          List.mem_nil_iff, or_false] at hx
        rcases hx with ⟨hx, -⟩ | ⟨-, -, -, hc⟩ | ⟨-, -, hz, -⟩
        · exact hx
        · simp at hc
        · subst hz
          exact absurd hbz (by decide))
  rcases hsh4 with ⟨hbs4, -, -⟩ | ⟨-, -, hc⟩
  swap
  · omega
  subst hbs4
  simp only [endAddr] at hm4
  refine ⟨s, _, _, _, _, _, _, _, hinit, hm1, hm2, hfr, hm4, rfl, rfl, rfl, ?_, ?_⟩
  · rw [chain_eq _ _ bk3 _ hWf3]
    simp only [List.nil_append, blocks, List.map_cons, List.map_nil, Bool.toNat_false,
      Bool.toNat_true, Nat.add_assoc]
  · rw [chain_eq _ _ bk4 _ hWf4]
    simp only [List.nil_append, blocks, List.map_cons, List.map_nil, Bool.toNat_false,
      Bool.toNat_true, Nat.add_assoc]

theorem reuse_freed_block_any_arena_witness :
    ∃ s a s1 b s2 s3 c s4, mm_init arena0 = some (0, s) ∧ malloc s 100 = some (a, s1) ∧
      malloc s1 200 = some (b, s2) ∧ free s2 a = some s3 ∧ malloc s3 90 = some (c, s4) ∧
      c = a ∧ a = arena0.mem_start_brk + 80 ∧ b = a + 104 ∧
      chain s3 = [(a, 104, 0), (b, 208, 1), (b + 208, 16072, 0)] ∧
      chain s4 = [(a, 104, 1), (b, 208, 1), (b + 208, 16072, 0)] :=
  reuse_freed_block_any_arena arena0 fresh_arena0 (by decide)

/-! ## The invariants after a call whose size wraps around -/

set_option maxRecDepth 100000 in
/-- C5 fails on the code.  On `heap0`, after `q = malloc(8)` (4176), `p = malloc(24)`
(4192), `free(q)` and `realloc(p, 2^64 - 12)` on the live pointer `p` (which
returns 4176), `mm_checkheap(0)` prints five diagnostics. -/
theorem checkheap_reports_after_wrapped_realloc :
    ((malloc heap0 8).bind fun q => (malloc q.2 24).bind fun p => (free p.2 q.1).bind fun s3 =>
      (realloc s3 p.1 (2 ^ 64 - 12)).map fun r => (q.1, p.1, r.1)) = some (4176, 4192, 4176) ∧
    ((malloc heap0 8).bind fun q => (malloc q.2 24).bind fun p => (free p.2 q.1).bind fun s3 =>
      (realloc s3 p.1 (2 ^ 64 - 12)).bind fun r => mm_checkheap r.2 0) =
      some [Diag.block_too_small 4192 0, Diag.prev_alloc_bit_inconsistent,
        Diag.block_marked_otherwise 4176 true, Diag.free_list_count_mismatch,
        Diag.incorrect_epilogue_location] := by
  decide

set_option maxRecDepth 100000 in
/-- C7 fails on the code.  On `heap0`, after `q = malloc(8)`, `p = malloc(24)`,
`free(q)` and `realloc(p, 2^64 - 12)` on the live pointer `p`, the address-ordered
chain is the one allocated block at 4176 and has no free block, while the
bucket lists hold the two blocks 4192 and 4224. -/
theorem index_differs_from_chain_after_wrapped_realloc :
    ((malloc heap0 8).bind fun q => (malloc q.2 24).bind fun p => (free p.2 q.1).bind fun s3 =>
      (realloc s3 p.1 (2 ^ 64 - 12)).map fun r => chain r.2) = some [(4176, 16, 1)] ∧
    ((malloc heap0 8).bind fun q => (malloc q.2 24).bind fun p => (free p.2 q.1).bind fun s3 =>
      (realloc s3 p.1 (2 ^ 64 - 12)).map fun r =>
        (List.range free_list_size).map (bucket_list r.2)) =
      some [[4192], [], [], [], [], [], [], [], [4224]] := by
  decide

set_option maxRecDepth 100000 in
/-- C17 fails on the code.  On `heap0`, after `p = malloc(24)` (4176), the client
stores the bytes 125, 16 at `p`, `p + 1` and 3, 32 at `p + 9`, `p + 10` of its
payload; `realloc(p, 2^64 - 12)` returns 4208 and the next `malloc(5000)` returns
4221, which is not a multiple of 8. -/
theorem malloc_returns_unaligned_after_wrapped_realloc :
    ((malloc heap0 24).bind fun p =>
      (realloc { p.2 with mem := writeLE (writeLE (writeLE (writeLE p.2.mem p.1 1 125)
          (p.1 + 1) 1 16) (p.1 + 9) 1 3) (p.1 + 10) 1 32 } p.1 (2 ^ 64 - 12)).bind fun r =>
      (malloc r.2 5000).map fun x => (p.1, GET_SIZE p.2.mem p.1, r.1, x.1, x.1 % 8)) =
      some (4176, 32, 4208, 4221, 5) := by
  decide

set_option maxRecDepth 100000 in
/-- C18 fails on the code.  On `heap0`, after `q = malloc(8)` (4176), `p = malloc(24)`
(4192) and `free(q)`, the client stores the byte 11 at `p + 12` and the byte 1
at `p + 20` of its payload; after `realloc(p, 2^64 - 12)` on the live pointer `p`
the address-ordered chain holds a free block of 8 bytes at 4192. -/
theorem chain_block_of_8_bytes_after_wrapped_realloc :
    ((malloc heap0 8).bind fun q => (malloc q.2 24).bind fun p => (free p.2 q.1).bind fun s3 =>
      (realloc { s3 with mem := writeLE (writeLE s3.mem (p.1 + 12) 1 11) (p.1 + 20) 1 1 }
        p.1 (2 ^ 64 - 12)).map fun r => (q.1, p.1, GET_SIZE s3.mem p.1, r.1)) =
      some (4176, 4192, 32, 4176) ∧
    ((malloc heap0 8).bind fun q => (malloc q.2 24).bind fun p => (free p.2 q.1).bind fun s3 =>
      (realloc { s3 with mem := writeLE (writeLE s3.mem (p.1 + 12) 1 11) (p.1 + 20) 1 1 }
        p.1 (2 ^ 64 - 12)).map fun r => chain r.2) =
      some [(4176, 16, 1), (4192, 8, 0)] := by
  decide

/-! ## The bucket of a size -/

/-- With enough fuel the halving loop counts the binary logarithm of its argument. -/
theorem get_index_loop_log (f x i : Nat) (h1 : 1 ≤ x) (hf : x < 2 ^ f) :
    ∃ k, get_index_loop f x i = i + k ∧ 2 ^ k ≤ x ∧ x < 2 ^ (k + 1) := by
  induction f generalizing x i with
  | zero => simp at hf; omega
  | succ f ih =>
    by_cases hx : x > 1
    · have hhalf : x >>> 1 = x / 2 := by rw [Nat.shiftRight_eq_div_pow]
      obtain ⟨k, hk, h2, h3⟩ := ih (x >>> 1) (i + 1) (by rw [hhalf]; omega)
        (by rw [hhalf]; rw [pow_succ] at hf; omega)
      refine ⟨k + 1, ?_, ?_, ?_⟩
      · simp only [get_index_loop, if_pos hx, hk]; omega
      · rw [hhalf] at h2; rw [pow_succ]; omega
      · rw [hhalf] at h3; rw [pow_succ]; omega
    · refine ⟨0, ?_, by simpa using h1, by simp; omega⟩
      simp only [get_index_loop, if_neg hx]; rfl

theorem bucket_range (sz : Nat) (h1 : 16 ≤ sz) (h2 : sz < 4096) :
    bucket sz ≤ 7 ∧ 16 * 2 ^ bucket sz ≤ sz ∧ sz < 16 * 2 ^ (bucket sz + 1) := by
  have hdiv : sz >>> 4 = sz / 16 := by rw [Nat.shiftRight_eq_div_pow]
  obtain ⟨k, hk, h3, h4⟩ := get_index_loop_log 64 (sz >>> 4) 0 (by rw [hdiv]; omega)
    (by rw [hdiv]; have : (2:Nat) ^ 64 = 18446744073709551616 := by norm_num
        omega)
  have hb : bucket sz = k := by
    unfold bucket; rw [if_neg (by omega), hk]; omega
  rw [hb]
  rw [hdiv] at h3 h4
  have hk7 : k ≤ 7 := by
    by_contra hc
    have : (2:Nat) ^ 8 ≤ 2 ^ k := Nat.pow_le_pow_right (by norm_num) (by omega)
    have : (2:Nat) ^ 8 = 256 := by norm_num
    omega
  refine ⟨hk7, by omega, by omega⟩

/-- C26: `get_index` classifies by power-of-two ranges.  For `16 <= sz < 4096` it
returns the sentinel of bucket `i`, `0 <= i <= 7`, with
`16 * 2^i <= sz < 16 * 2^(i+1)`; for `sz >= 4096` it returns the sentinel of the
last bucket, number 8; it is monotone in the size; and its result is always one
of the nine sentinel slots `explicit_free_list + i * DSIZE`, `i < 9`. -/
theorem get_index_classifies (s : Heap) :
    (∀ sz, 16 ≤ sz → sz < 4096 → ∃ i, i ≤ 7 ∧ get_index s sz = s.explicit_free_list + i * DSIZE ∧
      16 * 2 ^ i ≤ sz ∧ sz < 16 * 2 ^ (i + 1)) ∧
    (∀ sz, 4096 ≤ sz → get_index s sz = s.explicit_free_list + 8 * DSIZE) ∧
    (∀ a b, a ≤ b → get_index s a ≤ get_index s b) ∧
    (∀ sz, ∃ i, i < free_list_size ∧ get_index s sz = s.explicit_free_list + i * DSIZE) := by
  refine ⟨?_, ?_, ?_, ?_⟩
  · intro sz h1 h2
    obtain ⟨h3, h4, h5⟩ := bucket_range sz h1 h2
    exact ⟨bucket sz, h3, by rw [get_index_eq]; unfold DSIZE; omega, h4, h5⟩
  · intro sz h
    rw [get_index_eq]
    have : bucket sz = 8 := by unfold bucket; rw [if_pos h]
    rw [this]; unfold DSIZE; rfl
  · intro a b hab
    rw [get_index_eq, get_index_eq]
    have := bucket_mono a b hab
    omega
  · intro sz
    exact ⟨bucket sz, bucket_lt sz, by rw [get_index_eq]; unfold DSIZE; omega⟩

/-! ## `find_fit` on a correctly bucketed index -/

/-- On an index whose lists are null terminated, fit in the arena and hold only
blocks whose size maps to their bucket, `find_fit` returns; its result is null
exactly when no listed block has at least the requested size, and a non-null
result is a listed block of at least that size. -/
theorem find_fit_index (s : Heap) (bk : Nat → List Nat)
    (hfle : s.free_list_end = s.explicit_free_list + 72)
    (hl : ∀ i, i < 9 → ListAt s.mem (s.explicit_free_list + 8 * i) (bk i))
    (hlen : ∀ i, i < 9 → (bk i).length ≤ fuel s)
    (hb : ∀ i, i < 9 → ∀ x ∈ bk i, bucket (GET_SIZE s.mem x) = i) (asize : Nat) :
    ∃ r, find_fit s asize = some r ∧
      (r = 0 → ∀ i, i < 9 → ∀ x ∈ bk i, GET_SIZE s.mem x < asize) ∧
      (r ≠ 0 → asize ≤ GET_SIZE s.mem r ∧ ∃ i, i < 9 ∧ r ∈ bk i) := by
  have hi := bucket_lt asize
  have hentry : get_index s asize = s.explicit_free_list + 8 * bucket asize := get_index_eq s asize
  have hlow : ∀ i, i < bucket asize → ∀ x ∈ bk i, GET_SIZE s.mem x < asize := by
    intro i hi' x hx
    by_contra hc
    have := bucket_mono asize (GET_SIZE s.mem x) (by omega)
    rw [hb i (by omega) x hx] at this
    omega
  have hhigh : ∀ i, bucket asize < i → i < 9 → ∀ x ∈ bk i, asize ≤ GET_SIZE s.mem x := by
    intro i hi' hi9 x hx
    by_contra hc
    have := bucket_mono (GET_SIZE s.mem x) asize (by omega)
    rw [hb i hi9 x hx] at this
    omega
  obtain ⟨r, hr, hcase⟩ := find_fit_scan_spec s.mem asize _ _ (hl _ hi) (fuel s + 1)
    (by have := hlen _ hi; omega)
  rcases hcase with ⟨r0, hall⟩ | ⟨l1, l2, e, hs, -⟩
  · subst r0
    obtain ⟨r', hr', hcase'⟩ := find_fit_rest_spec s.mem s.explicit_free_list bk hl 10
      (bucket asize + 1) (by omega) (by omega)
    refine ⟨r', ?_, ?_, ?_⟩
    · unfold find_fit
      simp only [hentry, hr, ne_eq, not_true_eq_false, if_false, hfle, free_list_size, DSIZE]
      rw [show s.explicit_free_list + 8 * bucket asize + 8 =
        s.explicit_free_list + 8 * (bucket asize + 1) by ring]
      exact hr'
    · intro h0 i hi9 x hx
      rcases hcase' with ⟨-, hempty⟩ | ⟨rne, -⟩
      · rcases Nat.lt_trichotomy i (bucket asize) with g | g | g
        · exact hlow i g x hx
        · subst g; exact hall x hx
        · rw [hempty i (by omega) hi9] at hx; simp at hx
      · exact absurd h0 rne
    · intro hne
      rcases hcase' with ⟨r0, -⟩ | ⟨-, j, h1, h2, h3, -⟩
      · exact absurd r0 hne
      · have hmem : r' ∈ bk j := by
          cases hbk : bk j with
          | nil => rw [hbk] at h3; simp at h3
          | cons y ys => rw [hbk] at h3; simp at h3; subst h3; simp
        exact ⟨hhigh j (by omega) h2 r' hmem, j, h2, hmem⟩
  · have hmem : r ∈ bk (bucket asize) := by rw [e]; simp
    have hne : r ≠ 0 := by
      have hla := hl _ hi
      rw [e, ListAt_append] at hla
      have := hla.2
      simp only [ListAt] at this
      exact this.2.1
    refine ⟨r, ?_, fun h0 => absurd h0 hne, fun _ => ⟨hs, _, hi, hmem⟩⟩
    unfold find_fit
    simp only [hentry, hr, ne_eq, hne, not_false_eq_true, if_true]

/-- C27: on every index state whose lists hold only blocks whose size maps to
their bucket, `find_fit` returns, and a non-null block it returns has at least
the requested size, also when it is the head of a larger bucket, which
`find_fit` does not check. -/
theorem find_fit_block_fits (s : Heap) (bk : Nat → List Nat)
    (hfle : s.free_list_end = s.explicit_free_list + 72)
    (hl : ∀ i, i < 9 → ListAt s.mem (s.explicit_free_list + 8 * i) (bk i))
    (hlen : ∀ i, i < 9 → (bk i).length ≤ fuel s)
    (hb : ∀ i, i < 9 → ∀ x ∈ bk i, bucket (GET_SIZE s.mem x) = i) (asize : Nat) :
    ∃ r, find_fit s asize = some r ∧ (r ≠ 0 → asize ≤ GET_SIZE s.mem r) := by
  obtain ⟨r, hr, -, h2⟩ := find_fit_index s bk hfle hl hlen hb asize
  exact ⟨r, hr, fun hne => (h2 hne).1⟩

/-- C28: on every correctly bucketed index state `find_fit` returns, and it
returns null if and only if no block of the nine bucket lists has at least the
requested size. -/
theorem find_fit_null_iff (s : Heap) (bk : Nat → List Nat)
    (hfle : s.free_list_end = s.explicit_free_list + 72)
    (hl : ∀ i, i < 9 → ListAt s.mem (s.explicit_free_list + 8 * i) (bk i))
    (hlen : ∀ i, i < 9 → (bk i).length ≤ fuel s)
    (hb : ∀ i, i < 9 → ∀ x ∈ bk i, bucket (GET_SIZE s.mem x) = i) (asize : Nat) :
    ∃ r, find_fit s asize = some r ∧
      (r = 0 ↔ ∀ i, i < 9 → ∀ x ∈ bk i, GET_SIZE s.mem x < asize) := by
  obtain ⟨r, hr, h1, h2⟩ := find_fit_index s bk hfle hl hlen hb asize
  refine ⟨r, hr, h1, ?_⟩
  intro hall
  by_contra hne
  obtain ⟨hfit, i, hi, hmem⟩ := h2 hne
  have := hall i hi r hmem
  omega

/-! ## The index of a consistent heap, `insert` and `delete` -/

/-- The computed bucket lists of a consistent heap form a correctly bucketed index. -/
theorem index_of_wf (s : Heap) (bs : List Blk) (bk : Nat → List Nat) (F : Nat → Nat → Prop)
    (h : Wf s bs bk F) :
    s.free_list_end = s.explicit_free_list + 72 ∧
    (∀ i, i < 9 → ListAt s.mem (s.explicit_free_list + 8 * i) (bucket_list s i)) ∧
    (∀ i, i < 9 → (bucket_list s i).length ≤ fuel s) ∧
    (∀ i, i < 9 → ∀ x ∈ bucket_list s i, bucket (GET_SIZE s.mem x) = i) := by
  refine ⟨by rw [h.fle, h.efl], ?_, ?_, ?_⟩
  · intro i hi
    rw [bucket_list_eq s bs bk F h i hi, h.efl]
    exact h.index.lists i hi
  · intro i hi
    rw [bucket_list_eq s bs bk F h i hi]
    have := bucket_length s bs bk F h i hi
    omega
  · intro i hi x hx
    rw [bucket_list_eq s bs bk F h i hi] at hx
    obtain ⟨sz, pa, -, hbz, hm⟩ := node_blk s bs bk F h i hi x hx
    rw [(Seg_hdr _ _ _ _ h.seg _ _ _ hm).2.1]
    exact hbz

/-- The size in the header of a listed block of a consistent heap. -/
theorem node_size (s : Heap) (bs : List Blk) (bk : Nat → List Nat) (F : Nat → Nat → Prop)
    (h : Wf s bs bk F) (i : Nat) (hi : i < 9) (x : Nat) (hx : x ∈ bk i) :
    ∃ pa z, (x, pa, Blk.mk z false) ∈ blocks (s.mem_start_brk + 80) true bs ∧
      GET_SIZE s.mem x = z := by
  obtain ⟨sz, pa, -, -, hm⟩ := node_blk s bs bk F h i hi x hx
  exact ⟨pa, sz, hm, (Seg_hdr _ _ _ _ h.seg _ _ _ hm).2.1⟩

theorem find_fit_block_fits_witness :
    ∃ r, find_fit heap0 16 = some r ∧ (r ≠ 0 → 16 ≤ GET_SIZE heap0.mem r) := by
  obtain ⟨bs, bk, hWf, -⟩ := reach_inv heap0 [] reach_heap0
  obtain ⟨h1, h2, h3, h4⟩ := index_of_wf heap0 bs bk _ hWf
  generalize bucket_list heap0 = bl at h2 h3 h4
  exact find_fit_block_fits heap0 bl h1 h2 h3 h4 16

theorem find_fit_null_iff_witness :
    ∃ r, find_fit heap0 16 = some r ∧
      (r = 0 ↔ ∀ i, i < 9 → ∀ x ∈ bucket_list heap0 i, GET_SIZE heap0.mem x < 16) := by
  obtain ⟨bs, bk, hWf, -⟩ := reach_inv heap0 [] reach_heap0
  obtain ⟨h1, h2, h3, h4⟩ := index_of_wf heap0 bs bk _ hWf
  generalize bucket_list heap0 = bl at h2 h3 h4 ⊢
  exact find_fit_null_iff heap0 bl h1 h2 h3 h4 16

/-- C29: in a consistent heap whose index holds some of the free blocks, for a free
block `bp` of the chain that is not in the index and whose bucket list is sorted
by ascending size: `insert(bp)` returns `bp`; the list of the bucket of `bp` is
afterwards the old list with `bp` added once, after the blocks smaller than `bp`
and before the first block at least as large; that list is still sorted by
ascending size; and every other bucket list is unchanged. -/
theorem insert_keeps_sorted (s : Heap) (bs : List Blk) (bk : Nat → List Nat)
    (F : Nat → Nat → Prop) (h : Wf s bs bk F) (bp sz : Nat) (pa : Bool)
    (hb : (bp, pa, Blk.mk sz false) ∈ blocks (s.mem_start_brk + 80) true bs)
    (hF : ∀ z, ¬ F bp z)
    (hsorted : (bucket_list s (bucket sz)).Pairwise
      fun x y => GET_SIZE s.mem x ≤ GET_SIZE s.mem y) :
    ∃ s' l1 l2, insert s bp = some (bp, s') ∧ GET_SIZE s.mem bp = sz ∧
      bucket_list s (bucket sz) = l1 ++ l2 ∧ bp ∉ l1 ++ l2 ∧
      bucket_list s' (bucket sz) = l1 ++ bp :: l2 ∧
      (∀ x ∈ l1, GET_SIZE s.mem x < GET_SIZE s.mem bp) ∧
      (∀ x ∈ l2, GET_SIZE s.mem bp ≤ GET_SIZE s.mem x) ∧
      (bucket_list s' (bucket sz)).Pairwise (fun x y => GET_SIZE s'.mem x ≤ GET_SIZE s'.mem y) ∧
      ∀ i, i < 9 → i ≠ bucket sz → bucket_list s' i = bucket_list s i := by
  have hi := bucket_lt sz
  have hsz : GET_SIZE s.mem bp = sz := (Seg_hdr _ _ _ _ h.seg _ _ _ hb).2.1
  obtain ⟨l1, l2, hbk, hlt, hhead, m', hins, hWf', -⟩ := insert_spec s bs bk F h bp sz pa hb hF
  have hbl : ∀ i, i < 9 → bucket_list s i = bk i := fun i hi' => bucket_list_eq s bs bk F h i hi'
  have hbl' : ∀ i, i < 9 → bucket_list { s with mem := m' } i =
      Function.update bk (bucket sz) (l1 ++ bp :: l2) i :=
    fun i hi' => bucket_list_eq _ bs _ _ hWf' i hi'
  rw [hbl _ hi, hbk] at hsorted
  rw [List.pairwise_append] at hsorted
  obtain ⟨hs1, hs2, hs12⟩ := hsorted
  have hge : ∀ x ∈ l2, sz ≤ GET_SIZE s.mem x := by
    intro x hx
    cases l2 with
    | nil => simp at hx
    | cons y ys =>
      have hy := hhead y rfl
      rw [List.pairwise_cons] at hs2
      simp only [List.mem_cons] at hx
      rcases hx with rfl | hx
      · exact hy
      · have := hs2.1 x hx
        omega
  have hnew : (l1 ++ bp :: l2).Pairwise fun x y => GET_SIZE s.mem x ≤ GET_SIZE s.mem y := by
    rw [List.pairwise_append, List.pairwise_cons]
    refine ⟨hs1, ⟨fun x hx => by rw [hsz]; exact hge x hx, hs2⟩, ?_⟩
    intro a ha b hb'
    simp only [List.mem_cons] at hb'
    rcases hb' with rfl | hb'
    · have := hlt a ha; omega
    · exact hs12 a ha b hb'
  have hsame : ∀ x ∈ l1 ++ bp :: l2, GET_SIZE m' x = GET_SIZE s.mem x := by
    intro x hx
    have hx' : x ∈ Function.update bk (bucket sz) (l1 ++ bp :: l2) (bucket sz) := by
      rw [Function.update_same]; exact hx
    obtain ⟨z, q, -, -, hm⟩ := node_blk _ bs _ _ hWf' (bucket sz) hi x hx'
    have e1 := (Seg_hdr _ _ _ _ hWf'.seg _ _ _ hm).2.1
    have e2 := (Seg_hdr _ _ _ _ h.seg _ _ _ hm).2.1
    exact e1.trans e2.symm
  refine ⟨{ s with mem := m' }, l1, l2, hins, hsz, by rw [hbl _ hi, hbk], ?_, ?_,
    fun x hx => by rw [hsz]; exact hlt x hx, fun x hx => by rw [hsz]; exact hge x hx, ?_, ?_⟩
  · intro hmem
    rw [← hbk] at hmem
    obtain ⟨z, hz, -⟩ := h.index.sound _ hi bp hmem
    exact hF z hz
  · rw [hbl' _ hi, Function.update_same]
  · rw [hbl' _ hi, Function.update_same]
    refine hnew.imp_of_mem ?_
    intro a b ha hb' hab
    show GET_SIZE m' a ≤ GET_SIZE m' b
    rw [hsame a ha, hsame b hb']
    exact hab
  · intro i hi' hne
    rw [hbl' i hi', Function.update_noteq hne, hbl i hi']

/-- C30: in a consistent heap, for a block `bp` of the index (it is then linked in
the list of the bucket its size selects): `delete(bp)` returns, the list of that
bucket is afterwards the old list without `bp`, the other blocks in their
previous order, and every other bucket list is unchanged. -/
theorem delete_removes_block (s : Heap) (bs : List Blk) (bk : Nat → List Nat)
    (F : Nat → Nat → Prop) (h : Wf s bs bk F) (bp sz : Nat) (hF : F bp sz) :
    ∃ s', delete s bp = some s' ∧ GET_SIZE s.mem bp = sz ∧
      bp ∈ bucket_list s (bucket sz) ∧
      bucket_list s' (bucket sz) = (bucket_list s (bucket sz)).erase bp ∧
      bp ∉ bucket_list s' (bucket sz) ∧
      ∀ i, i < 9 → i ≠ bucket sz → bucket_list s' i = bucket_list s i := by
  have hi := bucket_lt sz
  obtain ⟨pa, hm⟩ := h.F_free bp sz hF
  have hsz : GET_SIZE s.mem bp = sz := (Seg_hdr _ _ _ _ h.seg _ _ _ hm).2.1
  obtain ⟨l1, l2, hbk, m', hdel, hWf', -⟩ := delete_spec s bs bk F h bp sz hF
  have hbl : ∀ i, i < 9 → bucket_list s i = bk i := fun i hi' => bucket_list_eq s bs bk F h i hi'
  have hbl' : ∀ i, i < 9 → bucket_list { s with mem := m' } i =
      Function.update bk (bucket sz) (l1 ++ l2) i :=
    fun i hi' => bucket_list_eq _ bs _ _ hWf' i hi'
  have hnd := h.index.nodup _ hi
  rw [hbk] at hnd
  have hnot1 : bp ∉ l1 := by
    intro hmem
    have := (List.nodup_append.mp hnd).2.2
    exact this hmem (List.mem_cons_self _ _)
  have hnot2 : bp ∉ l2 := by
    intro hmem
    have := (List.nodup_append.mp hnd).2.1
    exact (List.nodup_cons.mp this).1 hmem
  refine ⟨{ s with mem := m' }, hdel, hsz, by rw [hbl _ hi, hbk]; simp, ?_, ?_, ?_⟩
  · rw [hbl' _ hi, Function.update_same, hbl _ hi, hbk, List.erase_append_right _ hnot1,
      List.erase_cons_head]
  · rw [hbl' _ hi, Function.update_same]
    simp [hnot1, hnot2]
  · intro i hi' hne
    rw [hbl' i hi', Function.update_noteq hne, hbl i hi']

/-! ## Witnesses for `insert` and `delete`, and the flag bits of a consistent heap -/

set_option maxRecDepth 100000 in
theorem free_block_heap0 (bs : List Blk) (bk : Nat → List Nat) (F : Nat → Nat → Prop)
    (h : Wf heap0 bs bk F) : IsFree (heap0.mem_start_brk + 80) bs 4176 16384 := by
  have hc : ((4176 : Nat), (16384 : Nat), (0 : Nat)) ∈ chain heap0 := by decide
  obtain ⟨pa, b, hm, h1, h2⟩ := (mem_chain_iff heap0 bs bk F h 4176 16384 0).mp hc
  obtain ⟨sz, al⟩ := b
  simp only at h1 h2
  subst h1
  cases al
  · exact ⟨pa, hm⟩
  · simp at h2

set_option maxRecDepth 100000 in
theorem bucket_list_heap0d : bucket_list heap0d (bucket 16384) = [] := by decide

/-- In a consistent heap the header of the block that follows a block of the chain
(the epilogue header after the last block) records that block's allocation bit
as its `prev_alloc` bit. -/
theorem wf_prev_alloc (s : Heap) (bs : List Blk) (bk : Nat → List Nat)
    (F : Nat → Nat → Prop) (h : Wf s bs bk F) (x : Nat) (pa : Bool) (b : Blk)
    (hx : (x, pa, b) ∈ blocks (s.mem_start_brk + 80) true bs) :
    find_next_blankblock s.mem x = x + b.size ∧
      get_prev_alloc s.mem (x + b.size) = b.alloc.toNat := by
  obtain ⟨hw, hgs, hga, -⟩ := Seg_hdr _ _ _ _ h.seg _ _ _ hx
  obtain ⟨pre, post, hbs, hxe, hpa, -, -, hpost, hend⟩ := chain_split s bs bk F h x pa b hx
  have hepi := h.epihdr
  rw [hbs, lastAlloc_append] at hepi
  simp only [lastAlloc] at hepi
  rw [← hend] at hepi
  obtain ⟨nsize, nal, hnw, hn8, hnlt, hnil, hcons⟩ :=
    next_hdr s.mem (x + b.size) b.alloc post hpost b.alloc hepi (fun _ => rfl)
  obtain ⟨-, d2, d3⟩ := hdr_decode _ nsize b.alloc nal hnw hn8 (GET_lt _ _)
  refine ⟨by unfold find_next_blankblock; rw [hgs], d3⟩

/-- The `prev_alloc` bits agree while no size wraps around: in every state reached
by calls on null or live pointers whose size computation does not wrap around
`2^64`, for every block of the address-ordered chain the block that follows it
(the epilogue included) stores that block's allocation bit as its `prev_alloc`
bit. -/
theorem prev_alloc_agrees (s : Heap) (L : List Nat) (hR : Reach s L) :
    ∀ x sz al, (x, sz, al) ∈ chain s →
      find_next_blankblock s.mem x = x + sz ∧ get_prev_alloc s.mem (x + sz) = al := by
  obtain ⟨bs, bk, hWf, -⟩ := reach_inv s L hR
  intro x sz al hmem
  obtain ⟨pa, b, hm, h1, h2⟩ := (mem_chain_iff s bs bk _ hWf x sz al).mp hmem
  have := wf_prev_alloc s bs bk _ hWf x pa b hm
  rw [h1, h2] at this
  exact this

/-- Listed blocks are free and correctly bucketed while no size wraps around: in
every state reached by calls on null or live pointers whose size computation
does not wrap around `2^64`, every block linked in the list of bucket `i` has its
allocation bit clear and `get_index` of its size is the sentinel of bucket `i`. -/
theorem listed_blocks_free_and_bucketed (s : Heap) (L : List Nat) (hR : Reach s L) :
    ∀ i, i < free_list_size → ∀ x ∈ bucket_list s i,
      GET_ALLOC s.mem x = 0 ∧ get_index s (GET_SIZE s.mem x) = s.explicit_free_list + i * DSIZE := by
  obtain ⟨bs, bk, hWf, -⟩ := reach_inv s L hR
  intro i hi x hx
  have hi9 : i < 9 := hi
  rw [bucket_list_eq s bs bk _ hWf i hi9] at hx
  obtain ⟨sz, pa, -, hbz, hm⟩ := node_blk s bs bk _ hWf i hi9 x hx
  obtain ⟨-, hgs, hga, -⟩ := Seg_hdr _ _ _ _ hWf.seg _ _ _ hm
  refine ⟨hga, ?_⟩
  rw [get_index_eq, hgs, hbz]
  unfold DSIZE; omega

set_option maxRecDepth 100000 in
/-- C24 fails on the code.  On `heap0`, after `q = malloc(8)` (4176), `p = malloc(24)`
(4192), `free(q)` and `realloc(p, 2^64 - 12)` on the live pointer `p`, the chain
holds the allocated block 4176 of 16 bytes, and the header of the block that
follows it, at 4192, has a `prev_alloc` bit of 0. -/
theorem prev_alloc_differs_after_wrapped_realloc :
    ((malloc heap0 8).bind fun q => (malloc q.2 24).bind fun p => (free p.2 q.1).bind fun s3 =>
      (realloc s3 p.1 (2 ^ 64 - 12)).map fun r => chain r.2) = some [(4176, 16, 1)] ∧
    ((malloc heap0 8).bind fun q => (malloc q.2 24).bind fun p => (free p.2 q.1).bind fun s3 =>
      (realloc s3 p.1 (2 ^ 64 - 12)).map fun r =>
        (find_next_blankblock r.2.mem 4176, get_prev_alloc r.2.mem (4176 + 16))) =
      some (4192, 0) := by
  decide

set_option maxRecDepth 100000 in
/-- C25 fails on the code.  On `heap0`, after `a`, `b`, `c`, `d = malloc(8)`, `free(a)`,
`free(c)`, `e = malloc(8)`, `f = malloc(8)` (4176), `free(d)` and
`realloc(e, 2^64 - 12)` on the live pointer `e`, the list of bucket 8 links the
block 4176, which is allocated and whose size 16 maps to bucket 0. -/
theorem allocated_block_listed_after_wrapped_realloc :
    ((malloc heap0 8).bind fun a => (malloc a.2 8).bind fun b => (malloc b.2 8).bind fun c =>
      (malloc c.2 8).bind fun d => (free d.2 a.1).bind fun t1 => (free t1 c.1).bind fun t2 =>
      (malloc t2 8).bind fun e => (malloc e.2 8).bind fun f => (free f.2 d.1).bind fun t3 =>
      (realloc t3 e.1 (2 ^ 64 - 12)).map fun r => (e.1, f.1, bucket_list r.2 8)) =
      some (4208, 4176, [4176, 4208]) ∧
    ((malloc heap0 8).bind fun a => (malloc a.2 8).bind fun b => (malloc b.2 8).bind fun c =>
      (malloc c.2 8).bind fun d => (free d.2 a.1).bind fun t1 => (free t1 c.1).bind fun t2 =>
      (malloc t2 8).bind fun e => (malloc e.2 8).bind fun f => (free f.2 d.1).bind fun t3 =>
      (realloc t3 e.1 (2 ^ 64 - 12)).map fun r =>
        (GET_ALLOC r.2.mem 4176, GET_SIZE r.2.mem 4176, bucket 16)) = some (1, 16, 0) := by
  decide

/-! ## cachelab: matrices as entry functions -/

theorem rep_get {α : Type} (rows cols : Nat) (B : List (List α)) (g : Nat → Nat → α)
    (h : Rep rows cols B g) (r c : Nat) (hr : r < rows) (hc : c < cols) :
    mget B r c = some (g r c) := by
  obtain ⟨row, h1, -, h3⟩ := h.2 r hr
  unfold mget
  rw [h1, Option.some_bind]
  exact h3 c hc

theorem rep_set {α : Type} (rows cols : Nat) (B : List (List α)) (g : Nat → Nat → α)
    (h : Rep rows cols B g) (r c : Nat) (v : α) (hr : r < rows) (hc : c < cols) :
    ∃ B', mset B r c v = some B' ∧ Rep rows cols B' (upd g r c v) := by
  obtain ⟨row, h1, h2, h3⟩ := h.2 r hr
  refine ⟨B.set r (row.set c v), ?_, ?_, ?_⟩
  · unfold mset
    rw [h1, Option.some_bind, if_pos (by omega)]
  · rw [List.length_set]; exact h.1
  · intro r' hr'
    by_cases e : r' = r
    · subst e
      refine ⟨row.set c v, ?_, by rw [List.length_set]; exact h2, ?_⟩
      · rw [List.getElem?_set_self (by rw [h.1]; exact hr')]
      · intro c' hc'
        by_cases e' : c' = c
        · subst e'
          rw [List.getElem?_set_self (by omega)]
          simp [upd]
        · rw [List.getElem?_set_ne (fun x => e' x.symm), h3 c' hc']
          simp [upd, e']
    · obtain ⟨row', g1, g2, g3⟩ := h.2 r' hr'
      refine ⟨row', ?_, g2, ?_⟩
      · rw [List.getElem?_set_ne (fun x => e x.symm)]; exact g1
      · intro c' hc'
        rw [g3 c' hc']
        simp [upd, e]

theorem rep_congr {α : Type} (rows cols : Nat) (B : List (List α)) (g g' : Nat → Nat → α)
    (h : Rep rows cols B g) (he : ∀ r c, r < rows → c < cols → g r c = g' r c) :
    Rep rows cols B g' := by
  refine ⟨h.1, fun r hr => ?_⟩
  obtain ⟨row, h1, h2, h3⟩ := h.2 r hr
  exact ⟨row, h1, h2, fun c hc => by rw [h3 c hc, he r c hr hc]⟩

theorem rep_of_isMat (rows cols : Nat) (A : List (List Int)) (h : IsMat rows cols A) :
    Rep rows cols A (fun r c => (mget A r c).getD 0) := by
  refine ⟨h.1, fun r hr => ?_⟩
  have hr' : r < A.length := by rw [h.1]; exact hr
  refine ⟨A[r], List.getElem?_eq_getElem hr', h.2 _ (List.getElem_mem _), ?_⟩
  intro c hc
  have hc' : c < A[r].length := by rw [h.2 _ (List.getElem_mem _)]; exact hc
  simp only [mget, List.getElem?_eq_getElem hr', Option.some_bind, List.getElem?_eq_getElem hc',
    Option.getD_some]

theorem isMat_of_rep {α : Type} (rows cols : Nat) (B : List (List α)) (g : Nat → Nat → α)
    (h : Rep rows cols B g) : IsMat rows cols B := by
  refine ⟨h.1, fun row hrow => ?_⟩
  obtain ⟨r, hr, e⟩ := List.getElem_of_mem hrow
  obtain ⟨row', h1, h2, -⟩ := h.2 r (by rw [← h.1]; exact hr)
  rw [List.getElem?_eq_getElem hr, e] at h1
  cases h1
  exact h2

/-- A loop that runs `n` times: an invariant of the body holds at the end. -/
theorem for_loop_exact {σ : Type} (body : Nat → σ → Option σ) (hi step : Nat)
    (Inv : Nat → σ → Prop)
    (hbody : ∀ i st, i < hi → Inv i st → ∃ st', body i st = some st' ∧ Inv (i + step) st')
    (hstep : 0 < step) (n : Nat) :
    ∀ fuel i st, i + n * step = hi → n < fuel → Inv i st →
      ∃ st', for_loop body hi step fuel i st = some st' ∧ Inv hi st' := by
  induction n with
  | zero =>
    intro fuel i st hi' hf h0
    cases fuel with
    | zero => omega
    | succ f =>
      have : i = hi := by omega
      subst this
      exact ⟨st, by simp [for_loop], h0⟩
  | succ n ih =>
    intro fuel i st hi' hf h0
    cases fuel with
    | zero => omega
    | succ f =>
      have hlt : i < hi := by
        have : 0 < (n + 1) * step := Nat.mul_pos (by omega) hstep
        omega
      obtain ⟨st1, hb, h1⟩ := hbody i st hlt h0
      obtain ⟨st', hr, h2⟩ := ih f (i + step) st1 (by rw [← hi']; ring) (by omega) h1
      exact ⟨st', by simp only [for_loop, if_pos hlt, hb, Option.some_bind]; exact hr, h2⟩

/-! ## cachelab: the 32 x 32 case -/

theorem trans32_body_store_spec {α : Type} (rows cols : Nat) (B : List (List α))
    (g : Nat → Nat → α) (h : Rep rows cols B g) (i j u : Nat) (v0 v1 v2 v3 v4 v5 v6 v7 : α)
    (hr : i + u < rows) (hc : j + 8 ≤ cols) :
    ∃ B', trans32_body_store i j u v0 v1 v2 v3 v4 v5 v6 v7 B = some B' ∧
      Rep rows cols B' (upd (upd (upd (upd (upd (upd (upd (upd g (i + u) j v0) (i + u) (j + 1) v1)
        (i + u) (j + 2) v2) (i + u) (j + 3) v3) (i + u) (j + 4) v4) (i + u) (j + 5) v5)
        (i + u) (j + 6) v6) (i + u) (j + 7) v7) := by
  obtain ⟨B1, e1, h1⟩ := rep_set _ _ B _ h (i + u) j v0 hr (by omega)
  obtain ⟨B2, e2, h2⟩ := rep_set _ _ B1 _ h1 (i + u) (j + 1) v1 hr (by omega)
  obtain ⟨B3, e3, h3⟩ := rep_set _ _ B2 _ h2 (i + u) (j + 2) v2 hr (by omega)
  obtain ⟨B4, e4, h4⟩ := rep_set _ _ B3 _ h3 (i + u) (j + 3) v3 hr (by omega)
  obtain ⟨B5, e5, h5⟩ := rep_set _ _ B4 _ h4 (i + u) (j + 4) v4 hr (by omega)
  obtain ⟨B6, e6, h6⟩ := rep_set _ _ B5 _ h5 (i + u) (j + 5) v5 hr (by omega)
  obtain ⟨B7, e7, h7⟩ := rep_set _ _ B6 _ h6 (i + u) (j + 6) v6 hr (by omega)
  obtain ⟨B8, e8, h8⟩ := rep_set _ _ B7 _ h7 (i + u) (j + 7) v7 hr (by omega)
  refine ⟨B8, ?_, h8⟩
  simp only [trans32_body_store, bind, Option.bind, e1, e2, e3, e4, e5, e6, e7, e8]

theorem trans32_body_spec {α : Type} (ra ca rows cols : Nat) (A B : List (List α))
    (a g : Nat → Nat → α) (hA : Rep ra ca A a) (h : Rep rows cols B g) (i j u : Nat)
    (h1 : j + 8 ≤ ra) (h2 : i + u < ca) (hr : i + u < rows) (hc : j + 8 ≤ cols) :
    ∃ B', trans32_body A i j u B = some B' ∧
      Rep rows cols B' (fun r c => if r = i + u ∧ j ≤ c ∧ c < j + 8 then a c r else g r c) := by
  obtain ⟨B', e, h'⟩ := trans32_body_store_spec rows cols B g h i j u (a j (i + u))
    (a (j + 1) (i + u)) (a (j + 2) (i + u)) (a (j + 3) (i + u)) (a (j + 4) (i + u))
    (a (j + 5) (i + u)) (a (j + 6) (i + u)) (a (j + 7) (i + u)) hr hc
  refine ⟨B', ?_, rep_congr _ _ _ _ _ h' ?_⟩
  · simp only [trans32_body, bind, Option.bind, rep_get _ _ A a hA _ _ (show j < ra by omega) h2,
      rep_get _ _ A a hA _ _ (show j + 1 < ra by omega) h2,
      rep_get _ _ A a hA _ _ (show j + 2 < ra by omega) h2,
      rep_get _ _ A a hA _ _ (show j + 3 < ra by omega) h2,
      rep_get _ _ A a hA _ _ (show j + 4 < ra by omega) h2,
      rep_get _ _ A a hA _ _ (show j + 5 < ra by omega) h2,
      rep_get _ _ A a hA _ _ (show j + 6 < ra by omega) h2,
      rep_get _ _ A a hA _ _ (show j + 7 < ra by omega) h2, e]
  · intro r c _ _
    simp only [upd]
    split_ifs <;> first | rfl | omega | simp_all
theorem trans32_u_loop {α : Type} (A B : List (List α)) (a g : Nat → Nat → α)
    (hA : Rep 32 32 A a) (h : Rep 32 32 B g) (i j : Nat) (hi : i + 8 ≤ 32) (hj : j + 8 ≤ 32) :
    ∃ B', for_loop (fun u => trans32_body A i j u) 8 1 9 0 B = some B' ∧
      Rep 32 32 B' (fun r c => if i ≤ r ∧ r < i + 8 ∧ j ≤ c ∧ c < j + 8 then a c r else g r c) := by
  have key := for_loop_exact (fun u => trans32_body A i j u) 8 1
    (fun u B' => Rep 32 32 B'
      (fun r c => if i ≤ r ∧ r < i + u ∧ j ≤ c ∧ c < j + 8 then a c r else g r c))
    (by
      intro u st hu hst
      obtain ⟨B', e, h'⟩ := trans32_body_spec 32 32 32 32 A st a _ hA hst i j u (by omega)
        (by omega) (by omega) (by omega)
      refine ⟨B', e, rep_congr _ _ _ _ _ h' ?_⟩
      intro r c _ _
      try dsimp only
      split_ifs <;> first | rfl | omega)
    (by omega) 8 9 0 B (by omega) (by omega)
    (rep_congr _ _ _ _ _ h (by
      intro r c _ _
      try dsimp only
      split_ifs <;> first | rfl | omega))
  exact key

theorem trans32_j_loop {α : Type} (A B : List (List α)) (a g : Nat → Nat → α)
    (hA : Rep 32 32 A a) (h : Rep 32 32 B g) (i : Nat) (hi : i + 8 ≤ 32) :
    ∃ B', for_loop (fun j => for_loop (fun u => trans32_body A i j u) 8 1 9 0) 32 8 33 0 B =
        some B' ∧
      Rep 32 32 B' (fun r c => if i ≤ r ∧ r < i + 8 then a c r else g r c) := by
  obtain ⟨B', e, -, h'⟩ := for_loop_exact
    (fun j => for_loop (fun u => trans32_body A i j u) 8 1 9 0) 32 8
    (fun j B' => j % 8 = 0 ∧ Rep 32 32 B'
      (fun r c => if i ≤ r ∧ r < i + 8 ∧ c < j then a c r else g r c))
    (by
      intro j st hj hst
      obtain ⟨B', e, h'⟩ := trans32_u_loop A st a _ hA hst.2 i j hi (by omega)
      refine ⟨B', e, by omega, rep_congr _ _ _ _ _ h' ?_⟩
      intro r c _ _
      try dsimp only
      split_ifs <;> first | rfl | omega)
    (by omega) 4 33 0 B (by omega) (by omega)
    ⟨by omega, rep_congr _ _ _ _ _ h (by
      intro r c _ _
      try dsimp only
      split_ifs <;> first | rfl | omega)⟩
  refine ⟨B', e, rep_congr _ _ _ _ _ h' ?_⟩
  intro r c _ hc
  try dsimp only
  split_ifs <;> first | rfl | omega

theorem trans32_spec {α : Type} (A B : List (List α)) (a g : Nat → Nat → α)
    (hA : Rep 32 32 A a) (h : Rep 32 32 B g) :
    ∃ B', transpose_submit 32 32 A B = some B' ∧ Rep 32 32 B' (fun r c => a c r) := by
  obtain ⟨B', e, -, h'⟩ := for_loop_exact
    (fun i => for_loop (fun j => for_loop (fun u => trans32_body A i j u) 8 1 9 0) 32 8 33 0)
    32 8 (fun i B' => i % 8 = 0 ∧ Rep 32 32 B' (fun r c => if r < i then a c r else g r c))
    (by
      intro i st hi hst
      obtain ⟨B', e, h'⟩ := trans32_j_loop A st a _ hA hst.2 i (by omega)
      refine ⟨B', e, by omega, rep_congr _ _ _ _ _ h' ?_⟩
      intro r c _ _
      try dsimp only
      split_ifs <;> first | rfl | omega)
    (by omega) 4 33 0 B (by omega) (by omega)
    ⟨by omega, rep_congr _ _ _ _ _ h (by
      intro r c _ _
      try dsimp only
      split_ifs <;> first | rfl | omega)⟩
  refine ⟨B', ?_, rep_congr _ _ _ _ _ h' ?_⟩
  · unfold transpose_submit
    rw [if_pos ⟨rfl, rfl⟩]
    exact e
  · intro r c hr _
    try dsimp only
    rw [if_pos hr]

/-! ## cachelab: the 64 x 64 case -/

theorem trans64_first_spec {α : Type} (A B : List (List α)) (a g : Nat → Nat → α)
    (hA : Rep 64 64 A a) (h : Rep 64 64 B g) (j u : Nat) (hj : j + 8 ≤ 64) (hu : u + 4 < 64) :
    ∃ B', trans64_first A j u B = some B' ∧
      Rep 64 64 B' (fun r c => if j ≤ r ∧ r < j + 4 ∧ c = u then a c r
        else if j ≤ r ∧ r < j + 4 ∧ c = u + 4 then a u (r + 4) else g r c) := by
  obtain ⟨B1, e1, h1⟩ := rep_set _ _ B _ h j u (a u j) (by omega) (by omega)
  obtain ⟨B2, e2, h2⟩ := rep_set _ _ B1 _ h1 (j + 1) u (a u (j + 1)) (by omega) (by omega)
  obtain ⟨B3, e3, h3⟩ := rep_set _ _ B2 _ h2 (j + 2) u (a u (j + 2)) (by omega) (by omega)
  obtain ⟨B4, e4, h4⟩ := rep_set _ _ B3 _ h3 (j + 3) u (a u (j + 3)) (by omega) (by omega)
  obtain ⟨B5, e5, h5⟩ := rep_set _ _ B4 _ h4 j (u + 4) (a u (j + 4)) (by omega) (by omega)
  obtain ⟨B6, e6, h6⟩ := rep_set _ _ B5 _ h5 (j + 1) (u + 4) (a u (j + 5)) (by omega) (by omega)
  obtain ⟨B7, e7, h7⟩ := rep_set _ _ B6 _ h6 (j + 2) (u + 4) (a u (j + 6)) (by omega) (by omega)
  obtain ⟨B8, e8, h8⟩ := rep_set _ _ B7 _ h7 (j + 3) (u + 4) (a u (j + 7)) (by omega) (by omega)
  refine ⟨B8, ?_, rep_congr _ _ _ _ _ h8 ?_⟩
  · simp only [trans64_first, trans64_first_store, bind, Option.bind,
      rep_get _ _ A a hA u j (by omega) (by omega),
      rep_get _ _ A a hA u (j + 1) (by omega) (by omega),
      rep_get _ _ A a hA u (j + 2) (by omega) (by omega),
      rep_get _ _ A a hA u (j + 3) (by omega) (by omega),
      rep_get _ _ A a hA u (j + 4) (by omega) (by omega),
      rep_get _ _ A a hA u (j + 5) (by omega) (by omega),
      rep_get _ _ A a hA u (j + 6) (by omega) (by omega),
      rep_get _ _ A a hA u (j + 7) (by omega) (by omega), e1, e2, e3, e4, e5, e6, e7, e8]
  · intro r c _ _
    simp only [upd]
    split_ifs <;> first | rfl | omega | simp_all

theorem trans64_second_spec {α : Type} (A B : List (List α)) (a g : Nat → Nat → α)
    (hA : Rep 64 64 A a) (h : Rep 64 64 B g) (i u : Nat) (hi : i + 8 ≤ 64) (hu : u + 4 < 64) :
    ∃ B', trans64_second A i u B = some B' ∧
      Rep 64 64 B' (fun r c => if r = u ∧ i + 4 ≤ c ∧ c < i + 8 then a c r
        else if r = u + 4 ∧ i ≤ c ∧ c < i + 4 then g u (c + 4) else g r c) := by
  obtain ⟨B1, e1, h1⟩ := rep_set _ _ B _ h u (i + 4) (a (i + 4) u) (by omega) (by omega)
  obtain ⟨B2, e2, h2⟩ := rep_set _ _ B1 _ h1 u (i + 5) (a (i + 5) u) (by omega) (by omega)
  obtain ⟨B3, e3, h3⟩ := rep_set _ _ B2 _ h2 u (i + 6) (a (i + 6) u) (by omega) (by omega)
  obtain ⟨B4, e4, h4⟩ := rep_set _ _ B3 _ h3 u (i + 7) (a (i + 7) u) (by omega) (by omega)
  obtain ⟨B5, e5, h5⟩ := rep_set _ _ B4 _ h4 (u + 4) i (g u (i + 4)) (by omega) (by omega)
  obtain ⟨B6, e6, h6⟩ := rep_set _ _ B5 _ h5 (u + 4) (i + 1) (g u (i + 5)) (by omega) (by omega)
  obtain ⟨B7, e7, h7⟩ := rep_set _ _ B6 _ h6 (u + 4) (i + 2) (g u (i + 6)) (by omega) (by omega)
  obtain ⟨B8, e8, h8⟩ := rep_set _ _ B7 _ h7 (u + 4) (i + 3) (g u (i + 7)) (by omega) (by omega)
  refine ⟨B8, ?_, rep_congr _ _ _ _ _ h8 ?_⟩
  · simp only [trans64_second, trans64_second_store, bind, Option.bind,
      rep_get _ _ A a hA (i + 4) u (by omega) (by omega),
      rep_get _ _ A a hA (i + 5) u (by omega) (by omega),
      rep_get _ _ A a hA (i + 6) u (by omega) (by omega),
      rep_get _ _ A a hA (i + 7) u (by omega) (by omega),
      rep_get _ _ B g h u (i + 4) (by omega) (by omega),
      rep_get _ _ B g h u (i + 5) (by omega) (by omega),
      rep_get _ _ B g h u (i + 6) (by omega) (by omega),
      rep_get _ _ B g h u (i + 7) (by omega) (by omega), e1, e2, e3, e4, e5, e6, e7, e8]
  · intro r c _ _
    simp only [upd]
    split_ifs <;> first | rfl | omega | simp_all

theorem trans64_third_spec {α : Type} (A B : List (List α)) (a g : Nat → Nat → α)
    (hA : Rep 64 64 A a) (h : Rep 64 64 B g) (j u : Nat) (hj : j + 8 ≤ 64) (hu : u < 64) :
    ∃ B', trans64_third A j u B = some B' ∧
      Rep 64 64 B' (fun r c => if j + 4 ≤ r ∧ r < j + 8 ∧ c = u then a c r else g r c) := by
  obtain ⟨B1, e1, h1⟩ := rep_set _ _ B _ h (j + 4) u (a u (j + 4)) (by omega) (by omega)
  obtain ⟨B2, e2, h2⟩ := rep_set _ _ B1 _ h1 (j + 5) u (a u (j + 5)) (by omega) (by omega)
  obtain ⟨B3, e3, h3⟩ := rep_set _ _ B2 _ h2 (j + 6) u (a u (j + 6)) (by omega) (by omega)
  obtain ⟨B4, e4, h4⟩ := rep_set _ _ B3 _ h3 (j + 7) u (a u (j + 7)) (by omega) (by omega)
  refine ⟨B4, ?_, rep_congr _ _ _ _ _ h4 ?_⟩
  · simp only [trans64_third, bind, Option.bind,
      rep_get _ _ A a hA u (j + 4) (by omega) (by omega),
      rep_get _ _ A a hA u (j + 5) (by omega) (by omega),
      rep_get _ _ A a hA u (j + 6) (by omega) (by omega),
      rep_get _ _ A a hA u (j + 7) (by omega) (by omega), e1, e2, e3, e4]
  · intro r c _ _
    simp only [upd]
    split_ifs <;> first | rfl | omega | simp_all

/-- One 8 x 8 block of the 64 x 64 case: the values the first loop parks in the
upper right quadrant of the block of `B` are moved by the second loop to the
lower left quadrant, and the block ends as the transpose of the block of `A`. -/
theorem trans64_block {α : Type} (A B : List (List α)) (a g : Nat → Nat → α)
    (hA : Rep 64 64 A a) (h : Rep 64 64 B g) (i j : Nat) (hi : i + 8 ≤ 64) (hj : j + 8 ≤ 64) :
    ∃ B', ((for_loop (fun u => trans64_first A j u) (i + 4) 1 5 i B).bind fun B =>
        (for_loop (fun u => trans64_second A i u) (j + 4) 1 5 j B).bind fun B =>
        for_loop (fun u => trans64_third A j u) (i + 8) 1 5 (i + 4) B) = some B' ∧
      Rep 64 64 B' (fun r c => if j ≤ r ∧ r < j + 8 ∧ i ≤ c ∧ c < i + 8 then a c r else g r c) := by
  obtain ⟨B1, e1, -, h1⟩ := for_loop_exact (fun u => trans64_first A j u) (i + 4) 1
    (fun u B' => i ≤ u ∧ Rep 64 64 B'
      (fun r c => if j ≤ r ∧ r < j + 4 ∧ i ≤ c ∧ c < u then a c r
        else if j ≤ r ∧ r < j + 4 ∧ i + 4 ≤ c ∧ c < u + 4 then a (c - 4) (r + 4) else g r c))
    (by
      intro u st hu hst
      obtain ⟨B', e, h'⟩ := trans64_first_spec A st a _ hA hst.2 j u hj (by omega)
      refine ⟨B', e, by omega, rep_congr _ _ _ _ _ h' ?_⟩
      intro r c _ _
      try dsimp only
      split_ifs <;> first | rfl | omega | (congr 1; omega))
    (by omega) 4 5 i B (by omega) (by omega)
    ⟨by omega, rep_congr _ _ _ _ _ h (by
      intro r c _ _
      try dsimp only
      split_ifs <;> first | rfl | omega)⟩
  obtain ⟨B2, e2, -, h2⟩ := for_loop_exact (fun u => trans64_second A i u) (j + 4) 1
    (fun u B' => j ≤ u ∧ Rep 64 64 B'
      (fun r c => if j ≤ r ∧ r < j + 4 ∧ i ≤ c ∧ c < i + 4 then a c r
        else if j ≤ r ∧ r < u ∧ i + 4 ≤ c ∧ c < i + 8 then a c r
        else if u ≤ r ∧ r < j + 4 ∧ i + 4 ≤ c ∧ c < i + 8 then a (c - 4) (r + 4)
        else if j + 4 ≤ r ∧ r < u + 4 ∧ i ≤ c ∧ c < i + 4 then a c r else g r c))
    (by
      intro u st hu hst
      obtain ⟨B', e, h'⟩ := trans64_second_spec A st a _ hA hst.2 i u hi (by omega)
      refine ⟨B', e, by omega, rep_congr _ _ _ _ _ h' ?_⟩
      intro r c _ _
      try dsimp only
      split_ifs <;> first | rfl | omega | (congr 1; omega))
    (by omega) 4 5 j B1 (by omega) (by omega)
    ⟨by omega, rep_congr _ _ _ _ _ h1 (by
      intro r c _ _
      try dsimp only
      split_ifs <;> first | rfl | omega)⟩
  obtain ⟨B3, e3, -, h3⟩ := for_loop_exact (fun u => trans64_third A j u) (i + 8) 1
    (fun u B' => i + 4 ≤ u ∧ Rep 64 64 B'
      (fun r c => if j ≤ r ∧ r < j + 8 ∧ i ≤ c ∧ c < i + 8 ∧ (r < j + 4 ∨ c < u) then a c r
        else g r c))
    (by
      intro u st hu hst
      obtain ⟨B', e, h'⟩ := trans64_third_spec A st a _ hA hst.2 j u hj (by omega)
      refine ⟨B', e, by omega, rep_congr _ _ _ _ _ h' ?_⟩
      intro r c _ _
      try dsimp only
      split_ifs <;> first | rfl | omega)
    (by omega) 4 5 (i + 4) B2 (by omega) (by omega)
    ⟨by omega, rep_congr _ _ _ _ _ h2 (by
      intro r c _ _
      try dsimp only
      split_ifs <;> first | rfl | omega)⟩
  refine ⟨B3, by rw [e1, Option.some_bind, e2, Option.some_bind, e3], rep_congr _ _ _ _ _ h3 ?_⟩
  intro r c _ _
  try dsimp only
  split_ifs <;> first | rfl | omega

theorem trans64_j_loop {α : Type} (A B : List (List α)) (a g : Nat → Nat → α)
    (hA : Rep 64 64 A a) (h : Rep 64 64 B g) (i : Nat) (hi : i + 8 ≤ 64) :
    ∃ B', for_loop (fun j B =>
        (for_loop (fun u => trans64_first A j u) (i + 4) 1 5 i B).bind fun B =>
        (for_loop (fun u => trans64_second A i u) (j + 4) 1 5 j B).bind fun B =>
        for_loop (fun u => trans64_third A j u) (i + 8) 1 5 (i + 4) B) 64 8 65 0 B = some B' ∧
      Rep 64 64 B' (fun r c => if i ≤ c ∧ c < i + 8 then a c r else g r c) := by
  obtain ⟨B', e, -, h'⟩ := for_loop_exact (fun j B =>
        (for_loop (fun u => trans64_first A j u) (i + 4) 1 5 i B).bind fun B =>
        (for_loop (fun u => trans64_second A i u) (j + 4) 1 5 j B).bind fun B =>
        for_loop (fun u => trans64_third A j u) (i + 8) 1 5 (i + 4) B) 64 8
    (fun j B' => j % 8 = 0 ∧ Rep 64 64 B'
      (fun r c => if r < j ∧ i ≤ c ∧ c < i + 8 then a c r else g r c))
    (by
      intro j st hj hst
      obtain ⟨B', e, h'⟩ := trans64_block A st a _ hA hst.2 i j hi (by omega)
      refine ⟨B', e, by omega, rep_congr _ _ _ _ _ h' ?_⟩
      intro r c _ _
      try dsimp only
      split_ifs <;> first | rfl | omega)
    (by omega) 8 65 0 B (by omega) (by omega)
    ⟨by omega, rep_congr _ _ _ _ _ h (by
      intro r c _ _
      try dsimp only
      split_ifs <;> first | rfl | omega)⟩
  refine ⟨B', e, rep_congr _ _ _ _ _ h' ?_⟩
  intro r c hr _
  try dsimp only
  split_ifs <;> first | rfl | omega

theorem trans64_spec {α : Type} (A B : List (List α)) (a g : Nat → Nat → α)
    (hA : Rep 64 64 A a) (h : Rep 64 64 B g) :
    ∃ B', transpose_submit 64 64 A B = some B' ∧ Rep 64 64 B' (fun r c => a c r) := by
  obtain ⟨B', e, -, h'⟩ := for_loop_exact (fun i => for_loop (fun j B =>
        (for_loop (fun u => trans64_first A j u) (i + 4) 1 5 i B).bind fun B =>
        (for_loop (fun u => trans64_second A i u) (j + 4) 1 5 j B).bind fun B =>
        for_loop (fun u => trans64_third A j u) (i + 8) 1 5 (i + 4) B) 64 8 65 0) 64 8
    (fun i B' => i % 8 = 0 ∧ Rep 64 64 B' (fun r c => if c < i then a c r else g r c))
    (by
      intro i st hi hst
      obtain ⟨B', e, h'⟩ := trans64_j_loop A st a _ hA hst.2 i (by omega)
      refine ⟨B', e, by omega, rep_congr _ _ _ _ _ h' ?_⟩
      intro r c _ _
      try dsimp only
      split_ifs <;> first | rfl | omega)
    (by omega) 8 65 0 B (by omega) (by omega)
    ⟨by omega, rep_congr _ _ _ _ _ h (by
      intro r c _ _
      try dsimp only
      split_ifs <;> first | rfl | omega)⟩
  refine ⟨B', ?_, rep_congr _ _ _ _ _ h' ?_⟩
  · unfold transpose_submit
    rw [if_neg (by omega), if_pos ⟨rfl, rfl⟩]
    exact e
  · intro r c _ hc
    try dsimp only
    rw [if_pos hc]

/-! ## cachelab: the last case, written for 60 x 68 -/

theorem trans_else_body_spec {α : Type} (ra ca rows cols : Nat) (A B : List (List α))
    (a g : Nat → Nat → α) (hA : Rep ra ca A a) (h : Rep rows cols B g) (i j u : Nat)
    (h1 : j + 12 ≤ ra) (h2 : i + u < ca) (hr : i + u < rows) (hc : j + 12 ≤ cols) :
    ∃ B', trans_else_body A i j u B = some B' ∧
      Rep rows cols B' (fun r c => if r = i + u ∧ j ≤ c ∧ c < j + 12 then a c r else g r c) := by
  obtain ⟨B0, e0, h0⟩ := trans32_body_spec ra ca rows cols A B a g hA h i j u (by omega) h2 hr
    (by omega)
  obtain ⟨B1, e1, h1'⟩ := rep_set _ _ B0 _ h0 (i + u) (j + 8) (a (j + 8) (i + u)) hr (by omega)
  obtain ⟨B2, e2, h2'⟩ := rep_set _ _ B1 _ h1' (i + u) (j + 9) (a (j + 9) (i + u)) hr (by omega)
  obtain ⟨B3, e3, h3⟩ := rep_set _ _ B2 _ h2' (i + u) (j + 10) (a (j + 10) (i + u)) hr (by omega)
  obtain ⟨B4, e4, h4⟩ := rep_set _ _ B3 _ h3 (i + u) (j + 11) (a (j + 11) (i + u)) hr (by omega)
  refine ⟨B4, ?_, rep_congr _ _ _ _ _ h4 ?_⟩
  · simp only [trans_else_body, bind, Option.bind, e0,
      rep_get _ _ A a hA (j + 8) (i + u) (by omega) h2,
      rep_get _ _ A a hA (j + 9) (i + u) (by omega) h2,
      rep_get _ _ A a hA (j + 10) (i + u) (by omega) h2,
      rep_get _ _ A a hA (j + 11) (i + u) (by omega) h2, e1, e2, e3, e4]
  · intro r c _ _
    simp only [upd]
    split_ifs <;> first | rfl | omega | simp_all

theorem trans_else_blocks {α : Type} (M N : Nat) (A B : List (List α)) (a g : Nat → Nat → α)
    (hA : Rep N M A a) (h : Rep M N B g) (hM : 60 ≤ M) (hN : 60 ≤ N) :
    ∃ B', for_loop (fun i => for_loop (fun j =>
        for_loop (fun u => trans_else_body A i j u) 12 1 13 0) 60 12 61 0) 60 12 61 0 B = some B' ∧
      Rep M N B' (fun r c => if r < 60 ∧ c < 60 then a c r else g r c) := by
  have hu : ∀ (i j : Nat) (st : List (List α)) (gs : Nat → Nat → α), Rep M N st gs →
      i + 12 ≤ 60 → j + 12 ≤ 60 →
      ∃ B', for_loop (fun u => trans_else_body A i j u) 12 1 13 0 st = some B' ∧
        Rep M N B' (fun r c => if i ≤ r ∧ r < i + 12 ∧ j ≤ c ∧ c < j + 12 then a c r
          else gs r c) := by
    intro i j st gs hst hi hj
    exact for_loop_exact (fun u => trans_else_body A i j u) 12 1
      (fun u B' => Rep M N B'
        (fun r c => if i ≤ r ∧ r < i + u ∧ j ≤ c ∧ c < j + 12 then a c r else gs r c))
      (by
        intro u st' hu hst'
        obtain ⟨B', e, h'⟩ := trans_else_body_spec N M M N A st' a _ hA hst' i j u (by omega)
          (by omega) (by omega) (by omega)
        refine ⟨B', e, rep_congr _ _ _ _ _ h' ?_⟩
        intro r c _ _
        try dsimp only
        split_ifs <;> first | rfl | omega)
      (by omega) 12 13 0 st (by omega) (by omega)
      (rep_congr _ _ _ _ _ hst (by
        intro r c _ _
        try dsimp only
        split_ifs <;> first | rfl | omega))
  have hj : ∀ (i : Nat) (st : List (List α)) (gs : Nat → Nat → α), Rep M N st gs →
      i + 12 ≤ 60 →
      ∃ B', for_loop (fun j => for_loop (fun u => trans_else_body A i j u) 12 1 13 0)
          60 12 61 0 st = some B' ∧
        Rep M N B' (fun r c => if i ≤ r ∧ r < i + 12 ∧ c < 60 then a c r else gs r c) := by
    intro i st gs hst hi
    obtain ⟨B', e, -, h'⟩ := for_loop_exact
      (fun j => for_loop (fun u => trans_else_body A i j u) 12 1 13 0) 60 12
      (fun j B' => j % 12 = 0 ∧ Rep M N B'
        (fun r c => if i ≤ r ∧ r < i + 12 ∧ c < j then a c r else gs r c))
      (by
        intro j st' hj hst'
        obtain ⟨B', e, h'⟩ := hu i j st' _ hst'.2 hi (by omega)
        refine ⟨B', e, by omega, rep_congr _ _ _ _ _ h' ?_⟩
        intro r c _ _
        try dsimp only
        split_ifs <;> first | rfl | omega)
      (by omega) 5 61 0 st (by omega) (by omega)
      ⟨by omega, rep_congr _ _ _ _ _ hst (by
        intro r c _ _
        try dsimp only
        split_ifs <;> first | rfl | omega)⟩
    exact ⟨B', e, h'⟩
  obtain ⟨B', e, -, h'⟩ := for_loop_exact
    (fun i => for_loop (fun j => for_loop (fun u => trans_else_body A i j u) 12 1 13 0)
      60 12 61 0) 60 12
    (fun i B' => i % 12 = 0 ∧ Rep M N B'
      (fun r c => if r < i ∧ c < 60 then a c r else g r c))
    (by
      intro i st' hi hst'
      obtain ⟨B', e, h'⟩ := hj i st' _ hst'.2 (by omega)
      refine ⟨B', e, by omega, rep_congr _ _ _ _ _ h' ?_⟩
      intro r c _ _
      try dsimp only
      split_ifs <;> first | rfl | omega)
    (by omega) 5 61 0 B (by omega) (by omega)
    ⟨by omega, rep_congr _ _ _ _ _ h (by
      intro r c _ _
      try dsimp only
      split_ifs <;> first | rfl | omega)⟩
  exact ⟨B', e, h'⟩

theorem trans_else_rest {α : Type} (M N : Nat) (A B : List (List α)) (a g : Nat → Nat → α)
    (hA : Rep N M A a) (h : Rep M N B g) (hN : 60 ≤ N) :
    ∃ B', for_loop (fun i => for_loop (fun j => trans_rest_body A i j) N 1 (N + 1) 60)
        M 1 (M + 1) 0 B = some B' ∧
      Rep M N B' (fun r c => if 60 ≤ c then a c r else g r c) := by
  have hj : ∀ (i : Nat) (st : List (List α)) (gs : Nat → Nat → α), Rep M N st gs → i < M →
      ∃ B', for_loop (fun j => trans_rest_body A i j) N 1 (N + 1) 60 st = some B' ∧
        Rep M N B' (fun r c => if r = i ∧ 60 ≤ c then a c r else gs r c) := by
    intro i st gs hst hi
    obtain ⟨B', e, -, h'⟩ := for_loop_exact (fun j => trans_rest_body A i j) N 1
      (fun j B' => 60 ≤ j ∧ Rep M N B'
        (fun r c => if r = i ∧ 60 ≤ c ∧ c < j then a c r else gs r c))
      (by
        intro j st' hj hst'
        obtain ⟨B1, e1, h1⟩ := rep_set _ _ st' _ hst'.2 i j (a j i) hi hj
        refine ⟨B1, ?_, by omega, rep_congr _ _ _ _ _ h1 ?_⟩
        · simp only [trans_rest_body, rep_get _ _ A a hA j i hj hi, Option.some_bind, e1]
        · intro r c _ _
          simp only [upd]
          split_ifs <;> first | rfl | omega | simp_all)
      (by omega) (N - 60) (N + 1) 60 st (by omega) (by omega)
      ⟨by omega, rep_congr _ _ _ _ _ hst (by
        intro r c _ _
        try dsimp only
        split_ifs <;> first | rfl | omega)⟩
    refine ⟨B', e, rep_congr _ _ _ _ _ h' ?_⟩
    intro r c _ hc
    try dsimp only
    split_ifs <;> first | rfl | omega
  obtain ⟨B', e, h'⟩ := for_loop_exact
    (fun i => for_loop (fun j => trans_rest_body A i j) N 1 (N + 1) 60) M 1
    (fun i B' => Rep M N B' (fun r c => if r < i ∧ 60 ≤ c then a c r else g r c))
    (by
      intro i st' hi hst'
      obtain ⟨B', e, h'⟩ := hj i st' _ hst' hi
      refine ⟨B', e, rep_congr _ _ _ _ _ h' ?_⟩
      intro r c _ _
      try dsimp only
      split_ifs <;> first | rfl | omega)
    (by omega) M (M + 1) 0 B (by omega) (by omega)
    (rep_congr _ _ _ _ _ h (by
      intro r c _ _
      try dsimp only
      split_ifs <;> first | rfl | omega))
  refine ⟨B', e, rep_congr _ _ _ _ _ h' ?_⟩
  intro r c hr _
  try dsimp only
  split_ifs <;> first | rfl | omega

/-- The last case of `transpose_submit` on matrices with at least 60 rows and 60
columns: the first 60 rows of `B` and the columns from 60 on are transposed
entries of `A`; the entries of the rows from 60 on in the first 60 columns are
left as they were. -/
theorem trans_else_spec {α : Type} (M N : Nat) (A B : List (List α)) (a g : Nat → Nat → α)
    (hA : Rep N M A a) (h : Rep M N B g) (hM : 60 ≤ M) (hN : 60 ≤ N)
    (h64 : ¬(M = 64 ∧ N = 64)) :
    ∃ B', transpose_submit M N A B = some B' ∧
      Rep M N B' (fun r c => if r < 60 ∨ 60 ≤ c then a c r else g r c) := by
  obtain ⟨B1, e1, h1⟩ := trans_else_blocks M N A B a g hA h hM hN
  obtain ⟨B2, e2, h2⟩ := trans_else_rest M N A B1 a _ hA h1 hN
  refine ⟨B2, ?_, rep_congr _ _ _ _ _ h2 ?_⟩
  · unfold transpose_submit
    rw [if_neg (by omega), if_neg h64, e1, Option.some_bind]
    exact e2
  · intro r c _ _
    try dsimp only
    split_ifs <;> first | rfl | omega

/-! ## cachelab: `is_transpose` -/

theorem is_transpose_row_spec {α : Type} [DecidableEq α] (M N : Nat) (A B : List (List α))
    (a g : Nat → Nat → α) (hA : Rep N M A a) (hB : Rep M N B g) (i : Nat) (hi : i < N) :
    ∀ f j, M < j + f → j ≤ M → ∃ b, is_transpose_row M A B i f j = some b ∧
      (b = true ↔ ∀ j', j ≤ j' → j' < M → a i j' = g j' i) := by
  intro f
  induction f with
  | zero =>
    intro j hf hle
    omega
  | succ f ih =>
    intro j hf hle
    by_cases hj : j < M
    · by_cases he : a i j = g j i
      · obtain ⟨b, hb, hiff⟩ := ih (j + 1) (by omega) (by omega)
        refine ⟨b, ?_, ?_⟩
        · simp only [is_transpose_row, if_pos hj, rep_get _ _ A a hA i j hi hj,
            rep_get _ _ B g hB j i hj hi, Option.some_bind, ne_eq, he, not_true_eq_false,
            if_false]
          exact hb
        · rw [hiff]
          constructor
          · intro hall j' h1 h2
            by_cases e : j' = j
            · rw [e]; exact he
            · exact hall j' (by omega) h2
          · intro hall j' h1 h2
            exact hall j' (by omega) h2
      · refine ⟨false, ?_, ?_⟩
        · simp only [is_transpose_row, if_pos hj, rep_get _ _ A a hA i j hi hj,
            rep_get _ _ B g hB j i hj hi, Option.some_bind, ne_eq, he, not_false_eq_true,
            if_true]
        · constructor
          · intro h; cases h
          · intro hall
            exact absurd (hall j (Nat.le_refl _) hj) he
    · refine ⟨true, by simp only [is_transpose_row, if_neg hj], ?_⟩
      constructor
      · intro _ j' h1 h2
        omega
      · intro _; rfl

theorem is_transpose_rows_spec {α : Type} [DecidableEq α] (M N : Nat) (A B : List (List α))
    (a g : Nat → Nat → α) (hA : Rep N M A a) (hB : Rep M N B g) :
    ∀ f i, N < i + f → i ≤ N → ∃ b, is_transpose_rows M N A B f i = some b ∧
      (b = true ↔ ∀ i', i ≤ i' → i' < N → ∀ j, j < M → a i' j = g j i') := by
  intro f
  induction f with
  | zero =>
    intro i hf hle
    omega
  | succ f ih =>
    intro i hf hle
    by_cases hi : i < N
    · obtain ⟨b0, hb0, hiff0⟩ := is_transpose_row_spec M N A B a g hA hB i hi (M + 1) 0 (by omega) (by omega)
      cases b0 with
      | true =>
        obtain ⟨b, hb, hiff⟩ := ih (i + 1) (by omega) (by omega)
        refine ⟨b, ?_, ?_⟩
        · simp only [is_transpose_rows, if_pos hi, hb0, Option.some_bind, if_true]
          exact hb
        · rw [hiff]
          have hrow := hiff0.mp rfl
          constructor
          · intro hall i' h1 h2 j hj
            by_cases e : i' = i
            · rw [e]; exact hrow j (Nat.zero_le _) hj
            · exact hall i' (by omega) h2 j hj
          · intro hall i' h1 h2 j hj
            exact hall i' (by omega) h2 j hj
      | false =>
        refine ⟨false, ?_, ?_⟩
        · simp only [is_transpose_rows, if_pos hi, hb0, Option.some_bind]
          rfl
        · constructor
          · intro h; cases h
          · intro hall
            have := hiff0.mpr (fun j' _ h2 => hall i (Nat.le_refl _) hi j' h2)
            cases this
    · refine ⟨true, by simp only [is_transpose_rows, if_neg hi], ?_⟩
      constructor
      · intro _ i' h1 h2
        omega
      · intro _; rfl

/-- `is_transpose` returns 1 when every entry of `A` equals its mirror entry of `B`,
and 0 otherwise. -/
theorem is_transpose_spec {α : Type} [DecidableEq α] (M N : Nat) (A B : List (List α))
    (a g : Nat → Nat → α) (hA : Rep N M A a) (hB : Rep M N B g) :
    ((∀ i, i < N → ∀ j, j < M → a i j = g j i) → is_transpose M N A B = some 1) ∧
    ((∃ i j, i < N ∧ j < M ∧ a i j ≠ g j i) → is_transpose M N A B = some 0) := by
  obtain ⟨b, hb, hiff⟩ := is_transpose_rows_spec M N A B a g hA hB (N + 1) 0 (by omega) (by omega)
  constructor
  · intro hall
    have : b = true := hiff.mpr (fun i' _ h2 j hj => hall i' h2 j hj)
    subst this
    simp only [is_transpose, hb, Option.map_some', if_true]
  · rintro ⟨i, j, hi, hj, hne⟩
    have : b = false := by
      cases b with
      | false => rfl
      | true => exact absurd (hiff.mp rfl i (Nat.zero_le _) hi j hj) hne
    subst this
    simp only [is_transpose, hb, Option.map_some']
    rfl

/-! ## cachelab: the claims about `transpose_submit` -/

/-- C22: for each of the three shapes the code is written for, `(M, N) = (32, 32)`,
`(64, 64)` and `(60, 68)`, and every `N x M` matrix `A` and `M x N` matrix `B`:
`transpose_submit` returns, all its accesses are inside the matrices, it leaves
an `M x N` matrix `B'` with `B'[j][i] = A[i][j]` for all `i < N` and `j < M`, and
`is_transpose` returns 1 on it.  For 64 x 64 the values parked in the upper right
quadrant of a block of `B` have been moved and overwritten, as every entry of
`B'` is the transposed entry of `A`. -/
theorem transpose_submit_tuned (M N : Nat)
    (hshape : (M = 32 ∧ N = 32) ∨ (M = 64 ∧ N = 64) ∨ (M = 60 ∧ N = 68))
    (A B : List (List Int)) (hA : IsMat N M A) (hB : IsMat M N B) :
    ∃ B', transpose_submit M N A B = some B' ∧ IsMat M N B' ∧
      (∀ i j, i < N → j < M → mget B' j i = mget A i j) ∧
      is_transpose M N A B' = some 1 := by
  have hRA := rep_of_isMat N M A hA
  have hRB := rep_of_isMat M N B hB
  have key : ∃ B', transpose_submit M N A B = some B' ∧
      Rep M N B' (fun r c => (mget A c r).getD 0) := by
    rcases hshape with ⟨rfl, rfl⟩ | ⟨rfl, rfl⟩ | ⟨rfl, rfl⟩
    · exact trans32_spec A B _ _ hRA hRB
    · exact trans64_spec A B _ _ hRA hRB
    · obtain ⟨B', e, h'⟩ := trans_else_spec 60 68 A B _ _ hRA hRB (by omega) (by omega)
        (by omega)
      refine ⟨B', e, rep_congr _ _ _ _ _ h' ?_⟩
      intro r c hr hc
      try dsimp only
      rw [if_pos (by omega)]
  obtain ⟨B', e, h'⟩ := key
  refine ⟨B', e, isMat_of_rep _ _ _ _ h', ?_, ?_⟩
  · intro i j hi hj
    rw [rep_get _ _ B' _ h' j i hj hi]
    exact (rep_get _ _ A _ hRA i j hi hj).symm
  · exact (is_transpose_spec M N A B' _ _ hRA h').1 (fun i _ j _ => rfl)

theorem transpose_submit_tuned_witness :
    ∃ B', transpose_submit 32 32 (List.replicate 32 (List.replicate 32 7))
        (List.replicate 32 (List.replicate 32 0)) = some B' ∧ IsMat 32 32 B' ∧
      (∀ i j, i < 32 → j < 32 →
        mget B' j i = mget (List.replicate 32 (List.replicate 32 (7 : Int))) i j) ∧
      is_transpose 32 32 (List.replicate 32 (List.replicate 32 7)) B' = some 1 :=
  transpose_submit_tuned 32 32 (Or.inl ⟨rfl, rfl⟩) _ _
    ⟨List.length_replicate _ _, fun row h => by
      rw [List.eq_of_mem_replicate h]; exact List.length_replicate _ _⟩
    ⟨List.length_replicate _ _, fun row h => by
      rw [List.eq_of_mem_replicate h]; exact List.length_replicate _ _⟩

/-- C21 fails on the code.  For `M = 61`, `N = 60`, the `60 x 61` matrix `A` of ones
and the `61 x 60` matrix `B` of zeros, every access of `transpose_submit` is inside
the matrices and the call returns, but row 60 of `B` is never written:
`B[60][0]` is still 0 while `A[0][60]` is 1, and `is_transpose` returns 0. -/
theorem transpose_submit_61_60_not_transposed :
    ∃ B', transpose_submit 61 60 (List.replicate 60 (List.replicate 61 (1 : Int)))
        (List.replicate 61 (List.replicate 60 0)) = some B' ∧
      mget B' 60 0 = some 0 ∧
      mget (List.replicate 60 (List.replicate 61 (1 : Int))) 0 60 = some 1 ∧
      is_transpose 61 60 (List.replicate 60 (List.replicate 61 1)) B' = some 0 := by
  have hA : IsMat 60 61 (List.replicate 60 (List.replicate 61 (1 : Int))) :=
    ⟨List.length_replicate _ _, fun row h => by
      rw [List.eq_of_mem_replicate h]; exact List.length_replicate _ _⟩
  have hB : IsMat 61 60 (List.replicate 61 (List.replicate 60 (0 : Int))) :=
    ⟨List.length_replicate _ _, fun row h => by
      rw [List.eq_of_mem_replicate h]; exact List.length_replicate _ _⟩
  have hRA := rep_of_isMat _ _ _ hA
  have hRB := rep_of_isMat _ _ _ hB
  obtain ⟨B', e, h'⟩ := trans_else_spec 61 60 _ _ _ _ hRA hRB (by omega) (by omega) (by omega)
  have h1 : mget (List.replicate 60 (List.replicate 61 (1 : Int))) 0 60 = some 1 := by
    simp [mget, List.getElem?_replicate]
  have h2 : mget (List.replicate 61 (List.replicate 60 (0 : Int))) 60 0 = some 0 := by
    simp [mget, List.getElem?_replicate]
  have h3 : mget B' 60 0 = some 0 := by
    rw [rep_get _ _ B' _ h' 60 0 (by omega) (by omega)]
    try dsimp only
    rw [if_neg (by omega), h2]
    rfl
  refine ⟨B', e, h3, h1, ?_⟩
  refine (is_transpose_spec 61 60 _ B' _ _ hRA h').2 ⟨0, 60, by omega, by omega, ?_⟩
  try dsimp only
  rw [if_neg (by omega), h1, h2]
  decide

/-! ## cachelab: the log of accesses -/

theorem last_access_from_append (set line : Nat) (as : List Access) (a : Access) (n : Nat)
    (acc : Option Nat) :
    last_access_from set line (as ++ [a]) n acc =
      if a.set = set ∧ a.line = line then some (n + as.length)
      else last_access_from set line as n acc := by
  induction as generalizing n acc with
  | nil => simp [last_access_from]
  | cons x xs ih =>
    show last_access_from set line (xs ++ [a]) (n + 1) _ = _
    rw [ih]
    by_cases ha : a.set = set ∧ a.line = line
    · rw [if_pos ha, if_pos ha]
      simp only [List.length_cons]
      congr 1
      omega
    · rw [if_neg ha, if_neg ha]
      rfl

theorem last_access_snoc (log : List Access) (a : Access) (set line : Nat) :
    last_access (log ++ [a]) set line =
      if a.set = set ∧ a.line = line then some log.length else last_access log set line := by
  unfold last_access
  rw [last_access_from_append]
  simp

theorem last_access_from_some (set line : Nat) (as : List Access) (n : Nat) (acc : Option Nat)
    (q : Nat) (h : last_access_from set line as n acc = some q) :
    acc = some q ∨ (n ≤ q ∧ q < n + as.length ∧
      ∃ a, as[q - n]? = some a ∧ a.set = set ∧ a.line = line) := by
  induction as generalizing n acc with
  | nil => left; simpa [last_access_from] using h
  | cons x xs ih =>
    simp only [last_access_from] at h
    rcases ih _ _ h with h1 | ⟨h1, h2, a, h3, h4⟩
    · by_cases hx : x.set = set ∧ x.line = line
      · rw [if_pos hx] at h1
        cases h1
        right
        exact ⟨Nat.le_refl _, by simp, x, by simp, hx.1, hx.2⟩
      · rw [if_neg hx] at h1
        exact Or.inl h1
    · right
      refine ⟨by omega, by simp only [List.length_cons]; omega, a, ?_, h4⟩
      have : q - n = (q - (n + 1)) + 1 := by omega
      rw [this, List.getElem?_cons_succ]
      exact h3

theorem last_access_lt (log : List Access) (set line q : Nat)
    (h : last_access log set line = some q) :
    q < log.length ∧ ∃ a, log[q]? = some a ∧ a.set = set ∧ a.line = line := by
  rcases last_access_from_some set line log 0 none q h with h1 | ⟨-, h2, a, h3, h4⟩
  · cases h1
  · exact ⟨by omega, a, by simpa using h3, h4⟩

/-! ## cachelab: the loops of `update` -/

theorem hit_loop_some (ctag : Int) (row : List cache_line) (k : Nat) (row' : List cache_line)
    (h : hit_loop ctag row = some (k, row')) :
    ∃ l, row[k]? = some l ∧ l.tag = ctag ∧ row' = row.set k { l with time := 0 } ∧
      ∀ j l', j < k → row[j]? = some l' → l'.tag ≠ ctag := by
  induction row generalizing k row' with
  | nil => simp [hit_loop] at h
  | cons x xs ih =>
    simp only [hit_loop] at h
    by_cases hx : x.tag = ctag
    · rw [if_pos hx] at h
      simp only [Option.some.injEq, Prod.mk.injEq] at h
      obtain ⟨rfl, rfl⟩ := h
      exact ⟨x, by simp, hx, by simp, fun j l' hj => by omega⟩
    · rw [if_neg hx] at h
      cases hr : hit_loop ctag xs with
      | none => rw [hr] at h; simp at h
      | some p =>
        obtain ⟨k0, r0⟩ := p
        rw [hr] at h
        simp only [Option.map_some', Option.some.injEq, Prod.mk.injEq] at h
        obtain ⟨rfl, rfl⟩ := h
        obtain ⟨l, h1, h2, h3, h4⟩ := ih k0 r0 hr
        refine ⟨l, by simpa using h1, h2, by simp [h3], ?_⟩
        intro j l' hj hl'
        cases j with
        | zero =>
          simp only [List.getElem?_cons_zero, Option.some.injEq] at hl'
          rw [← hl']; exact hx
        | succ j =>
          simp only [List.getElem?_cons_succ] at hl'
          exact h4 j l' (by omega) hl'

theorem hit_loop_none (ctag : Int) (row : List cache_line) (h : hit_loop ctag row = none) :
    ∀ l ∈ row, l.tag ≠ ctag := by
  induction row with
  | nil => simp
  | cons x xs ih =>
    simp only [hit_loop] at h
    by_cases hx : x.tag = ctag
    · rw [if_pos hx] at h; simp at h
    · rw [if_neg hx] at h
      have hr : hit_loop ctag xs = none := by
        cases hr : hit_loop ctag xs with
        | none => rfl
        | some p => rw [hr] at h; simp at h
      intro l hl
      simp only [List.mem_cons] at hl
      rcases hl with rfl | hl
      · exact hx
      · exact ih hr l hl

theorem hit_loop_first (ctag : Int) (row : List cache_line) (k : Nat) (l : cache_line)
    (h1 : row[k]? = some l) (h2 : l.tag = ctag)
    (h3 : ∀ j l', j < k → row[j]? = some l' → l'.tag ≠ ctag) :
    hit_loop ctag row = some (k, row.set k { l with time := 0 }) := by
  induction row generalizing k with
  | nil => simp at h1
  | cons x xs ih =>
    cases k with
    | zero =>
      simp only [List.getElem?_cons_zero, Option.some.injEq] at h1
      subst h1
      simp [hit_loop, h2]
    | succ k =>
      simp only [List.getElem?_cons_succ] at h1
      have hx : x.tag ≠ ctag := h3 0 x (by omega) (by simp)
      have := ih k h1 (fun j l' hj hl' => h3 (j + 1) l' (by omega) (by simpa using hl'))
      simp [hit_loop, hx, this]

theorem fill_loop_some (ctag : Int) (row : List cache_line) (k : Nat) (row' : List cache_line)
    (h : fill_loop ctag row = some (k, row')) :
    ∃ l, row[k]? = some l ∧ l.valid_bit = 0 ∧ row' = row.set k ⟨1, ctag, 0⟩ := by
  induction row generalizing k row' with
  | nil => simp [fill_loop] at h
  | cons x xs ih =>
    simp only [fill_loop] at h
    by_cases hx : x.valid_bit = 0
    · rw [if_pos hx] at h
      simp only [Option.some.injEq, Prod.mk.injEq] at h
      obtain ⟨rfl, rfl⟩ := h
      exact ⟨x, by simp, hx, by simp⟩
    · rw [if_neg hx] at h
      cases hr : fill_loop ctag xs with
      | none => rw [hr] at h; simp at h
      | some p =>
        obtain ⟨k0, r0⟩ := p
        rw [hr] at h
        simp only [Option.map_some', Option.some.injEq, Prod.mk.injEq] at h
        obtain ⟨rfl, rfl⟩ := h
        obtain ⟨l, h1, h2, h3⟩ := ih k0 r0 hr
        exact ⟨l, by simpa using h1, h2, by simp [h3]⟩

theorem fill_loop_none (ctag : Int) (row : List cache_line) (h : fill_loop ctag row = none) :
    ∀ l ∈ row, l.valid_bit ≠ 0 := by
  induction row with
  | nil => simp
  | cons x xs ih =>
    simp only [fill_loop] at h
    by_cases hx : x.valid_bit = 0
    · rw [if_pos hx] at h; simp at h
    · rw [if_neg hx] at h
      have hr : fill_loop ctag xs = none := by
        cases hr : fill_loop ctag xs with
        | none => rfl
        | some p => rw [hr] at h; simp at h
      intro l hl
      simp only [List.mem_cons] at hl
      rcases hl with rfl | hl
      · exact hx
      · exact ih hr l hl

theorem max_time_spec (ls : List cache_line) (j : Nat) (mt mi : Int) :
    (∀ l ∈ ls, l.time ≤ (max_time ls j mt mi).1) ∧ mt ≤ (max_time ls j mt mi).1 ∧
    (((max_time ls j mt mi).1 = mt ∧ (max_time ls j mt mi).2 = mi) ∨
      ∃ k l, ls[k]? = some l ∧ (max_time ls j mt mi).2 = ((j + k : Nat) : Int) ∧
        l.time = (max_time ls j mt mi).1) := by
  induction ls generalizing j mt mi with
  | nil => simp [max_time]
  | cons x xs ih =>
    simp only [max_time]
    by_cases hx : x.time > mt
    · rw [if_pos hx]
      obtain ⟨h1, h2, h3⟩ := ih (j + 1) x.time j
      refine ⟨?_, by omega, ?_⟩
      · intro l hl
        simp only [List.mem_cons] at hl
        rcases hl with rfl | hl
        · exact h2
        · exact h1 l hl
      · right
        rcases h3 with ⟨e1, e2⟩ | ⟨k, l, e1, e2, e3⟩
        · exact ⟨0, x, by simp, by rw [e2]; simp, e1.symm⟩
        · exact ⟨k + 1, l, by simpa using e1, by rw [e2]; push_cast; ring, e3⟩
    · rw [if_neg hx]
      obtain ⟨h1, h2, h3⟩ := ih (j + 1) mt mi
      refine ⟨?_, h2, ?_⟩
      · intro l hl
        simp only [List.mem_cons] at hl
        rcases hl with rfl | hl
        · omega
        · exact h1 l hl
      · rcases h3 with ⟨e1, e2⟩ | ⟨k, l, e1, e2, e3⟩
        · exact Or.inl ⟨e1, e2⟩
        · exact Or.inr ⟨k + 1, l, by simpa using e1, by rw [e2]; push_cast; ring, e3⟩

/-! ## cachelab: one call of `update` -/

/-- What a successful call of `update` does: it rewrites one line `l` of the
selected set into a line `l'` of time 0 that the tag search finds again; for an
eviction every line of the set was valid and `l` had the largest time. -/
theorem update_spec (c : Csim) (address : Nat) (c1 : Csim) (x : Access)
    (h : update c address = some (c1, x)) :
    c1.s = c.s ∧ c1.E = c.E ∧ c1.b = c.b ∧
    ∃ row l l', c.Cache[x.set]? = some row ∧ row[x.line]? = some l ∧
      c1.Cache = c.Cache.set x.set (row.set x.line l') ∧ l'.time = 0 ∧
      hit_loop (to_int (address >>> (c.b + c.s))) (row.set x.line l') =
        some (x.line, row.set x.line l') ∧
      x.set = (to_int ((address >>> c.b) &&& (0xFFFFFFFF >>> ((64 - c.s) % 32)))).toNat ∧
      ¬ (to_int ((address >>> c.b) &&& (0xFFFFFFFF >>> ((64 - c.s) % 32))) < 0) ∧
      ¬ 64 ≤ c.b + c.s ∧
      (x.kind = AccessKind.evict →
        (∀ l0 ∈ row, l0.valid_bit ≠ 0) ∧ ∀ l0 ∈ row, l0.time ≤ l.time) := by
  unfold update at h
  by_cases hbs : 64 ≤ c.b + c.s
  · rw [if_pos hbs] at h; cases h
  rw [if_neg hbs] at h
  dsimp only at h
  generalize to_int ((address >>> c.b) &&& (0xFFFFFFFF >>> ((64 - c.s) % 32))) = set at h ⊢
  generalize to_int (address >>> (c.b + c.s)) = ctag at h ⊢
  by_cases hneg : set < 0
  · rw [if_pos hneg] at h; cases h
  rw [if_neg hneg] at h
  cases hrow : c.Cache[set.toNat]? with
  | none => rw [hrow] at h; cases h
  | some row =>
    rw [hrow, Option.some_bind] at h
    have hagain : ∀ (k : Nat) (l l' : cache_line), row[k]? = some l → l'.tag = ctag →
        l'.time = 0 → (∀ j l0, j < k → row[j]? = some l0 → l0.tag ≠ ctag) →
        hit_loop ctag (row.set k l') = some (k, row.set k l') := by
      intro k l l' hk ht h0 hbefore
      have hklt : k < row.length := by
        rcases Nat.lt_or_ge k row.length with g | g
        · exact g
        · rw [List.getElem?_eq_none g] at hk; cases hk
      have h1 : (row.set k l')[k]? = some l' := List.getElem?_set_self hklt
      have h2 := hit_loop_first ctag (row.set k l') k l' h1 ht (by
        intro j l0 hj hl0
        rw [List.getElem?_set_ne (by omega)] at hl0
        exact hbefore j l0 hj hl0)
      rw [h2]
      have : ({ l' with time := 0 } : cache_line) = l' := by
        cases l'; simp only at h0; simp [h0]
      rw [this, List.set_set]
    cases hhit : hit_loop ctag row with
    | some p =>
      obtain ⟨j, row'⟩ := p
      rw [hhit] at h
      dsimp only at h
      cases hinc : incr c.hit with
      | none => rw [hinc] at h; cases h
      | some hv =>
        rw [hinc, Option.map_some'] at h
        simp only [Option.some.injEq, Prod.mk.injEq] at h
        obtain ⟨rfl, rfl⟩ := h
        obtain ⟨l, h1, h2, h3, h4⟩ := hit_loop_some ctag row j row' hhit
        refine ⟨rfl, rfl, rfl, row, l, { l with time := 0 }, hrow, h1, by rw [h3], rfl,
          hagain j l _ h1 h2 rfl h4, rfl, hneg, hbs, fun hk => by cases hk⟩
    | none =>
      rw [hhit] at h
      dsimp only at h
      have hnotag := hit_loop_none ctag row hhit
      have hbefore : ∀ (k j : Nat) (l0 : cache_line), j < k → row[j]? = some l0 → l0.tag ≠ ctag :=
        fun k j l0 _ hl0 => hnotag l0 (List.getElem?_mem hl0)
      cases hinc : incr c.miss with
      | none => rw [hinc] at h; cases h
      | some mv =>
        rw [hinc, Option.some_bind] at h
        cases hfill : fill_loop ctag row with
        | some p =>
          obtain ⟨j, row'⟩ := p
          rw [hfill] at h
          simp only [Option.some.injEq, Prod.mk.injEq] at h
          obtain ⟨rfl, rfl⟩ := h
          obtain ⟨l, h1, h2, h3⟩ := fill_loop_some ctag row j row' hfill
          refine ⟨rfl, rfl, rfl, row, l, ⟨1, ctag, 0⟩, hrow, h1, by rw [h3], rfl,
            hagain j l _ h1 rfl rfl (hbefore j), rfl, hneg, hbs, fun hk => by cases hk⟩
        | none =>
          rw [hfill] at h
          dsimp only at h
          have hvalid := fill_loop_none ctag row hfill
          cases hev : incr c.evictions with
          | none => rw [hev] at h; cases h
          | some ev =>
            rw [hev, Option.some_bind] at h
            obtain ⟨m1, m2, m3⟩ := max_time_spec row 0 INT_MIN (-1)
            generalize max_time row 0 INT_MIN (-1) = mm at h m1 m2 m3
            by_cases hmi : mm.2 < 0
            · rw [if_pos hmi] at h; cases h
            rw [if_neg hmi] at h
            cases hl : row[mm.2.toNat]? with
            | none => rw [hl] at h; cases h
            | some l =>
              rw [hl, Option.map_some'] at h
              simp only [Option.some.injEq, Prod.mk.injEq] at h
              obtain ⟨rfl, rfl⟩ := h
              have hmax : ∀ l0 ∈ row, l0.time ≤ l.time := by
                rcases m3 with ⟨-, e2⟩ | ⟨k, l1, e1, e2, e3⟩
                · rw [e2] at hmi; exact absurd (by decide) hmi
                · have : mm.2.toNat = k := by rw [e2]; simp
                  rw [this, e1] at hl
                  cases hl
                  intro l0 hl0
                  rw [e3]
                  exact m1 l0 hl0
              refine ⟨rfl, rfl, rfl, row, l, { l with time := 0, tag := ctag }, hrow, hl, rfl, rfl,
                hagain _ l _ hl rfl rfl (hbefore _), rfl, hneg, hbs, fun _ => ⟨hvalid, hmax⟩⟩

/-- A second call of `update` with the same address hits the line the first call
touched and leaves the cache as it is. -/
theorem update_again (c : Csim) (address : Nat) (c1 c2 : Csim) (x x2 : Access)
    (h1 : update c address = some (c1, x)) (h2 : update c1 address = some (c2, x2)) :
    c2.Cache = c1.Cache ∧ c2.E = c1.E ∧ x2.set = x.set ∧ x2.line = x.line ∧
      x2.kind = AccessKind.hit := by
  obtain ⟨e1, e2, e3, row, l, l', g1, g2, g3, g4, g5, g6, g7, g8, -⟩ :=
    update_spec c address c1 x h1
  have hilt : x.set < c.Cache.length := by
    rcases Nat.lt_or_ge x.set c.Cache.length with g | g
    · exact g
    · rw [List.getElem?_eq_none g] at g1; cases g1
  unfold update at h2
  rw [e1, e3, if_neg g8] at h2
  dsimp only at h2
  rw [if_neg g7, ← g6, g3, List.getElem?_set_self hilt, Option.some_bind, g5] at h2
  dsimp only at h2
  cases hinc : incr c1.hit with
  | none => rw [hinc] at h2; cases h2
  | some hv =>
    rw [hinc, Option.map_some'] at h2
    simp only [Option.some.injEq, Prod.mk.injEq] at h2
    obtain ⟨rfl, rfl⟩ := h2
    refine ⟨?_, rfl, rfl, rfl, rfl⟩
    show (c.Cache.set x.set (row.set x.line l')).set x.set (row.set x.line l') = c1.Cache
    rw [List.set_set, g3]

/-! ## cachelab: the invariant of the simulation -/

theorem getElem?_lt {α : Type} (l : List α) (i : Nat) (a : α) (h : l[i]? = some a) :
    i < l.length := by
  rcases Nat.lt_or_ge i l.length with g | g
  · exact g
  · rw [List.getElem?_eq_none g] at h; cases h

/-- The lines of a cache in which line `k` of set `i` was replaced by `l'`. -/
theorem lines_set (C : List (List cache_line)) (i k : Nat) (row : List cache_line)
    (l l' : cache_line) (hrow : C[i]? = some row) (hl : row[k]? = some l)
    (i' : Nat) (r1 : List cache_line) (h1 : (C.set i (row.set k l'))[i']? = some r1) :
    (∃ r0, C[i']? = some r0 ∧ r0.length = r1.length) ∧
    ∀ j l1, r1[j]? = some l1 →
      (i' = i ∧ j = k ∧ l1 = l') ∨ (¬(i' = i ∧ j = k) ∧ ∃ r0, C[i']? = some r0 ∧ r0[j]? = some l1) := by
  have hi := getElem?_lt _ _ _ hrow
  have hk := getElem?_lt _ _ _ hl
  by_cases e : i' = i
  · subst e
    rw [List.getElem?_set_self hi] at h1
    cases h1
    refine ⟨⟨row, hrow, by rw [List.length_set]⟩, ?_⟩
    intro j l1 hj
    by_cases e' : j = k
    · subst e'
      rw [List.getElem?_set_self hk] at hj
      cases hj
      exact Or.inl ⟨rfl, rfl, rfl⟩
    · rw [List.getElem?_set_ne (fun g => e' g.symm)] at hj
      exact Or.inr ⟨fun g => e' g.2, row, hrow, hj⟩
  · rw [List.getElem?_set_ne (fun g => e g.symm)] at h1
    refine ⟨⟨r1, h1, rfl⟩, ?_⟩
    intro j l1 hj
    exact Or.inr ⟨fun g => e g.1, r1, h1, hj⟩

theorem update_inv (c : Csim) (log : List Access) (address : Nat) (c1 : Csim) (x : Access)
    (hI : CacheInv c log none) (h : update c address = some (c1, x)) :
    CacheInv c1 (log ++ [x]) (some (x.set, x.line)) := by
  obtain ⟨-, eE, -, row, l, l', g1, g2, g3, g4, -⟩ := update_spec c address c1 x h
  obtain ⟨ha, hb, hc⟩ := hI
  refine ⟨?_, ?_, ?_⟩
  · intro i r1 h1
    rw [g3] at h1
    obtain ⟨⟨r0, e0, e1⟩, -⟩ := lines_set c.Cache x.set x.line row l l' g1 g2 i r1 h1
    rw [eE, ← e1]
    exact ha i r0 e0
  · intro i r1 j l1 h1 hj hv
    rw [g3] at h1
    obtain ⟨-, hcase⟩ := lines_set c.Cache x.set x.line row l l' g1 g2 i r1 h1
    rcases hcase j l1 hj with ⟨rfl, rfl, rfl⟩ | ⟨hne, r0, e0, e1⟩
    · refine ⟨by rw [g4], fun hh => absurd rfl hh, fun _ => g4, log.length, ?_⟩
      rw [last_access_snoc, if_pos ⟨rfl, rfl⟩]
    · obtain ⟨b1, b2, -, q, b4⟩ := hb i r0 j l1 e0 e1 hv
      have b2' := b2 (by simp)
      refine ⟨b1, fun _ => b2', ?_, q, ?_⟩
      · intro hh
        simp only [Option.some.injEq, Prod.mk.injEq] at hh
        exact absurd ⟨hh.1.symm, hh.2.symm⟩ hne
      · rw [last_access_snoc, if_neg (fun g => hne ⟨g.1.symm, g.2.symm⟩)]
        exact b4
  · intro i r1 j l1 j' l1' q q' h1 hj hj' hv hv' hq hq' hlt
    rw [g3] at h1
    obtain ⟨-, hcase⟩ := lines_set c.Cache x.set x.line row l l' g1 g2 i r1 h1
    rw [last_access_snoc] at hq hq'
    rcases hcase j l1 hj with ⟨rfl, rfl, rfl⟩ | ⟨hne, r0, e0, e1⟩
    · rw [if_pos ⟨rfl, rfl⟩] at hq
      cases hq
      by_cases e : j' = x.line
      · subst e
        rw [if_pos ⟨rfl, rfl⟩] at hq'
        cases hq'
        omega
      · rw [if_neg (fun g => e g.2.symm)] at hq'
        have := (last_access_lt log _ _ _ hq').1
        omega
    · rw [if_neg (fun g => hne ⟨g.1.symm, g.2.symm⟩)] at hq
      obtain ⟨-, b2, -, -⟩ := hb i r0 j l1 e0 e1 hv
      have b2' := b2 (by simp)
      rcases hcase j' l1' hj' with ⟨rfl, rfl, rfl⟩ | ⟨hne', r0', e0', e1'⟩
      · rw [g4]; omega
      · rw [if_neg (fun g => hne' ⟨g.1.symm, g.2.symm⟩)] at hq'
        rw [e0] at e0'
        cases e0'
        exact hc i r0 j l1 j' l1' q q' e0 e1 e1' hv hv' hq hq' hlt

theorem rehit_inv (c1 c2 : Csim) (log : List Access) (i k : Nat) (a : Access)
    (hI : CacheInv c1 log (some (i, k))) (hC : c2.Cache = c1.Cache) (hE : c2.E = c1.E)
    (h1 : a.set = i) (h2 : a.line = k) :
    CacheInv c2 (log ++ [a]) (some (i, k)) := by
  obtain ⟨ha, hb, hc⟩ := hI
  subst h1 h2
  refine ⟨?_, ?_, ?_⟩
  · intro i r h
    rw [hC] at h
    rw [hE]
    exact ha i r h
  · intro i r j l h hj hv
    rw [hC] at h
    obtain ⟨b1, b2, b3, q, b4⟩ := hb i r j l h hj hv
    refine ⟨b1, b2, b3, ?_⟩
    rw [last_access_snoc]
    by_cases e : a.set = i ∧ a.line = j
    · rw [if_pos e]; exact ⟨_, rfl⟩
    · rw [if_neg e]; exact ⟨q, b4⟩
  · intro i r j l j' l' q q' h hj hj' hv hv' hq hq' hlt
    rw [hC] at h
    rw [last_access_snoc] at hq hq'
    by_cases e : a.set = i ∧ a.line = j
    · rw [if_pos e] at hq
      cases hq
      by_cases e' : a.set = i ∧ a.line = j'
      · rw [if_pos e'] at hq'
        cases hq'
        omega
      · rw [if_neg e'] at hq'
        have := (last_access_lt log _ _ _ hq').1
        omega
    · rw [if_neg e] at hq
      obtain ⟨-, b2, -, -⟩ := hb i r j l h hj hv
      have b2' := b2 (by
        intro hh
        simp only [Option.some.injEq, Prod.mk.injEq] at hh
        exact e hh)
      by_cases e' : a.set = i ∧ a.line = j'
      · obtain ⟨-, -, b3, -⟩ := hb i r j' l' h hj' hv'
        have := b3 (by rw [e'.1, e'.2])
        omega
      · rw [if_neg e'] at hq'
        exact hc i r j l j' l' q q' h hj hj' hv hv' hq hq' hlt

theorem update_time_inv (c c' : Csim) (log : List Access) (fresh : Option (Nat × Nat))
    (hI : CacheInv c log fresh) (h : update_time c = some c') :
    CacheInv c' log none ∧ c'.E = c.E := by
  unfold update_time at h
  split at h
  · cases h
  simp only [Option.some.injEq] at h
  subst h
  obtain ⟨ha, hb, hc⟩ := hI
  have hline : ∀ (i : Nat) (r' : List cache_line) (j : Nat) (l1 : cache_line),
      (c.Cache.map fun row => row.map fun l =>
        if l.valid_bit ≠ 0 then { l with time := l.time + 1 } else l)[i]? = some r' →
      r'[j]? = some l1 → l1.valid_bit ≠ 0 →
      ∃ r l0, c.Cache[i]? = some r ∧ r[j]? = some l0 ∧ l0.valid_bit ≠ 0 ∧
        l1.time = l0.time + 1 := by
    intro i r' j l1 h1 h2 hv
    rw [List.getElem?_map] at h1
    cases hr : c.Cache[i]? with
    | none => rw [hr] at h1; cases h1
    | some r =>
      rw [hr, Option.map_some'] at h1
      cases h1
      rw [List.getElem?_map] at h2
      cases hl : r[j]? with
      | none => rw [hl] at h2; cases h2
      | some l0 =>
        rw [hl, Option.map_some'] at h2
        simp only [Option.some.injEq] at h2
        by_cases hv0 : l0.valid_bit ≠ 0
        · rw [if_pos hv0] at h2
          subst h2
          exact ⟨r, l0, rfl, hl, hv0, rfl⟩
        · rw [if_neg hv0] at h2
          subst h2
          exact absurd hv hv0
  refine ⟨⟨?_, ?_, ?_⟩, rfl⟩
  · intro i r' h1
    show r'.length = c.E
    rw [List.getElem?_map] at h1
    cases hr : c.Cache[i]? with
    | none => rw [hr] at h1; cases h1
    | some r =>
      rw [hr, Option.map_some'] at h1
      cases h1
      rw [List.length_map]
      exact ha i r hr
  · intro i r' j l1 h1 h2 hv
    obtain ⟨r, l0, e1, e2, e3, e4⟩ := hline i r' j l1 h1 h2 hv
    obtain ⟨b1, -, -, q, b4⟩ := hb i r j l0 e1 e2 e3
    exact ⟨by omega, fun _ => by omega, fun hh => (by cases hh), q, b4⟩
  · intro i r' j l1 j' l1' q q' h1 hj hj' hv hv' hq hq' hlt
    obtain ⟨r, l0, e1, e2, e3, e4⟩ := hline i r' j l1 h1 hj hv
    obtain ⟨r2, l0', e1', e2', e3', e4'⟩ := hline i r' j' l1' h1 hj' hv'
    rw [e1] at e1'
    cases e1'
    have := hc i r j l0 j' l0' q q' e1 e2 e2' e3 e3' hq hq' hlt
    omega

theorem init_inv (s E b : Nat) : CacheInv (csim_start s E b) [] none := by
  have hline : ∀ (i : Nat) (row : List cache_line) (j : Nat) (l : cache_line),
      (csim_start s E b).Cache[i]? = some row → row[j]? = some l → l.valid_bit = 0 := by
    intro i row j l h1 h2
    simp only [csim_start, init_cache, List.getElem?_replicate] at h1
    split at h1
    · cases h1
      rw [List.getElem?_replicate] at h2
      split at h2
      · cases h2; rfl
      · cases h2
    · cases h1
  refine ⟨?_, ?_, ?_⟩
  · intro i row h
    simp only [csim_start, init_cache, List.getElem?_replicate] at h
    split at h
    · cases h
      rw [List.length_replicate]
      rfl
    · cases h
  · intro i row j l h1 h2 hv
    exact absurd (hline i row j l h1 h2) hv
  · intro i row j l j' l' q q' h1 h2 _ hv
    exact absurd (hline i row j l h1 h2) hv

/-- An eviction from a state between two operations overwrites the line of the
set whose most recent access is the earliest. -/
theorem update_evict_lru (c : Csim) (log : List Access) (address : Nat) (c1 : Csim) (x : Access)
    (hI : CacheInv c log none) (h : update c address = some (c1, x))
    (hk : x.kind = AccessKind.evict) :
    ∀ j, j < c.E → j ≠ x.line →
      ∃ q q', last_access log x.set x.line = some q ∧ last_access log x.set j = some q' ∧
        q < q' := by
  obtain ⟨-, -, -, row, l, l', g1, g2, -, -, -, -, -, -, g9⟩ := update_spec c address c1 x h
  obtain ⟨hvalid, hmax⟩ := g9 hk
  obtain ⟨ha, hb, hc⟩ := hI
  intro j hj hne
  have hlen := ha _ row g1
  have hjl : j < row.length := by rw [hlen]; exact hj
  have hlj : row[j]? = some row[j] := List.getElem?_eq_getElem hjl
  have hvj := hvalid _ (List.getElem?_mem hlj)
  have hvl := hvalid _ (List.getElem?_mem g2)
  obtain ⟨-, -, -, q, hq⟩ := hb _ row _ l g1 g2 hvl
  obtain ⟨-, -, -, q', hq'⟩ := hb _ row _ _ g1 hlj hvj
  refine ⟨q, q', hq, hq', ?_⟩
  rcases Nat.lt_trichotomy q q' with g | g | g
  · exact g
  · subst g
    obtain ⟨-, a, e1, -, e3⟩ := last_access_lt log _ _ _ hq
    obtain ⟨-, a', e1', -, e3'⟩ := last_access_lt log _ _ _ hq'
    rw [e1] at e1'
    cases e1'
    exact absurd (e3'.symm.trans e3) hne
  · have h1 := hc _ row j _ _ l q' q g1 hlj g2 hvj hvl hq' hq g
    have h2 := hmax _ (List.getElem?_mem hlj)
    omega

/-! ## cachelab: the simulation is defined on traces of less than `2^30` records -/

theorem incr_some (x : Int) (h : x < INT_MAX) : incr x = some (x + 1) := by
  unfold incr; rw [if_pos h]

theorem set_index_lt (s v : Nat) (h1 : 1 ≤ s) (h2 : s ≤ 30) :
    to_int (v &&& (0xFFFFFFFF >>> ((64 - s) % 32))) =
      ((v &&& (0xFFFFFFFF >>> ((64 - s) % 32)) : Nat) : Int) ∧
    v &&& (0xFFFFFFFF >>> ((64 - s) % 32)) < 2 ^ s := by
  have hm : 0xFFFFFFFF >>> ((64 - s) % 32) = 2 ^ s - 1 := by
    have : (64 - s) % 32 = 32 - s := by omega
    rw [this]
    interval_cases s <;> rfl
  have hle : v &&& (0xFFFFFFFF >>> ((64 - s) % 32)) ≤ 2 ^ s - 1 := by
    rw [hm]; exact Nat.and_le_right
  have hpos : 0 < 2 ^ s := Nat.two_pow_pos s
  have hpow : 2 ^ s ≤ 2 ^ 30 := Nat.pow_le_pow_right (by omega) h2
  have hlt : v &&& (0xFFFFFFFF >>> ((64 - s) % 32)) < 2 ^ s := by omega
  refine ⟨?_, hlt⟩
  unfold to_int
  have h30 : (2 : Nat) ^ 30 = 1073741824 := by norm_num
  have e1 : (v &&& (0xFFFFFFFF >>> ((64 - s) % 32))) % 2 ^ 32 =
      v &&& (0xFFFFFFFF >>> ((64 - s) % 32)) := Nat.mod_eq_of_lt (by omega)
  rw [e1, if_pos (by omega)]

theorem mem_set_cases {α : Type} (l : List α) (i : Nat) (a x : α) (h : x ∈ l.set i a) :
    x = a ∨ x ∈ l := by
  rcases List.mem_iff_getElem?.mp h with ⟨n, hn⟩
  by_cases e : n = i
  · subst e
    have hlt : n < l.length := by
      have := getElem?_lt _ _ _ hn
      rwa [List.length_set] at this
    rw [List.getElem?_set_self hlt] at hn
    cases hn
    exact Or.inl rfl
  · rw [List.getElem?_set_ne (fun g => e g.symm)] at hn
    exact Or.inr (List.getElem?_mem hn)

theorem update_defined (c : Csim) (address : Nat) (t k : Int) (h : SimOK c t k) (ht : 0 ≤ t)
    (hk : k < INT_MAX) :
    ∃ c1 x, update c address = some (c1, x) ∧ SimOK c1 t (k + 1) := by
  obtain ⟨s1, s2, s3, s4, s5, s6, s7, s8, s9⟩ := h
  obtain ⟨hset, hlt⟩ := set_index_lt c.s (address >>> c.b) s1 s2
  have hrow : ∃ row, c.Cache[(address >>> c.b) &&& (0xFFFFFFFF >>> ((64 - c.s) % 32))]? = some row :=
    ⟨_, List.getElem?_eq_getElem (by rw [s5]; exact hlt)⟩
  obtain ⟨row, hrow⟩ := hrow
  have hrm : row ∈ c.Cache := List.getElem?_mem hrow
  obtain ⟨hlen, htimes⟩ := s6 row hrm
  have hok : ∀ (c1 : Csim) (k0 : Nat) (l' : cache_line), c1.s = c.s → c1.E = c.E → c1.b = c.b →
      c1.Cache = c.Cache.set ((address >>> c.b) &&& (0xFFFFFFFF >>> ((64 - c.s) % 32)))
        (row.set k0 l') → l'.time = 0 →
      c1.hit ≤ k + 1 → c1.miss ≤ k + 1 → c1.evictions ≤ k + 1 → SimOK c1 t (k + 1) := by
    intro c1 k0 l' e1 e2 e3 e4 e5 e6 e7 e8
    refine ⟨by omega, by omega, by omega, by omega, by rw [e4, List.length_set, e1]; exact s5, ?_,
      e6, e7, e8⟩
    intro r hr
    rw [e4] at hr
    rcases mem_set_cases _ _ _ _ hr with rfl | hr
    · refine ⟨by rw [List.length_set, e2]; exact hlen, ?_⟩
      intro l hl
      rcases mem_set_cases _ _ _ _ hl with rfl | hl
      · rw [e5]; omega
      · exact htimes l hl
    · rw [e2]; exact s6 r hr
  unfold update
  rw [if_neg (by omega)]
  dsimp only
  rw [hset, if_neg (by omega), Int.toNat_ofNat, hrow, Option.some_bind]
  cases hhit : hit_loop (to_int (address >>> (c.b + c.s))) row with
  | some p =>
    obtain ⟨j, row'⟩ := p
    dsimp only
    rw [incr_some _ (by omega), Option.map_some']
    obtain ⟨l, -, -, h3, -⟩ := hit_loop_some _ row j row' hhit
    exact ⟨_, _, rfl, hok _ j _ rfl rfl rfl (by rw [h3]) rfl (by show c.hit + 1 ≤ k + 1; omega)
      (by show c.miss ≤ k + 1; omega) (by show c.evictions ≤ k + 1; omega)⟩
  | none =>
    dsimp only
    rw [incr_some _ (by omega), Option.some_bind]
    cases hfill : fill_loop (to_int (address >>> (c.b + c.s))) row with
    | some p =>
      obtain ⟨j, row'⟩ := p
      dsimp only
      obtain ⟨l, -, -, h3⟩ := fill_loop_some _ row j row' hfill
      exact ⟨_, _, rfl, hok _ j _ rfl rfl rfl (by rw [h3]) rfl (by show c.hit ≤ k + 1; omega)
        (by show c.miss + 1 ≤ k + 1; omega) (by show c.evictions ≤ k + 1; omega)⟩
    | none =>
      dsimp only
      rw [incr_some _ (by omega), Option.some_bind]
      obtain ⟨m1, m2, m3⟩ := max_time_spec row 0 INT_MIN (-1)
      generalize max_time row 0 INT_MIN (-1) = mm at m1 m2 m3 ⊢
      have hne : row ≠ [] := by
        intro e
        rw [e] at hlen
        simp at hlen
        omega
      obtain ⟨l0, hl0⟩ := List.exists_mem_of_ne_nil row hne
      rcases m3 with ⟨e1, -⟩ | ⟨k0, l, e1, e2, e3⟩
      · have := m1 l0 hl0
        have := (htimes l0 hl0).1
        rw [e1] at *
        unfold INT_MIN at *
        omega
      · have hmi : ¬ mm.2 < 0 := by rw [e2]; omega
        have hto : mm.2.toNat = k0 := by rw [e2]; simp
        rw [if_neg hmi, hto, e1, Option.map_some']
        exact ⟨_, _, rfl, hok _ k0 _ rfl rfl rfl rfl rfl (by show c.hit ≤ k + 1; omega)
          (by show c.miss + 1 ≤ k + 1; omega) (by show c.evictions + 1 ≤ k + 1; omega)⟩

theorem update_time_defined (c : Csim) (t k : Int) (h : SimOK c t k) (ht : t < INT_MAX) :
    ∃ c', update_time c = some c' ∧ SimOK c' (t + 1) k := by
  obtain ⟨s1, s2, s3, s4, s5, s6, s7, s8, s9⟩ := h
  have hno : ¬ (c.Cache.any (fun row => row.any fun l =>
      decide (l.valid_bit ≠ 0 ∧ INT_MAX ≤ l.time)) = true) := by
    intro hany
    rw [List.any_eq_true] at hany
    obtain ⟨row, hrow, hany⟩ := hany
    rw [List.any_eq_true] at hany
    obtain ⟨l, hl, hd⟩ := hany
    have := of_decide_eq_true hd
    have := ((s6 row hrow).2 l hl).2
    omega
  unfold update_time
  rw [if_neg hno]
  refine ⟨_, rfl, s1, s2, s3, s4, by rw [List.length_map]; exact s5, ?_, s7, s8, s9⟩
  intro r hr
  rw [List.mem_map] at hr
  obtain ⟨row, hrow, rfl⟩ := hr
  refine ⟨by rw [List.length_map]; exact (s6 row hrow).1, ?_⟩
  intro l hl
  rw [List.mem_map] at hl
  obtain ⟨l0, hl0, rfl⟩ := hl
  have := (s6 row hrow).2 l0 hl0
  split
  · show -1 ≤ l0.time + 1 ∧ l0.time + 1 ≤ t + 1
    omega
  · omega

theorem SimOK_mono (c : Csim) (t k k' : Int) (h : SimOK c t k) (hk : k ≤ k') : SimOK c t k' := by
  obtain ⟨s1, s2, s3, s4, s5, s6, s7, s8, s9⟩ := h
  exact ⟨s1, s2, s3, s4, s5, s6, by omega, by omega, by omega⟩

theorem trace_step_defined (c : Csim) (op : Char) (address : Nat) (t k : Int) (h : SimOK c t k)
    (ht0 : 0 ≤ t) (ht : t < INT_MAX) (hk : k + 1 < INT_MAX) :
    ∃ c' as, trace_step c op address = some (c', as) ∧ SimOK c' (t + 1) (k + 2) := by
  unfold trace_step
  by_cases h1 : op = 'L' ∨ op = 'S'
  · rw [if_pos h1]
    obtain ⟨c1, x, e1, o1⟩ := update_defined c address t k h ht0 (by omega)
    obtain ⟨c2, e2, o2⟩ := update_time_defined c1 t (k + 1) o1 ht
    rw [e1, Option.map_some', Option.some_bind, e2, Option.map_some']
    exact ⟨_, _, rfl, SimOK_mono _ _ _ _ o2 (by omega)⟩
  · rw [if_neg h1]
    by_cases h2 : op = 'M'
    · rw [if_pos h2]
      obtain ⟨c1, x, e1, o1⟩ := update_defined c address t k h ht0 (by omega)
      obtain ⟨c2, x2, e2, o2⟩ := update_defined c1 address t (k + 1) o1 ht0 hk
      obtain ⟨c3, e3, o3⟩ := update_time_defined c2 t (k + 1 + 1) o2 ht
      rw [e1, Option.some_bind, e2, Option.map_some', Option.some_bind, e3, Option.map_some']
      exact ⟨_, _, rfl, SimOK_mono _ _ _ _ o3 (by omega)⟩
    · rw [if_neg h2, Option.some_bind]
      obtain ⟨c2, e2, o2⟩ := update_time_defined c t k h ht
      rw [e2, Option.map_some']
      exact ⟨_, _, rfl, SimOK_mono _ _ _ _ o2 (by omega)⟩

theorem procedure_defined (trace : List (Char × Nat × Int)) :
    ∀ (c : Csim) (t k : Int), SimOK c t k → 0 ≤ t → t + trace.length < INT_MAX →
      k + 2 * trace.length < INT_MAX → ∃ r, procedure c trace = some r := by
  induction trace with
  | nil => intro c t k _ _ _ _; exact ⟨_, rfl⟩
  | cons x rest ih =>
    intro c t k h ht0 ht hk
    simp only [List.length_cons, Nat.cast_add, Nat.cast_one] at ht hk
    obtain ⟨c1, as, e1, o1⟩ := trace_step_defined c x.1 x.2.1 t k h ht0 (by omega) (by omega)
    obtain ⟨r, hr⟩ := ih c1 (t + 1) (k + 2) o1 (by omega) (by omega) (by omega)
    refine ⟨(r.1, as ++ r.2), ?_⟩
    simp only [procedure, e1, Option.some_bind, hr, Option.map_some']

theorem start_ok (s E b : Nat) (h1 : 1 ≤ s) (h2 : s ≤ 30) (h3 : b + s ≤ 63) (h4 : 1 ≤ E) :
    SimOK (csim_start s E b) 0 0 := by
  refine ⟨h1, h2, h3, h4, ?_, ?_, Int.le_refl _, Int.le_refl _, Int.le_refl _⟩
  · show (List.replicate (1 <<< s) (List.replicate E _)).length = 2 ^ s
    rw [List.length_replicate, Nat.one_shiftLeft]
  · intro row hrow
    have hrow' : row ∈ List.replicate (1 <<< s) (List.replicate E (⟨0, -1, -1⟩ : cache_line)) :=
      hrow
    rw [List.eq_of_mem_replicate hrow']
    refine ⟨List.length_replicate _ _, ?_⟩
    intro l hl
    rw [List.eq_of_mem_replicate hl]
    decide

/-! ## cachelab: every eviction is an eviction of the least recently used line -/

theorem lru_snoc (E : Nat) (log : List Access) (a : Access) (hL : LruLog E log)
    (ha : a.kind = AccessKind.evict → ∀ j, j < E → j ≠ a.line →
      ∃ q q', last_access log a.set a.line = some q ∧ last_access log a.set j = some q' ∧
        q < q') :
    LruLog E (log ++ [a]) := by
  intro n x hx hk j hj hne
  rcases Nat.lt_trichotomy n log.length with g | g | g
  · rw [List.getElem?_append_left g] at hx
    rw [List.take_append_of_le_length (by omega)]
    exact hL n x hx hk j hj hne
  · subst g
    rw [List.getElem?_append_right (Nat.le_refl _)] at hx
    simp only [Nat.sub_self, List.getElem?_cons_zero, Option.some.injEq] at hx
    subst hx
    rw [List.take_append_of_le_length (Nat.le_refl _), List.take_length]
    exact ha hk j hj hne
  · rw [List.getElem?_eq_none (by simp; omega)] at hx
    cases hx

theorem trace_step_inv (c : Csim) (log : List Access) (op : Char) (address : Nat) (c' : Csim)
    (as : List Access) (hI : CacheInv c log none) (hL : LruLog c.E log)
    (h : trace_step c op address = some (c', as)) :
    CacheInv c' (log ++ as) none ∧ LruLog c'.E (log ++ as) ∧ c'.E = c.E := by
  unfold trace_step at h
  by_cases h1 : op = 'L' ∨ op = 'S'
  · rw [if_pos h1] at h
    cases hu : update c address with
    | none => rw [hu] at h; cases h
    | some r =>
      obtain ⟨c1, x⟩ := r
      rw [hu, Option.map_some', Option.some_bind] at h
      cases ht : update_time c1 with
      | none => rw [ht] at h; cases h
      | some c2 =>
        rw [ht, Option.map_some'] at h
        simp only [Option.some.injEq, Prod.mk.injEq] at h
        obtain ⟨rfl, rfl⟩ := h
        have hE := (update_spec c address c1 x hu).2.1
        obtain ⟨i1, i2⟩ := update_time_inv c1 c2 _ _ (update_inv c log address c1 x hI hu) ht
        refine ⟨i1, ?_, by rw [i2, hE]⟩
        rw [i2, hE]
        exact lru_snoc c.E log x hL (update_evict_lru c log address c1 x hI hu)
  · rw [if_neg h1] at h
    by_cases h2 : op = 'M'
    · rw [if_pos h2] at h
      cases hu : update c address with
      | none => rw [hu] at h; cases h
      | some r =>
        obtain ⟨c1, x⟩ := r
        rw [hu, Option.some_bind] at h
        cases hu2 : update c1 address with
        | none => rw [hu2] at h; cases h
        | some r2 =>
          obtain ⟨c2, x2⟩ := r2
          rw [hu2, Option.map_some', Option.some_bind] at h
          cases ht : update_time c2 with
          | none => rw [ht] at h; cases h
          | some c3 =>
            rw [ht, Option.map_some'] at h
            simp only [Option.some.injEq, Prod.mk.injEq] at h
            obtain ⟨rfl, rfl⟩ := h
            have hE := (update_spec c address c1 x hu).2.1
            obtain ⟨a1, a2, a3, a4, a5⟩ := update_again c address c1 c2 x x2 hu hu2
            have hmid := rehit_inv c1 c2 (log ++ [x]) x.set x.line x2
              (update_inv c log address c1 x hI hu) a1 a2 a3 a4
            obtain ⟨i1, i2⟩ := update_time_inv c2 c3 _ _ hmid ht
            have hlist : log ++ [x, x2] = (log ++ [x]) ++ [x2] := by simp
            rw [hlist]
            refine ⟨i1, ?_, by rw [i2, a2, hE]⟩
            rw [i2, a2, hE]
            refine lru_snoc c.E _ x2
              (lru_snoc c.E log x hL (update_evict_lru c log address c1 x hI hu)) ?_
            intro hk
            rw [a5] at hk
            cases hk
    · rw [if_neg h2, Option.some_bind] at h
      cases ht : update_time c with
      | none => rw [ht] at h; cases h
      | some c2 =>
        rw [ht, Option.map_some'] at h
        simp only [Option.some.injEq, Prod.mk.injEq] at h
        obtain ⟨rfl, rfl⟩ := h
        obtain ⟨i1, i2⟩ := update_time_inv c c2 _ _ hI ht
        rw [List.append_nil]
        exact ⟨i1, by rw [i2]; exact hL, i2⟩

theorem procedure_inv (trace : List (Char × Nat × Int)) :
    ∀ (c : Csim) (log : List Access) (c' : Csim) (as : List Access),
      CacheInv c log none → LruLog c.E log → procedure c trace = some (c', as) →
      LruLog c.E (log ++ as) := by
  induction trace with
  | nil =>
    intro c log c' as _ hL h
    simp only [procedure, Option.some.injEq, Prod.mk.injEq] at h
    rw [← h.2, List.append_nil]
    exact hL
  | cons x rest ih =>
    intro c log c' as hI hL h
    simp only [procedure] at h
    cases hs : trace_step c x.1 x.2.1 with
    | none => rw [hs] at h; cases h
    | some r =>
      obtain ⟨c1, as1⟩ := r
      rw [hs, Option.some_bind] at h
      cases hp : procedure c1 rest with
      | none => rw [hp] at h; cases h
      | some r2 =>
        obtain ⟨c2, as2⟩ := r2
        rw [hp, Option.map_some'] at h
        simp only [Option.some.injEq, Prod.mk.injEq] at h
        obtain ⟨rfl, rfl⟩ := h
        obtain ⟨i1, i2, i3⟩ := trace_step_inv c log x.1 x.2.1 c1 as1 hI hL hs
        have := ih c1 (log ++ as1) c2 as2 i1 i2 hp
        rw [i3, List.append_assoc] at this
        exact this

/-- C23: the simulator implements LRU replacement.  For every choice of `s`, `E`,
`b` and every trace: the simulation is defined when `1 <= s <= 30`, `b + s <= 63`,
`E >= 1` and the trace has less than `2^30` records (no counter passes `INT_MAX`, no
access leaves the arrays); and on every trace on which it is defined, with `log`
the calls of `update` in order, whenever a call evicts, every other line of the
selected set has been accessed before, and the most recent access of the line
that is overwritten is earlier than the most recent access of every other line
of that set. -/
theorem eviction_is_lru (s E b : Nat) (trace : List (Char × Nat × Int)) :
    (1 ≤ s → s ≤ 30 → b + s ≤ 63 → 1 ≤ E → trace.length < 2 ^ 30 →
      ∃ c log, procedure (csim_start s E b) trace = some (c, log)) ∧
    ∀ c log, procedure (csim_start s E b) trace = some (c, log) →
      ∀ n a, log[n]? = some a → a.kind = AccessKind.evict → ∀ j, j < E → j ≠ a.line →
        ∃ q q', last_access (log.take n) a.set a.line = some q ∧
          last_access (log.take n) a.set j = some q' ∧ q < q' := by
  constructor
  · intro h1 h2 h3 h4 hlen
    have h30 : (2 : Nat) ^ 30 = 1073741824 := by norm_num
    obtain ⟨r, hr⟩ := procedure_defined trace (csim_start s E b) 0 0 (start_ok s E b h1 h2 h3 h4)
      (Int.le_refl _) (by unfold INT_MAX; omega) (by unfold INT_MAX; omega)
    exact ⟨r.1, r.2, hr⟩
  · intro c log h
    have hL0 : LruLog E [] := by
      intro n a hn
      simp at hn
    have := procedure_inv trace (csim_start s E b) [] c log (init_inv s E b) hL0 h
    rw [List.nil_append] at this
    exact this

theorem eviction_is_lru_witness :
    ∃ q q', last_access (([⟨0, 0, AccessKind.fill⟩, ⟨0, 1, AccessKind.fill⟩,
        ⟨0, 0, AccessKind.evict⟩, ⟨0, 0, AccessKind.hit⟩] : List Access).take 2) 0 0 = some q ∧
      last_access (([⟨0, 0, AccessKind.fill⟩, ⟨0, 1, AccessKind.fill⟩,
        ⟨0, 0, AccessKind.evict⟩, ⟨0, 0, AccessKind.hit⟩] : List Access).take 2) 0 1 = some q' ∧
      q < q' :=
  (eviction_is_lru 1 2 1 [('L', 0, 1), ('S', 16, 1), ('M', 32, 4)]).2
    ⟨1, 3, 1, 1, 2, 1, 2, [[⟨1, 8, 1⟩, ⟨1, 4, 2⟩], [⟨0, -1, -1⟩, ⟨0, -1, -1⟩]]⟩
    [⟨0, 0, AccessKind.fill⟩, ⟨0, 1, AccessKind.fill⟩, ⟨0, 0, AccessKind.evict⟩,
      ⟨0, 0, AccessKind.hit⟩]
    (by decide) 2 ⟨0, 0, AccessKind.evict⟩ (by decide) rfl 1 (by decide) (by decide)


/-! ## The header codec: bits touched by the setters, and the round trip of `PACK` -/

theorem testBit_high (w i : Nat) (hw : w < 2 ^ 32) (hi : 32 ≤ i) : w.testBit i = false :=
  Nat.testBit_eq_false_of_lt (Nat.lt_of_lt_of_le hw (Nat.pow_le_pow_right (by norm_num) hi))

theorem testBit_or_one (w i : Nat) (hi : i ≠ 0) : (w ||| 1).testBit i = w.testBit i := by
  rw [Nat.testBit_or]
  have : Nat.testBit 1 i = false := by
    rw [show (1 : Nat) = 2 ^ 0 by norm_num, Nat.testBit_two_pow]
    simpa using fun h => hi h.symm
  rw [this, Bool.or_false]

theorem testBit_or_two (w i : Nat) (hi : i ≠ 1) : (w ||| 2).testBit i = w.testBit i := by
  rw [Nat.testBit_or]
  have : Nat.testBit 2 i = false := by
    rw [show (2 : Nat) = 2 ^ 1 by norm_num, Nat.testBit_two_pow]
    simpa using fun h => hi h.symm
  rw [this, Bool.or_false]

theorem testBit_and_not_one (w i : Nat) (hw : w < 2 ^ 32) (hi : i ≠ 0) :
    (w &&& 0xFFFFFFFE).testBit i = w.testBit i := by
  rw [Nat.testBit_and]
  by_cases h : i < 32
  · have : Nat.testBit 0xFFFFFFFE i = true := by
      interval_cases i <;> first | exact absurd rfl hi | decide
    rw [this, Bool.and_true]
  · rw [testBit_high w i hw (by omega), Bool.false_and]

theorem testBit_and_not_two (w i : Nat) (hw : w < 2 ^ 32) (hi : i ≠ 1) :
    (w &&& 0xFFFFFFFD).testBit i = w.testBit i := by
  rw [Nat.testBit_and]
  by_cases h : i < 32
  · have : Nat.testBit 0xFFFFFFFD i = true := by
      interval_cases i <;> first | exact absurd rfl hi | decide
    rw [this, Bool.and_true]
  · rw [testBit_high w i hw (by omega), Bool.false_and]

theorem testBit_set_size (w size i : Nat) (hs : size % 8 = 0) :
    ((w &&& 0x7) ||| size).testBit i = if i < 3 then w.testBit i else size.testBit i := by
  rw [Nat.testBit_or, Nat.testBit_and]
  by_cases h : i < 3
  · rw [if_pos h]
    have h7 : Nat.testBit 7 i = true := by interval_cases i <;> decide
    have hz : size.testBit i = false := by
      rw [Nat.testBit_to_div_mod]
      interval_cases i <;> simp <;> omega
    rw [h7, hz, Bool.and_true, Bool.or_false]
  · rw [if_neg h]
    have h7 : Nat.testBit 7 i = false :=
      Nat.testBit_eq_false_of_lt (Nat.lt_of_lt_of_le (by norm_num : 7 < 2 ^ 3)
        (Nat.pow_le_pow_right (by norm_num) (by omega)))
    rw [h7, Bool.and_false, Bool.false_or]

theorem word_after_SET_ALLOC (m : Mem) (p : Nat) :
    GET (SET_ALLOC m p) p = GET m p ||| 0x1 := by
  unfold SET_ALLOC
  rw [GET_PUT_same]
  exact Nat.mod_eq_of_lt (Nat.or_lt_two_pow (GET_lt m p) (by norm_num))

theorem word_after_SET_PALLOC (m : Mem) (p : Nat) :
    GET (SET_PALLOC m p) p = GET m p ||| 0x2 := by
  unfold SET_PALLOC
  rw [GET_PUT_same]
  exact Nat.mod_eq_of_lt (Nat.or_lt_two_pow (GET_lt m p) (by norm_num))

theorem word_after_RESET_ALLOC (m : Mem) (p : Nat) :
    GET (RESET_ALLOC m p) p = GET m p &&& 0xFFFFFFFE := by
  unfold RESET_ALLOC
  rw [GET_PUT_same]
  exact Nat.mod_eq_of_lt (Nat.lt_of_le_of_lt Nat.and_le_left (GET_lt m p))

theorem word_after_RESET_PALLOC (m : Mem) (p : Nat) :
    GET (RESET_PALLOC m p) p = GET m p &&& 0xFFFFFFFD := by
  unfold RESET_PALLOC
  rw [GET_PUT_same]
  exact Nat.mod_eq_of_lt (Nat.lt_of_le_of_lt Nat.and_le_left (GET_lt m p))

theorem word_after_SET_SIZE (m : Mem) (p size : Nat) (hs : size % 8 = 0) (hlt : size < 2 ^ 32) :
    GET (SET_SIZE m p size) p = (GET m p &&& 0x7) ||| size := by
  unfold SET_SIZE
  rw [GET_PUT_same]
  apply Nat.mod_eq_of_lt
  rw [and_7, low_or_size _ _ (Nat.mod_lt _ (by norm_num)) hs]
  have := Nat.mod_lt (GET m p) (show 8 > 0 by norm_num)
  omega

/-- The three fields of a header word in arithmetic form. -/
theorem fields_of_word (w : Nat) (hw : w < 2 ^ 32) :
    w &&& 0xFFFFFFF8 = w / 8 * 8 ∧ w &&& 0x1 = w % 2 ∧ (w >>> 1) &&& 0x1 = w / 2 % 2 :=
  ⟨and_size_mask w hw, Nat.and_one_is_mod w, shr1_and1 w⟩

/-- C34: for every header word (the 32-bit word `w` at `HDRP(bp)`), `SET_ALLOC` and
`RESET_ALLOC` change only bit 0 of `w`, `SET_PALLOC` and `RESET_PALLOC` change only
bit 1, and `SET_SIZE` with a size that is a multiple of 8 below `2^32` keeps
bits 0..2 and replaces bits 3..31 by those of the size; after each of them the
fields that are not targeted read back unchanged through `GET_SIZE`, `GET_ALLOC`
and `get_prev_alloc`, and the targeted field reads back as set. -/
theorem setters_change_only_their_field (m : Mem) (bp : Nat) :
    ((∀ i, i ≠ 0 → (GET (SET_ALLOC m (HDRP bp)) (HDRP bp)).testBit i = (GET m (HDRP bp)).testBit i) ∧
      GET_SIZE (SET_ALLOC m (HDRP bp)) bp = GET_SIZE m bp ∧
      get_prev_alloc (SET_ALLOC m (HDRP bp)) bp = get_prev_alloc m bp ∧
      GET_ALLOC (SET_ALLOC m (HDRP bp)) bp = 1) ∧
    ((∀ i, i ≠ 0 → (GET (RESET_ALLOC m (HDRP bp)) (HDRP bp)).testBit i =
        (GET m (HDRP bp)).testBit i) ∧
      GET_SIZE (RESET_ALLOC m (HDRP bp)) bp = GET_SIZE m bp ∧
      get_prev_alloc (RESET_ALLOC m (HDRP bp)) bp = get_prev_alloc m bp ∧
      GET_ALLOC (RESET_ALLOC m (HDRP bp)) bp = 0) ∧
    ((∀ i, i ≠ 1 → (GET (SET_PALLOC m (HDRP bp)) (HDRP bp)).testBit i =
        (GET m (HDRP bp)).testBit i) ∧
      GET_SIZE (SET_PALLOC m (HDRP bp)) bp = GET_SIZE m bp ∧
      GET_ALLOC (SET_PALLOC m (HDRP bp)) bp = GET_ALLOC m bp ∧
      get_prev_alloc (SET_PALLOC m (HDRP bp)) bp = 1) ∧
    ((∀ i, i ≠ 1 → (GET (RESET_PALLOC m (HDRP bp)) (HDRP bp)).testBit i =
        (GET m (HDRP bp)).testBit i) ∧
      GET_SIZE (RESET_PALLOC m (HDRP bp)) bp = GET_SIZE m bp ∧
      GET_ALLOC (RESET_PALLOC m (HDRP bp)) bp = GET_ALLOC m bp ∧
      get_prev_alloc (RESET_PALLOC m (HDRP bp)) bp = 0) ∧
    (∀ size, size % 8 = 0 → size < 2 ^ 32 →
      (∀ i, (GET (SET_SIZE m (HDRP bp) size) (HDRP bp)).testBit i =
        if i < 3 then (GET m (HDRP bp)).testBit i else size.testBit i) ∧
      GET_ALLOC (SET_SIZE m (HDRP bp) size) bp = GET_ALLOC m bp ∧
      get_prev_alloc (SET_SIZE m (HDRP bp) size) bp = get_prev_alloc m bp ∧
      GET_SIZE (SET_SIZE m (HDRP bp) size) bp = size) := by
  have hw := GET_lt m (HDRP bp)
  generalize hwe : GET m (HDRP bp) = w at hw
  have f0 := fields_of_word w hw
  refine ⟨?_, ?_, ?_, ?_, ?_⟩
  · have e := word_after_SET_ALLOC m (HDRP bp)
    rw [hwe] at e
    have hv : w ||| 0x1 < 2 ^ 32 := Nat.or_lt_two_pow hw (by norm_num)
    have f1 := fields_of_word _ hv
    have h1 := or_1 w
    refine ⟨fun i hi => by rw [e]; exact testBit_or_one w i hi, ?_, ?_, ?_⟩
    · unfold GET_SIZE; rw [e, hwe, f1.1, f0.1]; omega
    · unfold get_prev_alloc; rw [e, hwe, f1.2.2, f0.2.2]; omega
    · unfold GET_ALLOC; rw [e, f1.2.1]; omega
  · have e := word_after_RESET_ALLOC m (HDRP bp)
    rw [hwe] at e
    have hv : w &&& 0xFFFFFFFE < 2 ^ 32 := Nat.lt_of_le_of_lt Nat.and_le_left hw
    have f1 := fields_of_word _ hv
    have h1 := and_not1 w hw
    refine ⟨fun i hi => by rw [e]; exact testBit_and_not_one w i hw hi, ?_, ?_, ?_⟩
    · unfold GET_SIZE; rw [e, hwe, f1.1, f0.1]; omega
    · unfold get_prev_alloc; rw [e, hwe, f1.2.2, f0.2.2]; omega
    · unfold GET_ALLOC; rw [e, f1.2.1]; omega
  · have e := word_after_SET_PALLOC m (HDRP bp)
    rw [hwe] at e
    have hv : w ||| 0x2 < 2 ^ 32 := Nat.or_lt_two_pow hw (by norm_num)
    have f1 := fields_of_word _ hv
    have h1 := or_2 w
    refine ⟨fun i hi => by rw [e]; exact testBit_or_two w i hi, ?_, ?_, ?_⟩
    · unfold GET_SIZE; rw [e, hwe, f1.1, f0.1]; omega
    · unfold GET_ALLOC; rw [e, hwe, f1.2.1, f0.2.1]; omega
    · unfold get_prev_alloc; rw [e, f1.2.2]; omega
  · have e := word_after_RESET_PALLOC m (HDRP bp)
    rw [hwe] at e
    have hv : w &&& 0xFFFFFFFD < 2 ^ 32 := Nat.lt_of_le_of_lt Nat.and_le_left hw
    have f1 := fields_of_word _ hv
    have h1 := and_not2 w hw
    refine ⟨fun i hi => by rw [e]; exact testBit_and_not_two w i hw hi, ?_, ?_, ?_⟩
    · unfold GET_SIZE; rw [e, hwe, f1.1, f0.1]; omega
    · unfold GET_ALLOC; rw [e, hwe, f1.2.1, f0.2.1]; omega
    · unfold get_prev_alloc; rw [e, f1.2.2]; omega
  · intro size hs hlt
    have e := word_after_SET_SIZE m (HDRP bp) size hs hlt
    rw [hwe] at e
    have hval : (w &&& 0x7) ||| size = size + w % 8 := by
      rw [and_7, low_or_size _ _ (Nat.mod_lt _ (by norm_num)) hs]
    have hv : size + w % 8 < 2 ^ 32 := by
      have := Nat.mod_lt w (show 8 > 0 by norm_num)
      omega
    have f1 := fields_of_word _ hv
    refine ⟨fun i => by rw [e]; exact testBit_set_size w size i hs, ?_, ?_, ?_⟩
    · unfold GET_ALLOC; rw [e, hwe, hval, f1.2.1, f0.2.1]; omega
    · unfold get_prev_alloc; rw [e, hwe, hval, f1.2.2, f0.2.2]; omega
    · unfold GET_SIZE; rw [e, hval, f1.1]; omega

/-- C35: for every size `s` that is a multiple of 8 below `2^32` and all flags `p`,
`a` in `{0, 1}`, the word `PACK(s, p, a)` stored in a header reads back as
`GET_SIZE = s`, `get_prev_alloc = p` and `GET_ALLOC = a`. -/
theorem pack_round_trip (m : Mem) (bp s p a : Nat) (hs : s % 8 = 0) (hlt : s < 2 ^ 32)
    (hp : p ≤ 1) (ha : a ≤ 1) :
    GET_SIZE (PUT m (HDRP bp) (PACK s p a)) bp = s ∧
    get_prev_alloc (PUT m (HDRP bp) (PACK s p a)) bp = p ∧
    GET_ALLOC (PUT m (HDRP bp) (PACK s p a)) bp = a := by
  have hpk : PACK s p a = s + 2 * p + a := by
    unfold PACK
    rw [Nat.shiftLeft_eq, Nat.lor_assoc]
    have h3 : p * 2 ^ 1 ||| a = 2 * p + a := by
      have hp' : p = 0 ∨ p = 1 := by omega
      have ha' : a = 0 ∨ a = 1 := by omega
      rcases hp' with rfl | rfl <;> rcases ha' with rfl | rfl <;> rfl
    rw [h3, Nat.lor_comm, low_or_size _ _ (by omega) hs]
    omega
  have hv : s + 2 * p + a < 2 ^ 32 := by omega
  have f1 := fields_of_word _ hv
  have e : GET (PUT m (HDRP bp) (PACK s p a)) (HDRP bp) = s + 2 * p + a := by
    rw [GET_PUT_same, hpk]; exact Nat.mod_eq_of_lt hv
  refine ⟨?_, ?_, ?_⟩
  · unfold GET_SIZE; rw [e, f1.1]; omega
  · unfold get_prev_alloc; rw [e, f1.2.2]; omega
  · unfold GET_ALLOC; rw [e, f1.2.1]; omega

theorem setters_change_only_their_field_witness :
    GET_ALLOC (SET_SIZE heap0.mem (HDRP 4176) 32) 4176 = GET_ALLOC heap0.mem 4176 ∧
      get_prev_alloc (SET_SIZE heap0.mem (HDRP 4176) 32) 4176 = get_prev_alloc heap0.mem 4176 ∧
      GET_SIZE (SET_SIZE heap0.mem (HDRP 4176) 32) 4176 = 32 :=
  ((setters_change_only_their_field heap0.mem 4176).2.2.2.2 32 (by decide) (by decide)).2

theorem pack_round_trip_witness :
    GET_SIZE (PUT heap0.mem (HDRP 4176) (PACK 16384 1 0)) 4176 = 16384 ∧
    get_prev_alloc (PUT heap0.mem (HDRP 4176) (PACK 16384 1 0)) 4176 = 1 ∧
    GET_ALLOC (PUT heap0.mem (HDRP 4176) (PACK 16384 1 0)) 4176 = 0 :=
  pack_round_trip heap0.mem 4176 16384 1 0 (by decide) (by decide) (by decide) (by decide)


/-! ## `find_fit` on sorted bucket lists -/

/-- C37: on every index state whose bucket lists are null terminated, hold only
blocks whose size maps to their bucket, and are sorted by ascending size,
`find_fit` returns for every request size (in particular every aligned size of at
least 16), and a non-null block it returns is a listed block of at least the
requested size whose size is the minimum among all blocks of the nine lists
that have at least the requested size. -/
theorem find_fit_best_fit (s : Heap) (bk : Nat → List Nat)
    (hfle : s.free_list_end = s.explicit_free_list + 72)
    (hl : ∀ i, i < 9 → ListAt s.mem (s.explicit_free_list + 8 * i) (bk i))
    (hlen : ∀ i, i < 9 → (bk i).length ≤ fuel s)
    (hb : ∀ i, i < 9 → ∀ x ∈ bk i, bucket (GET_SIZE s.mem x) = i)
    (hsorted : ∀ i, i < 9 → (bk i).Pairwise fun x y => GET_SIZE s.mem x ≤ GET_SIZE s.mem y)
    (asize : Nat) :
    ∃ r, find_fit s asize = some r ∧
      (r ≠ 0 → asize ≤ GET_SIZE s.mem r ∧ (∃ i, i < 9 ∧ r ∈ bk i) ∧
        ∀ i, i < 9 → ∀ x ∈ bk i, asize ≤ GET_SIZE s.mem x → GET_SIZE s.mem r ≤ GET_SIZE s.mem x) := by
  have hi := bucket_lt asize
  have hentry : get_index s asize = s.explicit_free_list + 8 * bucket asize := get_index_eq s asize
  have hlow : ∀ i, i < bucket asize → ∀ x ∈ bk i, GET_SIZE s.mem x < asize := by
    intro i hi' x hx
    by_contra hc
    have := bucket_mono asize (GET_SIZE s.mem x) (by omega)
    rw [hb i (by omega) x hx] at this
    omega
  have hhigh : ∀ i, bucket asize < i → i < 9 → ∀ x ∈ bk i, asize ≤ GET_SIZE s.mem x := by
    intro i hi' hi9 x hx
    by_contra hc
    have := bucket_mono (GET_SIZE s.mem x) asize (by omega)
    rw [hb i hi9 x hx] at this
    omega
  have hacross : ∀ i j, i < j → j < 9 → ∀ x ∈ bk i, ∀ y ∈ bk j,
      GET_SIZE s.mem x ≤ GET_SIZE s.mem y := by
    intro i j hij hj x hx y hy
    by_contra hc
    have := bucket_mono (GET_SIZE s.mem y) (GET_SIZE s.mem x) (by omega)
    rw [hb i (by omega) x hx, hb j hj y hy] at this
    omega
  obtain ⟨r, hr, hcase⟩ := find_fit_scan_spec s.mem asize _ _ (hl _ hi) (fuel s + 1)
    (by have := hlen _ hi; omega)
  rcases hcase with ⟨r0, hall⟩ | ⟨l1, l2, e, hs, hl1⟩
  · subst r0
    obtain ⟨r', hr', hcase'⟩ := find_fit_rest_spec s.mem s.explicit_free_list bk hl 10
      (bucket asize + 1) (by omega) (by omega)
    refine ⟨r', ?_, ?_⟩
    · unfold find_fit
      simp only [hentry, hr, ne_eq, not_true_eq_false, if_false, hfle, free_list_size, DSIZE]
      rw [show s.explicit_free_list + 8 * bucket asize + 8 =
        s.explicit_free_list + 8 * (bucket asize + 1) by ring]
      exact hr'
    · intro hne
      rcases hcase' with ⟨r0, -⟩ | ⟨-, j, h1, h2, h3, h4⟩
      · exact absurd r0 hne
      · obtain ⟨ys, hbk⟩ : ∃ ys, bk j = r' :: ys := by
          cases hbk : bk j with
          | nil => rw [hbk] at h3; simp at h3
          | cons y ys => rw [hbk] at h3; simp at h3; subst h3; exact ⟨ys, rfl⟩
        have hmem : r' ∈ bk j := by rw [hbk]; simp
        refine ⟨hhigh j (by omega) h2 r' hmem, ⟨j, h2, hmem⟩, ?_⟩
        intro i hi9 x hx hfit
        rcases Nat.lt_trichotomy i j with g | g | g
        · exfalso
          rcases Nat.lt_trichotomy i (bucket asize) with g' | g' | g'
          · have := hlow i g' x hx; omega
          · subst g'; have := hall x hx; omega
          · rw [h4 i (by omega) g] at hx; simp at hx
        · subst g
          have hso := hsorted i hi9
          rw [hbk] at hso hx
          rcases List.mem_cons.mp hx with rfl | hx'
          · exact Nat.le_refl _
          · exact (List.pairwise_cons.mp hso).1 x hx'
        · exact hacross j i g hi9 r' hmem x hx
  · have hmem : r ∈ bk (bucket asize) := by rw [e]; simp
    have hne : r ≠ 0 := by
      have hla := hl _ hi
      rw [e, ListAt_append] at hla
      have := hla.2
      simp only [ListAt] at this
      exact this.2.1
    refine ⟨r, ?_, fun _ => ⟨hs, ⟨_, hi, hmem⟩, ?_⟩⟩
    · unfold find_fit
      simp only [hentry, hr, ne_eq, hne, not_false_eq_true, if_true]
    · intro i hi9 x hx hfit
      rcases Nat.lt_trichotomy i (bucket asize) with g | g | g
      · have := hlow i g x hx; omega
      · subst g
        have hso := hsorted _ hi9
        rw [e] at hso hx
        rcases List.mem_append.mp hx with hx1 | hx2
        · have := hl1 x hx1; omega
        · rcases List.mem_cons.mp hx2 with rfl | hx'
          · exact Nat.le_refl _
          · exact (List.pairwise_cons.mp (List.pairwise_append.mp hso).2.1).1 x hx'
      · exact hacross _ i g hi9 r hmem x hx

set_option maxRecDepth 100000 in
theorem bucket_lists_heap0 : ∀ i, i < 9 → (bucket_list heap0 i).length ≤ 1 := by decide

/-! ## `malloc`: growth of the arena and failure -/

theorem insert_fields (s : Heap) (bp q : Nat) (s' : Heap) (h : insert s bp = some (q, s')) :
    q = bp ∧ s'.mem_brk = s.mem_brk ∧ s'.epilogue = s.epilogue ∧
      s'.mem_max_addr = s.mem_max_addr := by
  unfold insert at h
  dsimp only at h
  split at h
  · cases h
  · rw [Option.some.injEq, Prod.mk.injEq] at h
    obtain ⟨h1, h2⟩ := h
    subst h1 h2
    exact ⟨rfl, rfl, rfl, rfl⟩

theorem delete_fields (s : Heap) (bp : Nat) (s' : Heap) (h : delete s bp = some s') :
    s'.mem_brk = s.mem_brk ∧ s'.epilogue = s.epilogue ∧ s'.mem_max_addr = s.mem_max_addr := by
  unfold delete at h
  dsimp only at h
  split at h
  · cases h
  · rw [Option.some.injEq] at h
    subst h
    exact ⟨rfl, rfl, rfl⟩

theorem place_fields (s : Heap) (bp asize p : Nat) (s' : Heap)
    (h : place s bp asize = some (p, s')) :
    p = bp ∧ s'.mem_brk = s.mem_brk ∧ s'.epilogue = s.epilogue ∧
      s'.mem_max_addr = s.mem_max_addr := by
  unfold place at h
  dsimp only at h
  split at h
  · rw [Option.some.injEq, Prod.mk.injEq] at h
    obtain ⟨h1, h2⟩ := h
    subst h1 h2
    exact ⟨rfl, rfl, rfl, rfl⟩
  · obtain ⟨r, hr, he⟩ := Option.map_eq_some'.mp h
    rw [Prod.mk.injEq] at he
    obtain ⟨h1, h2⟩ := he
    obtain ⟨q, t⟩ := r
    have := insert_fields _ _ _ _ hr
    subst h1
    simp only at h2
    subst h2
    exact ⟨rfl, this.2.1, this.2.2.1, this.2.2.2⟩

theorem delete_place_fields (s : Heap) (bp asize p : Nat) (s' : Heap)
    (h : ((delete s bp).bind fun s2 => place s2 bp asize) = some (p, s')) :
    p = bp ∧ s'.mem_brk = s.mem_brk ∧ s'.epilogue = s.epilogue ∧
      s'.mem_max_addr = s.mem_max_addr := by
  obtain ⟨s2, h1, h2⟩ := Option.bind_eq_some.mp h
  have f1 := delete_fields _ _ _ h1
  have f2 := place_fields _ _ _ _ _ h2
  exact ⟨f2.1, by rw [f2.2.1, f1.1], by rw [f2.2.2.1, f1.2.1], by rw [f2.2.2.2, f1.2.2]⟩

theorem malloc_unfold (s : Heap) (n : Nat) (hn : n ≠ 0) (asize r : Nat)
    (has : adjust (if n = 448 then 512 else n) = asize) (hfind : find_fit s asize = some r) :
    malloc s n = if r = 0 then
        (extend_heap s (MAX asize CHUNKSIZE)).bind fun (bp, s1) =>
          if bp = FAIL then some (0, s1)
          else (delete s1 bp).bind fun s2 => place s2 bp asize
      else (delete s r).bind fun s2 => place s2 r asize := by
  unfold malloc
  rw [if_neg hn]
  dsimp only
  rw [has, hfind]

/-- On a consistent heap `malloc` returns for every request. -/
theorem malloc_defined (s : Heap) (bs : List Blk) (bk : Nat → List Nat)
    (h : Wf s bs bk (IsFree (s.mem_start_brk + 80) bs)) (hna : NoAdj true bs)
    (n : Nat) (hn : n ≠ 0) : ∃ p s', malloc s n = some (p, s') := by
  rcases adjust_cases (if n = 448 then 512 else n) with h0 | ⟨h16, h8⟩
  · rcases malloc_zero s bs bk h hna n hn h0 with ⟨-, -, e⟩ | ⟨p, m', inc, bs', bk', b, e, -⟩
    · exact ⟨_, _, e⟩
    · exact ⟨_, _, e⟩
  · rcases malloc_spec s bs bk h hna n hn _ rfl h16 h8 with
      ⟨-, -, e⟩ | ⟨p, m', inc, bs', bk', csz, e, -⟩
    · exact ⟨_, _, e⟩
    · exact ⟨_, _, e⟩

/-- The last block of the chain a state stores. -/
theorem chain_getLast (s : Heap) (bs : List Blk) {b : Blk} (bk : Nat → List Nat)
    (F : Nat → Nat → Prop) (h : Wf s (bs ++ [b]) bk F) :
    (chain s).getLast? = some (endAddr (s.mem_start_brk + 80) bs, b.size, b.alloc.toNat) := by
  rw [chain_eq s _ bk F h, blocks_append]
  simp [blocks]

/-- In terms of the size `malloc` computes, `adjust` of the request (512 for 448):
for every consistent heap and every request `n > 0`, if no block of the
nine bucket lists has the adjusted size and the growth primitive `mem_sbrk` fails
for the `MAX(asize, CHUNKSIZE)` bytes `malloc` asks for, then `malloc(n)` returns
null and the state (arena bytes, bucket lists, arena end, epilogue) is exactly
the state before the call. -/
theorem malloc_failure_atomic (s : Heap) (hok : HeapOK s) (n : Nat) (hn : n ≠ 0)
    (hnofit : ∀ i, i < free_list_size → ∀ x ∈ bucket_list s i,
      GET_SIZE s.mem x < adjust (if n = 448 then 512 else n))
    (hfail : (mem_sbrk s (MAX (adjust (if n = 448 then 512 else n)) CHUNKSIZE)).1 = FAIL) :
    malloc s n = some (0, s) := by
  obtain ⟨bs, bk, h, hna⟩ := hok
  obtain ⟨r, hfind, hcase⟩ := find_fit_spec s bs bk _ h (adjust (if n = 448 then 512 else n))
  have hno := (nofit_iff s bs bk h _).mpr hnofit
  have hr0 : r = 0 := by
    rcases hcase with ⟨e, -⟩ | ⟨-, z, hz, hle⟩
    · exact e
    · have := hno r z hz; omega
  have hmal := malloc_unfold s n hn _ r rfl hfind
  rw [if_pos hr0] at hmal
  rw [hmal, extend_heap_fail s _ ((sbrk_fail_iff s bs bk _ h _).mp hfail), Option.some_bind]
  exact if_pos rfl

set_option maxRecDepth 100000 in
theorem malloc_failure_atomic_witness : malloc heap0 1048576 = some (0, heap0) :=
  malloc_failure_atomic heap0 (reach_heapOK _ _ reach_heap0) 1048576 (by decide) (by decide)
    (by decide)

/-- In terms of the size `malloc` computes, `adjust` of the request (512 for 448):
for every consistent heap and every request `n > 0` with adjusted size
`asize`, `find_fit(asize)` returns, and: if it finds a block, `malloc(n)` returns
with the arena end and the epilogue where they were; if it misses, `malloc(n)`
asks `mem_sbrk` for exactly `w = MAX(asize, 3072)` bytes, and when the primitive
grants them (it fails exactly when `mem_brk + w` exceeds the arena limit, and then
`malloc` returns null and changes nothing), `extend_heap` moves the arena end and
the epilogue up by `w` and returns one free block that starts at the last block
of the chain and has its size plus `w` when that block is free, and starts at the
old arena end with size `w` otherwise; `malloc` then places the request in that
block and returns it. -/
theorem malloc_grows_on_miss (s : Heap) (hok : HeapOK s) (n : Nat) (hn : n ≠ 0) :
    CHUNKSIZE = 3072 ∧
    ∃ r, find_fit s (adjust (if n = 448 then 512 else n)) = some r ∧
      (r ≠ 0 → ∃ p s', malloc s n = some (p, s') ∧ p = r ∧
        s'.mem_brk = s.mem_brk ∧ s'.epilogue = s.epilogue) ∧
      (r = 0 → ∀ w, w = MAX (adjust (if n = 448 then 512 else n)) CHUNKSIZE →
        ((mem_sbrk s w).1 = FAIL ↔ s.mem_brk + w > s.mem_max_addr) ∧
        ((mem_sbrk s w).1 = FAIL → malloc s n = some (0, s)) ∧
        ((mem_sbrk s w).1 ≠ FAIL →
          ∃ bp s1 s', extend_heap s w = some (bp, s1) ∧
            s1.mem_brk = s.mem_brk + w ∧ s1.epilogue = s.epilogue + w ∧
            GET_ALLOC s1.mem bp = 0 ∧
            (∀ a lsz, (chain s).getLast? = some (a, lsz, 0) →
              bp = a ∧ GET_SIZE s1.mem bp = lsz + w) ∧
            ((∀ a lsz, (chain s).getLast? ≠ some (a, lsz, 0)) →
              bp = s.mem_brk ∧ GET_SIZE s1.mem bp = w) ∧
            malloc s n = some (bp, s') ∧
            s'.mem_brk = s.mem_brk + w ∧ s'.epilogue = s.epilogue + w)) := by
  refine ⟨rfl, ?_⟩
  obtain ⟨bs, bk, h, hna⟩ := hok
  generalize has : adjust (if n = 448 then 512 else n) = asize
  obtain ⟨r, hfind, -⟩ := find_fit_spec s bs bk _ h asize
  have hmal := malloc_unfold s n hn asize r has hfind
  obtain ⟨p, s', hdef⟩ := malloc_defined s bs bk h hna n hn
  have h8 : asize % 8 = 0 := by
    rcases adjust_cases (if n = 448 then 512 else n) with h0 | ⟨-, h8⟩
    · rw [has] at h0; omega
    · rw [has] at h8; exact h8
  refine ⟨r, hfind, ?_, ?_⟩
  · intro hr
    rw [if_neg hr] at hmal
    rw [hmal] at hdef
    have f := delete_place_fields _ _ _ _ _ hdef
    exact ⟨p, s', by rw [hmal]; exact hdef, f.1, f.2.1, f.2.2.1⟩
  · intro hr w hw
    subst hw
    rw [if_pos hr] at hmal
    have hiff := sbrk_fail_iff s bs bk _ h (MAX asize CHUNKSIZE)
    refine ⟨hiff, ?_, ?_⟩
    · intro hfail
      rw [hmal, extend_heap_fail s _ (hiff.mp hfail), Option.some_bind]
      exact if_pos rfl
    · intro hgrant
      have hroom : ¬ s.mem_brk + MAX asize CHUNKSIZE > s.mem_max_addr := fun g => hgrant (hiff.mpr g)
      obtain ⟨hw16, hw8, -, -⟩ := MAX_facts asize h8
      obtain ⟨pre', pm, tot, m1, bk1, hbs, hpm, htot, hwt, hpm0, hpm1, hext, hWf1, hna1, -⟩ :=
        extend_heap_spec s bs bk h hna _ hw16 hw8 hroom
      have hmem1 := mem_blocks_of_split (s.mem_start_brk + 80) true pre' [] (Blk.mk tot false)
      have hb1 := blk_bounds _ _ _ _ hWf1 _ _ _ hmem1
      have hsz1 := blk_size _ _ _ _ hWf1 _ _ _ hmem1
      have hmax := h.max_lt64
      have hbrk := h.brk_le
      have hend := h.endA
      have hne : endAddr (s.mem_start_brk + 80) pre' ≠ FAIL := by
        unfold FAIL; simp only at hb1; omega
      rw [hext, Option.some_bind] at hmal
      simp only [if_neg hne] at hmal
      rw [hmal] at hdef
      have f := delete_place_fields _ _ _ _ _ hdef
      refine ⟨_, _, s', hext, rfl, rfl, hsz1.2, ?_, ?_, ?_, f.2.1, f.2.2.1⟩
      · intro a lsz hlast
        rcases List.eq_nil_or_concat bs with e | ⟨xs, b, e⟩
        · subst e
          rw [chain_eq s _ bk _ h] at hlast
          simp [blocks] at hlast
        · have e' : bs = xs ++ [b] := by simpa using e
          subst e'
          rw [chain_getLast s xs bk _ h] at hlast
          simp only [Option.some.injEq, Prod.mk.injEq] at hlast
          obtain ⟨ha, hl, hal⟩ := hlast
          have hbf : b.alloc = false := by
            cases hb : b.alloc with
            | false => rfl
            | true => rw [hb] at hal; simp at hal
          have hla : lastAlloc true (xs ++ [b]) = false := by
            rw [lastAlloc_append]; simpa [lastAlloc] using hbf
          have hlen := hpm1 hla
          obtain ⟨c, hc⟩ : ∃ c, pm = [c] := by
            match pm, hlen with
            | [c], _ => exact ⟨c, rfl⟩
          subst hc
          have hinj := List.append_inj' hbs rfl
          obtain ⟨e1, e2⟩ := hinj
          simp only [List.cons.injEq, and_true] at e2
          subst e1 e2
          rw [endAddr_append] at hend
          simp only [endAddr] at hend
          refine ⟨ha, ?_⟩
          show GET_SIZE m1 _ = _
          have := hsz1.1
          simp only at this
          rw [this]
          omega
      · intro hnot
        have hla : lastAlloc true bs = true := by
          cases hl : lastAlloc true bs with
          | true => rfl
          | false =>
            exfalso
            obtain ⟨xs, b, e, hbf⟩ := lastAlloc_false_split bs hl
            subst e
            have := chain_getLast s xs bk _ h
            rw [hbf] at this
            exact hnot _ _ this
        have hp := hpm0 hla
        subst hp
        rw [List.append_nil] at hbs
        subst hbs
        refine ⟨hend, ?_⟩
        show GET_SIZE m1 _ = _
        have := hsz1.1
        simp only at this
        rw [this]
        omega
      · rw [hmal]; exact Eq.trans hdef (by rw [f.1])

theorem malloc_grows_on_miss_witness :
    CHUNKSIZE = 3072 ∧
    ∃ r, find_fit heap0 (adjust (if 8 = 448 then 512 else 8)) = some r ∧
      (r ≠ 0 → ∃ p s', malloc heap0 8 = some (p, s') ∧ p = r ∧
        s'.mem_brk = heap0.mem_brk ∧ s'.epilogue = heap0.epilogue) ∧
      (r = 0 → ∀ w, w = MAX (adjust (if 8 = 448 then 512 else 8)) CHUNKSIZE →
        ((mem_sbrk heap0 w).1 = FAIL ↔ heap0.mem_brk + w > heap0.mem_max_addr) ∧
        ((mem_sbrk heap0 w).1 = FAIL → malloc heap0 8 = some (0, heap0)) ∧
        ((mem_sbrk heap0 w).1 ≠ FAIL →
          ∃ bp s1 s', extend_heap heap0 w = some (bp, s1) ∧
            s1.mem_brk = heap0.mem_brk + w ∧ s1.epilogue = heap0.epilogue + w ∧
            GET_ALLOC s1.mem bp = 0 ∧
            (∀ a lsz, (chain heap0).getLast? = some (a, lsz, 0) →
              bp = a ∧ GET_SIZE s1.mem bp = lsz + w) ∧
            ((∀ a lsz, (chain heap0).getLast? ≠ some (a, lsz, 0)) →
              bp = heap0.mem_brk ∧ GET_SIZE s1.mem bp = w) ∧
            malloc heap0 8 = some (bp, s') ∧
            s'.mem_brk = heap0.mem_brk + w ∧ s'.epilogue = heap0.epilogue + w)) :=
  malloc_grows_on_miss heap0 (reach_heapOK _ _ reach_heap0) 8 (by decide)


/-! ## Evaluations: `place` with size 0, `free` after a wrapped `malloc`, the copy of `realloc` -/

set_option maxRecDepth 100000 in
/-- C31 fails on the code for the aligned size 0, which `place` receives from
`malloc(2^64 - 8)`: on the heap `mm_init` builds, the adjusted size is 0,
`find_fit(0)` returns the free block 4176 of 16384 bytes, `delete` takes it out of
the index (no bucket lists it any more), and `place(4176, 0)` computes the
remainder 16384 > 16, takes the split branch and returns 4176; afterwards the
header of 4176 records size 16384 with the allocation bit clear, and 4176 is
listed in bucket 8 again: the head is not an allocated block of size 0.  The
call `malloc(2^64 - 8)` returns this block. -/
theorem place_zero_returns_free_block :
    adjust (if (2 ^ 64 - 8 : Nat) = 448 then 512 else 2 ^ 64 - 8) = 0 ∧
    find_fit heap0 0 = some 4176 ∧
    delete heap0 4176 = some heap0d ∧
    (GET_SIZE heap0d.mem 4176, GET_ALLOC heap0d.mem 4176) = (16384, 0) ∧
    (∀ i, i < 9 → bucket_list heap0d i = []) ∧
    ((place heap0d 4176 0).map fun r => (r.1, GET_SIZE r.2.mem 4176, GET_ALLOC r.2.mem 4176)) =
      some (4176, 16384, 0) ∧
    ((place heap0d 4176 0).map fun r => bucket_list r.2 8) = some [4176] ∧
    ((malloc heap0 (2 ^ 64 - 8)).map fun a => (a.1, GET_SIZE a.2.mem a.1, GET_ALLOC a.2.mem a.1)) =
      some (4176, 16384, 0) := by
  refine ⟨by decide, by decide, ?_, by decide, by decide, by decide, by decide, by decide⟩
  have hs : (delete heap0 4176).isSome = true := by decide
  unfold heap0d
  cases h : delete heap0 4176 with
  | none => rw [h] at hs; exact absurd hs (by simp)
  | some t => rfl

set_option maxRecDepth 100000 in
/-- C38 fails on the code for a request whose adjusted size wraps to 0: on the heap
`mm_init` builds, `p = malloc(2^64 - 8)` returns the non-null pointer 4176 without
growing the arena, and after `free(p)` the chain is the one before the calls, but
bucket 8, which held the list `[4176]`, now links 4176 to itself: the successor
field of 4176 is 4176 and the walk of the list never ends. -/
theorem free_after_wrapped_malloc_changes_list :
    ((malloc heap0 (2 ^ 64 - 8)).map fun a => (a.1, a.2.mem_brk, a.2.epilogue)) =
      some (4176, heap0.mem_brk, heap0.epilogue) ∧
    chain heap0 = [(4176, 16384, 0)] ∧
    bucket_list heap0 8 = [4176] ∧
    succeed heap0.mem 4176 = 0 ∧
    ((malloc heap0 (2 ^ 64 - 8)).bind fun a => (free a.2 a.1).map fun s2 => chain s2) =
      some [(4176, 16384, 0)] ∧
    ((malloc heap0 (2 ^ 64 - 8)).bind fun a => (free a.2 a.1).map fun s2 =>
      (bucket_list s2 8).take 3) = some [4176, 4176, 4176] ∧
    ((malloc heap0 (2 ^ 64 - 8)).bind fun a => (free a.2 a.1).map fun s2 =>
      succeed s2.mem 4176) = some 4176 := by
  decide

/-- On the move path of `realloc` the byte count of `memmove` is the size in the
header of the old block, the whole block with its header word. -/
theorem realloc_memmove_count (s : Heap) (oldptr size dst src k : Nat)
    (h : realloc_memmove s oldptr size = some (dst, src, k)) :
    src = oldptr ∧ k = GET_SIZE s.mem oldptr ∧ GET_SIZE s.mem oldptr < adjust size := by
  unfold realloc_memmove at h
  split at h
  · cases h
  · split at h
    · cases h
    · dsimp only at h
      split at h
      · cases h
      · rename_i hlt
        obtain ⟨r, -, hr⟩ := Option.bind_eq_some.mp h
        obtain ⟨newptr, s1⟩ := r
        dsimp only at hr
        split at hr
        · cases hr
        · rw [Option.some.injEq, Prod.mk.injEq, Prod.mk.injEq] at hr
          obtain ⟨-, h2, h3⟩ := hr
          refine ⟨h2.symm, ?_, by omega⟩
          rw [← h3]; unfold MIN; rw [if_neg (by omega)]

/-- The call `realloc_memmove` describes is the one `realloc` makes: `realloc`
copies `k` bytes from `src` to `dst` in the state `malloc` left, then frees the
old block and returns `dst`. -/
theorem realloc_calls_memmove (s : Heap) (oldptr size dst src k : Nat)
    (h : realloc_memmove s oldptr size = some (dst, src, k)) :
    ∃ s1, malloc s (adjust size) = some (dst, s1) ∧
      realloc s oldptr size =
        (free { s1 with mem := memmove s1.mem dst src k } oldptr).map fun s2 => (dst, s2) := by
  unfold realloc_memmove at h
  unfold realloc
  split at h
  · cases h
  · rename_i hs
    split at h
    · cases h
    · rename_i hp
      dsimp only at h
      rw [if_neg hs, if_neg hp]
      dsimp only
      split at h
      · cases h
      · rename_i hlt
        rw [if_neg hlt]
        obtain ⟨r, hm, hr⟩ := Option.bind_eq_some.mp h
        obtain ⟨newptr, s1⟩ := r
        dsimp only at hr
        split at hr
        · cases hr
        · rename_i hnz
          rw [Option.some.injEq, Prod.mk.injEq, Prod.mk.injEq] at hr
          obtain ⟨h1, h2, h3⟩ := hr
          subst h1 h2 h3
          refine ⟨s1, hm, ?_⟩
          rw [hm, Option.some_bind]
          dsimp only
          rw [if_neg hnz]

set_option maxRecDepth 100000 in
/-- C40 fails on the code: with `p = malloc(8)` on the heap `mm_init` builds (the
state `heap1`, `p = 4176`, block size 16, so 12 payload bytes), the call
`realloc(p, 100)` moves the block to 4192 and passes `memmove` the byte count
`MIN(104, 16) = 16`, four more than the payload capacity `16 - WSIZE = 12` of the
old block: the copy reads the bytes 4188..4191, the header word of the block that
follows `p`, and after the call the byte at offset 12 of the new block is 115,
the low byte of that header word at the time of the copy. -/
theorem realloc_copies_past_old_payload :
    realloc_memmove heap1 4176 100 = some (4192, 4176, 16) ∧
    (GET_SIZE heap1.mem 4176, GET_ALLOC heap1.mem 4176) = (16, 1) ∧
    GET_SIZE heap1.mem 4176 - WSIZE = 12 ∧
    ((malloc heap1 (adjust 100)).map fun a => (a.1, a.2.mem.byte (4176 + 12))) = some (4192, 115) ∧
    ((realloc heap1 4176 100).map fun r => (r.1, r.2.mem.byte (r.1 + 12))) = some (4192, 115) := by
  decide

set_option maxRecDepth 100000 in
/-- C39 fails on the code.  With the options `-s 4 -E 1 -b 4` and a cold cache, the
single access `L ffffffff00,1` is counted as a hit (1 hit, 0 misses): its tag
`0xffffffff` becomes -1 as an `int`, the tag of the invalid lines, and the first
loop of `update` does not test `valid_bit`.  And after `L 0,1` (a miss that fills
line 0 of set 0 with tag 0), the access `L 10000000000,1`, whose tag `2^32` differs
from 0, is counted as a hit on that line, since the tag is stored in an `int`. -/
theorem update_hits_without_resident_block :
    ((procedure (csim_start 4 1 4) [('L', 0xFFFFFFFF00, 1)]).map fun r =>
      (r.1.hit, r.1.miss, r.1.evictions, r.2)) = some (1, 0, 0, [⟨0, 0, AccessKind.hit⟩]) ∧
    (0xFFFFFFFF00 >>> (4 + 4) = 0xFFFFFFFF ∧ to_int 0xFFFFFFFF = -1) ∧
    ((procedure (csim_start 4 1 4) [('L', 0, 1), ('L', 0x10000000000, 1)]).map fun r =>
      (r.1.hit, r.1.miss, r.1.evictions, r.2)) =
      some (1, 1, 0, [⟨0, 0, AccessKind.fill⟩, ⟨0, 0, AccessKind.hit⟩]) ∧
    (0 >>> (4 + 4) = 0 ∧ 0x10000000000 >>> (4 + 4) = 2 ^ 32 ∧ to_int (2 ^ 32) = 0) := by
  decide


/-! ## `coalesce` in the terms of the chain and of the bucket lists -/

theorem freePrevSize_concat (pre : List Blk) (b : Blk) :
    freePrevSize (pre ++ [b]) = if b.alloc then 0 else b.size := by
  unfold freePrevSize
  rw [List.getLast?_append]
  simp

theorem freePrevSize_alloc (pre : List Blk) (h : lastAlloc true pre = true) :
    freePrevSize pre = 0 := by
  rcases List.eq_nil_or_concat pre with e | ⟨L, b, e⟩
  · subst e; rfl
  · have e' : pre = L ++ [b] := by simpa using e
    subst e'
    rw [lastAlloc_append] at h
    simp only [lastAlloc] at h
    rw [freePrevSize_concat, h]; rfl

/-- C32: for every block `bp` of size `sz` that is free and not in the index, in a
heap that is otherwise consistent (the chain `pre ++ bp :: post` is stored, the
index holds the other free blocks, and no two other blocks that are adjacent
are free), `coalesce(bp)` returns the block `r` that starts at the block before
`bp` when that block is free and at `bp` otherwise; afterwards header and footer
of `r` record the size `tot`, the sum of `sz` and of the sizes of those of the two
neighbours that are free, and `r` is free; the heap is consistent; no bucket
lists a block twice; and the bucket lists hold `r` in the bucket of `tot` and,
besides `r`, exactly the blocks they held before that lie outside the merged
block, so the free neighbours are no longer listed. -/
theorem coalesce_merges_free_neighbours (s : Heap) (pre post : List Blk) (sz : Nat)
    (bk : Nat → List Nat) (F : Nat → Nat → Prop)
    (h : Wf s (pre ++ Blk.mk sz false :: post) bk F)
    (hF : ∀ x z, F x z ↔ (IsFree (s.mem_start_brk + 80) (pre ++ Blk.mk sz false :: post) x z ∧
      x ≠ endAddr (s.mem_start_brk + 80) pre))
    (hna1 : NoAdj true pre) (hna2 : NoAdj true post) :
    ∃ r tot s', r = endAddr (s.mem_start_brk + 80) pre - freePrevSize pre ∧
      tot = freePrevSize pre + sz + freeNextSize post ∧
      coalesce s (endAddr (s.mem_start_brk + 80) pre) = some (r, s') ∧
      GET_SIZE s'.mem r = tot ∧ GET_ALLOC s'.mem r = 0 ∧
      GET s'.mem (FTRP s'.mem r) &&& 0xFFFFFFF8 = tot ∧
      HeapOK s' ∧
      (∀ i, i < 9 → (bucket_list s' i).Nodup) ∧
      (∀ i, i < 9 → ∀ x, x ∈ bucket_list s' i ↔
        ((x = r ∧ i = bucket tot) ∨ (x ∈ bucket_list s i ∧ ¬(r ≤ x ∧ x < r + tot)))) := by
  obtain ⟨pre', pm, nm, post', tot, m', bk', e1, e2, hfree, htot, hp1, hp2, hn1, hn2, hco, hWf',
    hna', -⟩ := coalesce_spec s pre post sz bk F h hF hna1 hna2
  -- the free neighbours
  have hprev : endAddr (s.mem_start_brk + 80) pre =
      endAddr (s.mem_start_brk + 80) pre' + freePrevSize pre ∧
      endAddr (endAddr (s.mem_start_brk + 80) pre') pm =
        endAddr (s.mem_start_brk + 80) pre' + freePrevSize pre := by
    cases hl : lastAlloc true pre with
    | true =>
      have := hp1 hl
      subst this
      rw [List.append_nil] at e1
      subst e1
      rw [freePrevSize_alloc _ hl]
      exact ⟨rfl, rfl⟩
    | false =>
      have hlen := hp2 hl
      obtain ⟨b, hb⟩ : ∃ b, pm = [b] := by
        match pm, hlen with
        | [b], _ => exact ⟨b, rfl⟩
      subst hb
      have hbf : b.alloc = false := hfree b (by simp)
      subst e1
      rw [freePrevSize_concat, hbf, endAddr_append]
      simp [endAddr]
  have hnext : ∀ a, endAddr a nm = a + freeNextSize post := by
    intro a
    cases post with
    | nil =>
      have := hn1 (fun c cs e => by cases e)
      subst this
      rfl
    | cons c cs =>
      cases hc : c.alloc with
      | true =>
        have := hn1 (fun c' cs' e => by
          rw [List.cons.injEq] at e; rw [← e.1]; exact hc)
        subst this
        simp [freeNextSize, hc, endAddr]
      | false =>
        have hlen := hn2 ⟨c, cs, rfl, hc⟩
        obtain ⟨d, hd⟩ : ∃ d, nm = [d] := by
          match nm, hlen with
          | [d], _ => exact ⟨d, rfl⟩
        subst hd
        simp only [List.singleton_append, List.cons.injEq] at e2
        obtain ⟨e3, -⟩ := e2
        subst e3
        simp [freeNextSize, hc, endAddr]
  have htot' : tot = freePrevSize pre + sz + freeNextSize post := by
    rw [endAddr_append] at htot
    simp only [endAddr] at htot
    rw [hnext, hprev.2] at htot
    omega
  have hr : endAddr (s.mem_start_brk + 80) pre' =
      endAddr (s.mem_start_brk + 80) pre - freePrevSize pre := by
    have := hprev.1; omega
  have hmem := mem_blocks_of_split (s.mem_start_brk + 80) true pre' post' (Blk.mk tot false)
  have hsz := blk_size _ _ _ _ hWf' _ _ _ hmem
  have hbnd := blk_bounds _ _ _ _ hWf' _ _ _ hmem
  simp only at hsz hbnd
  have hblk := hWf'.seg _ hmem
  obtain ⟨-, h8, -, hft⟩ := hblk
  obtain ⟨t, ht, hfoot⟩ := hft rfl
  simp only at h8 hfoot
  have hchain : pre ++ Blk.mk sz false :: post = pre' ++ (pm ++ Blk.mk sz false :: nm) ++ post' := by
    rw [e1, e2]; simp [List.append_assoc]
  have hpos := Seg_pos _ _ _ _ h.seg
  rw [hchain] at hpos
  have hbp : ∃ p, (endAddr (s.mem_start_brk + 80) pre, p, Blk.mk sz false) ∈
      blocks (endAddr (s.mem_start_brk + 80) pre') true (pm ++ Blk.mk sz false :: nm) := by
    have := mem_blocks_of_split (endAddr (s.mem_start_brk + 80) pre') true pm nm (Blk.mk sz false)
    rw [← endAddr_append, ← e1] at this
    exact ⟨_, this⟩
  have hbl : ∀ i, i < 9 → bucket_list s i = bk i := fun i hi => bucket_list_eq s _ bk F h i hi
  have hbl' : ∀ i, i < 9 → bucket_list { s with mem := m' } i = bk' i :=
    fun i hi => bucket_list_eq _ _ bk' _ hWf' i hi
  refine ⟨_, tot, { s with mem := m' }, hr, htot', hco, hsz.1, hsz.2, ?_, ⟨_, bk', hWf', hna'⟩,
    ?_, ?_⟩
  · show GET m' (FTRP m' _) &&& 0xFFFFFFF8 = tot
    have e : FTRP m' (endAddr (s.mem_start_brk + 80) pre') =
        endAddr (s.mem_start_brk + 80) pre' + tot - 8 := by
      unfold FTRP DSIZE; rw [hsz.1]
    rw [e, hfoot, and_size_mask _ (by omega)]
    omega
  · intro i hi
    rw [hbl' i hi]
    exact hWf'.index.nodup i hi
  · intro i hi x
    rw [hbl' i hi, hbl i hi]
    constructor
    · intro hx
      obtain ⟨z, pa, -, hbz, hm⟩ := node_blk _ _ _ _ hWf' i hi x hx
      rcases (isBlk_split _ true false pre' post' _ x _).mp ⟨pa, hm⟩ with g | ⟨g1, g2⟩ | g
      · right
        have hb := isBlk_bounds _ _ _ _ _ g
        have hfo := (F_outside_mid (s.mem_start_brk + 80) pre' (pm ++ Blk.mk sz false :: nm) post'
          hpos x z).mpr (Or.inl g)
        rw [← hchain] at hfo
        have hne : x ≠ endAddr (s.mem_start_brk + 80) pre := by
          intro e
          obtain ⟨p, hp⟩ := hbp
          rw [← e] at hp
          exact hfo.2 ⟨p, _, hp⟩
        have hFx := (hF x z).mpr ⟨hfo.1, hne⟩
        have := h.index.complete x z hFx
        rw [hbz] at this
        obtain ⟨p', hp'⟩ := g
        have hz := hpos _ (by
          have := mem_blocks_mem _ _ _ _ _ _ hp'
          simp only [List.mem_append]; exact Or.inl (Or.inl this))
        simp only at hb hz
        exact ⟨this, by omega⟩
      · left
        rw [Blk.mk.injEq] at g2
        exact ⟨g1, by rw [← hbz, g2.1]⟩
      · right
        have hb := isBlk_bounds _ _ _ _ _ g
        simp only at hb
        rw [htot] at g
        have hfo := (F_outside_mid (s.mem_start_brk + 80) pre' (pm ++ Blk.mk sz false :: nm) post'
          hpos x z).mpr (Or.inr g)
        rw [← hchain] at hfo
        have hne : x ≠ endAddr (s.mem_start_brk + 80) pre := by
          intro e
          obtain ⟨p, hp⟩ := hbp
          rw [← e] at hp
          exact hfo.2 ⟨p, _, hp⟩
        have hFx := (hF x z).mpr ⟨hfo.1, hne⟩
        have := h.index.complete x z hFx
        rw [hbz] at this
        exact ⟨this, by omega⟩
    · rintro (⟨g1, g2⟩ | ⟨g1, g2⟩)
      · rw [g1, g2]
        exact hWf'.index.complete _ _ ⟨_, hmem⟩
      · obtain ⟨z, pa, hFx, hbz, hm⟩ := node_blk _ _ _ _ h i hi x g1
        have hfx := (hF x z).mp hFx
        have hnot : ¬(∃ p b, (x, p, b) ∈
            blocks (endAddr (s.mem_start_brk + 80) pre') true (pm ++ Blk.mk sz false :: nm)) := by
          rintro ⟨p, b, hb⟩
          have b1 := mem_blocks_bounds _ _ _ _ _ _ hb
          have hz := hpos _ (by
            have := mem_blocks_mem _ _ _ _ _ _ hb
            exact List.mem_append_left _ (List.mem_append_right _ this))
          rw [← htot] at b1
          exact g2 ⟨b1.1, by omega⟩
        have hin := hfx.1
        rw [hchain] at hin
        have hcase := (F_outside_mid (s.mem_start_brk + 80) pre' (pm ++ Blk.mk sz false :: nm) post'
          hpos x z).mp ⟨hin, hnot⟩
        have hnew : IsFree (s.mem_start_brk + 80) (pre' ++ Blk.mk tot false :: post') x z := by
          unfold IsFree
          rw [isBlk_split _ true false]
          rcases hcase with c | c
          · exact Or.inl c
          · rw [← htot] at c
            exact Or.inr (Or.inr c)
        have := hWf'.index.complete x z hnew
        rw [hbz] at this
        exact this

/-! ## Scripts of calls reach consistent heaps -/

theorem check_valid (L : List Nat) (c : Call) (h : c.check L = true) : c.valid L := by
  unfold Call.check at h
  rw [Bool.and_eq_true] at h
  obtain ⟨h1, h2⟩ := h
  refine ⟨of_decide_eq_true h1, ?_⟩
  cases c with
  | malloc n => exact (decide_eq_true_iff.mp h2 : n + 11 < SZ)
  | calloc k n => exact (decide_eq_true_iff.mp h2 : (n * k) % SZ + 11 < SZ)
  | free p => trivial
  | realloc p n => exact (decide_eq_true_iff.mp h2 : n + 19 < SZ)

theorem reach_run_calls (cs : List Call) (s : Heap) (L : List Nat) (s' : Heap) (L' : List Nat)
    (hR : Reach s L) (h : run_calls s L cs = some (s', L')) : Reach s' L' := by
  induction cs generalizing s L with
  | nil =>
    simp only [run_calls, Option.some.injEq, Prod.mk.injEq] at h
    obtain ⟨h1, h2⟩ := h
    subst h1 h2
    exact hR
  | cons c cs ih =>
    simp only [run_calls] at h
    split at h
    · rename_i hc
      obtain ⟨r, hr, hrest⟩ := Option.bind_eq_some.mp h
      obtain ⟨r1, s1⟩ := r
      exact ih s1 _ (Reach.call s L c r1 s1 hR (check_valid L c hc) hr) hrest
    · cases h

theorem option_run_fst (o : Option (Heap × List Nat)) (L : List Nat) (d : Heap)
    (h : o.map Prod.snd = some L) : o = some ((o.map Prod.fst).getD d, L) := by
  cases o with
  | none => simp at h
  | some x =>
    obtain ⟨x1, x2⟩ := x
    simp only [Option.map_some', Option.some.injEq] at h
    subst h
    rfl

/-- The blocks of a consistent heap are the ones the walk of the chain finds. -/
theorem chain_determines (s : Heap) (bs : List Blk) (bk : Nat → List Nat)
    (F : Nat → Nat → Prop) (h : Wf s bs bk F) :
    bs = (chain s).map fun x => Blk.mk x.2.1 (decide (x.2.2 ≠ 0)) := by
  rw [chain_eq s bs bk F h, List.map_map]
  clear h
  generalize s.mem_start_brk + 80 = a
  generalize true = pa
  induction bs generalizing a pa with
  | nil => rfl
  | cons b bs ih =>
    simp only [blocks, List.map_cons, Function.comp]
    rw [← ih]
    congr 1
    obtain ⟨sz, al⟩ := b
    cases al <;> rfl

set_option maxRecDepth 100000 in
theorem run_scriptF : run_calls heap0 [] scriptF = some (heapF, [4328, 4264, 4208]) :=
  option_run_fst _ _ _ (by decide)

theorem reach_heapF : Reach heapF [4328, 4264, 4208] :=
  reach_run_calls _ _ _ _ _ reach_heap0 run_scriptF

set_option maxRecDepth 100000 in
theorem chain_heapF : chain heapF =
    [(4176, 32, 0), (4208, 16, 1), (4224, 40, 0), (4264, 16, 1), (4280, 48, 0), (4328, 16, 1),
      (4344, 16216, 0)] := by
  decide

set_option maxRecDepth 100000 in
theorem lo_heapF : heapF.mem_start_brk = 4096 := by decide

/-- The heap `heapF` is consistent, with this chain of blocks. -/
theorem wf_heapF : ∃ bk, Wf heapF
    [Blk.mk 32 false, Blk.mk 16 true, Blk.mk 40 false, Blk.mk 16 true, Blk.mk 48 false,
      Blk.mk 16 true, Blk.mk 16216 false] bk
    (IsFree 4176 [Blk.mk 32 false, Blk.mk 16 true, Blk.mk 40 false, Blk.mk 16 true,
      Blk.mk 48 false, Blk.mk 16 true, Blk.mk 16216 false]) := by
  obtain ⟨bs, bk, hWf, -⟩ := reach_inv heapF _ reach_heapF
  have hbs := chain_determines heapF bs bk _ hWf
  rw [chain_heapF] at hbs
  have hbs' : bs = [Blk.mk 32 false, Blk.mk 16 true, Blk.mk 40 false, Blk.mk 16 true,
      Blk.mk 48 false, Blk.mk 16 true, Blk.mk 16216 false] := by rw [hbs]; rfl
  subst hbs'
  rw [lo_heapF] at hWf
  exact ⟨bk, hWf⟩

set_option maxRecDepth 100000 in
theorem buckets_heapF :
    bucket_list heapF 1 = [4176, 4224, 4280] ∧ bucket_list heapF 8 = [4344] ∧
    (GET_SIZE heapF.mem 4176, GET_SIZE heapF.mem 4224, GET_SIZE heapF.mem 4280,
      GET_SIZE heapF.mem 4344) = (32, 40, 48, 16216) := by
  decide


/-! ## Witnesses on the fragmented heap `heapF` -/

theorem isFree_heapF_4224 : IsFree 4176
    [Blk.mk 32 false, Blk.mk 16 true, Blk.mk 40 false, Blk.mk 16 true, Blk.mk 48 false,
      Blk.mk 16 true, Blk.mk 16216 false] 4224 40 :=
  ⟨true, by simp [blocks]⟩

set_option maxRecDepth 100000 in
theorem sorted_heapF : ∀ i, i < 9 →
    (bucket_list heapF i).Pairwise fun x y => GET_SIZE heapF.mem x ≤ GET_SIZE heapF.mem y := by
  decide

set_option maxRecDepth 100000 in
theorem find_fit_heapF : find_fit heapF 40 = some 4224 ∧ find_fit heapF 56 = some 4344 := by
  decide

theorem find_fit_best_fit_witness :
    (bucket_list heapF 1 = [4176, 4224, 4280] ∧ bucket_list heapF 8 = [4344] ∧
      (GET_SIZE heapF.mem 4176, GET_SIZE heapF.mem 4224, GET_SIZE heapF.mem 4280,
        GET_SIZE heapF.mem 4344) = (32, 40, 48, 16216)) ∧
    (find_fit heapF 40 = some 4224 ∧ find_fit heapF 56 = some 4344) ∧
    ∃ r, find_fit heapF 40 = some r ∧
      (r ≠ 0 → 40 ≤ GET_SIZE heapF.mem r ∧ (∃ i, i < 9 ∧ r ∈ bucket_list heapF i) ∧
        ∀ i, i < 9 → ∀ x ∈ bucket_list heapF i, 40 ≤ GET_SIZE heapF.mem x →
          GET_SIZE heapF.mem r ≤ GET_SIZE heapF.mem x) := by
  refine ⟨buckets_heapF, find_fit_heapF, ?_⟩
  obtain ⟨bk, hWf⟩ := wf_heapF
  obtain ⟨h1, h2, h3, h4⟩ := index_of_wf heapF _ bk _ hWf
  have h5 := sorted_heapF
  generalize bucket_list heapF = bl at h2 h3 h4 h5 ⊢
  exact find_fit_best_fit heapF bl h1 h2 h3 h4 h5 40

theorem delete_removes_block_witness :
    (bucket_list heapF 1 = [4176, 4224, 4280] ∧ bucket_list heapF 8 = [4344] ∧
      (GET_SIZE heapF.mem 4176, GET_SIZE heapF.mem 4224, GET_SIZE heapF.mem 4280,
        GET_SIZE heapF.mem 4344) = (32, 40, 48, 16216)) ∧
    bucket 40 = 1 ∧
    ∃ s', delete heapF 4224 = some s' ∧ GET_SIZE heapF.mem 4224 = 40 ∧
      4224 ∈ bucket_list heapF (bucket 40) ∧
      bucket_list s' (bucket 40) = (bucket_list heapF (bucket 40)).erase 4224 ∧
      4224 ∉ bucket_list s' (bucket 40) ∧
      ∀ i, i < 9 → i ≠ bucket 40 → bucket_list s' i = bucket_list heapF i := by
  refine ⟨buckets_heapF, by decide, ?_⟩
  obtain ⟨bk, hWf⟩ := wf_heapF
  exact delete_removes_block heapF _ bk _ hWf 4224 40 isFree_heapF_4224

set_option maxRecDepth 100000 in
theorem facts_heapFd :
    bucket_list heapFd 1 = [4176, 4280] ∧ bucket 40 = 1 ∧
    (GET_SIZE heapFd.mem 4176, GET_SIZE heapFd.mem 4224, GET_SIZE heapFd.mem 4280) = (32, 40, 48) ∧
    ((insert heapFd 4224).map fun r => (r.1, bucket_list r.2 1)) = some (4224, [4176, 4224, 4280]) := by
  decide

set_option maxRecDepth 100000 in
theorem sorted_heapFd : (bucket_list heapFd (bucket 40)).Pairwise
    fun x y => GET_SIZE heapFd.mem x ≤ GET_SIZE heapFd.mem y := by
  decide

theorem insert_keeps_sorted_witness :
    (bucket_list heapFd 1 = [4176, 4280] ∧ bucket 40 = 1 ∧
      (GET_SIZE heapFd.mem 4176, GET_SIZE heapFd.mem 4224, GET_SIZE heapFd.mem 4280) =
        (32, 40, 48) ∧
      ((insert heapFd 4224).map fun r => (r.1, bucket_list r.2 1)) =
        some (4224, [4176, 4224, 4280])) ∧
    ∃ s' l1 l2, insert heapFd 4224 = some (4224, s') ∧ GET_SIZE heapFd.mem 4224 = 40 ∧
      bucket_list heapFd (bucket 40) = l1 ++ l2 ∧ 4224 ∉ l1 ++ l2 ∧
      bucket_list s' (bucket 40) = l1 ++ 4224 :: l2 ∧
      (∀ x ∈ l1, GET_SIZE heapFd.mem x < GET_SIZE heapFd.mem 4224) ∧
      (∀ x ∈ l2, GET_SIZE heapFd.mem 4224 ≤ GET_SIZE heapFd.mem x) ∧
      (bucket_list s' (bucket 40)).Pairwise
        (fun x y => GET_SIZE s'.mem x ≤ GET_SIZE s'.mem y) ∧
      ∀ i, i < 9 → i ≠ bucket 40 → bucket_list s' i = bucket_list heapFd i := by
  refine ⟨facts_heapFd, ?_⟩
  obtain ⟨bk, hWf⟩ := wf_heapF
  have hF := isFree_heapF_4224
  obtain ⟨l1, l2, -, m', hdel, hWf', -⟩ := delete_spec heapF _ bk _ hWf 4224 40 hF
  have e : heapFd = { heapF with mem := m' } := by
    unfold heapFd; rw [hdel]; rfl
  have hsorted := sorted_heapFd
  generalize heapFd = sd at e hsorted ⊢
  subst e
  have hb : ((4224 : Nat), true, Blk.mk 40 false) ∈ blocks (heapF.mem_start_brk + 80) true
      [Blk.mk 32 false, Blk.mk 16 true, Blk.mk 40 false, Blk.mk 16 true, Blk.mk 48 false,
        Blk.mk 16 true, Blk.mk 16216 false] := by
    rw [lo_heapF]; simp [blocks]
  exact insert_keeps_sorted _ _ _ _ hWf' 4224 40 true hb (fun z hz => hz.2 rfl) hsorted


set_option maxRecDepth 100000 in
theorem facts_heapFm :
    bucket_list heapFm 1 = [4176, 4224, 4280] ∧ bucket_list heapFm 2 = [] ∧
    (GET_SIZE heapFm.mem 4208, GET_ALLOC heapFm.mem 4208) = (16, 0) ∧
    ((coalesce heapFm 4208).map fun r => (r.1, GET_SIZE r.2.mem r.1, GET_ALLOC r.2.mem r.1)) =
      some (4176, 88, 0) ∧
    ((coalesce heapFm 4208).map fun r => (bucket_list r.2 1, bucket_list r.2 2)) =
      some ([4280], [4176]) := by
  decide

theorem coalesce_merges_free_neighbours_witness :
    (bucket_list heapFm 1 = [4176, 4224, 4280] ∧ bucket_list heapFm 2 = [] ∧
      (GET_SIZE heapFm.mem 4208, GET_ALLOC heapFm.mem 4208) = (16, 0) ∧
      ((coalesce heapFm 4208).map fun r => (r.1, GET_SIZE r.2.mem r.1, GET_ALLOC r.2.mem r.1)) =
        some (4176, 88, 0) ∧
      ((coalesce heapFm 4208).map fun r => (bucket_list r.2 1, bucket_list r.2 2)) =
        some ([4280], [4176])) ∧
    ∃ r tot s', r = endAddr (heapFm.mem_start_brk + 80) [Blk.mk 32 false] -
        freePrevSize [Blk.mk 32 false] ∧
      tot = freePrevSize [Blk.mk 32 false] + 16 + freeNextSize [Blk.mk 40 false, Blk.mk 16 true,
        Blk.mk 48 false, Blk.mk 16 true, Blk.mk 16216 false] ∧
      coalesce heapFm (endAddr (heapFm.mem_start_brk + 80) [Blk.mk 32 false]) = some (r, s') ∧
      GET_SIZE s'.mem r = tot ∧ GET_ALLOC s'.mem r = 0 ∧
      GET s'.mem (FTRP s'.mem r) &&& 0xFFFFFFF8 = tot ∧
      HeapOK s' ∧
      (∀ i, i < 9 → (bucket_list s' i).Nodup) ∧
      (∀ i, i < 9 → ∀ x, x ∈ bucket_list s' i ↔
        ((x = r ∧ i = bucket tot) ∨ (x ∈ bucket_list heapFm i ∧ ¬(r ≤ x ∧ x < r + tot)))) := by
  refine ⟨facts_heapFm, ?_⟩
  obtain ⟨bk, hWf0⟩ := wf_heapF
  have hWf : Wf heapF ([Blk.mk 32 false] ++ Blk.mk 16 true :: [Blk.mk 40 false, Blk.mk 16 true,
      Blk.mk 48 false, Blk.mk 16 true, Blk.mk 16216 false]) bk
      (IsFree (heapF.mem_start_brk + 80) ([Blk.mk 32 false] ++ Blk.mk 16 true ::
        [Blk.mk 40 false, Blk.mk 16 true, Blk.mk 48 false, Blk.mk 16 true,
          Blk.mk 16216 false])) := by
    rw [lo_heapF]; exact hWf0
  obtain ⟨m3, hm3, hWf', hiff, -⟩ := free_mark heapF _ _ 16 bk hWf
  have ha : endAddr (heapF.mem_start_brk + 80) [Blk.mk 32 false] = 4208 := by
    rw [lo_heapF]; rfl
  have e : heapFm = { heapF with mem := m3 } := by
    rw [← hm3, ha]; rfl
  rw [e]
  generalize heapF = s0 at hWf' hiff ⊢
  exact coalesce_merges_free_neighbours _ [Blk.mk 32 false] _ 16 bk _ hWf' hiff
    ⟨Or.inl rfl, trivial⟩
    ⟨Or.inl rfl, Or.inr rfl, Or.inl rfl, Or.inr rfl, Or.inl rfl, trivial⟩


/-! ## `malloc` and the aligned request -/

/-- The size `malloc(n)` computes when nothing wraps: the aligned request, and for
`n = 448`, which it replaces by 512, the size 520. -/
theorem adjust_request (n : Nat) (hfit : n + 11 < SZ) :
    adjust (if n = 448 then 512 else n) = if n = 448 then 520 else aligned_request n := by
  by_cases h448 : n = 448
  · rw [if_pos h448, if_pos h448, adjust_eq 512 (by unfold SZ; norm_num)]
    rfl
  · rw [if_neg h448, if_neg h448, adjust_eq n hfit]

theorem fresh_arena2 : Fresh arena2 := by
  unfold Fresh arena2; norm_num

theorem reach_heap2 : Reach heap2 [] :=
  Reach.init arena2 heap2 fresh_arena2 (mm_init_run arena2 fresh_arena2 (by decide))

set_option maxRecDepth 100000 in
/-- C8 fails as stated.  On `arena2`, where `mm_init` leaves one free block of 16384
bytes and no room to grow, `malloc(15900)` leaves the free block 20080 of 480
bytes in bucket 4, and `mem_sbrk` fails for every request.  First, `malloc(448)`
then returns null although the block of 480 bytes is large enough for the
aligned request `max(16, roundup8(448 + 4)) = 456`: `malloc` replaces 448 by 512
and looks for 520 bytes.  Second, `malloc(2^64 - 1)` returns the non-null
pointer 20080 although no free block is large enough for the aligned request
and the growth primitive fails: `size + WSIZE` wraps around to 3. -/
theorem malloc_null_not_aligned_request :
    (mm_init arena2).map (fun r => (r.1, chain r.2)) = some (0, [(4176, 16384, 0)]) ∧
    ((malloc heap2 15900).map fun a => (a.1, chain a.2, bucket_list a.2 4)) =
      some (4176, [(4176, 15904, 1), (20080, 480, 0)], [20080]) ∧
    ((malloc heap2 15900).map fun a =>
      (a.2.mem_brk, a.2.mem_max_addr, decide ((mem_sbrk a.2 1).1 = FAIL))) =
      some (20560, 20560, true) ∧
    aligned_request 448 = 456 ∧
    ((malloc heap2 15900).bind fun a => (malloc a.2 448).map fun q => q.1) = some 0 ∧
    480 < aligned_request (2 ^ 64 - 1) ∧
    ((malloc heap2 15900).bind fun a => (malloc a.2 (2 ^ 64 - 1)).map fun q => q.1) =
      some 20080 := by
  decide

/-- C8, amended: for every consistent heap and every `n` with `n + 11 < 2^64`,
`malloc(n)` returns, and it returns null if and only if `n = 0`, or no block of
the nine bucket lists is large enough for the aligned request
`max(16, roundup8(n + 4))` (for `n = 448`, which `malloc` replaces by 512, for
520 bytes) and the growth primitive fails for the maximum of that size and
`CHUNKSIZE`; in every other case the pointer is not null. -/
theorem malloc_null_iff_aligned (s : Heap) (hOK : HeapOK s) (n : Nat) (hfit : n + 11 < SZ) :
    ∃ p s', malloc s n = some (p, s') ∧
      (p = 0 ↔ (n = 0 ∨
        ((∀ i, i < free_list_size → ∀ x ∈ bucket_list s i,
            GET_SIZE s.mem x < if n = 448 then 520 else aligned_request n) ∧
          (mem_sbrk s (MAX (if n = 448 then 520 else aligned_request n) CHUNKSIZE)).1 = FAIL))) := by
  have h := malloc_null_iff s hOK n
  rw [adjust_request n hfit] at h
  exact h

set_option maxRecDepth 100000 in
theorem malloc_null_iff_aligned_witness :
    ((malloc heap2 20000).map Prod.fst = some 0 ∧ bucket_list heap2 8 = [4176] ∧
      GET_SIZE heap2.mem 4176 = 16384 ∧ aligned_request 20000 = 20008) ∧
    ∃ p s', malloc heap2 20000 = some (p, s') ∧
      (p = 0 ↔ ((20000 : Nat) = 0 ∨
        ((∀ i, i < free_list_size → ∀ x ∈ bucket_list heap2 i,
            GET_SIZE heap2.mem x < if (20000 : Nat) = 448 then 520 else aligned_request 20000) ∧
          (mem_sbrk heap2 (MAX (if (20000 : Nat) = 448 then 520 else aligned_request 20000)
            CHUNKSIZE)).1 = FAIL))) :=
  ⟨by decide, malloc_null_iff_aligned heap2 (reach_heapOK _ _ reach_heap2) 20000
    (by unfold SZ; norm_num)⟩

set_option maxRecDepth 100000 in
/-- C36 fails on the code.  On `arena2`, after `malloc(15900)`, the heap is
consistent, its only free block is 20080 with 480 bytes, and the arena is full,
so that `mem_sbrk` fails for every request.  For `n = 2^64 - 1` no free block
fits and the growth primitive fails, yet `malloc(n)` returns the non-null
pointer 20080 and changes the heap: it splits the free block into an allocated
block of 16 bytes and a free block of 464 bytes. -/
theorem malloc_wrapped_request_on_full_heap :
    (mm_init arena2).map (fun r => (r.1, chain r.2)) = some (0, [(4176, 16384, 0)]) ∧
    ((malloc heap2 15900).map fun a => (a.1, chain a.2)) =
      some (4176, [(4176, 15904, 1), (20080, 480, 0)]) ∧
    ((malloc heap2 15900).map fun a => (List.range 9).map (bucket_list a.2)) =
      some [[], [], [], [], [20080], [], [], [], []] ∧
    ((malloc heap2 15900).map fun a =>
      (a.2.mem_brk, a.2.mem_max_addr, decide ((mem_sbrk a.2 1).1 = FAIL))) =
      some (20560, 20560, true) ∧
    ((malloc heap2 15900).bind fun a => (malloc a.2 (2 ^ 64 - 1)).map fun q => (q.1, chain q.2)) =
      some (20080, [(4176, 15904, 1), (20080, 16, 1), (20096, 464, 0)]) ∧
    ((malloc heap2 15900).bind fun a => (malloc a.2 (2 ^ 64 - 1)).map fun q =>
      (List.range 9).map (bucket_list q.2)) =
      some [[], [], [], [], [20096], [], [], [], []] := by
  decide

set_option maxRecDepth 100000 in
/-- C33 fails as stated.  First, after `malloc(15900)` on `heap0` the free block
20080 has 480 bytes and `find_fit` succeeds for the aligned size
`max(16, roundup8(448 + 4)) = 456`, yet `malloc(448)` grows the arena by 3072
bytes (from 20560 to 23632): it replaces 448 by 512 and looks for 520 bytes.
Second, for `n = 2^64 - 1` `find_fit` misses for the aligned size on `heap0`, yet
`malloc(n)` makes no request to the growth primitive and returns the listed
block 4176: `size + WSIZE` wraps around to 3.  Third, on the full arena of
`heap2` the call `malloc(20000)` misses, the growth primitive fails, and the
epilogue does not move. -/
theorem malloc_growth_not_by_aligned_size :
    aligned_request 448 = 456 ∧
    ((malloc heap0 15900).map fun a => (chain a.2, find_fit a.2 456, a.2.mem_brk, a.2.epilogue)) =
      some ([(4176, 15904, 1), (20080, 480, 0)], some 20080, 20560, 20560) ∧
    ((malloc heap0 15900).bind fun a => (malloc a.2 448).map fun q =>
      (q.1, q.2.mem_brk, q.2.epilogue)) = some (20080, 23632, 23632) ∧
    find_fit heap0 (aligned_request (2 ^ 64 - 1)) = some 0 ∧
    (heap0.mem_brk, heap0.epilogue) = (20560, 20560) ∧
    ((malloc heap0 (2 ^ 64 - 1)).map fun q => (q.1, q.2.mem_brk, q.2.epilogue)) =
      some (4176, 20560, 20560) ∧
    find_fit heap2 (aligned_request 20000) = some 0 ∧
    (mem_sbrk heap2 (MAX (aligned_request 20000) CHUNKSIZE)).1 = FAIL ∧
    heap2.epilogue = 20560 ∧
    ((malloc heap2 20000).map fun q => (q.1, q.2.mem_brk, q.2.epilogue)) =
      some (0, 20560, 20560) := by
  decide

/-- C33, amended: for every consistent heap and every request `n > 0` with
`n + 11 < 2^64`, with the aligned size `asize = max(16, roundup8(n + 4))` (for
`n = 448`, which `malloc` replaces by 512, `asize = 520`), `find_fit(asize)`
returns, and: if it finds a block, `malloc(n)` returns that block with the arena
end and the epilogue where they were; if it misses, `malloc(n)` asks `mem_sbrk`
for exactly `w = MAX(asize, 3072)` bytes, and when the primitive grants them (it
fails exactly when `mem_brk + w` exceeds the arena limit, and then `malloc`
returns null and changes nothing), `extend_heap` moves the arena end and the
epilogue up by `w` and returns one free block that starts at the last block of
the chain and has its size plus `w` when that block is free, and starts at the
old arena end with size `w` otherwise; `malloc` then places the request in that
block and returns it. -/
theorem malloc_grows_on_miss_aligned (s : Heap) (hok : HeapOK s) (n : Nat) (hn : n ≠ 0)
    (hfit : n + 11 < SZ) :
    CHUNKSIZE = 3072 ∧
    ∃ r, find_fit s (if n = 448 then 520 else aligned_request n) = some r ∧
      (r ≠ 0 → ∃ p s', malloc s n = some (p, s') ∧ p = r ∧
        s'.mem_brk = s.mem_brk ∧ s'.epilogue = s.epilogue) ∧
      (r = 0 → ∀ w, w = MAX (if n = 448 then 520 else aligned_request n) CHUNKSIZE →
        ((mem_sbrk s w).1 = FAIL ↔ s.mem_brk + w > s.mem_max_addr) ∧
        ((mem_sbrk s w).1 = FAIL → malloc s n = some (0, s)) ∧
        ((mem_sbrk s w).1 ≠ FAIL →
          ∃ bp s1 s', extend_heap s w = some (bp, s1) ∧
            s1.mem_brk = s.mem_brk + w ∧ s1.epilogue = s.epilogue + w ∧
            GET_ALLOC s1.mem bp = 0 ∧
            (∀ a lsz, (chain s).getLast? = some (a, lsz, 0) →
              bp = a ∧ GET_SIZE s1.mem bp = lsz + w) ∧
            ((∀ a lsz, (chain s).getLast? ≠ some (a, lsz, 0)) →
              bp = s.mem_brk ∧ GET_SIZE s1.mem bp = w) ∧
            malloc s n = some (bp, s') ∧
            s'.mem_brk = s.mem_brk + w ∧ s'.epilogue = s.epilogue + w)) := by
  have h := malloc_grows_on_miss s hok n hn
  rw [adjust_request n hfit] at h
  exact h

set_option maxRecDepth 100000 in
theorem malloc_grows_on_miss_aligned_witness :
    (find_fit heap0 (aligned_request 20000) = some 0 ∧
      MAX (aligned_request 20000) CHUNKSIZE = 20008 ∧
      (mem_sbrk heap0 20008).1 ≠ FAIL ∧
      chain heap0 = [(4176, 16384, 0)] ∧ (heap0.mem_brk, heap0.epilogue) = (20560, 20560) ∧
      ((extend_heap heap0 20008).map fun r =>
        (r.1, GET_SIZE r.2.mem r.1, GET_ALLOC r.2.mem r.1, r.2.mem_brk, r.2.epilogue)) =
        some (4176, 36392, 0, 40568, 40568) ∧
      ((malloc heap0 20000).map fun q => (q.1, chain q.2, q.2.mem_brk, q.2.epilogue)) =
        some (4176, [(4176, 20008, 1), (24184, 16384, 0)], 40568, 40568)) ∧
    (CHUNKSIZE = 3072 ∧
    ∃ r, find_fit heap0 (if (20000 : Nat) = 448 then 520 else aligned_request 20000) = some r ∧
      (r ≠ 0 → ∃ p s', malloc heap0 20000 = some (p, s') ∧ p = r ∧
        s'.mem_brk = heap0.mem_brk ∧ s'.epilogue = heap0.epilogue) ∧
      (r = 0 → ∀ w, w = MAX (if (20000 : Nat) = 448 then 520 else aligned_request 20000)
          CHUNKSIZE →
        ((mem_sbrk heap0 w).1 = FAIL ↔ heap0.mem_brk + w > heap0.mem_max_addr) ∧
        ((mem_sbrk heap0 w).1 = FAIL → malloc heap0 20000 = some (0, heap0)) ∧
        ((mem_sbrk heap0 w).1 ≠ FAIL →
          ∃ bp s1 s', extend_heap heap0 w = some (bp, s1) ∧
            s1.mem_brk = heap0.mem_brk + w ∧ s1.epilogue = heap0.epilogue + w ∧
            GET_ALLOC s1.mem bp = 0 ∧
            (∀ a lsz, (chain heap0).getLast? = some (a, lsz, 0) →
              bp = a ∧ GET_SIZE s1.mem bp = lsz + w) ∧
            ((∀ a lsz, (chain heap0).getLast? ≠ some (a, lsz, 0)) →
              bp = heap0.mem_brk ∧ GET_SIZE s1.mem bp = w) ∧
            malloc heap0 20000 = some (bp, s') ∧
            s'.mem_brk = heap0.mem_brk + w ∧ s'.epilogue = heap0.epilogue + w))) :=
  ⟨by decide, malloc_grows_on_miss_aligned heap0 (reach_heapOK _ _ reach_heap0) 20000 (by decide)
    (by unfold SZ; norm_num)⟩


/-! ## `realloc` on its move path and the sequence `malloc`, copy, `free` -/

/-- The chain `free(p)` leaves depends only on the chain before the call: two
consistent states that store the same chain have the same chain afterwards. -/
theorem free_chain_congr (s t : Heap) (pre post : List Blk) (sz : Nat) (bks bkt : Nat → List Nat)
    (hs : Wf s (pre ++ Blk.mk sz true :: post) bks
      (IsFree (s.mem_start_brk + 80) (pre ++ Blk.mk sz true :: post)))
    (ht : Wf t (pre ++ Blk.mk sz true :: post) bkt
      (IsFree (t.mem_start_brk + 80) (pre ++ Blk.mk sz true :: post)))
    (hlo : t.mem_start_brk = s.mem_start_brk)
    (hna : NoAdj true (pre ++ Blk.mk sz true :: post)) :
    ∃ s' t', free s (endAddr (s.mem_start_brk + 80) pre) = some s' ∧
      free t (endAddr (s.mem_start_brk + 80) pre) = some t' ∧ chain s' = chain t' := by
  obtain ⟨pre1, pm1, nm1, post1, tot1, m1, bk1, e1, f1, -, htot1, a1, b1, c1, d1, hfree1, hWf1, -, -⟩ :=
    free_spec s pre post sz bks hs hna
  obtain ⟨pre2, pm2, nm2, post2, tot2, m2, bk2, e2, f2, -, htot2, a2, b2, c2, d2, hfree2, hWf2, -, -⟩ :=
    free_spec t pre post sz bkt ht hna
  rw [hlo] at htot2 hfree2 hWf2
  have hpm : pm1.length = pm2.length := by
    cases hl : lastAlloc true pre with
    | true => rw [a1 hl, a2 hl]
    | false => rw [b1 hl, b2 hl]
  have hnm : nm1.length = nm2.length := by
    cases post with
    | nil =>
      rw [c1 (fun c cs e => by cases e), c2 (fun c cs e => by cases e)]
    | cons c cs =>
      cases hc : c.alloc with
      | true =>
        have hA : ∀ c' cs', c :: cs = c' :: cs' → c'.alloc = true := by
          intro c' cs' e
          rw [List.cons.injEq] at e
          rw [← e.1]; exact hc
        rw [c1 hA, c2 hA]
      | false => rw [d1 ⟨c, cs, rfl, hc⟩, d2 ⟨c, cs, rfl, hc⟩]
  obtain ⟨g1, g2⟩ := List.append_inj' (e1.symm.trans e2) hpm
  obtain ⟨g3, g4⟩ := List.append_inj (f1.symm.trans f2) hnm
  subst g1 g2 g3 g4
  have htot : tot1 = tot2 := by omega
  subst htot
  refine ⟨_, _, hfree1, hfree2, ?_⟩
  rw [chain_eq _ _ bk1 _ hWf1, chain_eq _ _ bk2 _ hWf2]

set_option maxRecDepth 100000 in
/-- C13 fails as stated.  First, on the heap with one 16-byte block at 4176,
`realloc(4176, 20)` leaves a new block of 32 bytes, while the sequence
`q = malloc(20)`, copy, `free(4176)` leaves one of 24 bytes: `realloc` passes the
aligned size `m = 24` to `malloc`, not 20.  Second, with `m` in the sequence the
two still differ when sizes wrap: after `q = malloc(8)`, `p = malloc(24)`,
`free(q)` and the byte 19 stored at `p + 12`, the call `realloc(p, 2^64 - 12)`
leaves the chain 4176 (16), 4192 (16352, free), the sequence with
`m = 2^64 - 8` the chain 4176 (16), 4192 (16, free), 4208 (16), 4224 (16336, free).
Third, when `malloc(m)` returns null `realloc` returns null and keeps `p`
allocated, while the sequence goes on to `free(p)`: on the full arena of `heap2`,
after `p = malloc(8)` and `malloc(16364)`, `realloc(p, 100)` leaves 4176
allocated and the sequence leaves it free. -/
theorem realloc_not_malloc_of_request :
    ((realloc heap1 4176 20).map (fun r => (r.1, chain r.2)) =
      some (4192, [(4176, 16, 0), (4192, 32, 1), (4224, 16336, 0)]) ∧
     (realloc_sequence heap1 4176 20).map (fun r => (r.1, chain r.2)) =
      some (4192, [(4176, 16, 0), (4192, 24, 1), (4216, 16344, 0)])) ∧
    (aligned_request (2 ^ 64 - 12) = 2 ^ 64 - 8 ∧
     ((malloc heap0 8).bind fun q => (malloc q.2 24).bind fun p => (free p.2 q.1).map fun s3 =>
        (q.1, p.1, chain s3)) =
      some (4176, 4192, [(4176, 16, 0), (4192, 32, 1), (4224, 16336, 0)]) ∧
     ((malloc heap0 8).bind fun q => (malloc q.2 24).bind fun p => (free p.2 q.1).bind fun s3 =>
        (realloc { s3 with mem := writeLE s3.mem (p.1 + 12) 1 19 } p.1 (2 ^ 64 - 12)).map
          fun r => (r.1, chain r.2)) =
      some (4176, [(4176, 16, 1), (4192, 16352, 0)]) ∧
     ((malloc heap0 8).bind fun q => (malloc q.2 24).bind fun p => (free p.2 q.1).bind fun s3 =>
        (realloc_sequence { s3 with mem := writeLE s3.mem (p.1 + 12) 1 19 } p.1
          (aligned_request (2 ^ 64 - 12))).map fun r => (r.1, chain r.2)) =
      some (4176, [(4176, 16, 1), (4192, 16, 0), (4208, 16, 1), (4224, 16336, 0)])) ∧
    (aligned_request 100 = 104 ∧
     ((malloc heap2 8).bind fun p => (malloc p.2 16364).map fun x => (p.1, x.1, chain x.2)) =
      some (4176, 4192, [(4176, 16, 1), (4192, 16368, 1)]) ∧
     ((malloc heap2 8).bind fun p => (malloc p.2 16364).bind fun x =>
        (malloc x.2 104).map fun q => q.1) = some 0 ∧
     ((malloc heap2 8).bind fun p => (malloc p.2 16364).bind fun x =>
        (realloc x.2 p.1 100).map fun r => (r.1, chain r.2)) =
      some (0, [(4176, 16, 1), (4192, 16368, 1)]) ∧
     ((malloc heap2 8).bind fun p => (malloc p.2 16364).bind fun x =>
        (realloc_sequence x.2 p.1 (aligned_request 100)).map fun r => (r.1, chain r.2)) =
      some (0, [(4176, 16, 0), (4192, 16368, 1)])) := by
  refine ⟨⟨by decide, by decide⟩, ⟨by decide, by decide, by decide, by decide⟩,
    ⟨by decide, by decide, by decide, by decide, by decide⟩⟩

/-- C13, amended: for every live pointer `p` of a consistent heap and every `n > 0`
with `n + 19 < 2^64` for which the block of `p` is smaller than the aligned request
`m = max(16, roundup8(n + 4))` and `malloc(m)` returns a non-null pointer,
`realloc(p, n)` returns the same pointer and leaves the same chain of blocks
(addresses, sizes, allocation flags) as the sequence `q = malloc(m)`; copy the
old payload to `q`; `free(p)` run from the same state. -/
theorem realloc_moves (s : Heap) (hok : HeapOK s) (p : Nat) (hlive : Live s p) (n : Nat)
    (hn : n ≠ 0) (hfit : n + 19 < SZ) (hsmall : GET_SIZE s.mem p < aligned_request n)
    (hq : ∃ q s1, malloc s (aligned_request n) = some (q, s1) ∧ q ≠ 0) :
    ∃ r s' s'', realloc s p n = some (r, s') ∧
      realloc_sequence s p (aligned_request n) = some (r, s'') ∧ chain s' = chain s'' := by
  obtain ⟨bs, bk, h, hna⟩ := hok
  obtain ⟨pa, sz, hp⟩ := (live_iff s bs bk _ h p).mp hlive
  have hpb := blk_bounds _ _ _ _ h _ _ _ hp
  simp only at hpb
  have hp0 : p ≠ 0 := hpb.2.2.2.2.2.2
  have hgs : GET_SIZE s.mem p = sz := (blk_size _ _ _ _ h _ _ _ hp).1
  have hfit1 : n + 11 < SZ := by unfold SZ at hfit ⊢; omega
  have hre := realloc_move_path s p n hn hp0 hfit1 hsmall
  rw [hgs] at hsmall
  have hfit2 : aligned_request n + 11 < SZ := by
    unfold SZ at hfit ⊢; unfold aligned_request; omega
  obtain ⟨q, s1, hm, hq0⟩ := hq
  obtain ⟨r, s1', bs1, bk1, hm', hlo, hWf1, hna1, -, hr1, hnew, hper, -, -⟩ :=
    malloc_ok s bs bk h hna _ hfit2
  rw [hm, Option.some.injEq, Prod.mk.injEq] at hm'
  obtain ⟨hqr, hss⟩ := hm'
  subst hqr hss
  obtain ⟨qa, csz, hblk, hcsz⟩ := hr1 hq0
  obtain ⟨pa1, hp1⟩ := hper p _ rfl ⟨pa, hp⟩
  rw [← hlo] at hWf1 hblk hp1
  obtain ⟨pre, post, hbs1, hpe, -⟩ := mem_blocks_split _ _ _ _ _ _ hp1
  subst hbs1
  have hpay : ∀ k, k ≤ sz → ∀ y, ¬ Payload (s1.mem_start_brk + 80)
      (pre ++ Blk.mk sz true :: post) y → (memmove s1.mem q p k).byte y = s1.mem.byte y := by
    intro k hk y hy
    simp only [memmove]
    rw [if_neg]
    rintro ⟨h1, h2⟩
    exact hy (payload_of_blk _ _ _ _ _ hblk k (by omega) y h1 h2)
  have hWfa := Wf_payload s1 _ bk1 _ hWf1 _ (hpay sz (Nat.le_refl _))
  have hWfb := Wf_payload s1 _ bk1 _ hWf1 _ (hpay (sz - 4) (Nat.sub_le _ _))
  obtain ⟨s', t', hfa, hfb, hch⟩ := free_chain_congr _ _ pre post sz bk1 bk1 hWfa hWfb rfl hna1
  have hpe' : endAddr (s1.mem_start_brk + 80) pre = p := hpe.symm
  rw [show ({ s1 with mem := memmove s1.mem q p sz } : Heap).mem_start_brk = s1.mem_start_brk
    from rfl] at hfa hfb
  rw [hpe'] at hfa hfb
  refine ⟨q, s', t', ?_, ?_, hch⟩
  · rw [hre, hm, Option.some_bind]
    simp only [if_neg hq0]
    rw [hgs, hfa]; rfl
  · unfold realloc_sequence
    rw [hm, Option.some_bind]
    simp only
    rw [hgs, show sz - WSIZE = sz - 4 from rfl, hfb]; rfl

set_option maxRecDepth 100000 in
theorem realloc_moves_witness :
    ((realloc heap1 4176 20).map (fun r => (r.1, chain r.2)) =
      some (4192, [(4176, 16, 0), (4192, 32, 1), (4224, 16336, 0)]) ∧
     (realloc_sequence heap1 4176 (aligned_request 20)).map (fun r => (r.1, chain r.2)) =
      some (4192, [(4176, 16, 0), (4192, 32, 1), (4224, 16336, 0)])) ∧
    ∃ r s' s'', realloc heap1 4176 20 = some (r, s') ∧
      realloc_sequence heap1 4176 (aligned_request 20) = some (r, s'') ∧ chain s' = chain s'' :=
  ⟨by decide, realloc_moves heap1 heapOK_heap1 4176 live_heap1 20 (by decide)
    (by unfold SZ; norm_num) (by decide)
    ⟨4192, _, option_run _ _ heap1 (by decide), by decide⟩⟩

end MM
